import Mathlib

/-!
Verification of the control-flow flattening pass (`flatten.cpp`).

The development shallowly embeds the LLVM IR fragment that the pass reads and
writes, and the pass itself (`Flatten::runOnFunction`, `Flatten::findBlock`,
together with the library routines `BasicBlock::splitBasicBlock` and
`DemotePHIToStack` exactly as the pass uses them).  Blocks and instructions
are identified by natural numbers (modelling pointer identity); machine
`i32` constants in the pass are small block indices, so `Nat` is adequate.
Debug-only statements (`DEBUG(...)`, block renaming) are no-ops in release
builds and are not modelled.  Assertion failures and `llvm_unreachable` are
modelled as an explicit `crashed` outcome.
-/

set_option linter.unusedVariables false

namespace CFGFlatten

/-- Operand values: integer constants, instruction results / arguments
(registers), and `blockaddress` constants. -/
inductive V where
  | const (n : Nat)
  | reg (r : Nat)
  | blockAddr (b : Nat)
deriving DecidableEq, Repr

/-- Instructions.  Every instruction carries a unique identity number
(modelling pointer identity); for value-producing instructions the identity
is also the SSA register it defines.  `op` stands for any ordinary
value-producing instruction (arithmetic, calls, ...). -/
inductive Instr where
  | phi (r : Nat) (incs : List (V × Nat))
  | op (r : Nat) (args : List V)
  | alloca (r : Nat) (count : V)
  | load (r : Nat) (addr : V)
  | store (sid : Nat) (val : V) (addr : V)
  | gep (r : Nat) (base : V) (idx : V)
  | select (r : Nat) (c : V) (tv : V) (fv : V)
deriving DecidableEq, Repr

/-- Terminators.  `erased` marks a block whose terminator has been removed
(`eraseFromParent`) and not yet replaced. -/
inductive Term where
  | ret (v : Option V)
  | br (d : Nat)
  | condBr (c : V) (t : Nat) (f : Nat)
  | invoke (r : Nat) (args : List V) (normal : Nat) (unwind : Nat)
  | switchBr (v : V) (dflt : Nat) (cases : List Nat)
  | indirectBr (a : V) (dests : List Nat)
  | erased
deriving DecidableEq, Repr

/-- Successor list of a terminator, in LLVM operand order (a switch's
successor 0 is its default destination). -/
def Term.succs : Term → List Nat
  | .ret _ => []
  | .br d => [d]
  | .condBr _ t f => [t, f]
  | .invoke _ _ n u => [n, u]
  | .switchBr _ d cs => d :: cs
  | .indirectBr _ ds => ds
  | .erased => []

/-- The terminator kinds on which `runOnFunction` bails out for the whole
function (`isa<SwitchInst>`, `isa<IndirectBrInst>`). -/
def Term.isUnsupported : Term → Bool
  | .switchBr _ _ _ => true
  | .indirectBr _ _ => true
  | _ => false

/-- Result register of a terminator (`InvokeInst` produces a value). -/
def Term.result : Term → Option Nat
  | .invoke r _ _ _ => some r
  | _ => none

/-- A basic block: identity, landing-pad flag, body, terminator. -/
structure BB where
  id : Nat
  lp : Bool
  insts : List Instr
  term : Term
deriving DecidableEq, Repr

/-- A function: a name and an ordered block list whose head is the entry
block.  An empty block list models a declaration without a body. -/
structure Func where
  name : String
  blocks : List BB
deriving DecidableEq, Repr

def Instr.result : Instr → Option Nat
  | .phi r _ => some r
  | .op r _ => some r
  | .alloca r _ => some r
  | .load r _ => some r
  | .store _ _ _ => none
  | .gep r _ _ => some r
  | .select r _ _ _ => some r

/-- Identity of an instruction (for value-producing instructions this is
the defined register). -/
def Instr.iid : Instr → Nat
  | .phi r _ => r
  | .op r _ => r
  | .alloca r _ => r
  | .load r _ => r
  | .store s _ _ => s
  | .gep r _ _ => r
  | .select r _ _ _ => r

/-- Value operands of an instruction (a phi's operands are its incoming
values). -/
def Instr.opnds : Instr → List V
  | .phi _ incs => incs.map Prod.fst
  | .op _ args => args
  | .alloca _ c => [c]
  | .load _ a => [a]
  | .store _ v a => [v, a]
  | .gep _ b i => [b, i]
  | .select _ c t f => [c, t, f]

def Term.opnds : Term → List V
  | .ret (some v) => [v]
  | .ret none => []
  | .condBr c _ _ => [c]
  | .invoke _ args _ _ => args
  | .switchBr v _ _ => [v]
  | .indirectBr a _ => [a]
  | _ => []

def Instr.isPhi : Instr → Bool
  | .phi _ _ => true
  | _ => false

def Instr.isLoadI : Instr → Bool
  | .load _ _ => true
  | _ => false

/-- Substitution of one register for another inside a value
(`replaceUsesOfWith` / `replaceAllUsesWith` at the operand level). -/
def V.subst (old new : Nat) : V → V
  | .reg r => if r = old then .reg new else .reg r
  | v => v

def Instr.subst (old new : Nat) : Instr → Instr
  | .phi r incs => .phi r (incs.map fun p => (p.1.subst old new, p.2))
  | .op r args => .op r (args.map (V.subst old new))
  | .alloca r c => .alloca r (c.subst old new)
  | .load r a => .load r (a.subst old new)
  | .store s v a => .store s (v.subst old new) (a.subst old new)
  | .gep r b i => .gep r (b.subst old new) (i.subst old new)
  | .select r c t f => .select r (c.subst old new) (t.subst old new) (f.subst old new)

def Term.subst (old new : Nat) : Term → Term
  | .ret v => .ret (v.map (V.subst old new))
  | .condBr c t f => .condBr (c.subst old new) t f
  | .invoke r args n u => .invoke r (args.map (V.subst old new)) n u
  | .switchBr v d cs => .switchBr (v.subst old new) d cs
  | .indirectBr a ds => .indirectBr (a.subst old new) ds
  | t => t

/-! Block-list surgery, modelling in-place mutation of the function. -/

def getBlock (bs : List BB) (i : Nat) : Option BB :=
  bs.find? fun B => B.id = i

def modifyBlock (bs : List BB) (i : Nat) (f : BB → BB) : List BB :=
  bs.map fun B => if B.id = i then f B else B

def appendInst (bs : List BB) (i : Nat) (ins : Instr) : List BB :=
  modifyBlock bs i fun B => { B with insts := B.insts ++ [ins] }

def prependInst (bs : List BB) (i : Nat) (ins : Instr) : List BB :=
  modifyBlock bs i fun B => { B with insts := ins :: B.insts }

def setTerm (bs : List BB) (i : Nat) (t : Term) : List BB :=
  modifyBlock bs i fun B => { B with term := t }

/-- Append one incoming entry to the phi defining `phiReg`. -/
def Instr.addInc (phiReg : Nat) (inc : V × Nat) : Instr → Instr
  | .phi r incs => if r = phiReg then .phi r (incs ++ [inc]) else .phi r incs
  | i => i

/-- `PHINode::addIncoming` on the phi defining register `phiReg` in block
`blk`. -/
def addIncomingPhi (bs : List BB) (blk phiReg : Nat) (inc : V × Nat) : List BB :=
  modifyBlock bs blk fun B =>
    { B with insts := B.insts.map (Instr.addInc phiReg inc) }

def BB.substB (old new : Nat) (B : BB) : BB :=
  { B with insts := B.insts.map (Instr.subst old new),
           term := B.term.subst old new }

/-- `Value::replaceAllUsesWith`: rewrite every operand occurrence of
register `old` to `new`, everywhere in the function. -/
def rauw (bs : List BB) (old new : Nat) : List BB :=
  bs.map (BB.substB old new)

def eraseInst (bs : List BB) (blk iid : Nat) : List BB :=
  modifyBlock bs blk fun B => { B with insts := B.insts.filter fun ins => ins.iid ≠ iid }

/-- A reference to a user of a value: either an ordinary instruction (by
identity, with its parent block) or a block's terminator. -/
inductive UserRef where
  | instrU (iid : Nat) (blk : Nat)
  | termU (blk : Nat)
deriving DecidableEq, Repr

def UserRef.blk : UserRef → Nat
  | .instrU _ b => b
  | .termU b => b

/-- All users of register `r`, in function order (per block: body
instructions first, then the terminator).  This models iterating the use
list of a value. -/
def userRefs (bs : List BB) (r : Nat) : List UserRef :=
  bs.flatMap fun B =>
    ((B.insts.filter fun ins => ins.opnds.contains (V.reg r)).map
        fun ins => UserRef.instrU ins.iid B.id)
      ++ (if B.term.opnds.contains (V.reg r) then [UserRef.termU B.id] else [])

/-- `dyn_cast<PHINode>(userInst)`: the phi register if the referenced user
is a phi instruction, `none` otherwise (terminators are never phis). -/
def phiRegOfUser (bs : List BB) (u : UserRef) : Option Nat :=
  match u with
  | .termU _ => none
  | .instrU iid blk =>
    match (getBlock bs blk).bind fun B => B.insts.find? fun ins => ins.iid = iid with
    | some (.phi r _) => some r
    | _ => none

/-- `User::replaceUsesOfWith(old, new)` on one specific user. -/
def replaceUsesIn (bs : List BB) (u : UserRef) (old new : Nat) : List BB :=
  match u with
  | .instrU iid blk =>
    modifyBlock bs blk fun B =>
      { B with insts := B.insts.map fun ins =>
          if ins.iid = iid then ins.subst old new else ins }
  | .termU blk =>
    modifyBlock bs blk fun B => { B with term := B.term.subst old new }

/-! `DemotePHIToStack` (llvm/Transforms/Utils/DemoteRegToStack.cpp): create
a stack slot in the entry block, store each incoming value at the end of
its incoming block, insert a reload after the phi run of the phi's block,
replace all uses of the phi with the reload, and erase the phi. -/

/-- Insert the reload before the first non-phi instruction of the suffix
that starts right after the demoted phi. -/
def placeReload (ld : Instr) : List Instr → List Instr
  | [] => [ld]
  | ins :: rest =>
    if ins.isPhi then ins :: placeReload ld rest else ld :: ins :: rest

def insertReload (ld : Instr) (phiReg : Nat) : List Instr → List Instr
  | [] => []
  | ins :: rest =>
    if ins.iid = phiReg then ins :: placeReload ld rest
    else ins :: insertReload ld phiReg rest

def DemotePHIToStack (bs : List BB) (ctr entryId blk phiReg : Nat) :
    List BB × Nat :=
  match (getBlock bs blk).bind fun B =>
      B.insts.find? fun ins =>
        match ins with | .phi r _ => r = phiReg | _ => false with
  | some (.phi _ incs) =>
    let slot := ctr
    let bs := prependInst bs entryId (.alloca slot (V.const 1))
    let sres := incs.foldl
      (fun (s : List BB × Nat) inc =>
        (appendInst s.1 inc.2 (.store s.2 inc.1 (V.reg slot)), s.2 + 1))
      (bs, ctr + 1)
    let loadReg := sres.2
    let bs := modifyBlock sres.1 blk fun B =>
      { B with insts := insertReload (.load loadReg (V.reg slot)) phiReg B.insts }
    let bs := rauw bs phiReg loadReg
    let bs := eraseInst bs blk phiReg
    (bs, loadReg + 1)
  | _ => (bs, ctr)

/-- Demote every phi of one block (the pass first collects the block's
phis, then demotes each in order; lines 153-163). -/
def demoteBlockPhis (entryId : Nat) (st : List BB × Nat) (blk : Nat) :
    List BB × Nat :=
  let phiRegs :=
    match getBlock st.1 blk with
    | some B => B.insts.filterMap fun ins =>
        match ins with | Instr.phi r _ => some r | _ => none
    | none => []
  phiRegs.foldl (fun s r => DemotePHIToStack s.1 s.2 entryId blk r) st

/-- `BasicBlock::splitBasicBlock` at the entry block's terminator: the new
block receives the terminator, the entry gets an unconditional branch to
it, the new block is inserted right after the entry, and phi incoming
blocks in the moved terminator's successors are retargeted. -/
def splitEntryBlock (bs : List BB) (ctr : Nat) : List BB × Nat × Nat :=
  match bs with
  | [] => (bs, ctr, 0)
  | E :: rest =>
    let newId := ctr
    let movedTerm := E.term
    let fixed := rest.map fun B =>
      if movedTerm.succs.contains B.id then
        { B with insts := B.insts.map fun ins =>
            match ins with
            | .phi r incs =>
              .phi r (incs.map fun inc => if inc.2 = E.id then (inc.1, newId) else inc)
            | i => i }
      else B
    ({ E with term := .br newId } :: ⟨newId, false, [], movedTerm⟩ :: fixed,
      ctr + 1, newId)

/-! Eligibility and block collection (lines 103-134).  The entry block is
the first block; its landing-pad/entry skips fire before the
switch/indirectbr aborts, so the entry block's own terminator is never
inspected. -/

inductive Crash where
  | findBlockAssert
  | unexpectedTerm
deriving DecidableEq, Repr

/-- `Flatten::findBlock`: index of a block in the eligible list; the
assertion `Block does not exist in vector!` is modelled as a crash. -/
def findBlock (blocks : List Nat) (b : Nat) : Except Crash Nat :=
  match blocks.findIdx? fun x => x = b with
  | some i => .ok i
  | none => .error .findBlockAssert

/-- Walk the non-entry blocks: skip landing pads, abort (`return false`)
on a switch or indirect-branch terminator, collect the rest. -/
def collectAux : List BB → Option (List Nat)
  | [] => some []
  | B :: rest =>
    if B.lp then collectAux rest
    else if B.term.isUnsupported then none
    else (collectAux rest).map fun ids => B.id :: ids

def collectBlocks (F : Func) : Option (List Nat) :=
  collectAux (F.blocks.drop 1)

/-- Context fixed for the duration of the rewriting loop. -/
structure Ctx where
  entryId : Nat
  jb : Nat
  jIdx : Nat
  jt : Nat
  ga : Nat
  initId : Nat
  blocks : List Nat
deriving DecidableEq, Repr

/-! Cross-block value-flow repair (lines 275-313).  The C++ iterates the
block's live instruction list; the only instructions inserted into the
block during the walk are the stores produced by `DemotePHIToStack`, which
define no value and have no users, so iterating a snapshot of the
value-producing instructions (body first, then the invoke result if any)
is observably identical. -/

structure ScanRes where
  users : List UserRef
  phiVar : Option Nat
  isUsed : Bool
deriving Repr

/-- The user scan of lines 283-300, including the early break when a phi
other than `jumpIndex` is found in the jump block, and the reset of the
`phi` variable by a failed `dyn_cast`. -/
def scanGo (bs : List BB) (jb jIdx blk : Nat) : List UserRef → ScanRes → ScanRes
  | [], s => s
  | u :: rest, s =>
    if u.blk = jb then
      match phiRegOfUser bs u with
      | some pr =>
        if pr ≠ jIdx then { s with phiVar := some pr, isUsed := true }
        else scanGo bs jb jIdx blk rest { s with phiVar := some pr }
      | none => scanGo bs jb jIdx blk rest { s with phiVar := none }
    else if u.blk ≠ blk then
      scanGo bs jb jIdx blk rest
        { s with isUsed := true, users := s.users ++ [u] }
    else scanGo bs jb jIdx blk rest s

def scanUsers (bs : List BB) (jb jIdx blk r : Nat) : ScanRes :=
  scanGo bs jb jIdx blk (userRefs bs r) ⟨[], none, false⟩

/-- Handle one value of a rewritten block (lines 277-312): if it is used
outside its block, route it through a phi in the jump block (creating the
phi at the front of the jump block if no suitable one exists), redirect the
collected users, and immediately demote the phi to a stack slot. -/
def handleValue (entryId jb jIdx : Nat) (st : List BB × Nat) (blk r : Nat) :
    List BB × Nat :=
  let s := scanUsers st.1 jb jIdx blk r
  let created : List BB × Nat × Option Nat :=
    if s.isUsed ∧ s.phiVar = none then
      (prependInst st.1 jb (.phi st.2 []), st.2 + 1, some st.2)
    else (st.1, st.2, s.phiVar)
  if s.isUsed then
    match created.2.2 with
    | some p =>
      let bs := addIncomingPhi created.1 jb p (V.reg r, blk)
      let bs := s.users.foldl (fun b u => replaceUsesIn b u r p) bs
      DemotePHIToStack bs created.2.1 entryId jb p
    | none => (created.1, created.2.1)
  else (created.1, created.2.1)

def repairBlock (entryId jb jIdx : Nat) (st : List BB × Nat) (blk : Nat) :
    List BB × Nat :=
  let vals :=
    match getBlock st.1 blk with
    | some B => B.insts.filterMap Instr.result
        ++ (match B.term.result with | some r => [r] | none => [])
    | none => []
  vals.foldl (fun s r => handleValue entryId jb jIdx s blk r) st

/-- `addDestination` on the jump block's indirect branch. -/
def addDest (bs : List BB) (jb blk : Nat) : List BB :=
  modifyBlock bs jb fun B =>
    { B with term :=
        match B.term with
        | .indirectBr a ds => .indirectBr a (ds ++ [blk])
        | t => t }

/-- The part of one loop iteration after the `InitialBlock` incoming has
been registered: terminator rewriting, jump-table bookkeeping, and repair. -/
def processBlockRest (cx : Ctx) (ctr : Nat) (bs1 : List BB) (i blk : Nat) :
    Except Crash (List BB × Nat) :=
  let st : List BB × Nat := (bs1, ctr)
  match getBlock bs1 blk with
  | none => .ok (bs1, st.2)
  | some B =>
    let ns := B.term.succs.length
    let hasSucc := 0 < ns
    let step : Except Crash (List BB × Nat) :=
      if ns = 0 then .ok (bs1, st.2)
      else if ns = 1 then
        match findBlock cx.blocks (B.term.succs.headD 0) with
        | .error e => .error e
        | .ok j =>
          .ok (setTerm (addIncomingPhi bs1 cx.jb cx.jIdx (V.const j, blk))
                 blk (.br cx.jb), st.2)
      else
        match B.term with
        | .condBr c t f =>
          match findBlock cx.blocks t with
          | .error e => .error e
          | .ok jt' =>
            match findBlock cx.blocks f with
            | .error e => .error e
            | .ok jf =>
              let s := st.2
              let bs := appendInst bs1 blk (.select s c (V.const jt') (V.const jf))
              let bs := addIncomingPhi bs cx.jb cx.jIdx (V.reg s, blk)
              .ok (setTerm bs blk (.br cx.jb), s + 1)
        | .invoke r args n u =>
          match findBlock cx.blocks n with
          | .error e => .error e
          | .ok j =>
            let nd := st.2
            let bs := bs1 ++ [⟨nd, false, [], .erased⟩]
            let bs := setTerm bs blk (.invoke r args nd u)
            let bs := addIncomingPhi bs cx.jb cx.jIdx (V.const j, nd)
            .ok (setTerm bs nd (.br cx.jb), nd + 1)
        | _ => .error .unexpectedTerm
    match step with
    | .error e => .error e
    | .ok st2 =>
      let g := st2.2
      let bs := appendInst st2.1 cx.entryId (.gep g (V.reg cx.jt) (V.const i))
      let bs := appendInst bs cx.entryId (.store (g + 1) (V.blockAddr blk) (V.reg g))
      let bs := addDest bs cx.jb blk
      let st5 : List BB × Nat := (bs, g + 2)
      .ok (if hasSucc then repairBlock cx.entryId cx.jb cx.jIdx st5 blk else st5)

/-- One iteration of the main rewriting loop (lines 211-314), for eligible
block `blk` with dispatch index `i`. -/
def processBlock (cx : Ctx) (st : List BB × Nat) (i blk : Nat) :
    Except Crash (List BB × Nat) :=
  processBlockRest cx st.2
    (if blk = cx.initId then
      addIncomingPhi st.1 cx.jb cx.jIdx (V.const i, cx.entryId)
    else st.1) i blk

def processAll (cx : Ctx) : List (Nat × Nat) → List BB × Nat →
    Except Crash (List BB × Nat)
  | [], st => .ok st
  | (i, b) :: rest, st =>
    match processBlock cx st i b with
    | .error e => .error e
    | .ok st' => processAll cx rest st'

/-! Post-pass phi completion (lines 319-334): for every phi of the jump
block other than `jumpIndex`, add a self-referential incoming value for
each predecessor edge that lacks one.  The guard
`inst == getFirstNonPHIOrDbgOrLifetime()` can only fire on a non-phi
instruction, which the preceding `continue` has already skipped, so it is
dead and not modelled. -/

def predsOf (bs : List BB) (b : Nat) : List Nat :=
  (bs.filter fun B => B.term.succs.contains b).map BB.id

def completePhi (preds : List Nat) (r : Nat) (incs : List (V × Nat)) :
    List (V × Nat) :=
  preds.foldl
    (fun acc p =>
      if (acc.map Prod.snd).contains p then acc else acc ++ [(V.reg r, p)])
    incs

def postPass (bs : List BB) (jb jIdx : Nat) : List BB :=
  let ps := predsOf bs jb
  let phis :=
    match getBlock bs jb with
    | some B => B.insts.filterMap fun ins =>
        match ins with
        | Instr.phi r _ => if r ≠ jIdx then some r else none
        | _ => none
    | none => []
  phis.foldl
    (fun b r =>
      modifyBlock b jb fun B =>
        { B with insts := B.insts.map fun ins =>
            match ins with
            | Instr.phi r' incs =>
              if r' = r then .phi r' (completePhi ps r' incs) else .phi r' incs
            | i => i })
    bs

/-! The whole pass. -/

/-- Every number appearing in a value (used to pick fresh identities). -/
def V.idents : V → List Nat
  | .const n => [n]
  | .reg r => [r]
  | .blockAddr b => [b]

/-- Extra identifiers of an instruction beyond its operands: a phi's
incoming block ids. -/
def Instr.extra : Instr → List Nat
  | .phi _ incs => incs.map Prod.snd
  | _ => []

def Instr.idents (i : Instr) : List Nat :=
  i.iid :: (i.opnds.flatMap V.idents ++ i.extra)

def Term.idents (t : Term) : List Nat :=
  t.succs ++ t.opnds.flatMap V.idents ++ (t.result.map fun r => [r]).getD []

def BB.idents (B : BB) : List Nat :=
  B.id :: (B.insts.flatMap Instr.idents ++ B.term.idents)

def identsOf (bs : List BB) : List Nat :=
  bs.flatMap BB.idents

def freshCtr (F : Func) : Nat :=
  (identsOf F.blocks).foldr max 0 + 1

/-- Everything `runOnFunction` built, for stating properties of the
transformed function. -/
structure FlatRes where
  F : Func
  blocks : List Nat
  entryId : Nat
  initId : Nat
  jb : Nat
  jIdx : Nat
  jt : Nat
  ga : Nat
  didSplit : Bool
deriving DecidableEq, Repr

inductive RunResult where
  | rejected
  | crashed (c : Crash)
  | done (r : FlatRes)
deriving DecidableEq, Repr

/-- Lines 150-339: everything `runOnFunction` does once the function has
passed all eligibility checks.  `E` is the entry block, `bl` the full
block list, `bs0` the collected eligible blocks. -/
def flattenCore (nm : String) (E : BB) (bl : List BB) (bs0 : List Nat) :
    RunResult :=
  let nS := E.term.succs.length
  let st1 := bs0.foldl (demoteBlockPhis E.id) (bl, freshCtr ⟨nm, bl⟩)
  let split :=
    if 1 < nS then
      let sp := splitEntryBlock st1.1 st1.2
      (sp.1, sp.2.1, sp.2.2, bs0 ++ [sp.2.2], true)
    else
      (st1.1, st1.2, E.term.succs.headD 0, bs0, false)
  let bs2 := split.1
  let ctr2 := split.2.1
  let initId := split.2.2.1
  let blocks := split.2.2.2.1
  let didSplit := split.2.2.2.2
  let bs3 := setTerm bs2 E.id .erased
  let jb := ctr2
  let jIdx := ctr2 + 1
  let jt := ctr2 + 2
  let ga := ctr2 + 3
  let bs4 := bs3 ++ [⟨jb, false, [], .erased⟩]
  let bs5 := appendInst bs4 jb (.phi jIdx [])
  let bs6 := appendInst bs5 E.id (.alloca jt (V.const blocks.length))
  let bs7 := appendInst bs6 jb (.gep ga (V.reg jt) (V.reg jIdx))
  let bs8 := setTerm bs7 jb (.indirectBr (V.reg ga) [])
  let cx : Ctx := ⟨E.id, jb, jIdx, jt, ga, initId, blocks⟩
  match processAll cx blocks.enum (bs8, ctr2 + 4) with
  | .error c => .crashed c
  | .ok st9 =>
    let bs10 := setTerm st9.1 E.id (.br jb)
    let bs11 := postPass bs10 jb jIdx
    .done ⟨⟨nm, bs11⟩, blocks, E.id, initId, jb, jIdx, jt, ga, didSplit⟩

/-- `Flatten::runOnFunction`.  `flattenFunc` is the command-line
allow-list.  `rejected` models `return false` with the function untouched;
`done` models `return true` after the rewrite. -/
def runOnFunction (flattenFunc : List String) (F : Func) : RunResult :=
  match F.blocks with
  | [] => .rejected
  | E :: _ =>
    if flattenFunc ≠ [] ∧ ¬ flattenFunc.contains F.name then .rejected
    else
      match collectBlocks F with
      | none => .rejected
      | some bs0 =>
        if bs0.length < 2 then .rejected
        else if E.term.succs.length = bs0.length ∨ E.term.succs.length = 0 then
          .rejected
        else flattenCore F.name E F.blocks bs0

/-- The pass's observable interface: `some (modified?, function)` or
`none` for an assertion failure. -/
def runBool (flattenFunc : List String) (F : Func) : Option (Bool × Func) :=
  match runOnFunction flattenFunc F with
  | .rejected => some (false, F)
  | .crashed _ => none
  | .done r => some (true, r.F)

/-! Operational semantics of the exception-free fragment, used to compare
the observable behaviour of a function and its flattened form.  Memory is
addressed by (allocation, offset); a load from an uninitialised slot
yields `undef`, as in LLVM.  An `indirectbr` transfers control only when
its address evaluates to the `blockaddress` of one of its listed
destinations; anything else (in particular a pointer into the stack) is
undefined behaviour, modelled as `stuck`. -/

inductive Val where
  | int (n : Nat)
  | ptr (base off : Nat)
  | baddr (b : Nat)
  | undef
deriving DecidableEq, Repr

structure EState where
  env : List (Nat × Val)
  mem : List ((Nat × Nat) × Val)
  nextBase : Nat
deriving DecidableEq, Repr

def lookupEnv (e : List (Nat × Val)) (r : Nat) : Val :=
  ((e.find? fun p => p.1 = r).map Prod.snd).getD .undef

def evalV (st : EState) : V → Val
  | .const n => .int n
  | .reg r => lookupEnv st.env r
  | .blockAddr b => .baddr b

def loadMem (m : List ((Nat × Nat) × Val)) (a : Nat × Nat) : Val :=
  ((m.find? fun p => p.1 = a).map Prod.snd).getD .undef

def bindReg (st : EState) (r : Nat) (v : Val) : EState :=
  { st with env := (r, v) :: st.env }

def toIntD (v : Val) : Nat :=
  match v with
  | .int n => n
  | _ => 0

/-- Execute a non-phi instruction; `none` is a stuck execution. -/
def execInstr (st : EState) : Instr → Option EState
  | .phi _ _ => none
  | .op r args => some (bindReg st r (.int (args.map fun a => toIntD (evalV st a)).sum))
  | .alloca r _ => some { bindReg st r (.ptr st.nextBase 0) with nextBase := st.nextBase + 1 }
  | .load r a =>
    match evalV st a with
    | .ptr b o => some (bindReg st r (loadMem st.mem (b, o)))
    | _ => none
  | .store _ v a =>
    match evalV st a with
    | .ptr b o => some { st with mem := ((b, o), evalV st v) :: st.mem }
    | _ => none
  | .gep r b i =>
    match evalV st b, evalV st i with
    | .ptr ba o, .int n => some (bindReg st r (.ptr ba (o + n)))
    | _, _ => none
  | .select r c t f =>
    match evalV st c with
    | .int 1 => some (bindReg st r (evalV st t))
    | .int 0 => some (bindReg st r (evalV st f))
    | _ => none

/-- Execute the phi run at block entry: all incoming values are read in
the state at block entry, then bound. -/
def execPhis (prev : Option Nat) (st0 : EState) (st : EState) :
    List Instr → EState
  | [] => st
  | .phi r incs :: rest =>
    let v :=
      match incs.find? fun inc => some inc.2 = prev with
      | some inc => evalV st0 inc.1
      | none => Val.undef
    execPhis prev st0 (bindReg st r v) rest
  | _ :: rest => execPhis prev st0 st rest

def execBody (st : EState) : List Instr → Option EState
  | [] => some st
  | ins :: rest =>
    match execInstr st ins with
    | some st' => execBody st' rest
    | none => none

inductive Outcome where
  | ret (v : Val)
  | stuck
  | fuelOut
deriving DecidableEq, Repr

/-- Resolve a terminator: `inl next` continues, `inr v` returns. -/
def execTerm (st : EState) : Term → Option (Sum Nat Val)
  | .ret none => some (.inr .undef)
  | .ret (some v) => some (.inr (evalV st v))
  | .br d => some (.inl d)
  | .condBr c t f =>
    match evalV st c with
    | .int 1 => some (.inl t)
    | .int 0 => some (.inl f)
    | _ => none
  | .indirectBr a ds =>
    match evalV st a with
    | .baddr b => if ds.contains b then some (.inl b) else none
    | _ => none
  | _ => none

def runGo (F : Func) : Nat → Option Nat → Nat → EState → Outcome
  | 0, _, _, _ => .fuelOut
  | fuel + 1, prev, cur, st =>
    match getBlock F.blocks cur with
    | none => .stuck
    | some B =>
      let phis := B.insts.takeWhile Instr.isPhi
      let body := B.insts.dropWhile Instr.isPhi
      let st1 := execPhis prev st st phis
      match execBody st1 body with
      | none => .stuck
      | some st2 =>
        match execTerm st2 B.term with
        | none => .stuck
        | some (.inr v) => .ret v
        | some (.inl nxt) => runGo F fuel (some cur) nxt st2

/-- Run a function on an argument environment with the given fuel (number
of executed blocks). -/
def runFunc (F : Func) (args : List (Nat × Val)) (fuel : Nat) : Outcome :=
  match F.blocks with
  | [] => .stuck
  | E :: _ => runGo F fuel none E.id ⟨args, [], 0⟩

/-- What a correct dispatch would do: load the block address stored in the
jump-table slot and branch to the loaded value.  Only the jump block is
changed: a load of the slot address is inserted and the indirect branch
takes the loaded value. -/
def patchDispatchLoad (r : FlatRes) : Func :=
  let ld := freshCtr r.F
  ⟨r.F.name,
    modifyBlock r.F.blocks r.jb fun B =>
      { B with insts := B.insts ++ [.load ld (V.reg r.ga)],
               term :=
                 match B.term with
                 | .indirectBr _ ds => .indirectBr (V.reg ld) ds
                 | t => t }⟩

/-! Concrete test functions. -/

/-- The spec's example scenario: entry → A; A conditionally → B or C;
B → D; C → D; D → return, with a merge value in D.  Register 100 is the
function argument. -/
def ex1 : Func :=
  ⟨"ex1",
    [⟨0, false, [], .br 1⟩,
     ⟨1, false, [], .condBr (.reg 100) 2 3⟩,
     ⟨2, false, [.op 10 [V.const 1]], .br 4⟩,
     ⟨3, false, [.op 11 [V.const 5]], .br 4⟩,
     ⟨4, false, [.phi 12 [(V.reg 10, 2), (V.reg 11, 3)]], .ret (some (V.reg 12))⟩]⟩

def ex1Args : List (Nat × Val) := [(100, .int 1)]

def ex1Res : FlatRes :=
  match runOnFunction [] ex1 with
  | .done r => r
  | _ => ⟨⟨"", []⟩, [], 0, 0, 0, 0, 0, 0, false⟩

/-- `ex1` with a switch-terminated landing-pad block added: the collection
loop skips the block before ever inspecting its terminator. -/
def ex2 : Func :=
  ⟨"ex2",
    [⟨0, false, [], .br 1⟩,
     ⟨1, false, [], .condBr (.reg 100) 2 3⟩,
     ⟨2, false, [], .ret (some (V.const 0))⟩,
     ⟨3, false, [], .ret (some (V.const 1))⟩,
     ⟨5, true, [], .switchBr (V.reg 100) 2 [3]⟩]⟩

/-- A function with a switch in an ordinary (non-entry, non-landing-pad)
block. -/
def ex3 : Func :=
  ⟨"ex3",
    [⟨0, false, [], .br 1⟩,
     ⟨1, false, [], .switchBr (V.reg 100) 2 [3]⟩,
     ⟨2, false, [], .ret (some (V.const 0))⟩,
     ⟨3, false, [], .ret (some (V.const 1))⟩]⟩

/-- A two-block function: only one eligible block remains, so flattening
is rejected. -/
def ex4 : Func :=
  ⟨"ex4", [⟨0, false, [], .br 1⟩, ⟨1, false, [], .ret (some (V.const 0))⟩]⟩

/-! Specification-side definitions used to state the claims. -/

/-- The skeleton of a terminator: its kind, successors and result, with
all value operands blanked.  Cross-block value repair rewrites operands of
already-placed terminators, so structural invariants are stated up to
skeleton equality. -/
def Term.skel : Term → Term
  | .ret none => .ret none
  | .ret (some _) => .ret (some (V.const 0))
  | .br d => .br d
  | .condBr _ t f => .condBr (V.const 0) t f
  | .invoke r _ n u => .invoke r [] n u
  | .switchBr _ d cs => .switchBr (V.const 0) d cs
  | .indirectBr _ ds => .indirectBr (V.const 0) ds
  | .erased => .erased

/-- Index of a block in the eligible list (the defined value of
`findBlock`). -/
def idxIn (l : List Nat) (x : Nat) : Nat :=
  (l.findIdx? fun y => y = x).getD 0

/-- Data produced by one iteration of the rewriting loop: the select
register (conditional branches), the new normal-destination block
(invokes), and the jump-table gep register. -/
structure IterRec where
  sel : Option Nat
  nd : Option Nat
  g : Nat
deriving DecidableEq, Repr

instance : Inhabited IterRec := ⟨⟨none, none, 0⟩⟩

/-- The `jumpIndex` incomings contributed by iteration `j` on block `b`
with original terminator `T b`. -/
def contribOf (cx : Ctx) (T : Nat → Term) (j b : Nat) (d : IterRec) :
    List (V × Nat) :=
  (if b = cx.initId then [(V.const j, cx.entryId)] else []) ++
  (match (T b).succs with
   | [] => []
   | [dst] => [(V.const (idxIn cx.blocks dst), b)]
   | _ =>
     match T b with
     | .condBr _ _ _ => [(V.reg (d.sel.getD 0), b)]
     | .invoke _ _ nrm _ => [(V.const (idxIn cx.blocks nrm), d.nd.getD 0)]
     | _ => [])

/-- The new predecessors of the jump block created by iteration `j`. -/
def rewiredOf (T : Nat → Term) (b : Nat) (d : IterRec) : List Nat :=
  match (T b).succs with
  | [] => []
  | [_] => [b]
  | _ =>
    match T b with
    | .condBr _ _ _ => [b]
    | .invoke _ _ _ _ => [d.nd.getD 0]
    | _ => []

def incsOf (cx : Ctx) (T : Nat → Term) (k : Nat) (dat : List IterRec) :
    List (V × Nat) :=
  (List.range k).flatMap fun j =>
    contribOf cx T j (cx.blocks.getD j 0) (dat.getD j default)

def rewiredAll (cx : Ctx) (T : Nat → Term) (k : Nat) (dat : List IterRec) :
    List Nat :=
  (List.range k).flatMap fun j =>
    rewiredOf T (cx.blocks.getD j 0) (dat.getD j default)

def entryInstsOf (bs : List BB) (e : Nat) : List Instr :=
  ((getBlock bs e).map BB.insts).getD []

/-- All identities and mentioned numbers in the block list are below `c`
(freshness of the counter). -/
def IdBound (c : Nat) (bs : List BB) : Prop :=
  ∀ m ∈ identsOf bs, m < c

/-- Per-block contribution to `userRefs`. -/
def ublock (r : Nat) (B : BB) : List UserRef :=
  ((B.insts.filter fun ins => ins.opnds.contains (V.reg r)).map
      fun ins => UserRef.instrU ins.iid B.id)
    ++ (if B.term.opnds.contains (V.reg r) then [UserRef.termU B.id] else [])

/-- What is preserved about a block that is only touched by operand
substitutions. -/
def BlkLike (B B' : BB) : Prop :=
  B'.id = B.id ∧ B'.lp = B.lp ∧ B'.term.skel = B.term.skel
    ∧ B'.insts.map Instr.iid = B.insts.map Instr.iid

/-- The jump block's invariant shape during the rewriting loop: the
`jumpIndex` phi, the reloads inserted by cross-block repair, the address
gep, and the indirect branch over the destinations registered so far. -/
def JbShape (cx : Ctx) (bs : List BB) (incs : List (V × Nat))
    (loads : List Instr) (ds : List Nat) : Prop :=
  getBlock bs cx.jb = some ⟨cx.jb, false,
    .phi cx.jIdx incs :: (loads ++ [.gep cx.ga (V.reg cx.jt) (V.reg cx.jIdx)]),
    .indirectBr (V.reg cx.ga) ds⟩

/-- The reloads of the jump block are loads of repair stack slots, with
identifiers in the fresh range. -/
def LoadsWF (cx : Ctx) (c : Nat) (loads : List Instr) : Prop :=
  ∀ l ∈ loads, ∃ lr slot, l = .load lr (V.reg slot) ∧ cx.jb ≤ slot
    ∧ slot < c ∧ cx.jb ≤ lr ∧ lr < c

/-- Every `jumpIndex` incoming value is a dispatch-index constant or a
select register whose one and only user is the `jumpIndex` phi itself. -/
def IncsWF (cx : Ctx) (bs : List BB) (c : Nat) (incs : List (V × Nat)) : Prop :=
  ∀ inc ∈ incs, (∃ nn, inc.1 = V.const nn)
    ∨ ∃ s, inc.1 = V.reg s ∧ cx.jb + 4 ≤ s ∧ s < c
        ∧ userRefs bs s = [.instrU cx.jIdx cx.jb]

/-- Hypotheses under which one repair step (`handleValue`) is analysed. -/
structure HVHyp (cx : Ctx) (st : List BB × Nat) (blk : Nat)
    (incs : List (V × Nat)) (loads : List Instr) (ds : List Nat) : Prop where
  wf1 : cx.jIdx = cx.jb + 1
  wf2 : cx.jt = cx.jb + 2
  wf3 : cx.ga = cx.jb + 3
  hctr : cx.jb + 4 ≤ st.2
  nodup : (st.1.map BB.id).Nodup
  bound : IdBound st.2 st.1
  shape : JbShape cx st.1 incs loads ds
  loadsWF : LoadsWF cx st.2 loads
  incsWF : IncsWF cx st.1 st.2 incs
  blkmem : blk ∈ st.1.map BB.id
  hblkjb : blk ≠ cx.jb
  hblkE : blk ≠ cx.entryId
  hEjb : cx.entryId ≠ cx.jb

/-- What one repair step preserves and produces. -/
structure HVRes (cx : Ctx) (st st' : List BB × Nat) (blk : Nat)
    (incs : List (V × Nat)) (ds : List Nat) : Prop where
  ids : st'.1.map BB.id = st.1.map BB.id
  ctrle : st.2 ≤ st'.2
  bound : IdBound st'.2 st'.1
  jbShape : ∃ loads', JbShape cx st'.1 incs loads' ds
    ∧ LoadsWF cx st'.2 loads'
  incsWF : IncsWF cx st'.1 st'.2 incs
  others : ∀ b2 B, b2 ≠ cx.entryId → b2 ≠ cx.jb → b2 ≠ blk →
    getBlock st.1 b2 = some B →
    ∃ B', getBlock st'.1 b2 = some B' ∧ BlkLike B B'
  blkE : ∀ B, getBlock st.1 blk = some B →
    ∃ app, getBlock st'.1 blk = some { B with insts := B.insts ++ app }
      ∧ ∀ a ∈ app, a.result = none
  entryE : ∀ EB, getBlock st.1 cx.entryId = some EB →
    ∃ EB', getBlock st'.1 cx.entryId = some EB'
      ∧ EB'.lp = EB.lp
      ∧ EB'.term.skel = EB.term.skel
      ∧ ∀ ins ∈ EB.insts,
          (∀ q, V.reg q ∈ ins.opnds → cx.jb ≤ q ∧ q < st.2) → ins ∈ EB'.insts
  single : ∀ s, s < st.2 → userRefs st.1 s = [.instrU cx.jIdx cx.jb] →
    userRefs st'.1 s = [.instrU cx.jIdx cx.jb]

/-- New normal-destination blocks created so far by the invoke rewrites. -/
def ndsOf (dat : List IterRec) : List Nat :=
  dat.filterMap IterRec.nd

/-- What iteration on block `b` with record `d` has established, as
visible in the current block list. -/
def ProcOK (cx : Ctx) (T : Nat → Term) (bs : List BB) (b : Nat)
    (d : IterRec) : Prop :=
  match (T b).succs with
  | [] => d.sel = none ∧ d.nd = none ∧
      ∃ B, getBlock bs b = some B ∧ B.lp = false ∧ B.term.skel = (T b).skel
  | [_] => d.sel = none ∧ d.nd = none ∧
      ∃ B, getBlock bs b = some B ∧ B.lp = false ∧ B.term = .br cx.jb
  | _ =>
    match T b with
    | .condBr _ _ _ => d.nd = none ∧ (∃ sl, d.sel = some sl) ∧
        ∃ B, getBlock bs b = some B ∧ B.lp = false ∧ B.term = .br cx.jb
    | .invoke r _ _ u => d.sel = none ∧
        ∃ nd, d.nd = some nd ∧ cx.jb + 4 ≤ nd ∧
          getBlock bs nd = some ⟨nd, false, [], .br cx.jb⟩ ∧
          ∃ B args2, getBlock bs b = some B ∧ B.lp = false ∧
            B.term = .invoke r args2 nd u
    | _ => False

/-- Closure of the looked-up successors of eligible blocks within the
eligible list (the precondition guaranteed by well-formed IR). -/
def SuccClosed (cx : Ctx) (T : Nat → Term) : Prop :=
  ∀ b ∈ cx.blocks,
    match (T b).succs with
    | [] => True
    | [d] => d ∈ cx.blocks
    | _ =>
      match T b with
      | .condBr _ t f => t ∈ cx.blocks ∧ f ∈ cx.blocks
      | .invoke _ _ n _ => n ∈ cx.blocks
      | _ => True

/-- The successor-closure shape of a single terminator, relative to a
predicate on block names. -/
def succClosedIn (t : Term) (P : Nat → Prop) : Prop :=
  match t.succs with
  | [] => True
  | [d] => P d
  | _ =>
    match t with
    | .condBr _ a b => P a ∧ P b
    | .invoke _ _ n _ => P n
    | _ => True

/-- Facts fixed for the whole rewriting loop. -/
structure LoopHyp (cx : Ctx) (T : Nat → Term) (ids0 : List Nat) : Prop where
  wf1 : cx.jIdx = cx.jb + 1
  wf2 : cx.jt = cx.jb + 2
  wf3 : cx.ga = cx.jb + 3
  Lsub : ∀ b ∈ cx.blocks, b ∈ ids0
  Lnodup : cx.blocks.Nodup
  Lbound : ∀ b ∈ cx.blocks, b < cx.jb
  Llen : cx.blocks.length ≤ cx.jb
  Lentry : cx.entryId ∉ cx.blocks
  Ljb : cx.jb ∉ cx.blocks
  entrylt : cx.entryId < cx.jb
  Tbound : ∀ b ∈ cx.blocks, ∀ m ∈ (T b).idents, m < cx.jb
  closed : SuccClosed cx T

/-- The loop invariant: after `k` iterations with per-iteration records
`dat`, the state `st` has this structure. -/
structure LoopInv (cx : Ctx) (T : Nat → Term) (ids0 : List Nat) (k : Nat)
    (dat : List IterRec) (st : List BB × Nat) : Prop where
  len : dat.length = k
  kle : k ≤ cx.blocks.length
  ids : st.1.map BB.id = ids0 ++ ndsOf dat
  nodup : (st.1.map BB.id).Nodup
  ctr : cx.jb + 4 ≤ st.2
  bound : IdBound st.2 st.1
  shape : ∃ loads, JbShape cx st.1 (incsOf cx T k dat) loads
      (cx.blocks.take k) ∧ LoadsWF cx st.2 loads
  incsWF : IncsWF cx st.1 st.2 (incsOf cx T k dat)
  entryB : ∃ EB, getBlock st.1 cx.entryId = some EB ∧ EB.lp = false
      ∧ EB.term = .erased
      ∧ ∀ j, j < k →
          Instr.gep ((dat.getD j default).g) (V.reg cx.jt) (V.const j)
              ∈ EB.insts
          ∧ Instr.store ((dat.getD j default).g + 1)
              (V.blockAddr (cx.blocks.getD j 0))
              (V.reg ((dat.getD j default).g)) ∈ EB.insts
          ∧ cx.jb ≤ (dat.getD j default).g
          ∧ (dat.getD j default).g + 1 < st.2
  proc : ∀ j, j < k →
      ProcOK cx T st.1 (cx.blocks.getD j 0) (dat.getD j default)
  unproc : ∀ b ∈ cx.blocks.drop k, ∃ B, getBlock st.1 b = some B
      ∧ B.lp = false ∧ B.term.skel = (T b).skel
      ∧ ∀ ins ∈ B.insts, ins.iid < cx.jb
  preds : ∀ B2 ∈ st.1, (cx.jb ∈ B2.term.succs ↔ B2.id ∈ rewiredAll cx T k dat)

/-- The state in the middle of one loop iteration: after the
terminator-specific `step`, before the jump-table/entry bookkeeping and
the repair fold. -/
structure MidInv (cx : Ctx) (T : Nat → Term) (ids0 : List Nat) (k : Nat)
    (dat : List IterRec) (d : IterRec) (blk : Nat) (st : List BB × Nat) :
    Prop where
  len : dat.length = k
  kle : k + 1 ≤ cx.blocks.length
  ids : st.1.map BB.id = ids0 ++ ndsOf (dat ++ [d])
  nodup : (st.1.map BB.id).Nodup
  ctr : cx.jb + 4 ≤ st.2
  bound : IdBound st.2 st.1
  dg : d.g = st.2
  shape : ∃ loads, JbShape cx st.1 (incsOf cx T (k + 1) (dat ++ [d])) loads
      (cx.blocks.take k) ∧ LoadsWF cx st.2 loads
  incsWF : IncsWF cx st.1 st.2 (incsOf cx T (k + 1) (dat ++ [d]))
  entryB : ∃ EB, getBlock st.1 cx.entryId = some EB ∧ EB.lp = false
      ∧ EB.term = .erased
      ∧ ∀ j, j < k →
          Instr.gep ((dat.getD j default).g) (V.reg cx.jt) (V.const j)
              ∈ EB.insts
          ∧ Instr.store ((dat.getD j default).g + 1)
              (V.blockAddr (cx.blocks.getD j 0))
              (V.reg ((dat.getD j default).g)) ∈ EB.insts
          ∧ cx.jb ≤ (dat.getD j default).g
          ∧ (dat.getD j default).g + 1 < st.2
  proc : ∀ j, j < k →
      ProcOK cx T st.1 (cx.blocks.getD j 0) (dat.getD j default)
  procK : ProcOK cx T st.1 blk d
  unproc : ∀ b ∈ cx.blocks.drop (k + 1), ∃ B, getBlock st.1 b = some B
      ∧ B.lp = false ∧ B.term.skel = (T b).skel
      ∧ ∀ ins ∈ B.insts, ins.iid < cx.jb
  preds : ∀ B2 ∈ st.1,
      (cx.jb ∈ B2.term.succs ↔ B2.id ∈ rewiredAll cx T (k + 1) (dat ++ [d]))
  blkvals : ∃ Bm, getBlock st.1 blk = some Bm
      ∧ ∀ v ∈ Bm.insts.filterMap Instr.result
          ++ (match Bm.term.result with | some r => [r] | none => []),
        v < cx.jb ∨ (cx.jb + 4 ≤ v ∧ v < st.2
          ∧ userRefs st.1 v = [.instrU cx.jIdx cx.jb])

/-- The loop-invariant facts re-expressed at the state in which
`processBlockRest` starts: the `InitialBlock` incoming (if any) is already
on the `jumpIndex` phi. -/
structure StepPre (cx : Ctx) (T : Nat → Term) (ids0 : List Nat) (k : Nat)
    (dat : List IterRec) (blk : Nat) (bs1 : List BB) (ctr : Nat) : Prop where
  len : dat.length = k
  hk : k < cx.blocks.length
  hblk : blk = cx.blocks.getD k 0
  ids : bs1.map BB.id = ids0 ++ ndsOf dat
  nodup : (bs1.map BB.id).Nodup
  ctrge : cx.jb + 4 ≤ ctr
  bound : IdBound ctr bs1
  shape : ∃ loads, JbShape cx bs1
      (incsOf cx T k dat
        ++ (if blk = cx.initId then [(V.const k, cx.entryId)] else []))
      loads (cx.blocks.take k) ∧ LoadsWF cx ctr loads
  incsWF : IncsWF cx bs1 ctr
      (incsOf cx T k dat
        ++ (if blk = cx.initId then [(V.const k, cx.entryId)] else []))
  entryB : ∃ EB, getBlock bs1 cx.entryId = some EB ∧ EB.lp = false
      ∧ EB.term = .erased
      ∧ ∀ j, j < k →
          Instr.gep ((dat.getD j default).g) (V.reg cx.jt) (V.const j)
              ∈ EB.insts
          ∧ Instr.store ((dat.getD j default).g + 1)
              (V.blockAddr (cx.blocks.getD j 0))
              (V.reg ((dat.getD j default).g)) ∈ EB.insts
          ∧ cx.jb ≤ (dat.getD j default).g
          ∧ (dat.getD j default).g + 1 < ctr
  proc : ∀ j, j < k →
      ProcOK cx T bs1 (cx.blocks.getD j 0) (dat.getD j default)
  unproc : ∀ b ∈ cx.blocks.drop k, ∃ B, getBlock bs1 b = some B
      ∧ B.lp = false ∧ B.term.skel = (T b).skel
      ∧ ∀ ins ∈ B.insts, ins.iid < cx.jb
  preds : ∀ B2 ∈ bs1, (cx.jb ∈ B2.term.succs ↔ B2.id ∈ rewiredAll cx T k dat)

/-- Pointwise structural preservation: the block list keeps its length and
order, and every block keeps its identity, landing-pad flag and terminator
skeleton (the relation holding across `DemotePHIToStack`). -/
def Pres (bs bs' : List BB) : Prop :=
  List.Forall₂
    (fun B B' => B'.id = B.id ∧ B'.lp = B.lp ∧ B'.term.skel = B.term.skel)
    bs bs'

/-- The dispatch apparatus built by lines 180-208 on top of the
demoted-and-split block list: entry terminator erased, jump block appended
with the `jumpIndex` phi and the address gep, jump-table alloca in the
entry, and the (initially destination-free) indirect branch. -/
def buildDispatch (eid ctr2 nblocks : Nat) (bs2 : List BB) : List BB :=
  setTerm
    (appendInst
      (appendInst
        (appendInst
          (setTerm bs2 eid .erased ++ [⟨ctr2, false, [], .erased⟩])
          ctr2 (.phi (ctr2 + 1) []))
        eid (.alloca (ctr2 + 2) (V.const nblocks)))
      ctr2 (.gep (ctr2 + 3) (V.reg (ctr2 + 2)) (V.reg (ctr2 + 1))))
    ctr2 (.indirectBr (V.reg (ctr2 + 3)) [])

/-- The store-insertion fold of `DemotePHIToStack`: one store per incoming
value, placed in the incoming block. -/
def storeFold (ctr e : Nat) (bs : List BB) (incs : List (V × Nat)) :
    List BB × Nat :=
  incs.foldl
    (fun (s : List BB × Nat) inc =>
      (appendInst s.1 inc.2 (.store s.2 inc.1 (V.reg ctr)), s.2 + 1))
    (prependInst bs e (.alloca ctr (V.const 1)), ctr + 1)

/-- The phi-incoming retargeting of `splitBasicBlock`: incoming values
from the split block are redirected to the new block. -/
def retargetPhi (oldId newId : Nat) (ins : Instr) : Instr :=
  match ins with
  | .phi r incs =>
    .phi r (incs.map fun inc => if inc.2 = oldId then (inc.1, newId) else inc)
  | i => i

/-- The per-successor fix-up of `splitBasicBlock` applied to the tail
blocks. -/
def splitFix (mt : Term) (oldId newId : Nat) (B : BB) : BB :=
  if mt.succs.contains B.id then
    { B with insts := B.insts.map (retargetPhi oldId newId) }
  else B

/-- The demoted state at the start of `flattenCore` (lines 153-163). -/
def demotedSt (nm : String) (eid : Nat) (bl : List BB) (bs0 : List Nat) :
    List BB × Nat :=
  bs0.foldl (demoteBlockPhis eid) (bl, freshCtr ⟨nm, bl⟩)

/-- Register `r` is no longer read by the given user: the instruction (or
terminator) the user reference points at has no `r` operand. -/
def UserFree (bs : List BB) (u : UserRef) (r : Nat) : Prop :=
  match u with
  | .instrU ui ub => ∀ B, getBlock bs ub = some B →
      ∀ ins ∈ B.insts, ins.iid = ui → V.reg r ∉ ins.opnds
  | .termU ub => ∀ B, getBlock bs ub = some B → V.reg r ∉ B.term.opnds

/-! Rejection lemmas shared by several claims. -/

/-- Block collection aborts whenever some scanned block is neither a
landing pad nor skipped and has an unsupported terminator. -/
theorem collectAux_none_of_bad (l : List BB) (B : BB) (hmem : B ∈ l)
    (hlp : B.lp = false) (hbad : B.term.isUnsupported = true) :
    collectAux l = none := by
  induction l with
  | nil => cases hmem
  | cons A rest ih =>
    rcases List.mem_cons.mp hmem with h | h
    · subst h
      simp [collectAux, hlp, hbad]
    · by_cases hA : A.lp
      · simp [collectAux, hA, ih h]
      · by_cases hAbad : A.term.isUnsupported
        · simp [collectAux, hA, hAbad]
        · simp [collectAux, hA, hAbad, ih h]

/-- If collection succeeds, the collected list is exactly the non-entry
non-landing-pad blocks, in order. -/
theorem collectAux_some (l : List BB) (ids : List Nat)
    (h : collectAux l = some ids) :
    ids = (l.filter fun B => !B.lp).map BB.id := by
  induction l generalizing ids with
  | nil => simp [collectAux] at h; simp [← h]
  | cons A rest ih =>
    by_cases hA : A.lp
    · simp [collectAux, hA] at h
      simp [List.filter_cons, hA, ih _ h]
    · by_cases hAbad : A.term.isUnsupported
      · simp [collectAux, hA, hAbad] at h
      · simp [collectAux, hA, hAbad] at h
        rcases h with ⟨ids', h1, h2⟩
        simp [List.filter_cons, hA, ← h2, ih _ h1]

/-- Any function with a bad non-entry, non-landing-pad block is returned
unmodified with result `false`. -/
theorem reject_of_bad_block (ff : List String) (F : Func) (B : BB)
    (hmem : B ∈ F.blocks.drop 1) (hlp : B.lp = false)
    (hbad : B.term.isUnsupported = true) :
    runBool ff F = some (false, F) := by
  obtain ⟨nm, bl⟩ := F
  cases bl with
  | nil => simp at hmem
  | cons E rest =>
    simp only [List.drop_succ_cons, List.drop_zero] at hmem
    have hc : collectBlocks ⟨nm, E :: rest⟩ = none := by
      simpa [collectBlocks] using collectAux_none_of_bad rest B hmem hlp hbad
    have hrej : runOnFunction ff ⟨nm, E :: rest⟩ = .rejected := by
      simp only [runOnFunction]
      rw [hc]
      split <;> rfl
    simp [runBool, hrej]

/-- The eligible blocks in the claims' sense: every block other than the
entry that is not a landing pad. -/
def eligibleOf (F : Func) : List BB :=
  (F.blocks.drop 1).filter fun B => !B.lp

def entryTermOf (F : Func) : Term :=
  match F.blocks with
  | [] => .erased
  | E :: _ => E.term

set_option maxRecDepth 100000 in
/-- Claim C1: the flattened function should behave identically to the
original on every input.  The code contradicts this: the dispatch block
branches to the address of the jump-table slot (the `gep` result) without
loading the `blockaddress` stored in it, so the flattened function gets
stuck at the indirect branch while the original returns normally.  On the
spec's own example scenario the transform fires (returns true), the
original returns 1 (argument true) and 5 (argument false), the flattened
body is stuck, and inserting the single missing load of the jump-table
slot restores exactly the original's behaviour on both inputs. -/
theorem C1_flattening_not_semantics_preserving :
    (runBool [] ex1).map Prod.fst = some true
    ∧ runFunc ex1 ex1Args 10 = .ret (.int 1)
    ∧ runFunc ex1Res.F ex1Args 10 = .stuck
    ∧ runFunc (patchDispatchLoad ex1Res) ex1Args 20 = .ret (.int 1)
    ∧ runFunc ex1 [(100, .int 0)] 10 = .ret (.int 5)
    ∧ runFunc (patchDispatchLoad ex1Res) [(100, .int 0)] 20 = .ret (.int 5) := by
  refine ⟨rfl, rfl, rfl, rfl, rfl, rfl⟩

set_option maxRecDepth 100000 in
/-- Claim C2 counterexample: a function containing a switch terminator is
claimed to be rejected unmodified even when the switch sits in a
landing-pad (or entry) block.  `ex2` has a switch-terminated landing-pad
block, yet the pass transforms it and returns true, because the
landing-pad `continue` fires before the terminator is inspected. -/
theorem C2_counterexample_landing_pad_switch :
    (ex2.blocks.any fun B => B.term.isUnsupported) = true
    ∧ runBool [] ex2 ≠ some (false, ex2)
    ∧ (runBool [] ex2).map Prod.fst = some true := by
  refine ⟨rfl, by decide, rfl⟩

/-- Claim C2 (amended): a multi-way or computed-branch terminator in a
non-entry, non-landing-pad block makes `runOnFunction` return false with
the function unmodified; the terminators of the entry block and of
landing-pad blocks are never inspected by the collection loop. -/
theorem C2_unsupported_ordinary_block_rejects (ff : List String) (F : Func)
    (B : BB) (hmem : B ∈ F.blocks.drop 1) (hlp : B.lp = false)
    (hbad : B.term.isUnsupported = true) :
    runBool ff F = some (false, F) :=
  reject_of_bad_block ff F B hmem hlp hbad

/-- Witness for the amended C2 at a concrete function with an ordinary
switch block. -/
theorem C2_unsupported_ordinary_block_rejects_witness :
    (⟨1, false, [], .switchBr (V.reg 100) 2 [3]⟩ : BB) ∈ ex3.blocks.drop 1
    ∧ runBool [] ex3 = some (false, ex3) :=
  ⟨by decide,
    C2_unsupported_ordinary_block_rejects [] ex3
      ⟨1, false, [], .switchBr (V.reg 100) 2 [3]⟩ (by decide) rfl rfl⟩

/-- Claim C3: if fewer than two eligible blocks remain after filtering
out the entry and landing pads, or the entry terminator's successor count
is 0 or equals the eligible-block count, then `runOnFunction` returns
false and the function is returned without any modification. -/
theorem C3_trivial_shapes_reject (ff : List String) (F : Func)
    (h : (eligibleOf F).length < 2 ∨ (entryTermOf F).succs.length = 0
        ∨ (entryTermOf F).succs.length = (eligibleOf F).length) :
    runBool ff F = some (false, F) := by
  obtain ⟨nm, bl⟩ := F
  cases bl with
  | nil => rfl
  | cons E rest =>
    have hrej : runOnFunction ff ⟨nm, E :: rest⟩ = .rejected := by
      simp only [runOnFunction]
      cases hcol : collectAux rest with
      | none =>
        simp only [collectBlocks, List.drop_succ_cons, List.drop_zero, hcol]
        split <;> rfl
      | some ids =>
        have hlen : ids.length = (eligibleOf ⟨nm, E :: rest⟩).length := by
          have hi := collectAux_some rest ids hcol
          simp [hi, eligibleOf]
        simp only [collectBlocks, List.drop_succ_cons, List.drop_zero, hcol]
        split_ifs with h1 h2 h3 <;> try rfl
        exfalso
        rcases h with h | h | h
        · rw [← hlen] at h; exact h2 h
        · exact h3 (Or.inr h)
        · refine h3 (Or.inl ?hh)
          rw [hlen]; exact h
    simp [runBool, hrej]

/-- Witness for C3 at a two-block function (one eligible block only). -/
theorem C3_trivial_shapes_reject_witness :
    (eligibleOf ex4).length < 2 ∧ runBool [] ex4 = some (false, ex4) :=
  ⟨by decide, C3_trivial_shapes_reject [] ex4 (Or.inl (by decide))⟩

/-! Basic lemmas about block-list surgery. -/

theorem getBlock_cons (A : BB) (rest : List BB) (j : Nat) :
    getBlock (A :: rest) j = if A.id = j then some A else getBlock rest j := by
  by_cases h : A.id = j
  · rw [if_pos h]
    exact List.find?_cons_of_pos _ (by simp [h])
  · rw [if_neg h]
    exact List.find?_cons_of_neg _ (by simp [h])

theorem modifyBlock_cons (A : BB) (rest : List BB) (i : Nat) (f : BB → BB) :
    modifyBlock (A :: rest) i f =
      (if A.id = i then f A else A) :: modifyBlock rest i f := rfl

theorem getBlock_modify_self (bs : List BB) (i : Nat) (f : BB → BB)
    (hf : ∀ B, (f B).id = B.id) :
    getBlock (modifyBlock bs i f) i = (getBlock bs i).map f := by
  induction bs with
  | nil => rfl
  | cons B rest ih =>
    rw [modifyBlock_cons, getBlock_cons, getBlock_cons]
    by_cases h : B.id = i
    · simp [h, hf]
    · simp [h, ih]

theorem getBlock_modify_ne (bs : List BB) (i j : Nat) (f : BB → BB)
    (hf : ∀ B, (f B).id = B.id) (hne : j ≠ i) :
    getBlock (modifyBlock bs i f) j = getBlock bs j := by
  induction bs with
  | nil => rfl
  | cons B rest ih =>
    rw [modifyBlock_cons, getBlock_cons, getBlock_cons]
    by_cases h : B.id = i
    · have hBj : ¬ B.id = j := fun hh => hne (hh.symm.trans h)
      rw [if_pos h]
      have hfj : ¬ (f B).id = j := by rw [hf]; exact hBj
      rw [if_neg hfj, if_neg hBj]
      exact ih
    · rw [if_neg h]
      by_cases hj : B.id = j
      · rw [if_pos hj, if_pos hj]
      · rw [if_neg hj, if_neg hj]
        exact ih

theorem ids_modify (bs : List BB) (i : Nat) (f : BB → BB)
    (hf : ∀ B, (f B).id = B.id) :
    (modifyBlock bs i f).map BB.id = bs.map BB.id := by
  induction bs with
  | nil => rfl
  | cons B rest ih =>
    rw [modifyBlock_cons, List.map_cons, List.map_cons, ih]
    by_cases h : B.id = i
    · rw [if_pos h, hf]
    · rw [if_neg h]

theorem getBlock_append_left (bs bs' : List BB) (j : Nat) (B : BB)
    (h : getBlock bs j = some B) :
    getBlock (bs ++ bs') j = some B := by
  induction bs with
  | nil => simp [getBlock] at h
  | cons A rest ih =>
    rw [List.cons_append, getBlock_cons]
    rw [getBlock_cons] at h
    by_cases hA : A.id = j
    · rw [if_pos hA] at h ⊢; exact h
    · rw [if_neg hA] at h ⊢; exact ih h

theorem getBlock_append_right (bs bs' : List BB) (j : Nat)
    (h : getBlock bs j = none) :
    getBlock (bs ++ bs') j = getBlock bs' j := by
  induction bs with
  | nil => rfl
  | cons A rest ih =>
    rw [List.cons_append, getBlock_cons]
    rw [getBlock_cons] at h
    by_cases hA : A.id = j
    · rw [if_pos hA] at h; cases h
    · rw [if_neg hA] at h ⊢; exact ih h

theorem getBlock_eq_none (bs : List BB) (j : Nat) :
    getBlock bs j = none ↔ j ∉ bs.map BB.id := by
  induction bs with
  | nil => simp [getBlock]
  | cons A rest ih =>
    rw [getBlock_cons]
    by_cases hA : A.id = j
    · rw [if_pos hA]; simp [hA]
    · rw [if_neg hA]
      simp only [List.map_cons, List.mem_cons, ih]
      constructor
      · intro h hmem
        rcases hmem with h1 | h1
        · exact hA h1.symm
        · exact h h1
      · intro h h1
        exact h (Or.inr h1)

theorem getBlock_isSome (bs : List BB) (j : Nat) :
    (getBlock bs j).isSome ↔ j ∈ bs.map BB.id := by
  rcases h : getBlock bs j with _ | B
  · simpa using (getBlock_eq_none bs j).mp h
  · simp only [Option.isSome_some, true_iff]
    by_contra hmem
    rw [← getBlock_eq_none] at hmem
    rw [h] at hmem
    cases hmem

theorem getBlock_mem (bs : List BB) (j : Nat) (B : BB)
    (h : getBlock bs j = some B) : B ∈ bs ∧ B.id = j := by
  induction bs with
  | nil => simp [getBlock] at h
  | cons A rest ih =>
    rw [getBlock_cons] at h
    by_cases hA : A.id = j
    · rw [if_pos hA] at h
      cases h
      exact ⟨List.mem_cons_self _ _, hA⟩
    · rw [if_neg hA] at h
      have hr := ih h
      exact ⟨List.mem_cons_of_mem _ hr.1, hr.2⟩

/-! Identifier membership and substitution lemmas. -/

theorem mem_identsOf (m : Nat) (bs : List BB) :
    m ∈ identsOf bs ↔ ∃ B ∈ bs, m ∈ B.idents := by
  simp [identsOf, List.mem_flatMap]

theorem mem_BB_idents (m : Nat) (B : BB) :
    m ∈ B.idents ↔
      m = B.id ∨ (∃ ins ∈ B.insts, m ∈ ins.idents) ∨ m ∈ B.term.idents := by
  simp [BB.idents, List.mem_flatMap, List.mem_append]

theorem V_subst_idents (o n : Nat) (v : V) (m : Nat)
    (h : m ∈ (v.subst o n).idents) : m ∈ v.idents ∨ m = n := by
  cases v with
  | reg r =>
    by_cases hr : r = o
    · simp [V.subst, hr, V.idents] at h
      exact Or.inr h
    · simp [V.subst, hr, V.idents] at h
      simp [V.idents, h]
  | const k => simpa [V.subst, V.idents] using Or.inl h
  | blockAddr b => simpa [V.subst, V.idents] using Or.inl h

theorem Instr_subst_iid (o n : Nat) (i : Instr) : (i.subst o n).iid = i.iid := by
  cases i <;> rfl

theorem Instr_subst_opnds (o n : Nat) (i : Instr) :
    (i.subst o n).opnds = i.opnds.map (V.subst o n) := by
  cases i with
  | phi r incs => simp [Instr.subst, Instr.opnds]
  | _ => rfl

theorem Instr_subst_extra (o n : Nat) (i : Instr) :
    (i.subst o n).extra = i.extra := by
  cases i with
  | phi r incs => simp [Instr.subst, Instr.extra]
  | _ => rfl

theorem Instr_subst_result (o n : Nat) (i : Instr) :
    (i.subst o n).result = i.result := by
  cases i <;> rfl

theorem mem_flatMap_subst (o n : Nat) (vs : List V) (m : Nat)
    (h : m ∈ (vs.map (V.subst o n)).flatMap V.idents) :
    m ∈ vs.flatMap V.idents ∨ m = n := by
  simp only [List.mem_flatMap, List.mem_map] at h ⊢
  obtain ⟨v, ⟨w, hw, hwe⟩, hm⟩ := h
  cases hwe
  rcases V_subst_idents o n w m hm with h2 | h2
  · exact Or.inl ⟨w, hw, h2⟩
  · exact Or.inr h2

theorem Instr_subst_idents (o n : Nat) (i : Instr) (m : Nat)
    (h : m ∈ (i.subst o n).idents) : m ∈ i.idents ∨ m = n := by
  simp only [Instr.idents, Instr_subst_iid, Instr_subst_opnds,
    Instr_subst_extra, List.mem_cons, List.mem_append] at h ⊢
  rcases h with h | h | h
  · exact Or.inl (Or.inl h)
  · rcases mem_flatMap_subst o n _ m h with h2 | h2
    · exact Or.inl (Or.inr (Or.inl h2))
    · exact Or.inr h2
  · exact Or.inl (Or.inr (Or.inr h))

theorem Term_subst_succs (o n : Nat) (t : Term) :
    (t.subst o n).succs = t.succs := by
  cases t with
  | ret v => cases v <;> rfl
  | _ => rfl

theorem Term_subst_opnds (o n : Nat) (t : Term) :
    (t.subst o n).opnds = t.opnds.map (V.subst o n) := by
  cases t with
  | ret v => cases v <;> rfl
  | _ => rfl

theorem Term_subst_result (o n : Nat) (t : Term) :
    (t.subst o n).result = t.result := by
  cases t with
  | ret v => cases v <;> rfl
  | _ => rfl

theorem Term_subst_skel (o n : Nat) (t : Term) :
    (t.subst o n).skel = t.skel := by
  cases t with
  | ret v => cases v <;> rfl
  | _ => rfl

theorem Term_skel_succs (t : Term) : t.skel.succs = t.succs := by
  cases t with
  | ret v => cases v <;> rfl
  | _ => rfl

theorem Term_skel_result (t : Term) : t.skel.result = t.result := by
  cases t with
  | ret v => cases v <;> rfl
  | _ => rfl

theorem Term_subst_idents (o n : Nat) (t : Term) (m : Nat)
    (h : m ∈ (t.subst o n).idents) : m ∈ t.idents ∨ m = n := by
  simp only [Term.idents, Term_subst_succs, Term_subst_opnds,
    Term_subst_result, List.mem_append] at h ⊢
  rcases h with (h | h) | h
  · exact Or.inl (Or.inl (Or.inl h))
  · rcases mem_flatMap_subst o n _ m h with h2 | h2
    · exact Or.inl (Or.inl (Or.inr h2))
    · exact Or.inr h2
  · exact Or.inl (Or.inr h)

theorem V_subst_eq_self (o n : Nat) (v : V) (h : v ≠ V.reg o) :
    v.subst o n = v := by
  cases v with
  | reg r =>
    have : r ≠ o := fun hh => h (by rw [hh])
    simp [V.subst, this]
  | const k => rfl
  | blockAddr b => rfl

theorem map_subst_eq_self (o n : Nat) (vs : List V) (h : V.reg o ∉ vs) :
    vs.map (V.subst o n) = vs := by
  induction vs with
  | nil => rfl
  | cons v rest ih =>
    simp only [List.mem_cons, not_or] at h
    simp [V_subst_eq_self o n v (fun hh => h.1 hh.symm), ih h.2]

theorem map_subst_pair_eq_self (o n : Nat) (incs : List (V × Nat))
    (h : V.reg o ∉ incs.map Prod.fst) :
    incs.map (fun p => (p.1.subst o n, p.2)) = incs := by
  induction incs with
  | nil => rfl
  | cons p rest ih =>
    simp only [List.map_cons, List.mem_cons, not_or] at h
    have h1 : p.1 ≠ V.reg o := fun hh => h.1 hh.symm
    simp [V_subst_eq_self o n p.1 h1, ih h.2]

theorem Instr_subst_eq_self (o n : Nat) (ins : Instr)
    (h : V.reg o ∉ ins.opnds) : ins.subst o n = ins := by
  cases ins with
  | phi r incs =>
    simp only [Instr.opnds] at h
    simp [Instr.subst, map_subst_pair_eq_self o n incs h]
  | op r args =>
    simp only [Instr.opnds] at h
    simp [Instr.subst, map_subst_eq_self o n args h]
  | alloca r c =>
    simp only [Instr.opnds, List.mem_singleton] at h
    simp [Instr.subst, V_subst_eq_self o n c (fun hh => h hh.symm)]
  | load r a =>
    simp only [Instr.opnds, List.mem_singleton] at h
    simp [Instr.subst, V_subst_eq_self o n a (fun hh => h hh.symm)]
  | store sid v a =>
    simp only [Instr.opnds, List.mem_cons, List.mem_singleton, not_or] at h
    simp [Instr.subst, V_subst_eq_self o n v (fun hh => h.1 hh.symm),
      V_subst_eq_self o n a (fun hh => h.2.1 hh.symm)]
  | gep r b idx =>
    simp only [Instr.opnds, List.mem_cons, List.mem_singleton, not_or] at h
    simp [Instr.subst, V_subst_eq_self o n b (fun hh => h.1 hh.symm),
      V_subst_eq_self o n idx (fun hh => h.2.1 hh.symm)]
  | select r c tv fv =>
    simp only [Instr.opnds, List.mem_cons, List.mem_singleton, not_or] at h
    simp [Instr.subst, V_subst_eq_self o n c (fun hh => h.1 hh.symm),
      V_subst_eq_self o n tv (fun hh => h.2.1 hh.symm),
      V_subst_eq_self o n fv (fun hh => h.2.2.1 hh.symm)]

theorem Term_subst_eq_self (o n : Nat) (t : Term)
    (h : V.reg o ∉ t.opnds) : t.subst o n = t := by
  cases t with
  | ret v =>
    cases v with
    | none => rfl
    | some w =>
      simp only [Term.opnds, List.mem_singleton] at h
      simp [Term.subst, V_subst_eq_self o n w (fun hh => h hh.symm)]
  | br d => rfl
  | condBr c t1 f1 =>
    simp only [Term.opnds, List.mem_singleton] at h
    simp [Term.subst, V_subst_eq_self o n c (fun hh => h hh.symm)]
  | invoke r args nn u =>
    simp only [Term.opnds] at h
    simp [Term.subst, map_subst_eq_self o n args h]
  | switchBr v d cs =>
    simp only [Term.opnds, List.mem_singleton] at h
    simp [Term.subst, V_subst_eq_self o n v (fun hh => h hh.symm)]
  | indirectBr a ds =>
    simp only [Term.opnds, List.mem_singleton] at h
    simp [Term.subst, V_subst_eq_self o n a (fun hh => h hh.symm)]
  | erased => rfl

/-! Freshness (identifier bound) preservation. -/

theorem IdBound.mono {c c' : Nat} {bs : List BB} (h : IdBound c bs)
    (hle : c ≤ c') : IdBound c' bs :=
  fun m hm => lt_of_lt_of_le (h m hm) hle

theorem IdBound_of_mem {c : Nat} {bs : List BB} (h : IdBound c bs) {B : BB}
    (hB : B ∈ bs) : ∀ m ∈ B.idents, m < c := by
  intro m hm
  exact h m ((mem_identsOf m bs).mpr ⟨B, hB, hm⟩)

theorem IdBound_getBlock {c : Nat} {bs : List BB} (h : IdBound c bs)
    {j : Nat} {B : BB} (hB : getBlock bs j = some B) :
    ∀ m ∈ B.idents, m < c :=
  IdBound_of_mem h (getBlock_mem bs j B hB).1

theorem IdBound_modify {c : Nat} {bs : List BB} (h : IdBound c bs) (i : Nat)
    (f : BB → BB)
    (hf : ∀ B, (∀ m ∈ B.idents, m < c) → ∀ m ∈ (f B).idents, m < c) :
    IdBound c (modifyBlock bs i f) := by
  intro m hm
  rw [mem_identsOf] at hm
  obtain ⟨B', hB', hm'⟩ := hm
  simp only [modifyBlock, List.mem_map] at hB'
  obtain ⟨B, hB, hBe⟩ := hB'
  by_cases hid : B.id = i
  · rw [if_pos hid] at hBe
    cases hBe
    exact hf B (IdBound_of_mem h hB) m hm'
  · rw [if_neg hid] at hBe
    cases hBe
    exact IdBound_of_mem h hB m hm'

theorem IdBound_append {c : Nat} {bs bs' : List BB} (h : IdBound c bs)
    (h' : IdBound c bs') : IdBound c (bs ++ bs') := by
  intro m hm
  rw [mem_identsOf] at hm
  obtain ⟨B, hB, hm'⟩ := hm
  rcases List.mem_append.mp hB with hB | hB
  · exact IdBound_of_mem h hB m hm'
  · exact IdBound_of_mem h' hB m hm'

theorem mem_idents_insts {m : Nat} {B : BB} {ins : Instr} (hins : ins ∈ B.insts)
    (hm : m ∈ ins.idents) : m ∈ B.idents :=
  (mem_BB_idents m B).mpr (Or.inr (Or.inl ⟨ins, hins, hm⟩))

theorem mem_idents_term {m : Nat} {B : BB} (hm : m ∈ B.term.idents) :
    m ∈ B.idents :=
  (mem_BB_idents m B).mpr (Or.inr (Or.inr hm))

theorem mem_idents_id (B : BB) : B.id ∈ B.idents :=
  (mem_BB_idents B.id B).mpr (Or.inl rfl)

theorem idents_set_insts {c : Nat} {B : BB} (hB : ∀ m ∈ B.idents, m < c)
    {l : List Instr} (hl : ∀ ins ∈ l, ∀ m ∈ ins.idents, m < c) :
    ∀ m ∈ ({ B with insts := l } : BB).idents, m < c := by
  intro m hm
  rcases (mem_BB_idents m _).mp hm with hm | ⟨ins, hins, hm⟩ | hm
  · exact hB m (hm ▸ mem_idents_id B)
  · exact hl ins hins m hm
  · exact hB m (mem_idents_term hm)

theorem IdBound_appendInst {c : Nat} {bs : List BB} (h : IdBound c bs)
    (i : Nat) {ins : Instr} (hins : ∀ m ∈ ins.idents, m < c) :
    IdBound c (appendInst bs i ins) := by
  refine IdBound_modify h i _ ?_
  intro B hB
  refine idents_set_insts hB ?_
  intro ins' hins' m hm
  rcases List.mem_append.mp hins' with h1 | h1
  · exact hB m (mem_idents_insts h1 hm)
  · rw [List.mem_singleton] at h1
    exact hins m (h1 ▸ hm)

theorem IdBound_prependInst {c : Nat} {bs : List BB} (h : IdBound c bs)
    (i : Nat) {ins : Instr} (hins : ∀ m ∈ ins.idents, m < c) :
    IdBound c (prependInst bs i ins) := by
  refine IdBound_modify h i _ ?_
  intro B hB
  refine idents_set_insts hB ?_
  intro ins' hins' m hm
  rcases List.mem_cons.mp hins' with h1 | h1
  · exact hins m (h1 ▸ hm)
  · exact hB m (mem_idents_insts h1 hm)

theorem IdBound_setTerm {c : Nat} {bs : List BB} (h : IdBound c bs)
    (i : Nat) {t : Term} (ht : ∀ m ∈ t.idents, m < c) :
    IdBound c (setTerm bs i t) := by
  refine IdBound_modify h i _ ?_
  intro B hB m hm
  rcases (mem_BB_idents m _).mp hm with hm | ⟨ins, hins, hm⟩ | hm
  · exact hB m (hm ▸ mem_idents_id B)
  · exact hB m (mem_idents_insts hins hm)
  · exact ht m hm

theorem idents_phi_addInc {m r : Nat} {incs : List (V × Nat)} {inc : V × Nat}
    (hm : m ∈ (Instr.phi r (incs ++ [inc])).idents) :
    m ∈ (Instr.phi r incs).idents ∨ m ∈ inc.1.idents ∨ m = inc.2 := by
  simp only [Instr.idents, Instr.iid, Instr.opnds, Instr.extra, List.map_append,
    List.flatMap_append, List.mem_cons, List.mem_append, List.map_cons,
    List.map_nil, List.flatMap_cons, List.flatMap_nil, List.append_nil,
    List.mem_singleton] at hm ⊢
  tauto

theorem IdBound_addIncoming {c : Nat} {bs : List BB} (h : IdBound c bs)
    (blk phiReg : Nat) {inc : V × Nat} (h1 : ∀ m ∈ inc.1.idents, m < c)
    (h2 : inc.2 < c) : IdBound c (addIncomingPhi bs blk phiReg inc) := by
  refine IdBound_modify h blk _ ?_
  intro B hB
  refine idents_set_insts hB ?_
  intro ins' hins' m hm
  simp only [List.mem_map] at hins'
  obtain ⟨ins, hins, hinse⟩ := hins'
  cases ins with
  | phi r incs =>
    simp only [Instr.addInc] at hinse
    by_cases hr : r = phiReg
    · rw [if_pos hr] at hinse
      cases hinse
      rcases idents_phi_addInc hm with hm | hm | hm
      · exact hB m (mem_idents_insts hins hm)
      · exact h1 m hm
      · exact hm ▸ h2
    · rw [if_neg hr] at hinse
      cases hinse
      exact hB m (mem_idents_insts hins hm)
  | op r args => cases hinse; exact hB m (mem_idents_insts hins hm)
  | alloca r cc => cases hinse; exact hB m (mem_idents_insts hins hm)
  | load r a => cases hinse; exact hB m (mem_idents_insts hins hm)
  | store sid v a => cases hinse; exact hB m (mem_idents_insts hins hm)
  | gep r b2 i2 => cases hinse; exact hB m (mem_idents_insts hins hm)
  | select r c2 t2 f2 => cases hinse; exact hB m (mem_idents_insts hins hm)

theorem IdBound_rauw {c : Nat} {bs : List BB} (h : IdBound c bs)
    (o : Nat) {n : Nat} (hn : n < c) : IdBound c (rauw bs o n) := by
  intro m hm
  rw [mem_identsOf] at hm
  obtain ⟨B', hB', hm'⟩ := hm
  simp only [rauw, List.mem_map] at hB'
  obtain ⟨B, hB, hBe⟩ := hB'
  cases hBe
  simp only [BB.substB] at hm'
  rcases (mem_BB_idents m _).mp hm' with hm2 | ⟨ins, hins, hm2⟩ | hm2
  · exact IdBound_of_mem h hB m (hm2 ▸ mem_idents_id B)
  · simp only [List.mem_map] at hins
    obtain ⟨ins0, hins0, hins0e⟩ := hins
    cases hins0e
    rcases Instr_subst_idents o n ins0 m hm2 with h2 | h2
    · exact IdBound_of_mem h hB m (mem_idents_insts hins0 h2)
    · exact h2 ▸ hn
  · rcases Term_subst_idents o n B.term m hm2 with h2 | h2
    · exact IdBound_of_mem h hB m (mem_idents_term h2)
    · exact h2 ▸ hn

theorem IdBound_eraseInst {c : Nat} {bs : List BB} (h : IdBound c bs)
    (blk iid : Nat) : IdBound c (eraseInst bs blk iid) := by
  refine IdBound_modify h blk _ ?_
  intro B hB
  refine idents_set_insts hB ?_
  intro ins' hins' m hm
  exact hB m (mem_idents_insts (List.mem_of_mem_filter hins') hm)

theorem IdBound_replaceUsesIn {c : Nat} {bs : List BB} (h : IdBound c bs)
    (u : UserRef) (o : Nat) {n : Nat} (hn : n < c) :
    IdBound c (replaceUsesIn bs u o n) := by
  cases u with
  | instrU ui ub =>
    refine IdBound_modify h ub _ ?_
    intro B hB
    refine idents_set_insts hB ?_
    intro ins' hins' m hm
    simp only [List.mem_map] at hins'
    obtain ⟨ins, hins, hinse⟩ := hins'
    by_cases hii : ins.iid = ui
    · rw [if_pos hii] at hinse
      cases hinse
      rcases Instr_subst_idents o n ins m hm with h2 | h2
      · exact hB m (mem_idents_insts hins h2)
      · exact h2 ▸ hn
    · rw [if_neg hii] at hinse
      cases hinse
      exact hB m (mem_idents_insts hins hm)
  | termU ub =>
    refine IdBound_modify h ub _ ?_
    intro B hB m hm
    rcases (mem_BB_idents m _).mp hm with hm2 | ⟨ins, hins, hm2⟩ | hm2
    · exact hB m (hm2 ▸ mem_idents_id B)
    · exact hB m (mem_idents_insts hins hm2)
    · rcases Term_subst_idents o n B.term m hm2 with h2 | h2
      · exact hB m (mem_idents_term h2)
      · exact h2 ▸ hn

/-! Characterisation of the user scan and of `handleValue`. -/

theorem mem_userRefs (bs : List BB) (r : Nat) (u : UserRef)
    (h : u ∈ userRefs bs r) :
    ∃ B ∈ bs, B.id = u.blk ∧
      ((∃ ins ∈ B.insts, V.reg r ∈ ins.opnds ∧ u = .instrU ins.iid B.id)
        ∨ (V.reg r ∈ B.term.opnds ∧ u = .termU B.id)) := by
  simp only [userRefs, List.mem_flatMap, List.mem_append, List.mem_map,
    List.mem_filter] at h
  obtain ⟨B, hB, h⟩ := h
  rcases h with ⟨ins, ⟨hins, hop⟩, hu⟩ | h
  · refine ⟨B, hB, ?_, Or.inl ⟨ins, hins, ?_, hu.symm⟩⟩
    · rw [← hu]; rfl
    · simpa using hop
  · by_cases hc : B.term.opnds.contains (V.reg r) = true
    · rw [if_pos hc] at h
      rw [List.mem_singleton] at h
      have ht : V.reg r ∈ B.term.opnds := by simpa using hc
      refine ⟨B, hB, ?_, Or.inr ⟨ht, h⟩⟩
      rw [h]
      rfl
    · rw [if_neg hc] at h
      cases h

theorem getBlock_of_mem_nodup (bs : List BB) (B : BB)
    (hnd : (bs.map BB.id).Nodup) (hB : B ∈ bs) :
    getBlock bs B.id = some B := by
  induction bs with
  | nil => cases hB
  | cons A rest ih =>
    rw [getBlock_cons]
    rcases List.mem_cons.mp hB with h | h
    · rw [if_pos (by rw [h])]
      rw [h]
    · have hA : A.id ≠ B.id := by
        intro he
        have : B.id ∈ rest.map BB.id := List.mem_map.mpr ⟨B, h, rfl⟩
        rw [← he] at this
        exact (List.nodup_cons.mp hnd).1 this
      rw [if_neg hA]
      exact ih (List.nodup_cons.mp hnd).2 h

/-- If the block carrying id `j` mentions `r` nowhere, no user of `r` lives
in block `j`. -/
theorem no_user_in_block (bs : List BB) (r j : Nat) (JB : BB)
    (hnd : (bs.map BB.id).Nodup) (hJ : getBlock bs j = some JB)
    (hinsts : ∀ ins ∈ JB.insts, V.reg r ∉ ins.opnds)
    (hterm : V.reg r ∉ JB.term.opnds) :
    ∀ u ∈ userRefs bs r, u.blk ≠ j := by
  intro u hu he
  obtain ⟨B, hB, hid, hcase⟩ := mem_userRefs bs r u hu
  have hBJ : B = JB := by
    have h1 : getBlock bs B.id = some B := getBlock_of_mem_nodup bs B hnd hB
    rw [hid, he, hJ] at h1
    exact (Option.some_injective _ h1).symm
  subst hBJ
  rcases hcase with ⟨ins, hins, hop, _⟩ | ⟨hop, _⟩
  · exact hinsts ins hins hop
  · exact hterm hop

/-- The scan when no user lives in the jump block: it collects exactly the
users outside the defining block, in order, and reports whether any
exist. -/
theorem scanGo_no_jb (bs : List BB) (jb jIdx blk : Nat) (L : List UserRef)
    (s : ScanRes) (h : ∀ u ∈ L, u.blk ≠ jb) :
    scanGo bs jb jIdx blk L s =
      ⟨s.users ++ L.filter (fun u => u.blk ≠ blk), s.phiVar,
        s.isUsed || !(L.filter (fun u => u.blk ≠ blk)).isEmpty⟩ := by
  induction L generalizing s with
  | nil => simp [scanGo]
  | cons u rest ih =>
    have hu : u.blk ≠ jb := h u (List.mem_cons_self u rest)
    have hrest : ∀ v ∈ rest, v.blk ≠ jb := fun v hv => h v (List.mem_cons_of_mem u hv)
    rw [scanGo, if_neg hu]
    by_cases hb : u.blk = blk
    · rw [if_neg (by simpa using hb)]
      rw [ih s hrest]
      have hf : (u :: rest).filter (fun v => v.blk ≠ blk) =
          rest.filter (fun v => v.blk ≠ blk) := by
        simp [List.filter_cons, hb]
      rw [hf]
    · rw [if_pos (by simpa using hb)]
      rw [ih _ hrest]
      have hf : (u :: rest).filter (fun v => v.blk ≠ blk) =
          u :: rest.filter (fun v => v.blk ≠ blk) := by
        simp [List.filter_cons, hb]
      rw [hf]
      simp

theorem ids_replaceUsesIn (bs : List BB) (u : UserRef) (o n : Nat) :
    (replaceUsesIn bs u o n).map BB.id = bs.map BB.id := by
  cases u <;> exact ids_modify _ _ _ (fun B => rfl)

theorem getBlock_replaceUsesIn_ne (bs : List BB) (u : UserRef) (o n j : Nat)
    (h : j ≠ u.blk) :
    getBlock (replaceUsesIn bs u o n) j = getBlock bs j := by
  cases u <;> exact getBlock_modify_ne _ _ _ _ (fun B => rfl) h

theorem ids_replaceFold (users : List UserRef) (bs : List BB) (o n : Nat) :
    ((users.foldl (fun b u => replaceUsesIn b u o n) bs).map BB.id)
      = bs.map BB.id := by
  induction users generalizing bs with
  | nil => rfl
  | cons u rest ih =>
    rw [List.foldl_cons, ih, ids_replaceUsesIn]

theorem getBlock_replaceFold_ne (users : List UserRef) (bs : List BB)
    (o n j : Nat) (h : ∀ u ∈ users, u.blk ≠ j) :
    getBlock (users.foldl (fun b u => replaceUsesIn b u o n) bs) j
      = getBlock bs j := by
  induction users generalizing bs with
  | nil => rfl
  | cons u rest ih =>
    rw [List.foldl_cons,
      ih _ (fun v hv => h v (List.mem_cons_of_mem u hv)),
      getBlock_replaceUsesIn_ne _ _ _ _ _
        (fun he => h u (List.mem_cons_self u rest) he.symm)]

theorem IdBound_replaceFold {c : Nat} (users : List UserRef) {bs : List BB}
    (h : IdBound c bs) (o : Nat) {n : Nat} (hn : n < c) :
    IdBound c (users.foldl (fun b u => replaceUsesIn b u o n) bs) := by
  induction users generalizing bs with
  | nil => exact h
  | cons u rest ih =>
    rw [List.foldl_cons]
    exact ih (IdBound_replaceUsesIn h u o hn)

theorem scanUsers_no_jb (bs : List BB) (jb jIdx blk r : Nat)
    (h : ∀ u ∈ userRefs bs r, u.blk ≠ jb) :
    scanUsers bs jb jIdx blk r =
      ⟨(userRefs bs r).filter (fun u => u.blk ≠ blk), none,
        !((userRefs bs r).filter (fun u => u.blk ≠ blk)).isEmpty⟩ := by
  unfold scanUsers
  rw [scanGo_no_jb bs jb jIdx blk _ _ h]
  simp

theorem phiRegOfUser_head (bs : List BB) (jb jIdx : Nat)
    (incs : List (V × Nat)) (restl : List Instr) (B : BB)
    (hJ : getBlock bs jb = some B)
    (hins : B.insts = .phi jIdx incs :: restl) :
    phiRegOfUser bs (.instrU jIdx jb) = some jIdx := by
  simp only [phiRegOfUser, hJ, Option.some_bind]
  rw [hins]
  rw [List.find?_cons_of_pos _ (by simp [Instr.iid])]

theorem scanUsers_only_jIdx (bs : List BB) (jb jIdx blk r : Nat)
    (h : userRefs bs r = [.instrU jIdx jb])
    (hphi : phiRegOfUser bs (.instrU jIdx jb) = some jIdx) :
    scanUsers bs jb jIdx blk r = ⟨[], some jIdx, false⟩ := by
  unfold scanUsers
  rw [h, scanGo]
  simp only [UserRef.blk]
  rw [if_pos trivial, hphi]
  simp [scanGo]

theorem handleValue_noop (e jb jIdx : Nat) (st : List BB × Nat) (blk r : Nat)
    (h : userRefs st.1 r = [.instrU jIdx jb])
    (hphi : phiRegOfUser st.1 (.instrU jIdx jb) = some jIdx) :
    handleValue e jb jIdx st blk r = st := by
  unfold handleValue
  rw [scanUsers_only_jIdx st.1 jb jIdx blk r h hphi]
  simp

theorem handleValue_acting (e jb jIdx : Nat) (st : List BB × Nat) (blk r : Nat)
    (hnone : ∀ u ∈ userRefs st.1 r, u.blk ≠ jb)
    (hne : (userRefs st.1 r).filter (fun u => u.blk ≠ blk) ≠ []) :
    handleValue e jb jIdx st blk r =
      DemotePHIToStack
        (((userRefs st.1 r).filter (fun u => u.blk ≠ blk)).foldl
          (fun b u => replaceUsesIn b u r st.2)
          (addIncomingPhi (prependInst st.1 jb (.phi st.2 [])) jb st.2
            (V.reg r, blk)))
        (st.2 + 1) e jb st.2 := by
  unfold handleValue
  rw [scanUsers_no_jb st.1 jb jIdx blk r hnone]
  have hb : (!((userRefs st.1 r).filter fun u => u.blk ≠ blk).isEmpty) = true := by
    simpa [List.isEmpty_iff] using hne
  simp only [hb, ne_eq, and_true, if_true]

/-! Stability of the use list under the surgery operations. -/

theorem userRefs_eq_flatMap (bs : List BB) (r : Nat) :
    userRefs bs r = bs.flatMap (ublock r) := rfl

theorem userRefs_map_eq (bs : List BB) (g : BB → BB) (r : Nat)
    (h : ∀ B ∈ bs, ublock r (g B) = ublock r B) :
    userRefs (bs.map g) r = userRefs bs r := by
  rw [userRefs_eq_flatMap, userRefs_eq_flatMap, List.flatMap_map]
  exact List.flatMap_congr h

theorem mem_map_subst_iff (o n s : Nat) (hso : s ≠ o) (hsn : s ≠ n)
    (vs : List V) :
    V.reg s ∈ vs.map (V.subst o n) ↔ V.reg s ∈ vs := by
  constructor
  · intro h
    obtain ⟨v, hv, hve⟩ := List.mem_map.mp h
    cases v with
    | reg q =>
      by_cases hq : q = o
      · rw [V.subst, if_pos hq] at hve
        cases hve
        exact absurd rfl hsn
      · rw [V.subst, if_neg hq] at hve
        cases hve
        exact hv
    | const k => simp [V.subst] at hve
    | blockAddr b => simp [V.subst] at hve
  · intro h
    refine List.mem_map.mpr ⟨V.reg s, h, ?_⟩
    simp [V.subst, hso]

theorem getBlock_map (bs : List BB) (g : BB → BB) (j : Nat)
    (hg : ∀ B, (g B).id = B.id) :
    getBlock (bs.map g) j = (getBlock bs j).map g := by
  induction bs with
  | nil => rfl
  | cons A rest ih =>
    rw [List.map_cons, getBlock_cons, getBlock_cons]
    by_cases h : A.id = j
    · rw [if_pos (by rw [hg]; exact h), if_pos h]
      rfl
    · rw [if_neg (by rw [hg]; exact h), if_neg h]
      exact ih

theorem getBlock_rauw (bs : List BB) (o n j : Nat) :
    getBlock (rauw bs o n) j = (getBlock bs j).map (BB.substB o n) :=
  getBlock_map bs _ j (fun B => rfl)

theorem ids_rauw (bs : List BB) (o n : Nat) :
    (rauw bs o n).map BB.id = bs.map BB.id := by
  unfold rauw
  rw [List.map_map]
  rfl

theorem filtmap_map_eq (r bid : Nat) (l : List Instr) (g' : Instr → Instr)
    (h : ∀ ins ∈ l, (g' ins).iid = ins.iid ∧
      ((g' ins).opnds.contains (V.reg r) = ins.opnds.contains (V.reg r))) :
    ((l.map g').filter fun ins => ins.opnds.contains (V.reg r)).map
        (fun ins => UserRef.instrU ins.iid bid)
      = (l.filter fun ins => ins.opnds.contains (V.reg r)).map
        (fun ins => UserRef.instrU ins.iid bid) := by
  induction l with
  | nil => rfl
  | cons ins rest ih =>
    have hh := h ins (List.mem_cons_self ins rest)
    have hrest : ∀ i ∈ rest, (g' i).iid = i.iid ∧
        ((g' i).opnds.contains (V.reg r) = i.opnds.contains (V.reg r)) :=
      fun i hi => h i (List.mem_cons_of_mem ins hi)
    rw [List.map_cons, List.filter_cons, List.filter_cons]
    by_cases hc : ins.opnds.contains (V.reg r) = true
    · rw [if_pos (by rw [hh.2]; exact hc), if_pos hc]
      rw [List.map_cons, List.map_cons, hh.1, ih hrest]
    · rw [if_neg (by rw [hh.2]; exact hc), if_neg hc]
      exact ih hrest

/-- The per-block user contribution only depends on instruction identity
and operand membership, so any instruction rewrite preserving those keeps
the use list unchanged. -/
theorem ublock_insts_map (r : Nat) (B : BB) (g' : Instr → Instr)
    (h : ∀ ins ∈ B.insts, (g' ins).iid = ins.iid ∧
      ((g' ins).opnds.contains (V.reg r) = ins.opnds.contains (V.reg r))) :
    ublock r { B with insts := B.insts.map g' } = ublock r B := by
  unfold ublock
  rw [filtmap_map_eq r B.id B.insts g' h]

theorem ublock_insts_append (r : Nat) (B : BB) (l : List Instr)
    (h : ∀ ins ∈ l, ins.opnds.contains (V.reg r) = false) :
    ublock r { B with insts := B.insts ++ l } = ublock r B := by
  unfold ublock
  rw [List.filter_append]
  have hnil : l.filter (fun ins => ins.opnds.contains (V.reg r)) = [] :=
    List.filter_eq_nil_iff.mpr
      (fun ins hi => by rw [h ins hi]; exact Bool.false_ne_true)
  rw [hnil, List.append_nil]

theorem ublock_insts_prepend (r : Nat) (B : BB) (ins : Instr)
    (h : ins.opnds.contains (V.reg r) = false) :
    ublock r { B with insts := ins :: B.insts } = ublock r B := by
  unfold ublock
  rw [List.filter_cons, if_neg (by rw [h]; exact Bool.false_ne_true)]

theorem filter_filter_sub {α : Type} (l : List α) (p q : α → Bool)
    (h : ∀ x ∈ l, q x = true → p x = true) :
    (l.filter p).filter q = l.filter q := by
  induction l with
  | nil => rfl
  | cons x rest ih =>
    have hrest : ∀ y ∈ rest, q y = true → p y = true :=
      fun y hy => h y (List.mem_cons_of_mem x hy)
    rw [List.filter_cons]
    by_cases hp : p x = true
    · rw [if_pos hp, List.filter_cons, List.filter_cons, ih hrest]
    · have hq : ¬ q x = true := fun hqx => hp (h x (List.mem_cons_self x rest) hqx)
      rw [if_neg hp, List.filter_cons, if_neg hq, ih hrest]

theorem ublock_insts_filter (r : Nat) (B : BB) (p : Instr → Bool)
    (h : ∀ ins ∈ B.insts, ins.opnds.contains (V.reg r) = true → p ins = true) :
    ublock r { B with insts := B.insts.filter p } = ublock r B := by
  unfold ublock
  rw [filter_filter_sub B.insts p _ h]

theorem ublock_term (r : Nat) (B : BB) (t : Term)
    (h : t.opnds.contains (V.reg r) = B.term.opnds.contains (V.reg r)) :
    ublock r { B with term := t } = ublock r B := by
  unfold ublock
  rw [h]

theorem contains_map_subst (o n s : Nat) (hso : s ≠ o) (hsn : s ≠ n)
    (vs : List V) :
    (vs.map (V.subst o n)).contains (V.reg s) = vs.contains (V.reg s) := by
  induction vs with
  | nil => rfl
  | cons v rest ih =>
    rw [List.map_cons, List.contains_cons, List.contains_cons, ih]
    congr 1
    cases v with
    | reg q =>
      by_cases hq : q = o
      · rw [V.subst, if_pos hq]
        subst hq
        have h1 : (V.reg s == V.reg n) = false := by
          simp [hsn]
        have h2 : (V.reg s == V.reg q) = false := by
          simp [hso]
        rw [h1, h2]
      · rw [V.subst, if_neg hq]
    | const k => rfl
    | blockAddr b => rfl

theorem contains_append_bool {α : Type} [BEq α] (l1 l2 : List α) (a : α) :
    (l1 ++ l2).contains a = (l1.contains a || l2.contains a) := by
  induction l1 with
  | nil => simp
  | cons x rest ih => simp [List.contains_cons, ih, Bool.or_assoc]

theorem Instr_addInc_iid (p : Nat) (inc : V × Nat) (ins : Instr) :
    (Instr.addInc p inc ins).iid = ins.iid := by
  cases ins with
  | phi q incs =>
    by_cases hq : q = p
    · rw [Instr.addInc, if_pos hq]
      rfl
    · rw [Instr.addInc, if_neg hq]
  | _ => rfl

theorem Instr_addInc_contains (p s : Nat) (inc : V × Nat) (ins : Instr)
    (h : (inc.1 == V.reg s) = false) :
    (Instr.addInc p inc ins).opnds.contains (V.reg s)
      = ins.opnds.contains (V.reg s) := by
  cases ins with
  | phi q incs =>
    by_cases hq : q = p
    · rw [Instr.addInc, if_pos hq]
      simp only [Instr.opnds, List.map_append, List.map_cons, List.map_nil]
      rw [contains_append_bool]
      have hx : ([inc.1] : List V).contains (V.reg s) = false := by
        rw [List.contains_cons]
        have hin : (V.reg s == inc.1) = false := by
          cases hb : (V.reg s == inc.1)
          · rfl
          · rw [beq_iff_eq] at hb
            rw [hb] at h
            simp at h
        rw [hin]
        rfl
      rw [hx, Bool.or_false]
    · rw [Instr.addInc, if_neg hq]
  | _ => rfl

theorem userRefs_modify (bs : List BB) (i s : Nat) (f : BB → BB)
    (h : ∀ B ∈ bs, ublock s (f B) = ublock s B) :
    userRefs (modifyBlock bs i f) s = userRefs bs s := by
  unfold modifyBlock
  refine userRefs_map_eq bs _ s (fun B hB => ?_)
  by_cases hid : B.id = i
  · rw [if_pos hid]
    exact h B hB
  · rw [if_neg hid]

theorem userRefs_prependInst (bs : List BB) (i : Nat) (ins : Instr) (s : Nat)
    (h : ins.opnds.contains (V.reg s) = false) :
    userRefs (prependInst bs i ins) s = userRefs bs s :=
  userRefs_modify bs i s _ (fun B _ => ublock_insts_prepend s B ins h)

theorem userRefs_appendInst (bs : List BB) (i : Nat) (ins : Instr) (s : Nat)
    (h : ins.opnds.contains (V.reg s) = false) :
    userRefs (appendInst bs i ins) s = userRefs bs s :=
  userRefs_modify bs i s _ (fun B _ => ublock_insts_append s B [ins]
    (fun ins' hi => by rw [List.mem_singleton] at hi; rw [hi]; exact h))

theorem userRefs_addIncoming (bs : List BB) (blk p : Nat) (inc : V × Nat)
    (s : Nat) (h : (inc.1 == V.reg s) = false) :
    userRefs (addIncomingPhi bs blk p inc) s = userRefs bs s :=
  userRefs_modify bs blk s _ (fun B _ => ublock_insts_map s B _
    (fun ins _ => ⟨Instr_addInc_iid p inc ins, Instr_addInc_contains p s inc ins h⟩))

theorem userRefs_replaceUsesIn (bs : List BB) (u : UserRef) (o n s : Nat)
    (hso : s ≠ o) (hsn : s ≠ n) :
    userRefs (replaceUsesIn bs u o n) s = userRefs bs s := by
  cases u with
  | instrU ui ub =>
    refine userRefs_modify bs ub s _ (fun B _ => ublock_insts_map s B _
      (fun ins _ => ?_))
    by_cases hii : ins.iid = ui
    · rw [if_pos hii]
      exact ⟨Instr_subst_iid o n ins, by
        rw [Instr_subst_opnds, contains_map_subst o n s hso hsn]⟩
    · rw [if_neg hii]
      exact ⟨rfl, rfl⟩
  | termU ub =>
    refine userRefs_modify bs ub s _ (fun B _ => ublock_term s B _ ?_)
    rw [Term_subst_opnds, contains_map_subst o n s hso hsn]

theorem userRefs_replaceFold (users : List UserRef) (bs : List BB)
    (o n s : Nat) (hso : s ≠ o) (hsn : s ≠ n) :
    userRefs (users.foldl (fun b u => replaceUsesIn b u o n) bs) s
      = userRefs bs s := by
  induction users generalizing bs with
  | nil => rfl
  | cons u rest ih =>
    rw [List.foldl_cons, ih, userRefs_replaceUsesIn bs u o n s hso hsn]

theorem ublock_substB (o n s : Nat) (hso : s ≠ o) (hsn : s ≠ n) (B : BB) :
    ublock s (BB.substB o n B) = ublock s B := by
  unfold BB.substB ublock
  rw [filtmap_map_eq s B.id B.insts _
    (fun ins _ => ⟨Instr_subst_iid o n ins, by
      rw [Instr_subst_opnds, contains_map_subst o n s hso hsn]⟩)]
  rw [Term_subst_opnds, contains_map_subst o n s hso hsn]

theorem userRefs_rauw (bs : List BB) (o n s : Nat) (hso : s ≠ o)
    (hsn : s ≠ n) : userRefs (rauw bs o n) s = userRefs bs s := by
  unfold rauw
  exact userRefs_map_eq bs _ s (fun B _ => ublock_substB o n s hso hsn B)

theorem userRefs_eraseInst (bs : List BB) (blk p s : Nat)
    (h : ∀ B ∈ bs, ∀ ins ∈ B.insts,
      ins.opnds.contains (V.reg s) = true → ins.iid ≠ p) :
    userRefs (eraseInst bs blk p) s = userRefs bs s := by
  refine userRefs_modify bs blk s _ (fun B hB => ublock_insts_filter s B _
    (fun ins hins hc => ?_))
  have := h B hB ins hins hc
  simpa using this

theorem filter_placeReload (p : Instr → Bool) (ld : Instr) (l : List Instr)
    (h : p ld = false) : (placeReload ld l).filter p = l.filter p := by
  induction l with
  | nil => simp [placeReload, List.filter_cons, h]
  | cons x rest ih =>
    rw [placeReload]
    by_cases hx : x.isPhi = true
    · rw [if_pos hx, List.filter_cons, List.filter_cons]
      by_cases hp : p x = true
      · rw [if_pos hp, if_pos hp, ih]
      · rw [if_neg hp, if_neg hp, ih]
    · rw [if_neg hx, List.filter_cons, if_neg (by rw [h]; exact Bool.false_ne_true)]

theorem filter_insertReload (p : Instr → Bool) (ld : Instr) (pr : Nat)
    (l : List Instr) (h : p ld = false) :
    (insertReload ld pr l).filter p = l.filter p := by
  induction l with
  | nil => rfl
  | cons x rest ih =>
    rw [insertReload]
    by_cases hx : x.iid = pr
    · rw [if_pos hx, List.filter_cons, List.filter_cons]
      by_cases hp : p x = true
      · rw [if_pos hp, if_pos hp, filter_placeReload p ld rest h]
      · rw [if_neg hp, if_neg hp, filter_placeReload p ld rest h]
    · rw [if_neg hx, List.filter_cons, List.filter_cons]
      by_cases hp : p x = true
      · rw [if_pos hp, if_pos hp, ih]
      · rw [if_neg hp, if_neg hp, ih]

theorem ublock_insts_insertReload (s : Nat) (B : BB) (ld : Instr) (pr : Nat)
    (h : ld.opnds.contains (V.reg s) = false) :
    ublock s { B with insts := insertReload ld pr B.insts } = ublock s B := by
  unfold ublock
  rw [filter_insertReload _ ld pr B.insts (by rw [h])]

theorem mem_opnds_idents (ins : Instr) (q : Nat)
    (h : V.reg q ∈ ins.opnds) : q ∈ ins.idents := by
  rw [Instr.idents]
  refine List.mem_cons_of_mem _ (List.mem_append.mpr (Or.inl ?_))
  rw [List.mem_flatMap]
  exact ⟨V.reg q, h, by simp [V.idents]⟩

theorem mem_term_opnds_idents (t : Term) (q : Nat)
    (h : V.reg q ∈ t.opnds) : q ∈ t.idents := by
  rw [Term.idents]
  refine List.mem_append.mpr (Or.inl (List.mem_append.mpr (Or.inr ?_)))
  rw [List.mem_flatMap]
  exact ⟨V.reg q, h, by simp [V.idents]⟩

theorem not_mem_opnds_of_bound {ins : Instr} {c q : Nat}
    (h : ∀ m ∈ ins.idents, m < c) (hq : c ≤ q) : V.reg q ∉ ins.opnds :=
  fun hm => absurd (h q (mem_opnds_idents ins q hm)) (not_lt.mpr hq)

theorem not_mem_term_opnds_of_bound {t : Term} {c q : Nat}
    (h : ∀ m ∈ t.idents, m < c) (hq : c ≤ q) : V.reg q ∉ t.opnds :=
  fun hm => absurd (h q (mem_term_opnds_idents t q hm)) (not_lt.mpr hq)

theorem addInc_map_eq_self (p : Nat) (inc : V × Nat) (l : List Instr)
    (h : ∀ ins ∈ l, ins.isPhi = true → ins.iid ≠ p) :
    l.map (Instr.addInc p inc) = l := by
  induction l with
  | nil => rfl
  | cons ins rest ih =>
    rw [List.map_cons, ih (fun i hi => h i (List.mem_cons_of_mem ins hi))]
    congr 1
    cases ins with
    | phi q incs =>
      have hq : q ≠ p := h _ (List.mem_cons_self _ rest) rfl
      rw [Instr.addInc, if_neg hq]
    | _ => rfl

theorem map_instr_subst_eq_self (o n : Nat) (l : List Instr)
    (h : ∀ ins ∈ l, V.reg o ∉ ins.opnds) :
    l.map (Instr.subst o n) = l := by
  induction l with
  | nil => rfl
  | cons ins rest ih =>
    rw [List.map_cons, Instr_subst_eq_self o n ins (h ins (List.mem_cons_self _ _)),
      ih (fun i hi => h i (List.mem_cons_of_mem ins hi))]

theorem placeReload_nonphi (ld : Instr) (x : Instr) (xs : List Instr)
    (hx : x.isPhi = false) : placeReload ld (x :: xs) = ld :: x :: xs := by
  rw [placeReload, if_neg (by rw [hx]; exact Bool.false_ne_true)]

theorem find_phi_head (B : BB) (p : Nat) (incs : List (V × Nat))
    (restl : List Instr) (hins : B.insts = .phi p incs :: restl) :
    (B.insts.find? fun ins =>
        match ins with | .phi r _ => r = p | _ => false)
      = some (.phi p incs) := by
  rw [hins]
  exact List.find?_cons_of_pos _ (by simp)

/-- The demotion of a freshly created repair phi (single incoming value
`r` from `blk`, located in the jump block), written as its explicit
surgery chain. -/
theorem Demote_repair_eq (bs : List BB) (ctr e jb p r blk : Nat) (B : BB)
    (restl : List Instr) (hJ : getBlock bs jb = some B)
    (hins : B.insts = .phi p [(V.reg r, blk)] :: restl) :
    DemotePHIToStack bs ctr e jb p =
      (eraseInst
        (rauw
          (modifyBlock
            (appendInst (prependInst bs e (.alloca ctr (V.const 1))) blk
              (.store (ctr + 1) (V.reg r) (V.reg ctr)))
            jb (fun B2 =>
              { B2 with insts :=
                  insertReload (.load (ctr + 2) (V.reg ctr)) p B2.insts }))
          p (ctr + 2))
        jb p, ctr + 3) := by
  unfold DemotePHIToStack
  rw [hJ]
  simp only [Option.some_bind]
  rw [find_phi_head B p _ _ hins]
  rfl

theorem BlkLike.refl (B : BB) : BlkLike B B := ⟨rfl, rfl, rfl, rfl⟩

theorem BlkLike.trans {A B C : BB} (h1 : BlkLike A B) (h2 : BlkLike B C) :
    BlkLike A C :=
  ⟨h2.1.trans h1.1, h2.2.1.trans h1.2.1, h2.2.2.1.trans h1.2.2.1,
    h2.2.2.2.trans h1.2.2.2⟩

theorem BlkLike_substB (o n : Nat) (B : BB) : BlkLike B (BB.substB o n B) := by
  refine ⟨rfl, rfl, Term_subst_skel o n B.term, ?_⟩
  rw [BB.substB]
  simp only [List.map_map]
  exact List.map_congr_left (fun ins _ => Instr_subst_iid o n ins)

theorem BlkLike_substInstr (ui o n : Nat) (B : BB) :
    BlkLike B { B with insts := B.insts.map fun ins =>
        if ins.iid = ui then ins.subst o n else ins } := by
  refine ⟨rfl, rfl, rfl, ?_⟩
  simp only [List.map_map]
  refine List.map_congr_left (fun ins _ => ?_)
  by_cases hii : ins.iid = ui
  · simp only [Function.comp]
    rw [if_pos hii, Instr_subst_iid]
  · simp only [Function.comp]
    rw [if_neg hii]

theorem getBlock_modify_like (bs : List BB) (i b2 : Nat) (f : BB → BB)
    (hf : ∀ B, (f B).id = B.id) (hlike : ∀ B, BlkLike B (f B)) (B : BB)
    (h : getBlock bs b2 = some B) :
    ∃ B', getBlock (modifyBlock bs i f) b2 = some B' ∧ BlkLike B B' := by
  by_cases hb : b2 = i
  · subst hb
    rw [getBlock_modify_self bs b2 f hf, h]
    exact ⟨f B, rfl, hlike B⟩
  · rw [getBlock_modify_ne bs i b2 f hf hb, h]
    exact ⟨B, rfl, BlkLike.refl B⟩

theorem getBlock_replaceUsesIn_like (bs : List BB) (u : UserRef) (o n b2 : Nat)
    (B : BB) (h : getBlock bs b2 = some B) :
    ∃ B', getBlock (replaceUsesIn bs u o n) b2 = some B' ∧ BlkLike B B' := by
  cases u with
  | instrU ui ub =>
    rw [replaceUsesIn]
    exact getBlock_modify_like bs ub b2
      (fun B2 => { B2 with insts := B2.insts.map fun ins =>
          if ins.iid = ui then ins.subst o n else ins })
      (fun B2 => rfl) (fun B2 => BlkLike_substInstr ui o n B2) B h
  | termU ub =>
    rw [replaceUsesIn]
    exact getBlock_modify_like bs ub b2
      (fun B2 => { B2 with term := B2.term.subst o n })
      (fun B2 => rfl)
      (fun B2 => ⟨rfl, rfl, Term_subst_skel o n B2.term, rfl⟩) B h

theorem getBlock_replaceFold_like (users : List UserRef) (bs : List BB)
    (o n b2 : Nat) (B : BB) (h : getBlock bs b2 = some B) :
    ∃ B', getBlock (users.foldl (fun b u => replaceUsesIn b u o n) bs) b2
      = some B' ∧ BlkLike B B' := by
  induction users generalizing bs B with
  | nil => exact ⟨B, h, BlkLike.refl B⟩
  | cons u rest ih =>
    rw [List.foldl_cons]
    obtain ⟨B1, hB1, hL1⟩ := getBlock_replaceUsesIn_like bs u o n b2 B h
    obtain ⟨B2, hB2, hL2⟩ := ih _ B1 hB1
    exact ⟨B2, hB2, hL1.trans hL2⟩

theorem getBlock_rauw_like (bs : List BB) (o n b2 : Nat) (B : BB)
    (h : getBlock bs b2 = some B) :
    ∃ B', getBlock (rauw bs o n) b2 = some B' ∧ BlkLike B B' := by
  rw [getBlock_rauw, h]
  exact ⟨_, rfl, BlkLike_substB o n B⟩

/-! Convenience instances of the modify lemmas for each operation. -/

theorem getBlock_appendInst_self (bs : List BB) (i : Nat) (ins : Instr) :
    getBlock (appendInst bs i ins) i
      = (getBlock bs i).map fun B => { B with insts := B.insts ++ [ins] } :=
  getBlock_modify_self bs i _ (fun B => rfl)

theorem getBlock_appendInst_ne (bs : List BB) (i j : Nat) (ins : Instr)
    (h : j ≠ i) : getBlock (appendInst bs i ins) j = getBlock bs j :=
  getBlock_modify_ne bs i j _ (fun B => rfl) h

theorem getBlock_prependInst_self (bs : List BB) (i : Nat) (ins : Instr) :
    getBlock (prependInst bs i ins) i
      = (getBlock bs i).map fun B => { B with insts := ins :: B.insts } :=
  getBlock_modify_self bs i _ (fun B => rfl)

theorem getBlock_prependInst_ne (bs : List BB) (i j : Nat) (ins : Instr)
    (h : j ≠ i) : getBlock (prependInst bs i ins) j = getBlock bs j :=
  getBlock_modify_ne bs i j _ (fun B => rfl) h

theorem getBlock_setTerm_self (bs : List BB) (i : Nat) (t : Term) :
    getBlock (setTerm bs i t) i
      = (getBlock bs i).map fun B => { B with term := t } :=
  getBlock_modify_self bs i _ (fun B => rfl)

theorem getBlock_setTerm_ne (bs : List BB) (i j : Nat) (t : Term)
    (h : j ≠ i) : getBlock (setTerm bs i t) j = getBlock bs j :=
  getBlock_modify_ne bs i j _ (fun B => rfl) h

theorem getBlock_addIncoming_self (bs : List BB) (blk p : Nat)
    (inc : V × Nat) :
    getBlock (addIncomingPhi bs blk p inc) blk
      = (getBlock bs blk).map fun B =>
          { B with insts := B.insts.map (Instr.addInc p inc) } :=
  getBlock_modify_self bs blk _ (fun B => rfl)

theorem getBlock_addIncoming_ne (bs : List BB) (blk p j : Nat)
    (inc : V × Nat) (h : j ≠ blk) :
    getBlock (addIncomingPhi bs blk p inc) j = getBlock bs j :=
  getBlock_modify_ne bs blk j _ (fun B => rfl) h

theorem getBlock_eraseInst_self (bs : List BB) (blk p : Nat) :
    getBlock (eraseInst bs blk p) blk
      = (getBlock bs blk).map fun B =>
          { B with insts := B.insts.filter fun ins => ins.iid ≠ p } :=
  getBlock_modify_self bs blk _ (fun B => rfl)

theorem getBlock_eraseInst_ne (bs : List BB) (blk p j : Nat) (h : j ≠ blk) :
    getBlock (eraseInst bs blk p) j = getBlock bs j :=
  getBlock_modify_ne bs blk j _ (fun B => rfl) h

theorem ids_appendInst (bs : List BB) (i : Nat) (ins : Instr) :
    (appendInst bs i ins).map BB.id = bs.map BB.id :=
  ids_modify bs i _ (fun B => rfl)

theorem ids_prependInst (bs : List BB) (i : Nat) (ins : Instr) :
    (prependInst bs i ins).map BB.id = bs.map BB.id :=
  ids_modify bs i _ (fun B => rfl)

theorem ids_setTerm (bs : List BB) (i : Nat) (t : Term) :
    (setTerm bs i t).map BB.id = bs.map BB.id :=
  ids_modify bs i _ (fun B => rfl)

theorem ids_addIncoming (bs : List BB) (blk p : Nat) (inc : V × Nat) :
    (addIncomingPhi bs blk p inc).map BB.id = bs.map BB.id :=
  ids_modify bs blk _ (fun B => rfl)

theorem ids_eraseInst (bs : List BB) (blk p : Nat) :
    (eraseInst bs blk p).map BB.id = bs.map BB.id :=
  ids_modify bs blk _ (fun B => rfl)

theorem mem_placeReload (ld x : Instr) (l : List Instr)
    (h : x ∈ placeReload ld l) : x = ld ∨ x ∈ l := by
  induction l with
  | nil => simpa [placeReload] using h
  | cons y rest ih =>
    rw [placeReload] at h
    by_cases hy : y.isPhi = true
    · rw [if_pos hy] at h
      rcases List.mem_cons.mp h with h1 | h1
      · exact Or.inr (h1 ▸ List.mem_cons_self y rest)
      · rcases ih h1 with h2 | h2
        · exact Or.inl h2
        · exact Or.inr (List.mem_cons_of_mem y h2)
    · rw [if_neg hy] at h
      rcases List.mem_cons.mp h with h1 | h1
      · exact Or.inl h1
      · exact Or.inr h1

theorem mem_insertReload (ld : Instr) (p : Nat) (x : Instr) (l : List Instr)
    (h : x ∈ insertReload ld p l) : x = ld ∨ x ∈ l := by
  induction l with
  | nil => simpa [insertReload] using h
  | cons y rest ih =>
    rw [insertReload] at h
    by_cases hy : y.iid = p
    · rw [if_pos hy] at h
      rcases List.mem_cons.mp h with h1 | h1
      · exact Or.inr (h1 ▸ List.mem_cons_self y rest)
      · rcases mem_placeReload ld x rest h1 with h2 | h2
        · exact Or.inl h2
        · exact Or.inr (List.mem_cons_of_mem y h2)
    · rw [if_neg hy] at h
      rcases List.mem_cons.mp h with h1 | h1
      · exact Or.inr (h1 ▸ List.mem_cons_self y rest)
      · rcases ih h1 with h2 | h2
        · exact Or.inl h2
        · exact Or.inr (List.mem_cons_of_mem y h2)

theorem IdBound_insertReload {c : Nat} {bs : List BB} (h : IdBound c bs)
    (jb p : Nat) {ld : Instr} (hld : ∀ m ∈ ld.idents, m < c) :
    IdBound c (modifyBlock bs jb fun B =>
      { B with insts := insertReload ld p B.insts }) := by
  refine IdBound_modify h jb _ ?_
  intro B hB
  refine idents_set_insts hB ?_
  intro ins' hins' m hm
  rcases mem_insertReload ld p ins' B.insts hins' with h1 | h1
  · exact hld m (h1 ▸ hm)
  · exact hB m (mem_idents_insts h1 hm)

theorem userRefs_complete (bs : List BB) (r : Nat) (B : BB) (hB : B ∈ bs)
    (ins : Instr) (hins : ins ∈ B.insts)
    (h : ins.opnds.contains (V.reg r) = true) :
    UserRef.instrU ins.iid B.id ∈ userRefs bs r := by
  simp only [userRefs, List.mem_flatMap]
  refine ⟨B, hB, List.mem_append.mpr (Or.inl ?_)⟩
  exact List.mem_map.mpr ⟨ins, List.mem_filter.mpr ⟨hins, h⟩, rfl⟩

theorem contains_of_mem {vs : List V} {v : V} (h : v ∈ vs) :
    vs.contains v = true := by
  simpa using h

theorem contains_false_of_not_mem {vs : List V} {v : V} (h : v ∉ vs) :
    vs.contains v = false := by
  cases hc : vs.contains v
  · rfl
  · exact absurd (by simpa using hc) h

theorem mem_ids_idents (bs : List BB) (b : Nat) (h : b ∈ bs.map BB.id) :
    b ∈ identsOf bs := by
  obtain ⟨B, hB, hBe⟩ := List.mem_map.mp h
  exact (mem_identsOf b bs).mpr ⟨B, hB, hBe ▸ mem_idents_id B⟩

theorem ids_insertReload (bs : List BB) (jb p : Nat) (ld : Instr) :
    (modifyBlock bs jb fun B =>
        { B with insts := insertReload ld p B.insts }).map BB.id
      = bs.map BB.id :=
  ids_modify bs jb _ (fun B => rfl)

theorem substB_eq_self (o n : Nat) (B : BB)
    (hi : ∀ ins ∈ B.insts, V.reg o ∉ ins.opnds)
    (ht : V.reg o ∉ B.term.opnds) : BB.substB o n B = B := by
  cases B with
  | mk bid lp insts term =>
    unfold BB.substB
    simp only [BB.mk.injEq, true_and]
    exact ⟨map_instr_subst_eq_self o n insts hi, Term_subst_eq_self o n term ht⟩

theorem mem_insts_replaceFold (users : List UserRef) (bs : List BB)
    (o n e : Nat) (ins : Instr) (EB : BB) (h : getBlock bs e = some EB)
    (hins : ins ∈ EB.insts) (hsafe : V.reg o ∉ ins.opnds) :
    ∃ EB', getBlock (users.foldl (fun b u => replaceUsesIn b u o n) bs) e
      = some EB' ∧ ins ∈ EB'.insts ∧ EB'.term.skel = EB.term.skel := by
  induction users generalizing bs EB with
  | nil => exact ⟨EB, h, hins, rfl⟩
  | cons u rest ih =>
    rw [List.foldl_cons]
    have step : ∃ EB1, getBlock (replaceUsesIn bs u o n) e = some EB1
        ∧ ins ∈ EB1.insts ∧ EB1.term.skel = EB.term.skel := by
      cases u with
      | instrU ui ub =>
        by_cases hb : e = ub
        · rw [hb] at h ⊢
          rw [replaceUsesIn,
            getBlock_modify_self bs ub
              (fun B2 => { B2 with insts := B2.insts.map fun ins2 =>
                if ins2.iid = ui then ins2.subst o n else ins2 })
              (fun B2 => rfl), h]
          refine ⟨_, rfl, ?_, rfl⟩
          refine List.mem_map.mpr ⟨ins, hins, ?_⟩
          by_cases hii : ins.iid = ui
          · rw [if_pos hii, Instr_subst_eq_self o n ins hsafe]
          · rw [if_neg hii]
        · rw [replaceUsesIn,
            getBlock_modify_ne bs ub e
              (fun B2 => { B2 with insts := B2.insts.map fun ins2 =>
                if ins2.iid = ui then ins2.subst o n else ins2 })
              (fun B2 => rfl) hb, h]
          exact ⟨EB, rfl, hins, rfl⟩
      | termU ub =>
        by_cases hb : e = ub
        · rw [hb] at h ⊢
          rw [replaceUsesIn,
            getBlock_modify_self bs ub
              (fun B2 => { B2 with term := B2.term.subst o n })
              (fun B2 => rfl), h]
          exact ⟨_, rfl, hins, Term_subst_skel o n EB.term⟩
        · rw [replaceUsesIn,
            getBlock_modify_ne bs ub e
              (fun B2 => { B2 with term := B2.term.subst o n })
              (fun B2 => rfl) hb, h]
          exact ⟨EB, rfl, hins, rfl⟩
    obtain ⟨EB1, hEB1, hins1, hskel1⟩ := step
    obtain ⟨EB2, hEB2, hins2, hskel2⟩ := ih _ EB1 hEB1 hins1
    exact ⟨EB2, hEB2, hins2, hskel2.trans hskel1⟩

theorem handleValue_nousers (e jb jIdx : Nat) (st : List BB × Nat)
    (blk r : Nat)
    (hnone : ∀ u ∈ userRefs st.1 r, u.blk ≠ jb)
    (hemp : (userRefs st.1 r).filter (fun u => u.blk ≠ blk) = []) :
    handleValue e jb jIdx st blk r = st := by
  unfold handleValue
  rw [scanUsers_no_jb st.1 jb jIdx blk r hnone]
  have hx : ¬ ∃ x ∈ userRefs st.1 r, ¬x.blk = blk := by
    rw [List.filter_eq_nil_iff] at hemp
    rintro ⟨x, hx1, hx2⟩
    exact hemp x hx1 (decide_eq_true hx2)
  simp [hx]

theorem userRefs_eraseInst_singleton (bs : List BB) (jb jIdx p s : Nat)
    (hs : userRefs bs s = [.instrU jIdx jb]) (hne : jIdx ≠ p) :
    userRefs (eraseInst bs jb p) s = userRefs bs s := by
  refine userRefs_eraseInst bs jb p s ?_
  intro B hB ins hins hc he
  have hmem : UserRef.instrU ins.iid B.id ∈ userRefs bs s :=
    userRefs_complete bs s B hB ins hins hc
  rw [hs, List.mem_singleton] at hmem
  injection hmem with h1 h2
  exact hne (h1.symm.trans he)

theorem placeReload_phi (ld x : Instr) (xs : List Instr)
    (hx : x.isPhi = true) : placeReload ld (x :: xs) = x :: placeReload ld xs := by
  simp only [placeReload]
  rw [if_pos hx]

theorem insertReload_cons_pos (ld : Instr) (pr : Nat) (x : Instr)
    (xs : List Instr) (hx : x.iid = pr) :
    insertReload ld pr (x :: xs) = x :: placeReload ld xs := by
  simp only [insertReload]
  rw [if_pos hx]

theorem placeReload_loads (ld g : Instr) (loads : List Instr)
    (hg : g.isPhi = false) (hl : ∀ x ∈ loads, x.isPhi = false) :
    placeReload ld (loads ++ [g]) = ld :: (loads ++ [g]) := by
  cases loads with
  | nil =>
    rw [List.nil_append, placeReload_nonphi ld g [] hg]
  | cons l0 ls =>
    rw [List.cons_append,
      placeReload_nonphi ld l0 (ls ++ [g]) (hl l0 (List.mem_cons_self _ _))]

theorem filter_ne_cons_skip (p : Nat) (x : Instr) (l : List Instr)
    (hx : x.iid = p) :
    List.filter (fun ins => decide (ins.iid ≠ p)) (x :: l)
      = List.filter (fun ins => decide (ins.iid ≠ p)) l := by
  simp [List.filter_cons, hx]

theorem filter_ne_cons_keep (p : Nat) (x : Instr) (l : List Instr)
    (hx : x.iid ≠ p) :
    List.filter (fun ins => decide (ins.iid ≠ p)) (x :: l)
      = x :: List.filter (fun ins => decide (ins.iid ≠ p)) l := by
  simp [List.filter_cons, hx]

/-- The use list of an untouched old value survives the whole surgery
chain of one acting repair step. -/
theorem userRefs_repair_chain (bs : List BB) (e jb jIdx p r blk s ctr : Nat)
    (users : List UserRef) (hsr : s ≠ r) (hsp : s < p) (hpc : p < ctr)
    (hjIdx : jIdx ≠ p)
    (hsng : userRefs bs s = [.instrU jIdx jb]) :
    userRefs (eraseInst (rauw (modifyBlock (appendInst (prependInst
        (users.foldl (fun b u => replaceUsesIn b u r p)
          (addIncomingPhi (prependInst bs jb (.phi p [])) jb p (V.reg r, blk)))
        e (.alloca ctr (V.const 1)))
        blk (.store (ctr + 1) (V.reg r) (V.reg ctr)))
        jb (fun B2 =>
          { B2 with insts :=
              insertReload (.load (ctr + 2) (V.reg ctr)) p B2.insts }))
        p (ctr + 2)) jb p) s
      = [.instrU jIdx jb] := by
  have c0 : (Instr.phi p []).opnds.contains (V.reg s) = false := rfl
  have c1 : (V.reg r == V.reg s) = false := by
    show decide (V.reg r = V.reg s) = false
    exact decide_eq_false fun he => hsr (by injection he with h3; exact h3.symm)
  have c2 : (Instr.alloca ctr (V.const 1)).opnds.contains (V.reg s) = false :=
    contains_false_of_not_mem (by simp [Instr.opnds])
  have c3 : (Instr.store (ctr + 1) (V.reg r) (V.reg ctr)).opnds.contains
      (V.reg s) = false := by
    refine contains_false_of_not_mem ?_
    simp only [Instr.opnds, List.mem_cons, List.mem_singleton, V.reg.injEq,
      List.not_mem_nil, or_false, not_or]
    omega
  have c4 : (Instr.load (ctr + 2) (V.reg ctr)).opnds.contains (V.reg s)
      = false := by
    refine contains_false_of_not_mem ?_
    simp only [Instr.opnds, List.mem_cons, List.mem_singleton, V.reg.injEq,
      List.not_mem_nil, or_false]
    omega
  have hinner : userRefs (rauw (modifyBlock (appendInst (prependInst
      (users.foldl (fun b u => replaceUsesIn b u r p)
        (addIncomingPhi (prependInst bs jb (.phi p [])) jb p (V.reg r, blk)))
      e (.alloca ctr (V.const 1)))
      blk (.store (ctr + 1) (V.reg r) (V.reg ctr)))
      jb (fun B2 =>
        { B2 with insts :=
            insertReload (.load (ctr + 2) (V.reg ctr)) p B2.insts }))
      p (ctr + 2)) s = [.instrU jIdx jb] := by
    rw [userRefs_rauw _ _ _ _ (by omega) (by omega),
      userRefs_modify _ _ _ _
        (fun B _ => ublock_insts_insertReload s B _ p c4),
      userRefs_appendInst _ _ _ _ c3,
      userRefs_prependInst _ _ _ _ c2,
      userRefs_replaceFold _ _ _ _ _ hsr (by omega),
      userRefs_addIncoming _ _ _ _ _ c1,
      userRefs_prependInst _ _ _ _ c0,
      hsng]
  exact (userRefs_eraseInst_singleton _ jb jIdx p s hinner hjIdx).trans hinner

/-- Full effect of one repair step on a state satisfying the loop
hypotheses, for a value `r` defined before the dispatch apparatus was
built. -/
theorem handleValue_effects (cx : Ctx) (st : List BB × Nat) (blk r : Nat)
    (incs : List (V × Nat)) (loads : List Instr) (ds : List Nat)
    (H : HVHyp cx st blk incs loads ds) (hr : r < cx.jb) :
    HVRes cx st (handleValue cx.entryId cx.jb cx.jIdx st blk r) blk incs ds := by
  have hrIdx : r ≠ cx.jIdx := by rw [H.wf1]; omega
  have hrJt : r ≠ cx.jt := by rw [H.wf2]; omega
  have hrGa : r ≠ cx.ga := by rw [H.wf3]; omega
  have hjIdxlt : cx.jIdx < st.2 := by rw [H.wf1]; have := H.hctr; omega
  have hjtlt : cx.jt < st.2 := by rw [H.wf2]; have := H.hctr; omega
  have hgalt : cx.ga < st.2 := by rw [H.wf3]; have := H.hctr; omega
  have hjblt : cx.jb < st.2 := by have := H.hctr; omega
  have hnone : ∀ u ∈ userRefs st.1 r, u.blk ≠ cx.jb := by
    refine no_user_in_block st.1 r cx.jb _ H.nodup H.shape ?_ ?_
    · intro ins hins hmem
      rcases List.mem_cons.mp hins with h1 | h1
      · rw [h1] at hmem
        simp only [Instr.opnds, List.mem_map] at hmem
        obtain ⟨inc, hinc, hince⟩ := hmem
        rcases H.incsWF inc hinc with ⟨nn, hv⟩ | ⟨sg, hv, hsg, _, _⟩
        · rw [hv] at hince; cases hince
        · rw [hv] at hince
          injection hince with he
          omega
      · rcases List.mem_append.mp h1 with h2 | h2
        · obtain ⟨lr, slot, hl, hslot, _, _, _⟩ := H.loadsWF ins h2
          rw [hl] at hmem
          simp only [Instr.opnds, List.mem_singleton] at hmem
          injection hmem with he
          omega
        · rw [List.mem_singleton] at h2
          rw [h2] at hmem
          simp only [Instr.opnds, List.mem_cons, List.mem_singleton,
            V.reg.injEq, List.not_mem_nil, or_false] at hmem
          rcases hmem with he | he
          · exact hrJt he
          · exact hrIdx he
    · intro hmem
      simp only [Term.opnds, List.mem_singleton, V.reg.injEq] at hmem
      exact hrGa hmem
  by_cases hfe : (userRefs st.1 r).filter (fun u => u.blk ≠ blk) = []
  · rw [handleValue_nousers cx.entryId cx.jb cx.jIdx st blk r hnone hfe]
    refine ⟨rfl, le_rfl, H.bound, ⟨loads, H.shape, H.loadsWF⟩, H.incsWF,
      ?_, ?_, ?_, ?_⟩
    · exact fun b2 B _ _ _ h => ⟨B, h, BlkLike.refl B⟩
    · intro B h
      refine ⟨[], ?_, by intro a ha; cases ha⟩
      rw [List.append_nil]
      exact h
    · exact fun EB h => ⟨EB, h, rfl, rfl, fun ins hins _ => hins⟩
    · exact fun s _ h => h
  · rw [handleValue_acting cx.entryId cx.jb cx.jIdx st blk r hnone hfe]
    -- names for the intermediate states
    set users := (userRefs st.1 r).filter (fun u => u.blk ≠ blk) with husers
    have husers_jb : ∀ u ∈ users, u.blk ≠ cx.jb :=
      fun u hu => hnone u (List.mem_of_mem_filter hu)
    have husers_blk : ∀ u ∈ users, u.blk ≠ blk := by
      intro u hu
      rw [husers] at hu
      have h2 := List.of_mem_filter hu
      exact of_decide_eq_true h2
    -- the jump block after phi creation and incoming addition
    have hC0 : getBlock (addIncomingPhi
        (prependInst st.1 cx.jb (.phi st.2 [])) cx.jb st.2 (V.reg r, blk))
        cx.jb = some ⟨cx.jb, false,
          .phi st.2 [(V.reg r, blk)] :: (.phi cx.jIdx incs ::
            (loads ++ [.gep cx.ga (V.reg cx.jt) (V.reg cx.jIdx)])),
          .indirectBr (V.reg cx.ga) ds⟩ := by
      rw [getBlock_addIncoming_self, getBlock_prependInst_self, H.shape]
      simp only [Option.map_some', List.map_cons]
      have h1 : Instr.addInc st.2 (V.reg r, blk) (Instr.phi st.2 [])
          = Instr.phi st.2 [(V.reg r, blk)] := by
        simp [Instr.addInc]
      have h2 : Instr.addInc st.2 (V.reg r, blk) (Instr.phi cx.jIdx incs)
          = Instr.phi cx.jIdx incs := by
        have hne : cx.jIdx ≠ st.2 := by omega
        simp [Instr.addInc, hne]
      have h3 : (loads ++ [Instr.gep cx.ga (V.reg cx.jt) (V.reg cx.jIdx)]).map
          (Instr.addInc st.2 (V.reg r, blk))
          = loads ++ [Instr.gep cx.ga (V.reg cx.jt) (V.reg cx.jIdx)] := by
        refine addInc_map_eq_self _ _ _ ?_
        intro ins hins hphi
        rcases List.mem_append.mp hins with hA | hA
        · obtain ⟨lr, slot, hl, hslot, _, _, _⟩ := H.loadsWF ins hA
          rw [hl] at hphi
          cases hphi
        · rw [List.mem_singleton] at hA
          rw [hA] at hphi
          cases hphi
      rw [h1, h2, h3]
    have hC1 : getBlock (users.foldl
        (fun b u => replaceUsesIn b u r st.2)
        (addIncomingPhi (prependInst st.1 cx.jb (.phi st.2 [])) cx.jb st.2
          (V.reg r, blk))) cx.jb
        = some ⟨cx.jb, false,
          .phi st.2 [(V.reg r, blk)] :: (.phi cx.jIdx incs ::
            (loads ++ [.gep cx.ga (V.reg cx.jt) (V.reg cx.jIdx)])),
          .indirectBr (V.reg cx.ga) ds⟩ := by
      rw [getBlock_replaceFold_ne users _ r st.2 cx.jb husers_jb]
      exact hC0
    rw [Demote_repair_eq _ (st.2 + 1) cx.entryId cx.jb st.2 r blk _ _ hC1 rfl]
    have hblk_lt : blk < st.2 := H.bound blk (mem_ids_idents st.1 blk H.blkmem)
    have hsrgen : ∀ s, userRefs st.1 s = [UserRef.instrU cx.jIdx cx.jb] →
        s ≠ r := by
      intro s hsng he
      rw [he] at hsng
      have h5 := hnone (UserRef.instrU cx.jIdx cx.jb)
        (by rw [hsng]; exact List.mem_singleton.mpr rfl)
      exact h5 rfl
    refine ⟨?_, ?_, ?_, ?_, ?_, ?_, ?_, ?_, ?_⟩
    · dsimp only
      rw [ids_eraseInst, ids_rauw, ids_insertReload, ids_appendInst,
        ids_prependInst, ids_replaceFold, ids_addIncoming, ids_prependInst]
    · show st.2 ≤ st.2 + 1 + 3
      omega
    · dsimp only
      refine IdBound_eraseInst ?_ cx.jb st.2
      refine IdBound_rauw ?_ st.2 (by omega)
      refine IdBound_insertReload ?_ cx.jb st.2 ?_
      · refine IdBound_appendInst ?_ blk ?_
        · refine IdBound_prependInst ?_ cx.entryId ?_
          · refine IdBound_replaceFold users ?_ r (by omega)
            refine IdBound_addIncoming ?_ cx.jb st.2 ?_ ?_
            · refine IdBound_prependInst (H.bound.mono (by omega)) cx.jb ?_
              intro m hm
              have he : (Instr.phi st.2 []).idents = [st.2] := rfl
              rw [he, List.mem_singleton] at hm
              omega
            · intro m hm
              have he : (V.reg r).idents = [r] := rfl
              rw [he, List.mem_singleton] at hm
              omega
            · omega
          · intro m hm
            have he : (Instr.alloca (st.2 + 1) (V.const 1)).idents
                = [st.2 + 1, 1] := rfl
            rw [he] at hm
            rcases List.mem_cons.mp hm with h1 | h1
            · omega
            · rw [List.mem_singleton] at h1
              omega
        · intro m hm
          have he : (Instr.store (st.2 + 1 + 1) (V.reg r)
              (V.reg (st.2 + 1))).idents = [st.2 + 1 + 1, r, st.2 + 1] := rfl
          rw [he] at hm
          rcases List.mem_cons.mp hm with h1 | h1
          · omega
          rcases List.mem_cons.mp h1 with h2 | h2
          · omega
          · rw [List.mem_singleton] at h2
            omega
      · intro m hm
        have he : (Instr.load (st.2 + 1 + 2) (V.reg (st.2 + 1))).idents
            = [st.2 + 1 + 2, st.2 + 1] := rfl
        rw [he] at hm
        rcases List.mem_cons.mp hm with h1 | h1
        · omega
        · rw [List.mem_singleton] at h1
          omega
    · dsimp only
      refine ⟨Instr.load (st.2 + 1 + 2) (V.reg (st.2 + 1)) :: loads, ?_, ?_⟩
      · unfold JbShape
        have hlp2 : ∀ x ∈ loads, x.isPhi = false := by
          intro x hx
          obtain ⟨lr, slot, hl2, _, _, _, _⟩ := H.loadsWF x hx
          rw [hl2]
          rfl
        have hins5 : insertReload
            (Instr.load (st.2 + 1 + 2) (V.reg (st.2 + 1))) st.2
            (Instr.phi st.2 [(V.reg r, blk)] :: (Instr.phi cx.jIdx incs ::
              (loads ++ [Instr.gep cx.ga (V.reg cx.jt) (V.reg cx.jIdx)])))
            = Instr.phi st.2 [(V.reg r, blk)] :: (Instr.phi cx.jIdx incs ::
              (Instr.load (st.2 + 1 + 2) (V.reg (st.2 + 1)) ::
                (loads ++ [Instr.gep cx.ga (V.reg cx.jt) (V.reg cx.jIdx)]))) := by
          rw [insertReload_cons_pos (Instr.load (st.2 + 1 + 2)
                (V.reg (st.2 + 1))) st.2
              (Instr.phi st.2 [(V.reg r, blk)]) _ rfl,
            placeReload_phi (Instr.load (st.2 + 1 + 2) (V.reg (st.2 + 1)))
              (Instr.phi cx.jIdx incs) _ rfl,
            placeReload_loads (Instr.load (st.2 + 1 + 2) (V.reg (st.2 + 1)))
              (Instr.gep cx.ga (V.reg cx.jt) (V.reg cx.jIdx)) loads rfl hlp2]
        have hops : ∀ ins ∈ Instr.phi st.2 [(V.reg r, blk)] ::
            (Instr.phi cx.jIdx incs ::
              (Instr.load (st.2 + 1 + 2) (V.reg (st.2 + 1)) ::
                (loads ++ [Instr.gep cx.ga (V.reg cx.jt) (V.reg cx.jIdx)]))),
            V.reg st.2 ∉ ins.opnds := by
          intro ins hins
          rcases List.mem_cons.mp hins with h1 | h1
          · rw [h1]
            simp only [Instr.opnds, List.map_cons, List.map_nil,
              List.mem_singleton, V.reg.injEq]
            omega
          rcases List.mem_cons.mp h1 with h2 | h2
          · rw [h2]
            intro hmem
            simp only [Instr.opnds, List.mem_map] at hmem
            obtain ⟨inc, hinc, hince⟩ := hmem
            rcases H.incsWF inc hinc with ⟨nn, hv⟩ | ⟨sg, hv, _, hlt, _⟩
            · rw [hv] at hince
              cases hince
            · rw [hv] at hince
              injection hince with h3
              omega
          rcases List.mem_cons.mp h2 with h3 | h3
          · rw [h3]
            simp only [Instr.opnds, List.mem_cons, List.mem_singleton,
              V.reg.injEq, List.not_mem_nil, or_false]
            omega
          rcases List.mem_append.mp h3 with h4 | h4
          · obtain ⟨lr, slot, hl2, _, hs2, _, _⟩ := H.loadsWF ins h4
            rw [hl2]
            simp only [Instr.opnds, List.mem_cons, List.mem_singleton,
              V.reg.injEq, List.not_mem_nil, or_false]
            omega
          · rw [List.mem_singleton] at h4
            rw [h4]
            simp only [Instr.opnds, List.mem_cons, List.mem_singleton,
              V.reg.injEq, List.not_mem_nil, or_false, not_or]
            omega
        have hsub2 : (Instr.phi st.2 [(V.reg r, blk)] ::
            (Instr.phi cx.jIdx incs ::
              (Instr.load (st.2 + 1 + 2) (V.reg (st.2 + 1)) ::
                (loads ++ [Instr.gep cx.ga (V.reg cx.jt) (V.reg cx.jIdx)])))).map
            (Instr.subst st.2 (st.2 + 1 + 2))
            = Instr.phi st.2 [(V.reg r, blk)] :: (Instr.phi cx.jIdx incs ::
              (Instr.load (st.2 + 1 + 2) (V.reg (st.2 + 1)) ::
                (loads ++ [Instr.gep cx.ga (V.reg cx.jt) (V.reg cx.jIdx)]))) :=
          map_instr_subst_eq_self _ _ _ hops
        have htsub : (Term.indirectBr (V.reg cx.ga) ds).subst st.2
            (st.2 + 1 + 2) = Term.indirectBr (V.reg cx.ga) ds :=
          Term_subst_eq_self _ _ _ (by
            simp only [Term.opnds, List.mem_cons, List.mem_singleton,
              V.reg.injEq, List.not_mem_nil, or_false]
            omega)
        have ffl : List.filter (fun ins => decide (ins.iid ≠ st.2)) loads
            = loads := by
          refine List.filter_eq_self.mpr ?_
          intro x hx
          obtain ⟨lr, slot, hl2, _, _, _, hlr2⟩ := H.loadsWF x hx
          rw [hl2]
          simp only [Instr.iid, ne_eq, decide_eq_true_eq]
          omega
        rw [getBlock_eraseInst_self, getBlock_rauw,
          getBlock_modify_self _ cx.jb
            (fun B2 =>
              { B2 with insts :=
                  insertReload (Instr.load (st.2 + 1 + 2) (V.reg (st.2 + 1))) st.2 B2.insts })
            (fun B2 => rfl),
          getBlock_appendInst_ne _ _ _ _ (Ne.symm H.hblkjb),
          getBlock_prependInst_ne _ _ _ _ (Ne.symm H.hEjb),
          hC1]
        simp only [Option.map_some']
        rw [hins5]
        simp only [BB.substB]
        rw [hsub2, htsub,
          filter_ne_cons_skip st.2 (Instr.phi st.2 [(V.reg r, blk)]) _ rfl,
          filter_ne_cons_keep st.2 (Instr.phi cx.jIdx incs) _
            (show cx.jIdx ≠ st.2 by omega),
          filter_ne_cons_keep st.2
            (Instr.load (st.2 + 1 + 2) (V.reg (st.2 + 1))) _
            (show st.2 + 1 + 2 ≠ st.2 by omega),
          List.filter_append, ffl,
          filter_ne_cons_keep st.2
            (Instr.gep cx.ga (V.reg cx.jt) (V.reg cx.jIdx)) _
            (show cx.ga ≠ st.2 by omega),
          List.filter_nil]
        simp only [List.cons_append]
      · intro l hl
        rcases List.mem_cons.mp hl with h1 | h1
        · exact ⟨st.2 + 1 + 2, st.2 + 1, h1, by omega, by omega, by omega,
            by omega⟩
        · obtain ⟨lr, slot, he, a1, a2, a3, a4⟩ := H.loadsWF l h1
          exact ⟨lr, slot, he, a1, by omega, a3, by omega⟩
    · dsimp only
      intro inc hinc
      rcases H.incsWF inc hinc with ⟨nn, hv⟩ | ⟨sg, hv, h1, h2, h3⟩
      · exact Or.inl ⟨nn, hv⟩
      · refine Or.inr ⟨sg, hv, h1, by omega, ?_⟩
        exact userRefs_repair_chain st.1 cx.entryId cx.jb cx.jIdx st.2 r blk
          sg (st.2 + 1) users (hsrgen sg h3) h2 (by omega) (by omega) h3
    · dsimp only
      intro b2 B hbe hbj hbb hget
      rw [getBlock_eraseInst_ne _ _ _ _ hbj, getBlock_rauw,
        getBlock_modify_ne _ cx.jb b2
          (fun B2 =>
            { B2 with insts :=
                insertReload (Instr.load (st.2 + 1 + 2) (V.reg (st.2 + 1))) st.2 B2.insts })
          (fun B2 => rfl) hbj,
        getBlock_appendInst_ne _ _ _ _ hbb,
        getBlock_prependInst_ne _ _ _ _ hbe]
      have h0 : getBlock (addIncomingPhi (prependInst st.1 cx.jb
          (Instr.phi st.2 [])) cx.jb st.2 (V.reg r, blk)) b2 = some B := by
        rw [getBlock_addIncoming_ne _ _ _ _ _ hbj,
          getBlock_prependInst_ne _ _ _ _ hbj]
        exact hget
      obtain ⟨B1, hB1, hL1⟩ := getBlock_replaceFold_like users _ r st.2 b2 B h0
      rw [hB1, Option.map_some']
      exact ⟨_, rfl, hL1.trans (BlkLike_substB _ _ B1)⟩
    · dsimp only
      intro B hget
      refine ⟨[Instr.store (st.2 + 1 + 1) (V.reg r) (V.reg (st.2 + 1))],
        ?_, ?_⟩
      · rw [getBlock_eraseInst_ne _ _ _ _ H.hblkjb, getBlock_rauw,
          getBlock_modify_ne _ cx.jb blk
            (fun B2 =>
              { B2 with insts :=
                  insertReload (Instr.load (st.2 + 1 + 2) (V.reg (st.2 + 1))) st.2 B2.insts })
            (fun B2 => rfl) H.hblkjb,
          getBlock_appendInst_self,
          getBlock_prependInst_ne _ _ _ _ H.hblkE,
          getBlock_replaceFold_ne users _ r st.2 blk husers_blk,
          getBlock_addIncoming_ne _ _ _ _ _ H.hblkjb,
          getBlock_prependInst_ne _ _ _ _ H.hblkjb,
          hget]
        simp only [Option.map_some']
        have hBb := IdBound_getBlock H.bound hget
        have h1 : ∀ ins ∈ B.insts ++ [Instr.store (st.2 + 1 + 1) (V.reg r)
            (V.reg (st.2 + 1))], V.reg st.2 ∉ ins.opnds := by
          intro ins hins
          rcases List.mem_append.mp hins with h2 | h2
          · exact not_mem_opnds_of_bound
              (fun m hm => hBb m (mem_idents_insts h2 hm)) (by omega)
          · rw [List.mem_singleton] at h2
            rw [h2]
            simp only [Instr.opnds, List.mem_cons, List.mem_singleton,
              V.reg.injEq, List.not_mem_nil, or_false, not_or]
            omega
        have h2t : V.reg st.2 ∉ B.term.opnds :=
          not_mem_term_opnds_of_bound
            (fun m hm => hBb m (mem_idents_term hm)) (by omega)
        have hsb := substB_eq_self st.2 (st.2 + 1 + 2)
          { B with insts := B.insts ++
              [Instr.store (st.2 + 1 + 1) (V.reg r) (V.reg (st.2 + 1))] }
          h1 h2t
        rw [hsb]
      · intro a ha
        rw [List.mem_singleton] at ha
        rw [ha]
        rfl
    · dsimp only
      intro EB hget
      have h0 : getBlock (addIncomingPhi (prependInst st.1 cx.jb
          (Instr.phi st.2 [])) cx.jb st.2 (V.reg r, blk)) cx.entryId
          = some EB := by
        rw [getBlock_addIncoming_ne _ _ _ _ _ H.hEjb,
          getBlock_prependInst_ne _ _ _ _ H.hEjb]
        exact hget
      obtain ⟨EB1, hEB1, hL1⟩ := getBlock_replaceFold_like users _ r st.2
        cx.entryId EB h0
      refine ⟨BB.substB st.2 (st.2 + 1 + 2)
        { EB1 with insts := Instr.alloca (st.2 + 1) (V.const 1) :: EB1.insts },
        ?_, hL1.2.1, ?_, ?_⟩
      · rw [getBlock_eraseInst_ne _ _ _ _ H.hEjb, getBlock_rauw,
          getBlock_modify_ne _ cx.jb cx.entryId
            (fun B2 =>
              { B2 with insts :=
                  insertReload (Instr.load (st.2 + 1 + 2) (V.reg (st.2 + 1))) st.2 B2.insts })
            (fun B2 => rfl) H.hEjb,
          getBlock_appendInst_ne _ _ _ _ (Ne.symm H.hblkE),
          getBlock_prependInst_self, hEB1]
        simp only [Option.map_some']
      · exact (Term_subst_skel st.2 (st.2 + 1 + 2) EB1.term).trans hL1.2.2.1
      · intro ins hins hb
        have hsafe : V.reg r ∉ ins.opnds := fun hm => by
          have := (hb r hm).1
          omega
        obtain ⟨EB1x, hEB1x, hinsx, _⟩ := mem_insts_replaceFold users _ r st.2
          cx.entryId ins EB h0 hins hsafe
        have heq : EB1x = EB1 :=
          Option.some_injective _ (hEB1x.symm.trans hEB1)
        show ins ∈ (Instr.alloca (st.2 + 1) (V.const 1) :: EB1.insts).map
          (Instr.subst st.2 (st.2 + 1 + 2))
        refine List.mem_map.mpr ⟨ins, List.mem_cons_of_mem _ (heq ▸ hinsx), ?_⟩
        exact Instr_subst_eq_self st.2 (st.2 + 1 + 2) ins
          (fun hm => absurd ((hb st.2 hm).2) (by omega))
    · dsimp only
      intro s hs hsng
      exact userRefs_repair_chain st.1 cx.entryId cx.jb cx.jIdx st.2 r blk s
        (st.2 + 1) users (hsrgen s hsng) hs (by omega) (by omega) hsng

theorem result_eq_iid (ins : Instr) (q : Nat) (h : ins.result = some q) :
    ins.iid = q := by
  cases ins <;> simp only [Instr.result, Option.some.injEq] at h <;>
    simp only [Instr.iid] <;>
    first
      | exact h
      | exact Option.noConfusion h

theorem findIdx_isSome_of_mem (l : List Nat) (b : Nat) (h : b ∈ l) :
    (l.findIdx? fun y => y = b).isSome = true := by
  cases hf : l.findIdx? fun y => y = b with
  | some i => rfl
  | none =>
    rw [List.findIdx?_eq_none_iff] at hf
    have h2 := hf b h
    simp at h2

theorem findBlock_ok (blocks : List Nat) (b : Nat) (h : b ∈ blocks) :
    findBlock blocks b = .ok (idxIn blocks b) := by
  unfold findBlock idxIn
  cases hf : blocks.findIdx? fun y => y = b with
  | none =>
    have := findIdx_isSome_of_mem blocks b h
    rw [hf] at this
    cases this
  | some i => simp [hf]

theorem ublock_nil_of_bound {c : Nat} {B : BB} (hB : ∀ m ∈ B.idents, m < c)
    {s : Nat} (hcs : c ≤ s) : ublock s B = [] := by
  have h1 : (B.insts.filter fun ins => ins.opnds.contains (V.reg s)) = [] := by
    refine List.filter_eq_nil_iff.mpr ?_
    intro ins hins hc
    have hm : s ∈ ins.idents := mem_opnds_idents ins s (by simpa using hc)
    exact absurd (hB s (mem_idents_insts hins hm)) (by omega)
  have h2 : B.term.opnds.contains (V.reg s) = false := by
    cases hc : B.term.opnds.contains (V.reg s)
    · rfl
    · exfalso
      have hm : s ∈ B.term.idents :=
        mem_term_opnds_idents _ s (by simpa using hc)
      exact absurd (hB s (mem_idents_term hm)) (by omega)
  rw [ublock, h1, h2]
  rfl

theorem userRefs_nil_of_bound {c : Nat} {bs : List BB} (h : IdBound c bs)
    {s : Nat} (hs : c ≤ s) : userRefs bs s = [] := by
  rw [userRefs_eq_flatMap]
  induction bs with
  | nil => rfl
  | cons A rest ih =>
    rw [List.flatMap_cons,
      ublock_nil_of_bound (IdBound_of_mem h (List.mem_cons_self _ _)) hs,
      List.nil_append]
    exact ih (fun m hm => h m (by
      rw [identsOf] at hm ⊢
      rw [List.flatMap_cons]
      exact List.mem_append.mpr (Or.inr hm)))

theorem userRefs_eq_ublock (bs : List BB) (s : Nat) (JB : BB)
    (hnodup : (bs.map BB.id).Nodup) (hmem : JB ∈ bs)
    (hother : ∀ B ∈ bs, B.id ≠ JB.id → ublock s B = []) :
    userRefs bs s = ublock s JB := by
  induction bs with
  | nil => cases hmem
  | cons A rest ih =>
    rw [List.map_cons, List.nodup_cons] at hnodup
    rw [userRefs_eq_flatMap, List.flatMap_cons]
    rcases List.mem_cons.mp hmem with h1 | h1
    · subst h1
      have hrest : rest.flatMap (ublock s) = [] := by
        refine List.flatMap_eq_nil_iff.mpr ?_
        intro B hB
        refine hother B (List.mem_cons_of_mem _ hB) ?_
        intro he
        exact hnodup.1 (he ▸ List.mem_map_of_mem BB.id hB)
      rw [hrest, List.append_nil]
    · have hne : A.id ≠ JB.id := by
        intro he
        exact hnodup.1 (he ▸ List.mem_map_of_mem BB.id h1)
      rw [hother A (List.mem_cons_self _ _) hne, List.nil_append,
        ← userRefs_eq_flatMap]
      exact ih hnodup.2 h1
        (fun B hB => hother B (List.mem_cons_of_mem _ hB))

theorem userRefs_addIncoming_fresh (bs : List BB) (jb jIdx : Nat)
    (incs : List (V × Nat)) (restl : List Instr) (JB : BB) (c s blk : Nat)
    (hJ : getBlock bs jb = some JB)
    (hins : JB.insts = .phi jIdx incs :: restl)
    (hrestl : ∀ ins ∈ restl, ins.isPhi = true → ins.iid ≠ jIdx)
    (hnodup : (bs.map BB.id).Nodup)
    (hbound : IdBound c bs) (hcs : c ≤ s) :
    userRefs (addIncomingPhi bs jb jIdx (V.reg s, blk)) s
      = [.instrU jIdx jb] := by
  have hJmem := getBlock_mem bs jb JB hJ
  have hJB' : getBlock (addIncomingPhi bs jb jIdx (V.reg s, blk)) jb
      = some
          { JB with
            insts := JB.insts.map (Instr.addInc jIdx (V.reg s, blk)) } := by
    rw [getBlock_addIncoming_self, hJ, Option.map_some']
  have hmem' := getBlock_mem _ jb _ hJB'
  have hne : ({ JB with
      insts := JB.insts.map (Instr.addInc jIdx (V.reg s, blk)) } : BB).id
      = jb := hJmem.2
  rw [userRefs_eq_ublock (addIncomingPhi bs jb jIdx (V.reg s, blk)) s _
    (by rw [ids_addIncoming]; exact hnodup) hmem'.1 ?hother]
  case hother =>
    intro B hB hBne
    simp only [addIncomingPhi, modifyBlock, List.mem_map] at hB
    obtain ⟨B0, hB0, hB0e⟩ := hB
    by_cases hid : B0.id = jb
    · rw [if_pos hid] at hB0e
      exfalso
      apply hBne
      rw [← hB0e, hne]
      exact hid
    · rw [if_neg hid] at hB0e
      subst hB0e
      exact ublock_nil_of_bound (IdBound_of_mem hbound hB0) hcs
  rw [ublock]
  have hmap : JB.insts.map (Instr.addInc jIdx (V.reg s, blk))
      = Instr.phi jIdx (incs ++ [(V.reg s, blk)]) :: restl := by
    rw [hins, List.map_cons, addInc_map_eq_self jIdx _ restl hrestl]
    congr 1
    rw [Instr.addInc, if_pos rfl]
  have hrb : ∀ ins ∈ restl, ins.opnds.contains (V.reg s) = false := by
    intro ins hins2
    refine contains_false_of_not_mem ?_
    intro hc
    have hm : s ∈ ins.idents := mem_opnds_idents ins s hc
    have : ins ∈ JB.insts := by
      rw [hins]
      exact List.mem_cons_of_mem _ hins2
    exact absurd (IdBound_of_mem hbound hJmem.1 s (mem_idents_insts this hm))
      (by omega)
  have hfilt : ((Instr.phi jIdx (incs ++ [(V.reg s, blk)]) :: restl).filter
      fun ins => ins.opnds.contains (V.reg s))
      = [Instr.phi jIdx (incs ++ [(V.reg s, blk)])] := by
    rw [List.filter_cons, if_pos]
    · rw [List.filter_eq_nil_iff.mpr]
      intro ins hins2 hc
      rw [hrb ins hins2] at hc
      cases hc
    · refine contains_of_mem ?_
      simp only [Instr.opnds, List.map_append, List.mem_append]
      exact Or.inr (by simp)
  have hterm : ({ JB with
      insts := JB.insts.map (Instr.addInc jIdx (V.reg s, blk)) }
        : BB).term.opnds.contains (V.reg s) = false := by
    refine contains_false_of_not_mem ?_
    intro hc
    have hm : s ∈ JB.term.idents := mem_term_opnds_idents _ s hc
    exact absurd (IdBound_of_mem hbound hJmem.1 s (mem_idents_term hm))
      (by omega)
  rw [hterm]
  simp only [hmap]
  rw [hfilt]
  simp only [List.map_cons, List.map_nil, Instr.iid]
  rw [if_neg (by simp), List.append_nil, hJmem.2]

theorem HVRes_refl {cx : Ctx} {st : List BB × Nat} {blk : Nat}
    {incs : List (V × Nat)} {loads : List Instr} {ds : List Nat}
    (H : HVHyp cx st blk incs loads ds) : HVRes cx st st blk incs ds := by
  refine ⟨rfl, le_rfl, H.bound, ⟨loads, H.shape, H.loadsWF⟩, H.incsWF,
    ?_, ?_, ?_, ?_⟩
  · exact fun b2 B _ _ _ h => ⟨B, h, BlkLike.refl B⟩
  · intro B h
    refine ⟨[], ?_, by intro a ha; cases ha⟩
    rw [List.append_nil]
    exact h
  · exact fun EB h => ⟨EB, h, rfl, rfl, fun ins hins _ => hins⟩
  · exact fun s _ h => h

theorem HVRes_compose {cx : Ctx} {st st2 st3 : List BB × Nat} {blk : Nat}
    {incs : List (V × Nat)} {ds : List Nat}
    (h1 : HVRes cx st st2 blk incs ds) (h2 : HVRes cx st2 st3 blk incs ds) :
    HVRes cx st st3 blk incs ds := by
  refine ⟨h2.ids.trans h1.ids, le_trans h1.ctrle h2.ctrle, h2.bound,
    h2.jbShape, h2.incsWF, ?_, ?_, ?_, ?_⟩
  · intro b2 B he hj hb hget
    obtain ⟨B1, hg1, hL1⟩ := h1.others b2 B he hj hb hget
    obtain ⟨B2, hg2, hL2⟩ := h2.others b2 B1 he hj hb hg1
    exact ⟨B2, hg2, hL1.trans hL2⟩
  · intro B hget
    obtain ⟨app1, hg1, hres1⟩ := h1.blkE B hget
    obtain ⟨app2, hg2, hres2⟩ := h2.blkE _ hg1
    refine ⟨app1 ++ app2, ?_, ?_⟩
    · rw [← List.append_assoc]
      exact hg2
    · intro a ha
      rcases List.mem_append.mp ha with h3 | h3
      · exact hres1 a h3
      · exact hres2 a h3
  · intro EB hget
    obtain ⟨EB1, hg1, hlp1, hskel1, hmem1⟩ := h1.entryE EB hget
    obtain ⟨EB2, hg2, hlp2, hskel2, hmem2⟩ := h2.entryE EB1 hg1
    refine ⟨EB2, hg2, hlp2.trans hlp1, hskel2.trans hskel1, ?_⟩
    intro ins hins hb
    refine hmem2 ins (hmem1 ins hins hb) ?_
    intro q hq
    exact ⟨(hb q hq).1, lt_of_lt_of_le (hb q hq).2 h1.ctrle⟩
  · intro s hs hsng
    exact h2.single s (lt_of_lt_of_le hs h1.ctrle) (h1.single s hs hsng)

theorem HVHyp_of_res {cx : Ctx} {st st2 : List BB × Nat} {blk : Nat}
    {incs : List (V × Nat)} {loads : List Instr} {ds : List Nat}
    (H : HVHyp cx st blk incs loads ds) (R : HVRes cx st st2 blk incs ds) :
    ∃ loads2, HVHyp cx st2 blk incs loads2 ds := by
  obtain ⟨loads2, hsh, hlw⟩ := R.jbShape
  refine ⟨loads2, H.wf1, H.wf2, H.wf3, le_trans H.hctr R.ctrle, ?_, R.bound,
    hsh, hlw, R.incsWF, ?_, H.hblkjb, H.hblkE, H.hEjb⟩
  · rw [R.ids]
    exact H.nodup
  · rw [R.ids]
    exact H.blkmem

/-- Effect of the whole repair fold over a list of values: every value is
either an old one (below the dispatch apparatus) or a fresh select whose
sole user is the `jumpIndex` phi. -/
theorem foldl_handleValue_res (cx : Ctx) (blk : Nat) (incs : List (V × Nat))
    (ds : List Nat) (vals : List Nat) :
    ∀ (st : List BB × Nat) (loads : List Instr),
    HVHyp cx st blk incs loads ds →
    (∀ v ∈ vals, v < cx.jb ∨
      (v < st.2 ∧ userRefs st.1 v = [.instrU cx.jIdx cx.jb])) →
    HVRes cx st
      (vals.foldl (fun s r => handleValue cx.entryId cx.jb cx.jIdx s blk r) st)
      blk incs ds := by
  induction vals with
  | nil =>
    intro st loads H _
    exact HVRes_refl H
  | cons v vs ih =>
    intro st loads H hvals
    rw [List.foldl_cons]
    have R1 : HVRes cx st (handleValue cx.entryId cx.jb cx.jIdx st blk v)
        blk incs ds := by
      rcases hvals v (List.mem_cons_self _ _) with h1 | ⟨h1, h2⟩
      · exact handleValue_effects cx st blk v incs loads ds H h1
      · rw [handleValue_noop cx.entryId cx.jb cx.jIdx st blk v h2
          (phiRegOfUser_head st.1 cx.jb cx.jIdx incs _ _ H.shape rfl)]
        exact HVRes_refl H
    obtain ⟨loads1, H1⟩ := HVHyp_of_res H R1
    refine HVRes_compose R1 (ih _ loads1 H1 ?_)
    intro w hw
    rcases hvals w (List.mem_cons_of_mem _ hw) with h1 | ⟨h1, h2⟩
    · exact Or.inl h1
    · exact Or.inr ⟨lt_of_lt_of_le h1 R1.ctrle, R1.single w h1 h2⟩

/-! Auxiliary lemmas for the rewriting-loop step. -/

theorem mem_succs_idents (t : Term) (d : Nat) (h : d ∈ t.succs) :
    d ∈ t.idents := by
  rw [Term.idents]
  exact List.mem_append.mpr (Or.inl (List.mem_append.mpr (Or.inl h)))

theorem mem_result_idents (t : Term) (r : Nat) (h : t.result = some r) :
    r ∈ t.idents := by
  rw [Term.idents, h]
  refine List.mem_append.mpr (Or.inr ?_)
  simp

theorem skel_br_inv (t : Term) (d : Nat) (h : t.skel = .br d) :
    t = .br d := by
  cases t with
  | ret v => cases v <;> simp only [Term.skel] at h <;> cases h
  | br d2 => simp only [Term.skel] at h; exact h
  | condBr c a b => simp only [Term.skel] at h; cases h
  | invoke r args n u => simp only [Term.skel] at h; cases h
  | switchBr v d2 cs => simp only [Term.skel] at h; cases h
  | indirectBr a ds => simp only [Term.skel] at h; cases h
  | erased => simp only [Term.skel] at h; cases h

theorem skel_erased_inv (t : Term) (h : t.skel = .erased) : t = .erased := by
  cases t with
  | ret v => cases v <;> simp only [Term.skel] at h <;> cases h
  | br d2 => simp only [Term.skel] at h; cases h
  | condBr c a b => simp only [Term.skel] at h; cases h
  | invoke r args n u => simp only [Term.skel] at h; cases h
  | switchBr v d2 cs => simp only [Term.skel] at h; cases h
  | indirectBr a ds => simp only [Term.skel] at h; cases h
  | erased => rfl

theorem skel_condBr_inv (t : Term) (c : V) (a b : Nat)
    (h : t.skel = .condBr c a b) : ∃ c2, t = .condBr c2 a b := by
  cases t with
  | ret v => cases v <;> simp only [Term.skel] at h <;> cases h
  | br d2 => simp only [Term.skel] at h; cases h
  | condBr c2 a2 b2 =>
    simp only [Term.skel] at h
    injection h with h1 h2 h3
    exact ⟨c2, by rw [h2, h3]⟩
  | invoke r args n u => simp only [Term.skel] at h; cases h
  | switchBr v d2 cs => simp only [Term.skel] at h; cases h
  | indirectBr a2 ds => simp only [Term.skel] at h; cases h
  | erased => simp only [Term.skel] at h; cases h

theorem skel_invoke_inv (t : Term) (r : Nat) (args : List V) (n u : Nat)
    (h : t.skel = .invoke r args n u) : ∃ args2, t = .invoke r args2 n u := by
  cases t with
  | ret v => cases v <;> simp only [Term.skel] at h <;> cases h
  | br d2 => simp only [Term.skel] at h; cases h
  | condBr c2 a2 b2 => simp only [Term.skel] at h; cases h
  | invoke r2 args2 n2 u2 =>
    simp only [Term.skel] at h
    injection h with h1 h2 h3 h4
    exact ⟨args2, by rw [h1, h3, h4]⟩
  | switchBr v d2 cs => simp only [Term.skel] at h; cases h
  | indirectBr a2 ds => simp only [Term.skel] at h; cases h
  | erased => simp only [Term.skel] at h; cases h

theorem skel_switch_inv (t : Term) (v : V) (d : Nat) (cs : List Nat)
    (h : t.skel = .switchBr v d cs) : ∃ v2, t = .switchBr v2 d cs := by
  cases t with
  | ret v2 => cases v2 <;> simp only [Term.skel] at h <;> cases h
  | br d2 => simp only [Term.skel] at h; cases h
  | condBr c2 a2 b2 => simp only [Term.skel] at h; cases h
  | invoke r args n u => simp only [Term.skel] at h; cases h
  | switchBr v2 d2 cs2 =>
    simp only [Term.skel] at h
    injection h with h1 h2 h3
    exact ⟨v2, by rw [h2, h3]⟩
  | indirectBr a2 ds => simp only [Term.skel] at h; cases h
  | erased => simp only [Term.skel] at h; cases h

theorem skel_indirect_inv (t : Term) (a : V) (ds : List Nat)
    (h : t.skel = .indirectBr a ds) : ∃ a2, t = .indirectBr a2 ds := by
  cases t with
  | ret v2 => cases v2 <;> simp only [Term.skel] at h <;> cases h
  | br d2 => simp only [Term.skel] at h; cases h
  | condBr c2 a2 b2 => simp only [Term.skel] at h; cases h
  | invoke r args n u => simp only [Term.skel] at h; cases h
  | switchBr v2 d2 cs2 => simp only [Term.skel] at h; cases h
  | indirectBr a2 ds2 =>
    simp only [Term.skel] at h
    injection h with h1 h2
    exact ⟨a2, by rw [h2]⟩
  | erased => simp only [Term.skel] at h; cases h

theorem userRefs_append (bs bs2 : List BB) (s : Nat) :
    userRefs (bs ++ bs2) s = userRefs bs s ++ userRefs bs2 s := by
  simp [userRefs_eq_flatMap]

theorem mem_term_opnds_flat_idents (t : Term) (m : Nat)
    (h : m ∈ t.opnds.flatMap V.idents) : m ∈ t.idents := by
  rw [Term.idents]
  exact List.mem_append.mpr (Or.inl (List.mem_append.mpr (Or.inr h)))

theorem getBlock_addDest_ne (bs : List BB) (jb blk j : Nat) (h : j ≠ jb) :
    getBlock (addDest bs jb blk) j = getBlock bs j :=
  getBlock_modify_ne bs jb j _ (fun B => rfl) h

theorem getBlock_addDest_self (bs : List BB) (jb blk : Nat) :
    getBlock (addDest bs jb blk) jb
      = (getBlock bs jb).map fun B =>
          { B with term :=
              match B.term with
              | .indirectBr a ds => .indirectBr a (ds ++ [blk])
              | t => t } :=
  getBlock_modify_self bs jb _ (fun B => rfl)

theorem ids_addDest (bs : List BB) (jb blk : Nat) :
    (addDest bs jb blk).map BB.id = bs.map BB.id :=
  ids_modify bs jb _ (fun B => rfl)

theorem userRefs_addDest (bs : List BB) (jb blk s : Nat) :
    userRefs (addDest bs jb blk) s = userRefs bs s := by
  refine userRefs_modify bs jb s _ (fun B _ => ublock_term s B _ ?_)
  cases ht : B.term <;> rfl

theorem addDest_idents (blk : Nat) (t : Term) (m : Nat)
    (hm : m ∈ (match t with
        | Term.indirectBr a ds => Term.indirectBr a (ds ++ [blk])
        | t => t).idents) :
    m ∈ t.idents ∨ m = blk := by
  cases t with
  | indirectBr a ds =>
    rw [Term.idents] at hm
    simp only [Term.succs, Term.opnds, Term.result] at hm
    rcases List.mem_append.mp hm with h4 | h4
    · rcases List.mem_append.mp h4 with h5 | h5
      · rcases List.mem_append.mp h5 with h6 | h6
        · exact Or.inl (mem_succs_idents _ _ h6)
        · rw [List.mem_singleton] at h6
          exact Or.inr h6
      · exact Or.inl (mem_term_opnds_flat_idents _ _ h5)
    · exact Or.inl (by
        rw [Term.idents]
        exact List.mem_append.mpr (Or.inr h4))
  | ret a => exact Or.inl hm
  | br d => exact Or.inl hm
  | condBr c a b => exact Or.inl hm
  | invoke r args n u => exact Or.inl hm
  | switchBr v d cs => exact Or.inl hm
  | erased => exact Or.inl hm

theorem IdBound_addDest {c : Nat} {bs : List BB} (h : IdBound c bs)
    (jb blk : Nat) (hblk : blk < c) : IdBound c (addDest bs jb blk) := by
  refine IdBound_modify h jb _ ?_
  intro B hB m hm
  rcases (mem_BB_idents m _).mp hm with hm2 | ⟨ins, hins, hm2⟩ | hm2
  · exact hB m (hm2 ▸ mem_idents_id B)
  · exact hB m (mem_idents_insts hins hm2)
  · rcases addDest_idents blk B.term m hm2 with h3 | h3
    · exact hB m (mem_idents_term h3)
    · exact h3 ▸ hblk

theorem take_succ_getD (l : List Nat) (k : Nat) (hk : k < l.length) :
    l.take (k + 1) = l.take k ++ [l.getD k 0] := by
  rw [List.take_succ]
  congr 1
  rw [List.getElem?_eq_getElem hk]
  simp [List.getD, List.getElem?_eq_getElem hk]

theorem drop_eq_getD_cons (l : List Nat) (k : Nat) (hk : k < l.length) :
    l.drop k = l.getD k 0 :: l.drop (k + 1) := by
  rw [List.drop_eq_getElem_cons hk]
  congr 1
  simp [List.getD, List.getElem?_eq_getElem hk]

theorem getD_append_left {α : Type} [Inhabited α] (l l2 : List α) (j : Nat)
    (hj : j < l.length) (d : α) : (l ++ l2).getD j d = l.getD j d := by
  simp [List.getD, List.getElem?_append_left hj]

theorem getD_append_right_self {α : Type} [Inhabited α] (l : List α) (x d : α) :
    (l ++ [x]).getD l.length d = x := by
  simp [List.getD]

theorem incsOf_succ (cx : Ctx) (T : Nat → Term) (k : Nat)
    (dat : List IterRec) (d : IterRec) (hlen : dat.length = k) :
    incsOf cx T (k + 1) (dat ++ [d])
      = incsOf cx T k dat ++ contribOf cx T k (cx.blocks.getD k 0) d := by
  unfold incsOf
  rw [List.range_succ, List.flatMap_append, List.flatMap_cons,
    List.flatMap_nil, List.append_nil]
  congr 1
  · refine List.flatMap_congr ?_
    intro j hj
    rw [List.mem_range] at hj
    rw [List.getD_append]
    omega
  · rw [← hlen, getD_append_right_self]

theorem rewiredAll_succ (cx : Ctx) (T : Nat → Term) (k : Nat)
    (dat : List IterRec) (d : IterRec) (hlen : dat.length = k) :
    rewiredAll cx T (k + 1) (dat ++ [d])
      = rewiredAll cx T k dat ++ rewiredOf T (cx.blocks.getD k 0) d := by
  unfold rewiredAll
  rw [List.range_succ, List.flatMap_append, List.flatMap_cons,
    List.flatMap_nil, List.append_nil]
  congr 1
  · refine List.flatMap_congr ?_
    intro j hj
    rw [List.mem_range] at hj
    rw [List.getD_append]
    omega
  · rw [← hlen, getD_append_right_self]

theorem ndsOf_append (dat : List IterRec) (d : IterRec) :
    ndsOf (dat ++ [d]) = ndsOf dat ++ (d.nd.map fun x => [x]).getD [] := by
  unfold ndsOf
  rw [List.filterMap_append]
  congr 1
  cases hd : d.nd with
  | none => simp [List.filterMap_cons, hd]
  | some x => simp [List.filterMap_cons, hd]

theorem getD_snoc_lt (dat : List IterRec) (d : IterRec) (j : Nat)
    (hj : j < dat.length) : (dat ++ [d]).getD j default = dat.getD j default := by
  rw [List.getD_append]
  omega

theorem preds_transfer (bsA bsB : List BB) (jb : Nat) (P : Nat → Prop)
    (hids : bsB.map BB.id = bsA.map BB.id) (hnodupA : (bsA.map BB.id).Nodup)
    (hsuccs : ∀ b2 BA BB2, getBlock bsA b2 = some BA →
      getBlock bsB b2 = some BB2 → BB2.term.succs = BA.term.succs)
    (h : ∀ B2 ∈ bsA, (jb ∈ B2.term.succs ↔ P B2.id)) :
    ∀ B2 ∈ bsB, (jb ∈ B2.term.succs ↔ P B2.id) := by
  intro B2 hB2
  have hnodupB : (bsB.map BB.id).Nodup := by rw [hids]; exact hnodupA
  have hgB : getBlock bsB B2.id = some B2 := getBlock_of_mem_nodup bsB B2 hnodupB hB2
  have hsome : (getBlock bsA B2.id).isSome = true := by
    rw [getBlock_isSome]
    rw [← hids]
    exact List.mem_map_of_mem BB.id hB2
  obtain ⟨BA, hgA⟩ := Option.isSome_iff_exists.mp hsome
  rw [hsuccs B2.id BA B2 hgA hgB, ← (getBlock_mem bsA B2.id BA hgA).2]
  exact h BA (getBlock_mem bsA B2.id BA hgA).1

theorem BlkLike_succs {B B2 : BB} (h : BlkLike B B2) :
    B2.term.succs = B.term.succs := by
  rw [← Term_skel_succs B2.term, h.2.2.1, Term_skel_succs]

theorem BlkLike_iid_lt {B B2 : BB} (h : BlkLike B B2) (c : Nat)
    (hB : ∀ ins ∈ B.insts, ins.iid < c) :
    ∀ ins ∈ B2.insts, ins.iid < c := by
  intro ins hins
  have : ins.iid ∈ B2.insts.map Instr.iid := List.mem_map_of_mem _ hins
  rw [h.2.2.2] at this
  obtain ⟨ins0, hins0, hie⟩ := List.mem_map.mp this
  rw [← hie]
  exact hB ins0 hins0

theorem BlkLike_nd_block {nd jb : Nat} {B2 : BB}
    (h : BlkLike ⟨nd, false, [], .br jb⟩ B2) : B2 = ⟨nd, false, [], .br jb⟩ := by
  obtain ⟨h1, h2, h3, h4⟩ := h
  have hterm : B2.term = .br jb := skel_br_inv _ _ h3
  have hinsts : B2.insts = [] := by
    have := h4
    simp only [List.map_nil] at this
    exact List.map_eq_nil_iff.mp this
  cases B2 with
  | mk i l ins t =>
    simp only at h1 h2 hterm hinsts
    rw [h1, h2, hterm, hinsts]

/-- `ProcOK` facts survive a repair fold (or any `HVRes` relation) on a
block other than the entry and the jump block. -/
theorem ProcOK_of_res {cx : Ctx} {T : Nat → Term} {st st2 : List BB × Nat}
    {blk : Nat} {incs : List (V × Nat)} {ds : List Nat}
    (R : HVRes cx st st2 blk incs ds) {b : Nat} {d : IterRec}
    (hok : ProcOK cx T st.1 b d) (hbe : b ≠ cx.entryId) (hbjb : b ≠ cx.jb)
    (hblke : blk ≠ cx.entryId) (hblkjb : blk ≠ cx.jb) (hblklt : blk < cx.jb)
    (hentrylt : cx.entryId < cx.jb) :
    ProcOK cx T st2.1 b d := by
  have hblock : ∀ b2, b2 ≠ cx.entryId → b2 ≠ cx.jb → ∀ B,
      getBlock st.1 b2 = some B →
      ∃ B2, getBlock st2.1 b2 = some B2 ∧ B2.lp = B.lp
        ∧ B2.term.skel = B.term.skel := by
    intro b2 h1 h2 B hB
    by_cases hbb : b2 = blk
    · subst hbb
      obtain ⟨app, hg, hres⟩ := R.blkE B hB
      exact ⟨_, hg, rfl, rfl⟩
    · obtain ⟨B2, hg, hL⟩ := R.others b2 B h1 h2 hbb hB
      exact ⟨B2, hg, hL.2.1, hL.2.2.1⟩
  rcases hs : (T b).succs with _ | ⟨s1, _ | ⟨s2, rest⟩⟩
  · simp only [ProcOK, hs] at hok ⊢
    obtain ⟨h1, h2, B, hB, hlp, hskel⟩ := hok
    obtain ⟨B2, hg2, hlp2, hskel2⟩ := hblock b hbe hbjb B hB
    exact ⟨h1, h2, B2, hg2, hlp2.trans hlp, hskel2.trans hskel⟩
  · simp only [ProcOK, hs] at hok ⊢
    obtain ⟨h1, h2, B, hB, hlp, hterm⟩ := hok
    obtain ⟨B2, hg2, hlp2, hskel2⟩ := hblock b hbe hbjb B hB
    refine ⟨h1, h2, B2, hg2, hlp2.trans hlp, ?_⟩
    refine skel_br_inv _ _ ?_
    rw [hskel2, hterm]
    rfl
  · cases ht : T b with
    | condBr c t f =>
      simp only [ProcOK, hs, ht] at hok ⊢
      obtain ⟨h1, h2, B, hB, hlp, hterm⟩ := hok
      obtain ⟨B2, hg2, hlp2, hskel2⟩ := hblock b hbe hbjb B hB
      refine ⟨h1, h2, B2, hg2, hlp2.trans hlp, ?_⟩
      refine skel_br_inv _ _ ?_
      rw [hskel2, hterm]
      rfl
    | invoke r args n u =>
      simp only [ProcOK, hs, ht] at hok ⊢
      obtain ⟨h1, nd, hnd, hndge, hndblk, B, args2, hB, hlp, hterm⟩ := hok
      have hnde : nd ≠ cx.entryId := by omega
      have hndjb : nd ≠ cx.jb := by omega
      have hndblk2 : nd ≠ blk := by omega
      obtain ⟨ND2, hgnd, hLnd⟩ :=
        R.others nd ⟨nd, false, [], .br cx.jb⟩ hnde hndjb hndblk2 hndblk
      obtain ⟨B2, hg2, hlp2, hskel2⟩ := hblock b hbe hbjb B hB
      refine ⟨h1, nd, hnd, hndge, ?_, ?_⟩
      · rw [hgnd, BlkLike_nd_block hLnd]
      · have hsk : B2.term.skel = Term.invoke r [] nd u := by
          rw [hskel2, hterm]
          rfl
        obtain ⟨args3, hB2t⟩ := skel_invoke_inv _ _ _ _ _ hsk
        exact ⟨B2, args3, hg2, hlp2.trans hlp, hB2t⟩
    | ret v =>
      simp only [ProcOK, hs] at hok ⊢
      rw [ht] at hok ⊢
      exact hok
    | br d2 =>
      simp only [ProcOK, hs] at hok ⊢
      rw [ht] at hok ⊢
      exact hok
    | switchBr v d2 cs =>
      simp only [ProcOK, hs] at hok ⊢
      rw [ht] at hok ⊢
      exact hok
    | indirectBr a ds2 =>
      simp only [ProcOK, hs] at hok ⊢
      rw [ht] at hok ⊢
      exact hok
    | erased =>
      simp only [ProcOK, hs] at hok ⊢
      rw [ht] at hok ⊢
      exact hok

theorem LoadsWF_mono {cx : Ctx} {c c2 : Nat} {loads : List Instr}
    (h : LoadsWF cx c loads) (hcc : c ≤ c2) : LoadsWF cx c2 loads := by
  intro l hl
  obtain ⟨lr, slot, h1, h2, h3, h4, h5⟩ := h l hl
  exact ⟨lr, slot, h1, h2, by omega, h4, by omega⟩

/-- `ProcOK` transports along any operation that leaves all blocks other
than the entry and jump blocks untouched. -/
theorem ProcOK_transport {cx : Ctx} {T : Nat → Term} {bsA bsB : List BB}
    {b : Nat} {d : IterRec}
    (h : ∀ b2, b2 ≠ cx.entryId → b2 ≠ cx.jb →
      getBlock bsB b2 = getBlock bsA b2)
    (hbe : b ≠ cx.entryId) (hbjb : b ≠ cx.jb)
    (hentrylt : cx.entryId < cx.jb)
    (hok : ProcOK cx T bsA b d) : ProcOK cx T bsB b d := by
  rcases hs : (T b).succs with _ | ⟨s1, _ | ⟨s2, rest⟩⟩
  · simp only [ProcOK, hs] at hok ⊢
    obtain ⟨h1, h2, B, hB, rest⟩ := hok
    exact ⟨h1, h2, B, by rw [h b hbe hbjb]; exact hB, rest⟩
  · simp only [ProcOK, hs] at hok ⊢
    obtain ⟨h1, h2, B, hB, rest⟩ := hok
    exact ⟨h1, h2, B, by rw [h b hbe hbjb]; exact hB, rest⟩
  · cases ht : T b with
    | condBr c t f =>
      simp only [ProcOK, hs, ht] at hok ⊢
      obtain ⟨h1, h2, B, hB, rest⟩ := hok
      exact ⟨h1, h2, B, by rw [h b hbe hbjb]; exact hB, rest⟩
    | invoke r args n u =>
      simp only [ProcOK, hs, ht] at hok ⊢
      obtain ⟨h1, nd, hnd, hndge, hndblk, B, args2, hB, rest⟩ := hok
      refine ⟨h1, nd, hnd, hndge, ?_, B, args2,
        by rw [h b hbe hbjb]; exact hB, rest⟩
      rw [h nd (by omega) (by omega)]
      exact hndblk
    | ret v =>
      simp only [ProcOK, hs] at hok ⊢
      rw [ht] at hok ⊢
      exact hok
    | br d2 =>
      simp only [ProcOK, hs] at hok ⊢
      rw [ht] at hok ⊢
      exact hok
    | switchBr v d2 cs =>
      simp only [ProcOK, hs] at hok ⊢
      rw [ht] at hok ⊢
      exact hok
    | indirectBr a ds2 =>
      simp only [ProcOK, hs] at hok ⊢
      rw [ht] at hok ⊢
      exact hok
    | erased =>
      simp only [ProcOK, hs] at hok ⊢
      rw [ht] at hok ⊢
      exact hok

theorem getD_mem_of_lt (l : List Nat) (k : Nat) (hk : k < l.length) :
    l.getD k 0 ∈ l := by
  have he : l.getD k 0 = l[k] := by
    simp [List.getD, List.getElem?_eq_getElem hk]
  rw [he]
  exact List.getElem_mem hk

/-- The common tail of one loop iteration: jump-table bookkeeping in the
entry block, destination registration, and (for blocks with successors)
the repair fold preserve the invariant shape. -/
theorem tail_invariant (cx : Ctx) (T : Nat → Term) (ids0 : List Nat)
    (k : Nat) (dat : List IterRec) (d : IterRec) (blk : Nat)
    (st : List BB × Nat) (hasSucc : Bool)
    (LH : LoopHyp cx T ids0) (hk : k < cx.blocks.length)
    (hblk : blk = cx.blocks.getD k 0)
    (M : MidInv cx T ids0 k dat d blk st) :
    LoopInv cx T ids0 (k + 1) (dat ++ [d])
      (if hasSucc
        then repairBlock cx.entryId cx.jb cx.jIdx
          (addDest (appendInst (appendInst st.1 cx.entryId
              (.gep st.2 (V.reg cx.jt) (V.const k))) cx.entryId
              (.store (st.2 + 1) (V.blockAddr blk) (V.reg st.2)))
            cx.jb blk, st.2 + 2) blk
        else (addDest (appendInst (appendInst st.1 cx.entryId
              (.gep st.2 (V.reg cx.jt) (V.const k))) cx.entryId
              (.store (st.2 + 1) (V.blockAddr blk) (V.reg st.2)))
            cx.jb blk, st.2 + 2)) := by
  have hblkmem : blk ∈ cx.blocks := hblk ▸ getD_mem_of_lt cx.blocks k hk
  have hblklt : blk < cx.jb := LH.Lbound blk hblkmem
  have hblke : blk ≠ cx.entryId := fun he => LH.Lentry (he ▸ hblkmem)
  have hblkjb : blk ≠ cx.jb := by omega
  have hejb : cx.entryId ≠ cx.jb := by have := LH.entrylt; omega
  have hklt : k < cx.jb := by have := LH.Llen; omega
  have hjtv : cx.jt = cx.jb + 2 := LH.wf2
  have hlenM := M.len
  have hctrM := M.ctr
  obtain ⟨loads, hsh, hlw⟩ := M.shape
  have hsh' : getBlock st.1 cx.jb = some ⟨cx.jb, false,
      .phi cx.jIdx (incsOf cx T (k + 1) (dat ++ [d])) ::
        (loads ++ [.gep cx.ga (V.reg cx.jt) (V.reg cx.jIdx)]),
      .indirectBr (V.reg cx.ga) (cx.blocks.take k)⟩ := hsh
  have htake : cx.blocks.take (k + 1) = cx.blocks.take k ++ [blk] := by
    rw [take_succ_getD cx.blocks k hk, ← hblk]
  -- the three bookkeeping operations
  have hids5 : (addDest (appendInst (appendInst st.1 cx.entryId
      (.gep st.2 (V.reg cx.jt) (V.const k))) cx.entryId
      (.store (st.2 + 1) (V.blockAddr blk) (V.reg st.2)))
      cx.jb blk).map BB.id = st.1.map BB.id := by
    rw [ids_addDest, ids_appendInst, ids_appendInst]
  have hnodup5 : ((addDest (appendInst (appendInst st.1 cx.entryId
      (.gep st.2 (V.reg cx.jt) (V.const k))) cx.entryId
      (.store (st.2 + 1) (V.blockAddr blk) (V.reg st.2)))
      cx.jb blk).map BB.id).Nodup := by
    rw [hids5]
    exact M.nodup
  have hother5 : ∀ b2, b2 ≠ cx.entryId → b2 ≠ cx.jb →
      getBlock (addDest (appendInst (appendInst st.1 cx.entryId
        (.gep st.2 (V.reg cx.jt) (V.const k))) cx.entryId
        (.store (st.2 + 1) (V.blockAddr blk) (V.reg st.2)))
        cx.jb blk) b2 = getBlock st.1 b2 := by
    intro b2 h1 h2
    rw [getBlock_addDest_ne _ _ _ _ h2, getBlock_appendInst_ne _ _ _ _ h1,
      getBlock_appendInst_ne _ _ _ _ h1]
  have hgepids : ∀ m ∈ (Instr.gep st.2 (V.reg cx.jt) (V.const k)).idents,
      m < st.2 + 2 := by
    intro m hm
    have he : (Instr.gep st.2 (V.reg cx.jt) (V.const k)).idents
        = [st.2, cx.jt, k] := rfl
    rw [he] at hm
    rcases List.mem_cons.mp hm with h1 | h1
    · omega
    rcases List.mem_cons.mp h1 with h2 | h2
    · have := M.ctr
      omega
    · rw [List.mem_singleton] at h2
      have := M.ctr
      omega
  have hstids : ∀ m ∈ (Instr.store (st.2 + 1) (V.blockAddr blk)
      (V.reg st.2)).idents, m < st.2 + 2 := by
    intro m hm
    have he : (Instr.store (st.2 + 1) (V.blockAddr blk)
        (V.reg st.2)).idents = [st.2 + 1, blk, st.2] := rfl
    rw [he] at hm
    rcases List.mem_cons.mp hm with h1 | h1
    · omega
    rcases List.mem_cons.mp h1 with h2 | h2
    · have := M.ctr
      omega
    · rw [List.mem_singleton] at h2
      omega
  have hbound5 : IdBound (st.2 + 2) (addDest (appendInst (appendInst st.1
      cx.entryId (.gep st.2 (V.reg cx.jt) (V.const k))) cx.entryId
      (.store (st.2 + 1) (V.blockAddr blk) (V.reg st.2))) cx.jb blk) := by
    refine IdBound_addDest ?_ cx.jb blk (by have := M.ctr; omega)
    refine IdBound_appendInst ?_ cx.entryId hstids
    exact IdBound_appendInst (M.bound.mono (by omega)) cx.entryId hgepids
  have huser3 : ∀ v, cx.jb + 4 ≤ v → v < st.2 →
      userRefs (addDest (appendInst (appendInst st.1 cx.entryId
        (.gep st.2 (V.reg cx.jt) (V.const k))) cx.entryId
        (.store (st.2 + 1) (V.blockAddr blk) (V.reg st.2)))
        cx.jb blk) v = userRefs st.1 v := by
    intro v h1 h2
    have c1 : (Instr.store (st.2 + 1) (V.blockAddr blk)
        (V.reg st.2)).opnds.contains (V.reg v) = false := by
      refine contains_false_of_not_mem ?_
      simp only [Instr.opnds, List.mem_cons, List.mem_singleton,
        List.not_mem_nil, or_false, not_or]
      refine ⟨fun he => ?_, fun he => ?_⟩
      · cases he
      · injection he with h3
        omega
    have c2 : (Instr.gep st.2 (V.reg cx.jt) (V.const k)).opnds.contains
        (V.reg v) = false := by
      refine contains_false_of_not_mem ?_
      simp only [Instr.opnds, List.mem_cons, List.mem_singleton,
        List.not_mem_nil, or_false, not_or]
      refine ⟨fun he => ?_, fun he => ?_⟩
      · injection he with h3
        omega
      · cases he
    rw [userRefs_addDest, userRefs_appendInst _ _ _ _ c1,
      userRefs_appendInst _ _ _ _ c2]
  have hsh5 : getBlock (addDest (appendInst (appendInst st.1 cx.entryId
      (.gep st.2 (V.reg cx.jt) (V.const k))) cx.entryId
      (.store (st.2 + 1) (V.blockAddr blk) (V.reg st.2))) cx.jb blk) cx.jb
      = some ⟨cx.jb, false,
        .phi cx.jIdx (incsOf cx T (k + 1) (dat ++ [d])) ::
          (loads ++ [.gep cx.ga (V.reg cx.jt) (V.reg cx.jIdx)]),
        .indirectBr (V.reg cx.ga) (cx.blocks.take k ++ [blk])⟩ := by
    rw [getBlock_addDest_self, getBlock_appendInst_ne _ _ _ _ hejb.symm,
      getBlock_appendInst_ne _ _ _ _ hejb.symm, hsh', Option.map_some']
  have hincs5 : IncsWF cx (addDest (appendInst (appendInst st.1 cx.entryId
      (.gep st.2 (V.reg cx.jt) (V.const k))) cx.entryId
      (.store (st.2 + 1) (V.blockAddr blk) (V.reg st.2))) cx.jb blk)
      (st.2 + 2) (incsOf cx T (k + 1) (dat ++ [d])) := by
    intro inc hinc
    rcases M.incsWF inc hinc with ⟨nn, hv⟩ | ⟨sg, hv, h1, h2, h3⟩
    · exact Or.inl ⟨nn, hv⟩
    · refine Or.inr ⟨sg, hv, h1, by omega, ?_⟩
      rw [huser3 sg h1 h2]
      exact h3
  obtain ⟨EB, hgE, hlpE, htE, hentries⟩ := M.entryB
  have hgE5 : getBlock (addDest (appendInst (appendInst st.1 cx.entryId
      (.gep st.2 (V.reg cx.jt) (V.const k))) cx.entryId
      (.store (st.2 + 1) (V.blockAddr blk) (V.reg st.2))) cx.jb blk)
      cx.entryId = some { EB with insts :=
        (EB.insts ++ [Instr.gep st.2 (V.reg cx.jt) (V.const k)])
          ++ [Instr.store (st.2 + 1) (V.blockAddr blk) (V.reg st.2)] } := by
    rw [getBlock_addDest_ne _ _ _ _ hejb, getBlock_appendInst_self,
      getBlock_appendInst_self, hgE, Option.map_some', Option.map_some']
  obtain ⟨Bm, hgBm, hvals⟩ := M.blkvals
  have hgBm5 : getBlock (addDest (appendInst (appendInst st.1 cx.entryId
      (.gep st.2 (V.reg cx.jt) (V.const k))) cx.entryId
      (.store (st.2 + 1) (V.blockAddr blk) (V.reg st.2))) cx.jb blk) blk
      = some Bm := by
    rw [hother5 blk hblke hblkjb]
    exact hgBm
  have hgetd : (dat ++ [d]).getD k default = d := by
    rw [← M.len]
    exact getD_append_right_self dat d default
  have hLjb_blk : cx.jb ≠ blk := fun he => LH.Ljb (he ▸ hblkmem)
  have hjbmem0 : (⟨cx.jb, false,
      .phi cx.jIdx (incsOf cx T (k + 1) (dat ++ [d])) ::
        (loads ++ [.gep cx.ga (V.reg cx.jt) (V.reg cx.jIdx)]),
      .indirectBr (V.reg cx.ga) (cx.blocks.take k)⟩ : BB) ∈ st.1 :=
    (getBlock_mem _ _ _ hsh').1
  have hpred_jb_take : cx.jb ∉ cx.blocks.take k := by
    intro hmem
    exact LH.Ljb (List.mem_of_mem_take hmem)
  have hpred_jb_rew : cx.jb ∉ rewiredAll cx T (k + 1) (dat ++ [d]) := by
    intro hmem
    have := (M.preds _ hjbmem0).mpr
    simp only [Term.succs] at this
    exact hpred_jb_take (this hmem)
  have hpreds5 : ∀ B2 ∈ (addDest (appendInst (appendInst st.1 cx.entryId
      (.gep st.2 (V.reg cx.jt) (V.const k))) cx.entryId
      (.store (st.2 + 1) (V.blockAddr blk) (V.reg st.2))) cx.jb blk),
      (cx.jb ∈ B2.term.succs ↔ B2.id ∈ rewiredAll cx T (k + 1) (dat ++ [d])) := by
    intro B2 hB2
    have hgB2 : getBlock (addDest (appendInst (appendInst st.1 cx.entryId
        (.gep st.2 (V.reg cx.jt) (V.const k))) cx.entryId
        (.store (st.2 + 1) (V.blockAddr blk) (V.reg st.2))) cx.jb blk)
        B2.id = some B2 := getBlock_of_mem_nodup _ B2 hnodup5 hB2
    by_cases hid_jb : B2.id = cx.jb
    · rw [hid_jb, hsh5] at hgB2
      have hB2e := Option.some_injective _ hgB2
      rw [← hB2e]
      simp only [Term.succs]
      constructor
      · intro hmem
        rcases List.mem_append.mp hmem with h1 | h1
        · exact absurd h1 hpred_jb_take
        · rw [List.mem_singleton] at h1
          exact absurd h1 hLjb_blk
      · intro hmem
        exact absurd hmem hpred_jb_rew
    · by_cases hid_e : B2.id = cx.entryId
      · rw [hid_e, hgE5] at hgB2
        have hB2e := Option.some_injective _ hgB2
        rw [← hB2e]
        exact M.preds EB (getBlock_mem _ _ _ hgE).1
      · rw [hother5 B2.id hid_e hid_jb] at hgB2
        exact M.preds B2 (getBlock_mem _ _ _ hgB2).1
  have hentry5 : ∃ EB2, getBlock (addDest (appendInst (appendInst st.1
      cx.entryId (.gep st.2 (V.reg cx.jt) (V.const k))) cx.entryId
      (.store (st.2 + 1) (V.blockAddr blk) (V.reg st.2))) cx.jb blk)
      cx.entryId = some EB2 ∧ EB2.lp = false ∧ EB2.term = .erased
      ∧ ∀ j, j < k + 1 →
          Instr.gep (((dat ++ [d]).getD j default).g) (V.reg cx.jt)
              (V.const j) ∈ EB2.insts
          ∧ Instr.store ((((dat ++ [d]).getD j default)).g + 1)
              (V.blockAddr (cx.blocks.getD j 0))
              (V.reg (((dat ++ [d]).getD j default).g)) ∈ EB2.insts
          ∧ cx.jb ≤ ((dat ++ [d]).getD j default).g
          ∧ ((dat ++ [d]).getD j default).g + 1 < st.2 + 2 := by
    refine ⟨_, hgE5, hlpE, htE, ?_⟩
    intro j hj
    rcases Nat.lt_succ_iff_lt_or_eq.mp hj with hjk | hjk
    · obtain ⟨hg1, hs1, hb1, hb2⟩ := hentries j hjk
      rw [getD_snoc_lt dat d j (by omega)]
      exact ⟨List.mem_append.mpr (Or.inl (List.mem_append.mpr (Or.inl hg1))),
        List.mem_append.mpr (Or.inl (List.mem_append.mpr (Or.inl hs1))),
        hb1, by omega⟩
    · subst hjk
      rw [hgetd, ← hblk, M.dg]
      refine ⟨?_, ?_, by have := M.ctr; omega, by omega⟩
      · exact List.mem_append.mpr (Or.inl (List.mem_append.mpr (Or.inr
          (List.mem_singleton.mpr rfl))))
      · exact List.mem_append.mpr (Or.inr (List.mem_singleton.mpr rfl))
  have hproc5 : ∀ j, j < k + 1 →
      ProcOK cx T (addDest (appendInst (appendInst st.1 cx.entryId
        (.gep st.2 (V.reg cx.jt) (V.const k))) cx.entryId
        (.store (st.2 + 1) (V.blockAddr blk) (V.reg st.2))) cx.jb blk)
        (cx.blocks.getD j 0) ((dat ++ [d]).getD j default) := by
    intro j hj
    rcases Nat.lt_succ_iff_lt_or_eq.mp hj with hjk | hjk
    · have hbmem : cx.blocks.getD j 0 ∈ cx.blocks :=
        getD_mem_of_lt cx.blocks j (by omega)
      rw [getD_snoc_lt dat d j (by omega)]
      refine ProcOK_transport hother5 ?_ ?_ LH.entrylt (M.proc j hjk)
      · exact fun he => LH.Lentry (he ▸ hbmem)
      · exact fun he => LH.Ljb (he ▸ hbmem)
    · subst hjk
      rw [hgetd, ← hblk]
      exact ProcOK_transport hother5 hblke hblkjb LH.entrylt M.procK
  have hunproc5 : ∀ b ∈ cx.blocks.drop (k + 1),
      ∃ B, getBlock (addDest (appendInst (appendInst st.1 cx.entryId
        (.gep st.2 (V.reg cx.jt) (V.const k))) cx.entryId
        (.store (st.2 + 1) (V.blockAddr blk) (V.reg st.2))) cx.jb blk) b
        = some B ∧ B.lp = false ∧ B.term.skel = (T b).skel
        ∧ ∀ ins ∈ B.insts, ins.iid < cx.jb := by
    intro b hb
    obtain ⟨B, hgB, h1, h2, h3⟩ := M.unproc b hb
    have hbmem : b ∈ cx.blocks := List.mem_of_mem_drop hb
    refine ⟨B, ?_, h1, h2, h3⟩
    rw [hother5 b (fun he => LH.Lentry (he ▸ hbmem))
      (fun he => LH.Ljb (he ▸ hbmem))]
    exact hgB
  cases hasSucc with
  | false =>
    exact ⟨by simp [M.len], M.kle, hids5.trans M.ids, hnodup5,
      by show cx.jb + 4 ≤ st.2 + 2; omega, hbound5,
      ⟨loads, by unfold JbShape; rw [htake]; exact hsh5,
        LoadsWF_mono hlw (Nat.le_add_right st.2 2)⟩,
      hincs5, hentry5, hproc5, hunproc5, hpreds5⟩
  | true =>
    have H5 : HVHyp cx (addDest (appendInst (appendInst st.1 cx.entryId
        (.gep st.2 (V.reg cx.jt) (V.const k))) cx.entryId
        (.store (st.2 + 1) (V.blockAddr blk) (V.reg st.2))) cx.jb blk,
        st.2 + 2) blk (incsOf cx T (k + 1) (dat ++ [d])) loads
        (cx.blocks.take k ++ [blk]) := by
      refine ⟨LH.wf1, LH.wf2, LH.wf3, by have := M.ctr; omega, hnodup5,
        hbound5, hsh5, LoadsWF_mono hlw (by omega), hincs5, ?_,
        hblkjb, hblke, hejb⟩
      rw [hids5, M.ids]
      exact List.mem_append.mpr (Or.inl (LH.Lsub blk hblkmem))
    have hrb : repairBlock cx.entryId cx.jb cx.jIdx
        (addDest (appendInst (appendInst st.1 cx.entryId
          (.gep st.2 (V.reg cx.jt) (V.const k))) cx.entryId
          (.store (st.2 + 1) (V.blockAddr blk) (V.reg st.2))) cx.jb blk,
          st.2 + 2) blk
        = (Bm.insts.filterMap Instr.result
            ++ (match Bm.term.result with | some r => [r] | none => [])).foldl
          (fun s r => handleValue cx.entryId cx.jb cx.jIdx s blk r)
          (addDest (appendInst (appendInst st.1 cx.entryId
            (.gep st.2 (V.reg cx.jt) (V.const k))) cx.entryId
            (.store (st.2 + 1) (V.blockAddr blk) (V.reg st.2))) cx.jb blk,
            st.2 + 2) := by
      simp only [repairBlock, hgBm5]
    have hvals5 : ∀ v ∈ Bm.insts.filterMap Instr.result
        ++ (match Bm.term.result with | some r => [r] | none => []),
        v < cx.jb ∨ (v < st.2 + 2
          ∧ userRefs (addDest (appendInst (appendInst st.1 cx.entryId
              (.gep st.2 (V.reg cx.jt) (V.const k))) cx.entryId
              (.store (st.2 + 1) (V.blockAddr blk) (V.reg st.2))) cx.jb blk) v
            = [.instrU cx.jIdx cx.jb]) := by
      intro v hv
      rcases hvals v hv with h1 | ⟨h1, h2, h3⟩
      · exact Or.inl h1
      · refine Or.inr ⟨by omega, ?_⟩
        rw [huser3 v h1 h2]
        exact h3
    have R := foldl_handleValue_res cx blk (incsOf cx T (k + 1) (dat ++ [d]))
      (cx.blocks.take k ++ [blk])
      (Bm.insts.filterMap Instr.result
        ++ (match Bm.term.result with | some r => [r] | none => []))
      _ loads H5 hvals5
    rw [if_pos rfl, hrb]
    obtain ⟨loadsF, hshF, hlwF⟩ := R.jbShape
    have hctr2 := R.ctrle
    simp only at hctr2
    refine ⟨by simp [M.len], M.kle, ?_, ?_, ?_, R.bound,
      ⟨loadsF, by unfold JbShape at hshF ⊢; rw [htake]; exact hshF, hlwF⟩,
      R.incsWF, ?_, ?_, ?_, ?_⟩
    · rw [R.ids, hids5]
      exact M.ids
    · rw [R.ids, hids5]
      exact M.nodup
    · have h2 := M.ctr
      omega
    · obtain ⟨EB2, hgE2, hlp2, ht2, hent2⟩ := hentry5
      obtain ⟨EBF, hgEF, hlpF, hskF, hmemF⟩ := R.entryE _ hgE2
      refine ⟨EBF, hgEF, by rw [hlpF]; exact hlp2, skel_erased_inv _ (by
        rw [hskF, ht2]; rfl), ?_⟩
      intro j hj
      obtain ⟨hg1, hs1, hb1, hb2⟩ := hent2 j hj
      refine ⟨?_, ?_, hb1, by omega⟩
      · refine hmemF _ hg1 ?_
        intro q hq
        have he : (Instr.gep (((dat ++ [d]).getD j default).g) (V.reg cx.jt)
            (V.const j)).opnds = [V.reg cx.jt, V.const j] := rfl
        rw [he] at hq
        rcases List.mem_cons.mp hq with hq1 | hq1
        · injection hq1 with hq2
          have := M.ctr
          omega
        · rw [List.mem_singleton] at hq1
          cases hq1
      · refine hmemF _ hs1 ?_
        intro q hq
        have he : (Instr.store (((dat ++ [d]).getD j default).g + 1)
            (V.blockAddr (cx.blocks.getD j 0))
            (V.reg (((dat ++ [d]).getD j default).g))).opnds
            = [V.blockAddr (cx.blocks.getD j 0),
               V.reg (((dat ++ [d]).getD j default).g)] := rfl
        rw [he] at hq
        rcases List.mem_cons.mp hq with hq1 | hq1
        · cases hq1
        · rw [List.mem_singleton] at hq1
          injection hq1 with hq2
          omega
    · intro j hj
      have hbmem : cx.blocks.getD j 0 ∈ cx.blocks :=
        getD_mem_of_lt cx.blocks j (by omega)
      refine ProcOK_of_res R (hproc5 j hj) ?_ ?_ hblke hblkjb hblklt
        LH.entrylt
      · exact fun he => LH.Lentry (he ▸ hbmem)
      · exact fun he => LH.Ljb (he ▸ hbmem)
    · intro b hb
      obtain ⟨B, hgB5, h1, h2, h3⟩ := hunproc5 b hb
      have hbmem : b ∈ cx.blocks := List.mem_of_mem_drop hb
      have hbe : b ≠ cx.entryId := fun he => LH.Lentry (he ▸ hbmem)
      have hbjb : b ≠ cx.jb := fun he => LH.Ljb (he ▸ hbmem)
      have hbblk : b ≠ blk := by
        intro he
        have hdropnd : (cx.blocks.drop k).Nodup :=
          List.Nodup.sublist (List.drop_sublist k cx.blocks) LH.Lnodup
        rw [drop_eq_getD_cons cx.blocks k hk] at hdropnd
        rw [List.nodup_cons] at hdropnd
        exact hdropnd.1 (by rw [← hblk, ← he]; exact hb)
      obtain ⟨B2, hgB2, hL2⟩ := R.others b B hbe hbjb hbblk hgB5
      exact ⟨B2, hgB2, hL2.2.1.trans h1, hL2.2.2.1.trans h2,
        BlkLike_iid_lt hL2 cx.jb h3⟩
    · have hsuccsR : ∀ b2 BA BB2,
          getBlock (addDest (appendInst (appendInst st.1 cx.entryId
            (.gep st.2 (V.reg cx.jt) (V.const k))) cx.entryId
            (.store (st.2 + 1) (V.blockAddr blk) (V.reg st.2))) cx.jb blk)
            b2 = some BA →
          getBlock ((Bm.insts.filterMap Instr.result
            ++ (match Bm.term.result with | some r => [r] | none => [])).foldl
              (fun s r => handleValue cx.entryId cx.jb cx.jIdx s blk r)
              (addDest (appendInst (appendInst st.1 cx.entryId
                (.gep st.2 (V.reg cx.jt) (V.const k))) cx.entryId
                (.store (st.2 + 1) (V.blockAddr blk) (V.reg st.2))) cx.jb blk,
                st.2 + 2)).1 b2 = some BB2 →
          BB2.term.succs = BA.term.succs := by
        intro b2 BA BB2 hgA hgB
        by_cases h1 : b2 = cx.entryId
        · subst h1
          obtain ⟨EBF, hgEF, hlpF, hskF, hmemF⟩ := R.entryE BA hgA
          rw [hgEF] at hgB
          have hBe := Option.some_injective _ hgB
          rw [← hBe]
          rw [← Term_skel_succs EBF.term, hskF, Term_skel_succs]
        · by_cases h2 : b2 = cx.jb
          · subst h2
            rw [hsh5] at hgA
            unfold JbShape at hshF
            rw [hshF] at hgB
            have hA := Option.some_injective _ hgA
            have hB := Option.some_injective _ hgB
            rw [← hA, ← hB]
          · by_cases h3 : b2 = blk
            · subst h3
              rw [hgBm5] at hgA
              have hA := Option.some_injective _ hgA
              obtain ⟨app, hgF, hres⟩ := R.blkE Bm hgBm5
              rw [hgF] at hgB
              have hB := Option.some_injective _ hgB
              rw [← hA, ← hB]
            · obtain ⟨B2', hgB2', hL2⟩ := R.others b2 BA h1 h2 h3 hgA
              rw [hgB2'] at hgB
              have hB := Option.some_injective _ hgB
              rw [← hB]
              exact BlkLike_succs hL2
      refine preds_transfer _ _ cx.jb _ ?_ hnodup5 hsuccsR hpreds5
      exact R.ids
theorem userRefs_complete_term (bs : List BB) (r : Nat) (B : BB)
    (hB : B ∈ bs) (h : B.term.opnds.contains (V.reg r) = true) :
    UserRef.termU B.id ∈ userRefs bs r := by
  simp only [userRefs, List.mem_flatMap]
  refine ⟨B, hB, List.mem_append.mpr (Or.inr ?_)⟩
  rw [if_pos h]
  exact List.mem_singleton.mpr rfl

theorem term_contains_false_of_singleton {bs : List BB} {v jIdx jb : Nat}
    (hs : userRefs bs v = [.instrU jIdx jb]) {B : BB} (hB : B ∈ bs) :
    B.term.opnds.contains (V.reg v) = false := by
  cases hc : B.term.opnds.contains (V.reg v)
  · rfl
  · exfalso
    have := userRefs_complete_term bs v B hB hc
    rw [hs, List.mem_singleton] at this
    cases this

theorem userRefs_nil_term_contains {bs : List BB} {v : Nat}
    (hs : userRefs bs v = []) {B : BB} (hB : B ∈ bs) :
    B.term.opnds.contains (V.reg v) = false := by
  cases hc : B.term.opnds.contains (V.reg v)
  · rfl
  · exfalso
    have := userRefs_complete_term bs v B hB hc
    rw [hs] at this
    cases this

theorem instr_contains_false_of_singleton {bs : List BB} {v jIdx jb : Nat}
    (hs : userRefs bs v = [.instrU jIdx jb]) {B : BB} (hB : B ∈ bs)
    {ins : Instr} (hins : ins ∈ B.insts) (hne : ins.iid ≠ jIdx ∨ B.id ≠ jb) :
    ins.opnds.contains (V.reg v) = false := by
  cases hc : ins.opnds.contains (V.reg v)
  · rfl
  · exfalso
    have := userRefs_complete bs v B hB ins hins hc
    rw [hs, List.mem_singleton] at this
    injection this with h1 h2
    rcases hne with h3 | h3
    · exact h3 h1
    · exact h3 h2

theorem userRefs_modify_at (bs : List BB) (i s : Nat) (f : BB → BB)
    (h : ∀ B ∈ bs, B.id = i → ublock s (f B) = ublock s B) :
    userRefs (modifyBlock bs i f) s = userRefs bs s := by
  unfold modifyBlock
  refine userRefs_map_eq bs _ s (fun B hB => ?_)
  by_cases hid : B.id = i
  · rw [if_pos hid]
    exact h B hB hid
  · rw [if_neg hid]

theorem userRefs_setTerm_at (bs : List BB) (i : Nat) (t : Term) (s : Nat)
    (h : ∀ B ∈ bs, B.id = i →
      t.opnds.contains (V.reg s) = B.term.opnds.contains (V.reg s)) :
    userRefs (setTerm bs i t) s = userRefs bs s :=
  userRefs_modify_at bs i s _
    (fun B hB hid => ublock_term s B t (h B hB hid))

/-- Adding an incoming value to the `jumpIndex` phi of the jump block. -/
theorem JbShape_addIncoming (cx : Ctx) (bs : List BB)
    (incs : List (V × Nat)) (loads : List Instr) (ds : List Nat)
    (inc : V × Nat) (hsh : JbShape cx bs incs loads ds)
    (hl : ∀ x ∈ loads, x.isPhi = false) :
    JbShape cx (addIncomingPhi bs cx.jb cx.jIdx inc) (incs ++ [inc])
      loads ds := by
  unfold JbShape at hsh ⊢
  rw [getBlock_addIncoming_self, hsh, Option.map_some']
  congr 2
  rw [List.map_cons]
  congr 1
  · rw [Instr.addInc, if_pos rfl]
  · refine addInc_map_eq_self _ _ _ ?_
    intro ins hins hphi
    rcases List.mem_append.mp hins with h1 | h1
    · rw [hl ins h1] at hphi
      cases hphi
    · rw [List.mem_singleton] at h1
      rw [h1] at hphi
      cases hphi

/-- A register with no users at all gains exactly the `jumpIndex` phi as
user when it is registered as an incoming value. -/
theorem userRefs_addIncoming_fresh2 (bs : List BB) (jb jIdx : Nat)
    (incs : List (V × Nat)) (restl : List Instr) (JB : BB) (s blk : Nat)
    (hJ : getBlock bs jb = some JB)
    (hins : JB.insts = .phi jIdx incs :: restl)
    (hrestl : ∀ ins ∈ restl, ins.isPhi = true → ins.iid ≠ jIdx)
    (hnodup : (bs.map BB.id).Nodup)
    (husers : userRefs bs s = []) :
    userRefs (addIncomingPhi bs jb jIdx (V.reg s, blk)) s
      = [.instrU jIdx jb] := by
  have hall : ∀ B ∈ bs, ublock s B = [] := by
    rw [userRefs_eq_flatMap] at husers
    exact List.flatMap_eq_nil_iff.mp husers
  have hJmem := getBlock_mem bs jb JB hJ
  have hJnil := hall JB hJmem.1
  unfold ublock at hJnil
  have hJfilter : (JB.insts.filter fun ins =>
      ins.opnds.contains (V.reg s)) = [] := by
    cases hf : JB.insts.filter fun ins => ins.opnds.contains (V.reg s)
    · rfl
    · rw [hf] at hJnil
      cases hJnil
  have hJterm : JB.term.opnds.contains (V.reg s) = false := by
    cases hc : JB.term.opnds.contains (V.reg s)
    · rfl
    · rw [hc, if_pos rfl] at hJnil
      rw [List.append_eq_nil] at hJnil
      cases hJnil.2
  have hrb : ∀ ins ∈ JB.insts, ins.opnds.contains (V.reg s) = false := by
    intro ins hins2
    have := List.filter_eq_nil_iff.mp hJfilter ins hins2
    simpa using this
  have hJB' : getBlock (addIncomingPhi bs jb jIdx (V.reg s, blk)) jb
      = some
          { JB with
            insts := JB.insts.map (Instr.addInc jIdx (V.reg s, blk)) } := by
    rw [getBlock_addIncoming_self, hJ, Option.map_some']
  have hmem' := getBlock_mem _ jb _ hJB'
  rw [userRefs_eq_ublock (addIncomingPhi bs jb jIdx (V.reg s, blk)) s _
    (by rw [ids_addIncoming]; exact hnodup) hmem'.1 ?hother]
  case hother =>
    intro B hB hBne
    simp only [addIncomingPhi, modifyBlock, List.mem_map] at hB
    obtain ⟨B0, hB0, hB0e⟩ := hB
    by_cases hid : B0.id = jb
    · rw [if_pos hid] at hB0e
      exfalso
      apply hBne
      rw [← hB0e]
      exact hid.trans hJmem.2.symm
    · rw [if_neg hid] at hB0e
      subst hB0e
      exact hall B0 hB0
  rw [ublock]
  have hmap : JB.insts.map (Instr.addInc jIdx (V.reg s, blk))
      = Instr.phi jIdx (incs ++ [(V.reg s, blk)]) :: restl := by
    rw [hins, List.map_cons, addInc_map_eq_self jIdx _ restl hrestl]
    congr 1
    rw [Instr.addInc, if_pos rfl]
  have hrestc : ∀ ins ∈ restl, ins.opnds.contains (V.reg s) = false := by
    intro ins hins2
    exact hrb ins (by rw [hins]; exact List.mem_cons_of_mem _ hins2)
  have hfilt : ((Instr.phi jIdx (incs ++ [(V.reg s, blk)]) :: restl).filter
      fun ins => ins.opnds.contains (V.reg s))
      = [Instr.phi jIdx (incs ++ [(V.reg s, blk)])] := by
    rw [List.filter_cons, if_pos]
    · rw [List.filter_eq_nil_iff.mpr]
      intro ins hins2 hc
      rw [hrestc ins hins2] at hc
      cases hc
    · refine contains_of_mem ?_
      simp only [Instr.opnds, List.map_append, List.mem_append]
      exact Or.inr (by simp)
  have hterm2 : ({ JB with
      insts := JB.insts.map (Instr.addInc jIdx (V.reg s, blk)) }
        : BB).term.opnds.contains (V.reg s) = false := hJterm
  rw [hterm2]
  simp only [hmap]
  rw [hfilt]
  simp only [List.map_cons, List.map_nil, Instr.iid]
  rw [if_neg (by simp), List.append_nil, hJmem.2]


/-! The per-terminator step of one loop iteration: each case establishes
the mid-iteration invariant, from which `tail_invariant` concludes. -/

theorem getBlock_none_of_bound {c : Nat} {bs : List BB} (h : IdBound c bs)
    {j : Nat} (hj : c ≤ j) : getBlock bs j = none := by
  cases hg : getBlock bs j with
  | none => rfl
  | some B =>
    exfalso
    have hid := IdBound_getBlock h hg B.id (mem_idents_id B)
    have he := (getBlock_mem bs j B hg).2
    omega

theorem blkvals_base (cx : Ctx) (T : Nat → Term) (bs : List BB) (blk : Nat)
    (B : BB) (hsk : B.term.skel = (T blk).skel)
    (hiids : ∀ ins ∈ B.insts, ins.iid < cx.jb)
    (hT : ∀ m ∈ (T blk).idents, m < cx.jb) :
    ∀ v ∈ B.insts.filterMap Instr.result
        ++ (match B.term.result with | some r => [r] | none => []),
      v < cx.jb := by
  intro v hv
  rcases List.mem_append.mp hv with h1 | h1
  · rw [List.mem_filterMap] at h1
    obtain ⟨ins, hins, hres⟩ := h1
    exact result_eq_iid ins v hres ▸ hiids ins hins
  · have hteq : (T blk).result = B.term.result := by
      rw [← Term_skel_result (T blk), ← hsk, Term_skel_result]
    cases hres : B.term.result with
    | none =>
      rw [hres] at h1
      exact absurd h1 (List.not_mem_nil v)
    | some r =>
      rw [hres] at h1
      have h2 : v ∈ [r] := h1
      rw [List.mem_singleton] at h2
      subst h2
      exact hT v (mem_result_idents (T blk) v (by rw [hteq, hres]))

theorem ProcOK_transport2 {cx : Ctx} {T : Nat → Term} {bsA bsB : List BB}
    {b : Nat} {d : IterRec} (x y : Nat)
    (h : ∀ b2, b2 ≠ cx.entryId → b2 ≠ cx.jb → b2 ≠ x → b2 ≠ y →
      getBlock bsB b2 = getBlock bsA b2)
    (hbe : b ≠ cx.entryId) (hbjb : b ≠ cx.jb) (hbx : b ≠ x) (hby : b ≠ y)
    (hxlt : x < cx.jb) (hy : getBlock bsA y = none)
    (hentrylt : cx.entryId < cx.jb)
    (hok : ProcOK cx T bsA b d) : ProcOK cx T bsB b d := by
  rcases hs : (T b).succs with _ | ⟨s1, _ | ⟨s2, rest⟩⟩
  · simp only [ProcOK, hs] at hok ⊢
    obtain ⟨h1, h2, B, hB, rest2⟩ := hok
    exact ⟨h1, h2, B, by rw [h b hbe hbjb hbx hby]; exact hB, rest2⟩
  · simp only [ProcOK, hs] at hok ⊢
    obtain ⟨h1, h2, B, hB, rest2⟩ := hok
    exact ⟨h1, h2, B, by rw [h b hbe hbjb hbx hby]; exact hB, rest2⟩
  · cases ht : T b with
    | condBr c t f =>
      simp only [ProcOK, hs, ht] at hok ⊢
      obtain ⟨h1, h2, B, hB, rest2⟩ := hok
      exact ⟨h1, h2, B, by rw [h b hbe hbjb hbx hby]; exact hB, rest2⟩
    | invoke r args n u =>
      simp only [ProcOK, hs, ht] at hok ⊢
      obtain ⟨h1, nd, hnd, hndge, hndblk, B, args2, hB, rest2⟩ := hok
      have hndy : nd ≠ y := by
        intro he
        rw [he, hy] at hndblk
        cases hndblk
      refine ⟨h1, nd, hnd, hndge, ?_, B, args2,
        by rw [h b hbe hbjb hbx hby]; exact hB, rest2⟩
      rw [h nd (by omega) (by omega) (by omega) hndy]
      exact hndblk
    | ret v =>
      simp only [ProcOK, hs] at hok ⊢
      rw [ht] at hok ⊢
      exact hok
    | br d2 =>
      simp only [ProcOK, hs] at hok ⊢
      rw [ht] at hok ⊢
      exact hok
    | switchBr v d2 cs =>
      simp only [ProcOK, hs] at hok ⊢
      rw [ht] at hok ⊢
      exact hok
    | indirectBr a ds2 =>
      simp only [ProcOK, hs] at hok ⊢
      rw [ht] at hok ⊢
      exact hok
    | erased =>
      simp only [ProcOK, hs] at hok ⊢
      rw [ht] at hok ⊢
      exact hok

/-- Mid-iteration invariant for a block whose terminator has no
successors: the `step` leaves the state untouched. -/
theorem mid_nosucc (cx : Ctx) (T : Nat → Term) (ids0 : List Nat) (k : Nat)
    (dat : List IterRec) (blk : Nat) (bs1 : List BB) (ctr : Nat)
    (LH : LoopHyp cx T ids0) (P : StepPre cx T ids0 k dat blk bs1 ctr)
    (B : BB) (hgB : getBlock bs1 blk = some B) (hlpB : B.lp = false)
    (hskB : B.term.skel = (T blk).skel)
    (hiids : ∀ ins ∈ B.insts, ins.iid < cx.jb)
    (hTsuccs : (T blk).succs = []) :
    MidInv cx T ids0 k dat ⟨none, none, ctr⟩ blk (bs1, ctr) := by
  have hblkmem : blk ∈ cx.blocks := P.hblk ▸ getD_mem_of_lt cx.blocks k P.hk
  have hcontrib : contribOf cx T k blk ⟨none, none, ctr⟩
      = (if blk = cx.initId then [(V.const k, cx.entryId)] else []) := by
    unfold contribOf
    rw [hTsuccs]
    exact List.append_nil _
  have hincs : incsOf cx T (k + 1) (dat ++ [⟨none, none, ctr⟩])
      = incsOf cx T k dat
        ++ (if blk = cx.initId then [(V.const k, cx.entryId)] else []) := by
    rw [incsOf_succ cx T k dat _ P.len, ← P.hblk, hcontrib]
  have hrwOf : rewiredOf T blk ⟨none, none, ctr⟩ = [] := by
    unfold rewiredOf
    rw [hTsuccs]
  have hrwAll : rewiredAll cx T (k + 1) (dat ++ [⟨none, none, ctr⟩])
      = rewiredAll cx T k dat := by
    rw [rewiredAll_succ cx T k dat _ P.len, ← P.hblk, hrwOf, List.append_nil]
  refine
    { len := P.len, kle := P.hk, nodup := P.nodup, ctr := P.ctrge
      bound := P.bound, dg := rfl, entryB := P.entryB, proc := P.proc
      ids := ?_, shape := ?_, incsWF := ?_, procK := ?_, unproc := ?_
      preds := ?_, blkvals := ?_ }
  · rw [ndsOf_append]
    simpa using P.ids
  · obtain ⟨loads, hsh, hlw⟩ := P.shape
    exact ⟨loads, by rw [hincs]; exact hsh, hlw⟩
  · rw [hincs]
    exact P.incsWF
  · unfold ProcOK
    rw [hTsuccs]
    exact ⟨rfl, rfl, B, hgB, hlpB, hskB⟩
  · intro b hb
    refine P.unproc b ?_
    rw [drop_eq_getD_cons cx.blocks k P.hk]
    exact List.mem_cons_of_mem _ hb
  · intro B2 hB2
    rw [hrwAll]
    exact P.preds B2 hB2
  · refine ⟨B, hgB, fun v hv => Or.inl ?_⟩
    exact blkvals_base cx T bs1 blk B hskB hiids
      (fun m hm => LH.Tbound blk hblkmem m hm) v hv

theorem getD_ne_of_nodup (l : List Nat) (i j : Nat) (hi : i < l.length)
    (hj : j < l.length) (hij : i ≠ j) (hnd : l.Nodup) :
    l.getD i 0 ≠ l.getD j 0 := by
  have h1 : l.getD i 0 = l[i] := by
    simp [List.getD, List.getElem?_eq_getElem hi]
  have h2 : l.getD j 0 = l[j] := by
    simp [List.getD, List.getElem?_eq_getElem hj]
  rw [h1, h2]
  intro he
  exact hij (hnd.getElem_inj_iff.mp he)

/-- Mid-iteration invariant for a block with exactly one successor: the
terminator is replaced by a branch to the jump block and the successor's
dispatch index becomes the block's `jumpIndex` incoming. -/
theorem mid_onesucc (cx : Ctx) (T : Nat → Term) (ids0 : List Nat) (k : Nat)
    (dat : List IterRec) (blk : Nat) (bs1 : List BB) (ctr : Nat)
    (LH : LoopHyp cx T ids0) (P : StepPre cx T ids0 k dat blk bs1 ctr)
    (B : BB) (hgB : getBlock bs1 blk = some B) (hlpB : B.lp = false)
    (hskB : B.term.skel = (T blk).skel)
    (hiids : ∀ ins ∈ B.insts, ins.iid < cx.jb)
    (d1 : Nat) (hTsuccs : (T blk).succs = [d1]) :
    MidInv cx T ids0 k dat ⟨none, none, ctr⟩ blk
      (setTerm (addIncomingPhi bs1 cx.jb cx.jIdx
          (V.const (idxIn cx.blocks d1), blk)) blk (.br cx.jb), ctr) := by
  have hklen := P.hk
  have hblkmem : blk ∈ cx.blocks := P.hblk ▸ getD_mem_of_lt cx.blocks k P.hk
  have hblklt : blk < cx.jb := LH.Lbound blk hblkmem
  have hblkjb : blk ≠ cx.jb := by omega
  have hblke : blk ≠ cx.entryId := fun he => LH.Lentry (he ▸ hblkmem)
  have hejb : cx.entryId ≠ cx.jb := by have := LH.entrylt; omega
  set inc : V × Nat := (V.const (idxIn cx.blocks d1), blk) with hincdef
  set bsA : List BB := addIncomingPhi bs1 cx.jb cx.jIdx inc with hbsAdef
  set bs2 : List BB := setTerm bsA blk (.br cx.jb) with hbs2def
  have hbeqf : ∀ s : Nat, (inc.1 == V.reg s) = false := fun s => rfl
  have hids2 : bs2.map BB.id = bs1.map BB.id := by
    rw [hbs2def, hbsAdef, ids_setTerm, ids_addIncoming]
  have hg2_other : ∀ b2, b2 ≠ blk → b2 ≠ cx.jb →
      getBlock bs2 b2 = getBlock bs1 b2 := by
    intro b2 h1 h2
    rw [hbs2def, getBlock_setTerm_ne _ _ _ _ h1, hbsAdef,
      getBlock_addIncoming_ne _ _ _ _ _ h2]
  have hgA_blk : getBlock bsA blk = some B := by
    rw [hbsAdef, getBlock_addIncoming_ne _ _ _ _ _ hblkjb]
    exact hgB
  have hg2blk : getBlock bs2 blk = some { B with term := Term.br cx.jb } := by
    rw [hbs2def, getBlock_setTerm_self, hgA_blk, Option.map_some']
  have hcontrib : contribOf cx T k blk ⟨none, none, ctr⟩
      = (if blk = cx.initId then [(V.const k, cx.entryId)] else [])
        ++ [(V.const (idxIn cx.blocks d1), blk)] := by
    unfold contribOf
    rw [hTsuccs]
  have hincs : incsOf cx T (k + 1) (dat ++ [⟨none, none, ctr⟩])
      = (incsOf cx T k dat
          ++ (if blk = cx.initId then [(V.const k, cx.entryId)] else []))
        ++ [inc] := by
    rw [incsOf_succ cx T k dat _ P.len, ← P.hblk, hcontrib, hincdef,
      List.append_assoc]
  have hrwOf : rewiredOf T blk (⟨none, none, ctr⟩ : IterRec) = [blk] := by
    unfold rewiredOf
    rw [hTsuccs]
  have hrwAll : rewiredAll cx T (k + 1) (dat ++ [⟨none, none, ctr⟩])
      = rewiredAll cx T k dat ++ [blk] := by
    rw [rewiredAll_succ cx T k dat _ P.len, ← P.hblk, hrwOf]
  obtain ⟨loads, hsh, hlw⟩ := P.shape
  have hlnophi : ∀ x ∈ loads, x.isPhi = false := by
    intro x hx
    obtain ⟨lr, slot, hlx, _⟩ := hlw x hx
    rw [hlx]
    rfl
  have hshA : JbShape cx bsA
      ((incsOf cx T k dat
        ++ (if blk = cx.initId then [(V.const k, cx.entryId)] else []))
        ++ [inc]) loads (cx.blocks.take k) :=
    JbShape_addIncoming cx bs1 _ loads _ inc hsh hlnophi
  have hsh2 : JbShape cx bs2
      ((incsOf cx T k dat
        ++ (if blk = cx.initId then [(V.const k, cx.entryId)] else []))
        ++ [inc]) loads (cx.blocks.take k) := by
    unfold JbShape at hshA ⊢
    rw [hbs2def, getBlock_setTerm_ne _ _ _ _ (Ne.symm hblkjb)]
    exact hshA
  have husersA : ∀ s, userRefs bsA s = userRefs bs1 s := fun s =>
    userRefs_addIncoming bs1 cx.jb cx.jIdx inc s (hbeqf s)
  have husers2 : ∀ s, userRefs bs1 s = [.instrU cx.jIdx cx.jb] →
      userRefs bs2 s = [.instrU cx.jIdx cx.jb] := by
    intro s hs
    have hsA : userRefs bsA s = [.instrU cx.jIdx cx.jb] :=
      (husersA s).trans hs
    have hB2 : userRefs bs2 s = userRefs bsA s := by
      refine userRefs_setTerm_at bsA blk (.br cx.jb) s ?_
      intro B' hB' _
      rw [term_contains_false_of_singleton hsA hB']
      rfl
    exact hB2.trans hsA
  have hdropk : cx.blocks.drop k = blk :: cx.blocks.drop (k + 1) := by
    rw [drop_eq_getD_cons cx.blocks k P.hk, ← P.hblk]
  refine
    { len := P.len, kle := P.hk, ctr := P.ctrge, dg := rfl
      ids := ?_, nodup := ?_, bound := ?_, shape := ?_, incsWF := ?_
      entryB := ?_, proc := ?_, procK := ?_, unproc := ?_
      preds := ?_, blkvals := ?_ }
  · rw [hids2, ndsOf_append]
    simpa using P.ids
  · rw [hids2]
    exact P.nodup
  · refine IdBound_setTerm (IdBound_addIncoming P.bound cx.jb cx.jIdx ?_ ?_)
      blk ?_
    · intro m hm
      have hm2 : m ∈ [idxIn cx.blocks d1] := hm
      rw [List.mem_singleton] at hm2
      subst hm2
      have hfb := findBlock_ok cx.blocks d1 ?hd1
      case hd1 =>
        have hcl := LH.closed blk hblkmem
        rw [hTsuccs] at hcl
        exact hcl
      have := findIdx_isSome_of_mem cx.blocks d1 ?hd1b
      case hd1b =>
        have hcl := LH.closed blk hblkmem
        rw [hTsuccs] at hcl
        exact hcl
      have hlt : idxIn cx.blocks d1 < cx.blocks.length := by
        unfold idxIn
        cases hfi : cx.blocks.findIdx? fun y => y = d1 with
        | none => rw [hfi] at this; cases this
        | some q =>
          have := List.findIdx?_eq_some_iff_findIdx_eq.mp hfi
          simp only [Option.getD_some]
          omega
      have := LH.Llen
      have := P.ctrge
      omega
    · show blk < ctr
      have := P.ctrge
      omega
    · intro m hm
      have hm2 : m ∈ [cx.jb] := hm
      rw [List.mem_singleton] at hm2
      subst hm2
      have := P.ctrge
      omega
  · exact ⟨loads, by rw [hincs]; exact hsh2, hlw⟩
  · rw [hincs]
    intro i2 hi2
    rcases List.mem_append.mp hi2 with h | h
    · rcases P.incsWF i2 h with ⟨nn, hnn⟩ | ⟨s, h1, h2, h3, h4⟩
      · exact Or.inl ⟨nn, hnn⟩
      · exact Or.inr ⟨s, h1, h2, h3, husers2 s h4⟩
    · rw [List.mem_singleton] at h
      subst h
      exact Or.inl ⟨idxIn cx.blocks d1, rfl⟩
  · obtain ⟨EB, hgE, he1, he2, he3⟩ := P.entryB
    exact ⟨EB, by rw [hg2_other _ (Ne.symm hblke) hejb]; exact hgE,
      he1, he2, he3⟩
  · intro jj hjj
    refine ProcOK_transport2 blk ctr
      (fun b2 h1 h2 h3 _ => hg2_other b2 h3 h2) ?_ ?_ ?_ ?_ hblklt
      (getBlock_none_of_bound P.bound le_rfl) LH.entrylt (P.proc jj hjj)
    · intro he
      exact LH.Lentry (he ▸ getD_mem_of_lt cx.blocks jj (by omega))
    · have := LH.Lbound _ (getD_mem_of_lt cx.blocks jj (by omega))
      omega
    · rw [P.hblk]
      exact getD_ne_of_nodup cx.blocks jj k (by omega) P.hk (by omega)
        LH.Lnodup
    · have := LH.Lbound _ (getD_mem_of_lt cx.blocks jj (by omega))
      have := P.ctrge
      omega
  · unfold ProcOK
    rw [hTsuccs]
    exact ⟨rfl, rfl, { B with term := Term.br cx.jb }, hg2blk, hlpB, rfl⟩
  · intro b hb
    have hbk : b ∈ cx.blocks.drop k := by
      rw [hdropk]
      exact List.mem_cons_of_mem _ hb
    have hbmem : b ∈ cx.blocks := List.drop_subset k cx.blocks hbk
    have hbjb2 : b ≠ cx.jb := by
      have := LH.Lbound b hbmem
      omega
    have hbblk : b ≠ blk := by
      intro he
      have hdnd : (cx.blocks.drop k).Nodup :=
        List.Nodup.sublist (List.drop_sublist k cx.blocks) LH.Lnodup
      rw [hdropk, List.nodup_cons] at hdnd
      exact hdnd.1 (he ▸ hb)
    obtain ⟨B', hgB', h1, h2, h3⟩ := P.unproc b hbk
    exact ⟨B', by rw [hg2_other b hbblk hbjb2]; exact hgB', h1, h2, h3⟩
  · intro B2 hB2
    have hnodup2 : (bs2.map BB.id).Nodup := by
      rw [hids2]
      exact P.nodup
    have hgB2 : getBlock bs2 B2.id = some B2 :=
      getBlock_of_mem_nodup bs2 B2 hnodup2 hB2
    rw [hrwAll]
    by_cases hid : B2.id = blk
    · rw [hid, hg2blk] at hgB2
      have hB2e := Option.some_injective _ hgB2
      constructor
      · intro _
        rw [hid]
        exact List.mem_append.mpr (Or.inr (List.mem_singleton.mpr rfl))
      · intro _
        rw [← hB2e]
        show cx.jb ∈ [cx.jb]
        exact List.mem_singleton.mpr rfl
    · by_cases hjb2 : B2.id = cx.jb
      · unfold JbShape at hsh2
        rw [hjb2, hsh2] at hgB2
        have hB2e := Option.some_injective _ hgB2
        have hjbtake : cx.jb ∉ cx.blocks.take k := by
          intro hmem
          exact LH.Ljb (List.take_subset k cx.blocks hmem)
        have hjbold : cx.jb ∉ rewiredAll cx T k dat := by
          unfold JbShape at hsh
          have hJmem := getBlock_mem bs1 cx.jb _ hsh
          have := (P.preds _ hJmem.1).mp
          intro hr
          rw [hJmem.2] at this
          exact hjbtake (by
            by_contra hno
            have hs2 : cx.jb ∈ (Term.indirectBr (V.reg cx.ga)
                (cx.blocks.take k)).succs → cx.jb ∈ cx.blocks.take k :=
              fun hx => hx
            exact hno (hs2 ((P.preds _ hJmem.1).mpr (hJmem.2 ▸ hr))))
        constructor
        · intro hjs
          exfalso
          rw [← hB2e] at hjs
          exact hjbtake hjs
        · intro hr
          exfalso
          rw [hjb2] at hr
          rcases List.mem_append.mp hr with h | h
          · exact hjbold h
          · rw [List.mem_singleton] at h
            exact hblkjb h.symm
      · have hgb1 : getBlock bs1 B2.id = some B2 := by
          rw [← hg2_other B2.id hid hjb2]
          exact hgB2
        have hmem1 := (getBlock_mem bs1 B2.id B2 hgb1).1
        constructor
        · intro h
          exact List.mem_append.mpr (Or.inl ((P.preds B2 hmem1).mp h))
        · intro h
          rcases List.mem_append.mp h with h | h
          · exact (P.preds B2 hmem1).mpr h
          · rw [List.mem_singleton] at h
            exact absurd h hid
  · refine ⟨{ B with term := Term.br cx.jb }, hg2blk, ?_⟩
    intro v hv
    refine Or.inl ?_
    rcases List.mem_append.mp hv with h1 | h1
    · rw [List.mem_filterMap] at h1
      obtain ⟨ins, hins, hres⟩ := h1
      exact result_eq_iid ins v hres ▸ hiids ins hins
    · exact absurd h1 (List.not_mem_nil v)

theorem idxIn_lt_length (l : List Nat) (x : Nat) (hx : x ∈ l) :
    idxIn l x < l.length := by
  have hsome := findIdx_isSome_of_mem l x hx
  unfold idxIn
  cases hfi : l.findIdx? fun y => y = x with
  | none =>
    rw [hfi] at hsome
    cases hsome
  | some q =>
    have := List.findIdx?_eq_some_iff_findIdx_eq.mp hfi
    simp only [Option.getD_some]
    omega

/-- Mid-iteration invariant for a block ending in a conditional branch:
a select between the two successors' dispatch indices is appended, the
select feeds `jumpIndex`, and the branch becomes a jump to the dispatch
block. -/
theorem mid_condbr (cx : Ctx) (T : Nat → Term) (ids0 : List Nat) (k : Nat)
    (dat : List IterRec) (blk : Nat) (bs1 : List BB) (ctr : Nat)
    (LH : LoopHyp cx T ids0) (P : StepPre cx T ids0 k dat blk bs1 ctr)
    (B : BB) (hgB : getBlock bs1 blk = some B) (hlpB : B.lp = false)
    (hiids : ∀ ins ∈ B.insts, ins.iid < cx.jb)
    (c c2 : V) (t f : Nat) (hTb : T blk = .condBr c t f)
    (hBt : B.term = .condBr c2 t f) :
    MidInv cx T ids0 k dat ⟨some ctr, none, ctr + 1⟩ blk
      (setTerm (addIncomingPhi
          (appendInst bs1 blk (.select ctr c2 (V.const (idxIn cx.blocks t))
            (V.const (idxIn cx.blocks f))))
          cx.jb cx.jIdx (V.reg ctr, blk)) blk (.br cx.jb), ctr + 1) := by
  have hklen := P.hk
  have hctrge := P.ctrge
  have hblkmem : blk ∈ cx.blocks := P.hblk ▸ getD_mem_of_lt cx.blocks k P.hk
  have hblklt : blk < cx.jb := LH.Lbound blk hblkmem
  have hblkjb : blk ≠ cx.jb := by omega
  have hblke : blk ≠ cx.entryId := fun he => LH.Lentry (he ▸ hblkmem)
  have hejb : cx.entryId ≠ cx.jb := by have := LH.entrylt; omega
  have hTsuccs : (T blk).succs = [t, f] := by
    rw [hTb]
    rfl
  have hcl := LH.closed blk hblkmem
  rw [hTb] at hcl
  have htf : t ∈ cx.blocks ∧ f ∈ cx.blocks := hcl
  have hBmem := (getBlock_mem bs1 blk B hgB).1
  set sel : Instr := Instr.select ctr c2 (V.const (idxIn cx.blocks t))
    (V.const (idxIn cx.blocks f)) with hseldef
  set inc : V × Nat := (V.reg ctr, blk) with hincdef
  set bsS : List BB := appendInst bs1 blk sel with hbsSdef
  set bsA : List BB := addIncomingPhi bsS cx.jb cx.jIdx inc with hbsAdef
  set bs2 : List BB := setTerm bsA blk (.br cx.jb) with hbs2def
  have hids2 : bs2.map BB.id = bs1.map BB.id := by
    rw [hbs2def, hbsAdef, hbsSdef, ids_setTerm, ids_addIncoming,
      ids_appendInst]
  have hg2_other : ∀ b2, b2 ≠ blk → b2 ≠ cx.jb →
      getBlock bs2 b2 = getBlock bs1 b2 := by
    intro b2 h1 h2
    rw [hbs2def, getBlock_setTerm_ne _ _ _ _ h1, hbsAdef,
      getBlock_addIncoming_ne _ _ _ _ _ h2, hbsSdef,
      getBlock_appendInst_ne _ _ _ _ h1]
  have hg2blk : getBlock bs2 blk
      = some { B with insts := B.insts ++ [sel], term := Term.br cx.jb } := by
    rw [hbs2def, getBlock_setTerm_self, hbsAdef,
      getBlock_addIncoming_ne _ _ _ _ _ hblkjb, hbsSdef,
      getBlock_appendInst_self, hgB, Option.map_some', Option.map_some']
  have hcontrib : contribOf cx T k blk ⟨some ctr, none, ctr + 1⟩
      = (if blk = cx.initId then [(V.const k, cx.entryId)] else [])
        ++ [(V.reg ctr, blk)] := by
    unfold contribOf
    rw [hTb]
    rfl
  have hincs : incsOf cx T (k + 1) (dat ++ [⟨some ctr, none, ctr + 1⟩])
      = (incsOf cx T k dat
          ++ (if blk = cx.initId then [(V.const k, cx.entryId)] else []))
        ++ [inc] := by
    rw [incsOf_succ cx T k dat _ P.len, ← P.hblk, hcontrib, hincdef,
      List.append_assoc]
  have hrwOf : rewiredOf T blk (⟨some ctr, none, ctr + 1⟩ : IterRec)
      = [blk] := by
    unfold rewiredOf
    rw [hTb]
    rfl
  have hrwAll : rewiredAll cx T (k + 1) (dat ++ [⟨some ctr, none, ctr + 1⟩])
      = rewiredAll cx T k dat ++ [blk] := by
    rw [rewiredAll_succ cx T k dat _ P.len, ← P.hblk, hrwOf]
  obtain ⟨loads, hsh, hlw⟩ := P.shape
  have hlnophi : ∀ x ∈ loads, x.isPhi = false := by
    intro x hx
    obtain ⟨lr, slot, hlx, _⟩ := hlw x hx
    rw [hlx]
    rfl
  have hselc : ∀ s2, B.term.opnds.contains (V.reg s2) = false →
      sel.opnds.contains (V.reg s2) = false := by
    intro s2 hterm
    rw [hseldef]
    show ([c2] ++ [V.const (idxIn cx.blocks t), V.const (idxIn cx.blocks f)]
      : List V).contains (V.reg s2) = false
    rw [contains_append_bool]
    have h1 : ([c2] : List V).contains (V.reg s2) = false := by
      rw [hBt] at hterm
      exact hterm
    have h2 : ([V.const (idxIn cx.blocks t), V.const (idxIn cx.blocks f)]
        : List V).contains (V.reg s2) = false :=
      contains_false_of_not_mem (by simp)
    rw [h1, h2]
    rfl
  have husers1 : userRefs bs1 ctr = [] := userRefs_nil_of_bound P.bound le_rfl
  have hterm_ctr : B.term.opnds.contains (V.reg ctr) = false :=
    userRefs_nil_term_contains husers1 hBmem
  have husersS : userRefs bsS ctr = [] := by
    rw [hbsSdef, userRefs_appendInst _ _ _ _ (hselc ctr hterm_ctr)]
    exact husers1
  have hnodupS : (bsS.map BB.id).Nodup := by
    rw [hbsSdef, ids_appendInst]
    exact P.nodup
  have hshS : JbShape cx bsS
      (incsOf cx T k dat
        ++ (if blk = cx.initId then [(V.const k, cx.entryId)] else []))
      loads (cx.blocks.take k) := by
    unfold JbShape at hsh ⊢
    rw [hbsSdef, getBlock_appendInst_ne _ _ _ _ (Ne.symm hblkjb)]
    exact hsh
  have hrestl : ∀ ins ∈ loads
      ++ [Instr.gep cx.ga (V.reg cx.jt) (V.reg cx.jIdx)],
      ins.isPhi = true → ins.iid ≠ cx.jIdx := by
    intro ins hins hphi
    rcases List.mem_append.mp hins with h | h
    · rw [hlnophi ins h] at hphi
      cases hphi
    · rw [List.mem_singleton] at h
      rw [h] at hphi
      cases hphi
  have hsingA : userRefs bsA ctr = [.instrU cx.jIdx cx.jb] := by
    rw [hbsAdef, hincdef]
    exact userRefs_addIncoming_fresh2 bsS cx.jb cx.jIdx _ _ _ ctr blk hshS
      rfl hrestl hnodupS husersS
  have hsing2 : userRefs bs2 ctr = [.instrU cx.jIdx cx.jb] := by
    have hset : userRefs bs2 ctr = userRefs bsA ctr := by
      rw [hbs2def]
      refine userRefs_setTerm_at bsA blk (.br cx.jb) ctr ?_
      intro B' hB' _
      rw [term_contains_false_of_singleton hsingA hB']
      rfl
    exact hset.trans hsingA
  have husers2 : ∀ s, s < ctr → userRefs bs1 s = [.instrU cx.jIdx cx.jb] →
      userRefs bs2 s = [.instrU cx.jIdx cx.jb] := by
    intro s hslt hs
    have htermf := term_contains_false_of_singleton hs hBmem
    have hS : userRefs bsS s = userRefs bs1 s := by
      rw [hbsSdef, userRefs_appendInst _ _ _ _ (hselc s htermf)]
    have hA : userRefs bsA s = userRefs bsS s := by
      rw [hbsAdef]
      refine userRefs_addIncoming bsS cx.jb cx.jIdx inc s ?_
      refine decide_eq_false (fun he => ?_)
      have he2 : V.reg ctr = V.reg s := he
      injection he2 with h3
      omega
    have hsA : userRefs bsA s = [.instrU cx.jIdx cx.jb] :=
      (hA.trans hS).trans hs
    have h2 : userRefs bs2 s = userRefs bsA s := by
      rw [hbs2def]
      refine userRefs_setTerm_at bsA blk (.br cx.jb) s ?_
      intro B' hB' _
      rw [term_contains_false_of_singleton hsA hB']
      rfl
    exact h2.trans hsA
  have hdropk : cx.blocks.drop k = blk :: cx.blocks.drop (k + 1) := by
    rw [drop_eq_getD_cons cx.blocks k P.hk, ← P.hblk]
  have hsh2 : JbShape cx bs2
      ((incsOf cx T k dat
        ++ (if blk = cx.initId then [(V.const k, cx.entryId)] else []))
        ++ [inc]) loads (cx.blocks.take k) := by
    have hshA := JbShape_addIncoming cx bsS _ loads _ inc hshS hlnophi
    unfold JbShape at hshA ⊢
    rw [hbs2def, getBlock_setTerm_ne _ _ _ _ (Ne.symm hblkjb)]
    exact hshA
  refine
    { len := P.len, kle := P.hk, ctr := by omega, dg := rfl
      ids := ?_, nodup := ?_, bound := ?_, shape := ?_, incsWF := ?_
      entryB := ?_, proc := ?_, procK := ?_, unproc := ?_
      preds := ?_, blkvals := ?_ }
  · rw [hids2, ndsOf_append]
    simpa using P.ids
  · rw [hids2]
    exact P.nodup
  · have hb1 : IdBound (ctr + 1) bs1 := P.bound.mono (Nat.le_succ ctr)
    have hbS : IdBound (ctr + 1) bsS := by
      rw [hbsSdef]
      refine IdBound_appendInst hb1 blk ?_
      intro m hm
      rw [hseldef] at hm
      simp only [Instr.idents, Instr.iid, Instr.opnds, Instr.extra,
        List.flatMap_cons, List.flatMap_nil, List.append_nil, V.idents,
        List.mem_cons, List.mem_append, List.mem_singleton,
        List.not_mem_nil, or_false] at hm
      rcases hm with h | h | h | h
      · omega
      · have hmm : m ∈ B.term.idents := by
          rw [hBt, Term.idents]
          refine List.mem_append.mpr (Or.inl (List.mem_append.mpr
            (Or.inr ?_)))
          simpa [Term.opnds] using h
        have := IdBound_getBlock P.bound hgB m (mem_idents_term hmm)
        omega
      · subst h
        have := idxIn_lt_length cx.blocks t htf.1
        have := LH.Llen
        omega
      · subst h
        have := idxIn_lt_length cx.blocks f htf.2
        have := LH.Llen
        omega
    have hbA : IdBound (ctr + 1) bsA := by
      rw [hbsAdef]
      refine IdBound_addIncoming hbS cx.jb cx.jIdx ?_ ?_
      · intro m hm
        have hm2 : m ∈ [ctr] := hm
        rw [List.mem_singleton] at hm2
        omega
      · show blk < ctr + 1
        omega
    rw [hbs2def]
    refine IdBound_setTerm hbA blk ?_
    intro m hm
    have hm2 : m ∈ [cx.jb] := hm
    rw [List.mem_singleton] at hm2
    omega
  · exact ⟨loads, by rw [hincs]; exact hsh2,
      LoadsWF_mono hlw (Nat.le_succ ctr)⟩
  · rw [hincs]
    intro i2 hi2
    rcases List.mem_append.mp hi2 with h | h
    · rcases P.incsWF i2 h with ⟨nn, hnn⟩ | ⟨s, h1, h2, h3, h4⟩
      · exact Or.inl ⟨nn, hnn⟩
      · exact Or.inr ⟨s, h1, h2, by omega, husers2 s h3 h4⟩
    · rw [List.mem_singleton] at h
      subst h
      exact Or.inr ⟨ctr, rfl, by omega, by omega, hsing2⟩
  · obtain ⟨EB, hgE, he1, he2, he3⟩ := P.entryB
    refine ⟨EB, by rw [hg2_other _ (Ne.symm hblke) hejb]; exact hgE,
      he1, he2, fun j hj => ?_⟩
    obtain ⟨ha, hb, hc, hd⟩ := he3 j hj
    exact ⟨ha, hb, hc, by omega⟩
  · intro jj hjj
    refine ProcOK_transport2 blk ctr
      (fun b2 h1 h2 h3 _ => hg2_other b2 h3 h2) ?_ ?_ ?_ ?_ hblklt
      (getBlock_none_of_bound P.bound le_rfl) LH.entrylt (P.proc jj hjj)
    · intro he
      exact LH.Lentry (he ▸ getD_mem_of_lt cx.blocks jj (by omega))
    · have := LH.Lbound _ (getD_mem_of_lt cx.blocks jj (by omega))
      omega
    · rw [P.hblk]
      exact getD_ne_of_nodup cx.blocks jj k (by omega) P.hk (by omega)
        LH.Lnodup
    · have := LH.Lbound _ (getD_mem_of_lt cx.blocks jj (by omega))
      omega
  · unfold ProcOK
    rw [hTb]
    exact ⟨rfl, ⟨ctr, rfl⟩,
      { B with insts := B.insts ++ [sel], term := Term.br cx.jb },
      hg2blk, hlpB, rfl⟩
  · intro b hb
    have hbk : b ∈ cx.blocks.drop k := by
      rw [hdropk]
      exact List.mem_cons_of_mem _ hb
    have hbmem : b ∈ cx.blocks := List.drop_subset k cx.blocks hbk
    have hbjb2 : b ≠ cx.jb := by
      have := LH.Lbound b hbmem
      omega
    have hbblk : b ≠ blk := by
      intro he
      have hdnd : (cx.blocks.drop k).Nodup :=
        List.Nodup.sublist (List.drop_sublist k cx.blocks) LH.Lnodup
      rw [hdropk, List.nodup_cons] at hdnd
      exact hdnd.1 (he ▸ hb)
    obtain ⟨B', hgB', h1, h2, h3⟩ := P.unproc b hbk
    exact ⟨B', by rw [hg2_other b hbblk hbjb2]; exact hgB', h1, h2, h3⟩
  · intro B2 hB2
    have hnodup2 : (bs2.map BB.id).Nodup := by
      rw [hids2]
      exact P.nodup
    have hgB2 : getBlock bs2 B2.id = some B2 :=
      getBlock_of_mem_nodup bs2 B2 hnodup2 hB2
    rw [hrwAll]
    by_cases hid : B2.id = blk
    · rw [hid, hg2blk] at hgB2
      have hB2e := Option.some_injective _ hgB2
      constructor
      · intro _
        rw [hid]
        exact List.mem_append.mpr (Or.inr (List.mem_singleton.mpr rfl))
      · intro _
        rw [← hB2e]
        show cx.jb ∈ [cx.jb]
        exact List.mem_singleton.mpr rfl
    · by_cases hjb2 : B2.id = cx.jb
      · unfold JbShape at hsh2
        rw [hjb2, hsh2] at hgB2
        have hB2e := Option.some_injective _ hgB2
        have hjbtake : cx.jb ∉ cx.blocks.take k := by
          intro hmem
          exact LH.Ljb (List.take_subset k cx.blocks hmem)
        have hjbold : cx.jb ∉ rewiredAll cx T k dat := by
          unfold JbShape at hsh
          have hJmem := getBlock_mem bs1 cx.jb _ hsh
          intro hr
          exact hjbtake ((P.preds _ hJmem.1).mpr (hJmem.2 ▸ hr))
        constructor
        · intro hjs
          exfalso
          rw [← hB2e] at hjs
          exact hjbtake hjs
        · intro hr
          exfalso
          rw [hjb2] at hr
          rcases List.mem_append.mp hr with h | h
          · exact hjbold h
          · rw [List.mem_singleton] at h
            exact hblkjb h.symm
      · have hgb1 : getBlock bs1 B2.id = some B2 := by
          rw [← hg2_other B2.id hid hjb2]
          exact hgB2
        have hmem1 := (getBlock_mem bs1 B2.id B2 hgb1).1
        constructor
        · intro h
          exact List.mem_append.mpr (Or.inl ((P.preds B2 hmem1).mp h))
        · intro h
          rcases List.mem_append.mp h with h | h
          · exact (P.preds B2 hmem1).mpr h
          · rw [List.mem_singleton] at h
            exact absurd h hid
  · refine ⟨{ B with insts := B.insts ++ [sel], term := Term.br cx.jb },
      hg2blk, ?_⟩
    intro v hv
    rcases List.mem_append.mp hv with h1 | h1
    · rw [List.filterMap_append] at h1
      rcases List.mem_append.mp h1 with h2 | h2
      · rw [List.mem_filterMap] at h2
        obtain ⟨ins, hins, hres⟩ := h2
        exact Or.inl (result_eq_iid ins v hres ▸ hiids ins hins)
      · have h3 : v ∈ [ctr] := by
          rw [hseldef] at h2
          simpa [Instr.result] using h2
        rw [List.mem_singleton] at h3
        subst h3
        exact Or.inr ⟨by omega, by omega, hsing2⟩
    · exact absurd h1 (List.not_mem_nil v)

/-- Mid-iteration invariant for a block ending in an invoke: a fresh
normal-destination block is created, the invoke is redirected to it, and
the new block branches to the dispatch block carrying the original normal
destination's dispatch index. -/
theorem mid_invoke (cx : Ctx) (T : Nat → Term) (ids0 : List Nat) (k : Nat)
    (dat : List IterRec) (blk : Nat) (bs1 : List BB) (ctr : Nat)
    (LH : LoopHyp cx T ids0) (P : StepPre cx T ids0 k dat blk bs1 ctr)
    (B : BB) (hgB : getBlock bs1 blk = some B) (hlpB : B.lp = false)
    (hiids : ∀ ins ∈ B.insts, ins.iid < cx.jb)
    (r : Nat) (args args2 : List V) (n u : Nat)
    (hTb : T blk = .invoke r args n u)
    (hBt : B.term = .invoke r args2 n u) :
    MidInv cx T ids0 k dat ⟨none, some ctr, ctr + 1⟩ blk
      (setTerm (addIncomingPhi
          (setTerm (bs1 ++ [⟨ctr, false, [], .erased⟩]) blk
            (.invoke r args2 ctr u))
          cx.jb cx.jIdx (V.const (idxIn cx.blocks n), ctr))
        ctr (.br cx.jb), ctr + 1) := by
  have hklen := P.hk
  have hctrge := P.ctrge
  have hblkmem : blk ∈ cx.blocks := P.hblk ▸ getD_mem_of_lt cx.blocks k P.hk
  have hblklt : blk < cx.jb := LH.Lbound blk hblkmem
  have hblkjb : blk ≠ cx.jb := by omega
  have hblke : blk ≠ cx.entryId := fun he => LH.Lentry (he ▸ hblkmem)
  have hejb : cx.entryId ≠ cx.jb := by have := LH.entrylt; omega
  have hblkctr : blk ≠ ctr := by omega
  have hjbctr : cx.jb ≠ ctr := by omega
  have hectr : cx.entryId ≠ ctr := by have := LH.entrylt; omega
  have hTsuccs : (T blk).succs = [n, u] := by
    rw [hTb]
    rfl
  have hcl := LH.closed blk hblkmem
  rw [hTb] at hcl
  have hn : n ∈ cx.blocks := hcl
  have humem : u ∈ (T blk).succs := by
    rw [hTsuccs]
    exact List.mem_cons_of_mem _ (List.mem_singleton.mpr rfl)
  have hu : u < cx.jb := LH.Tbound blk hblkmem u
    (mem_succs_idents (T blk) u humem)
  have hresT : (T blk).result = some r := by
    rw [hTb]
    rfl
  have hrlt : r < cx.jb := LH.Tbound blk hblkmem r
    (mem_result_idents (T blk) r hresT)
  have hnlt : n < cx.jb := LH.Lbound n hn
  have hBmem := (getBlock_mem bs1 blk B hgB).1
  have hBid := (getBlock_mem bs1 blk B hgB).2
  set nb : BB := ⟨ctr, false, [], .erased⟩ with hnbdef
  set inc : V × Nat := (V.const (idxIn cx.blocks n), ctr) with hincdef
  set bsW : List BB := bs1 ++ [nb] with hbsWdef
  set bsT : List BB := setTerm bsW blk (.invoke r args2 ctr u) with hbsTdef
  set bsA : List BB := addIncomingPhi bsT cx.jb cx.jIdx inc with hbsAdef
  set bs2 : List BB := setTerm bsA ctr (.br cx.jb) with hbs2def
  have hctr_none : getBlock bs1 ctr = none :=
    getBlock_none_of_bound P.bound le_rfl
  have hgW_other : ∀ b2, b2 ≠ ctr → getBlock bsW b2 = getBlock bs1 b2 := by
    intro b2 h1
    cases hg : getBlock bs1 b2 with
    | some B0 => rw [hbsWdef, getBlock_append_left bs1 [nb] b2 B0 hg]
    | none =>
      rw [hbsWdef, getBlock_append_right bs1 [nb] b2 hg, getBlock_cons,
        if_neg (fun he => h1 he.symm)]
      rfl
  have hgW_ctr : getBlock bsW ctr = some nb := by
    rw [hbsWdef, getBlock_append_right bs1 [nb] ctr hctr_none,
      getBlock_cons, if_pos rfl]
  have hids2 : bs2.map BB.id = bs1.map BB.id ++ [ctr] := by
    rw [hbs2def, hbsAdef, hbsTdef, hbsWdef, ids_setTerm, ids_addIncoming,
      ids_setTerm, List.map_append]
    rfl
  have hctr_notid : ctr ∉ bs1.map BB.id := by
    intro hmem
    rw [List.mem_map] at hmem
    obtain ⟨B0, hB0, hB0e⟩ := hmem
    have := P.bound B0.id ((mem_identsOf B0.id bs1).mpr
      ⟨B0, hB0, mem_idents_id B0⟩)
    omega
  have hnodup2 : (bs2.map BB.id).Nodup := by
    rw [hids2, List.nodup_append]
    exact ⟨P.nodup, List.nodup_singleton ctr,
      fun a ha hb => hctr_notid ((List.mem_singleton.mp hb) ▸ ha)⟩
  have hg2_other : ∀ b2, b2 ≠ blk → b2 ≠ cx.jb → b2 ≠ ctr →
      getBlock bs2 b2 = getBlock bs1 b2 := by
    intro b2 h1 h2 h3
    rw [hbs2def, getBlock_setTerm_ne _ _ _ _ h3, hbsAdef,
      getBlock_addIncoming_ne _ _ _ _ _ h2, hbsTdef,
      getBlock_setTerm_ne _ _ _ _ h1, hgW_other b2 h3]
  have hg2blk : getBlock bs2 blk
      = some { B with term := Term.invoke r args2 ctr u } := by
    rw [hbs2def, getBlock_setTerm_ne _ _ _ _ hblkctr, hbsAdef,
      getBlock_addIncoming_ne _ _ _ _ _ hblkjb, hbsTdef,
      getBlock_setTerm_self, hgW_other blk hblkctr, hgB, Option.map_some']
  have hg2nd : getBlock bs2 ctr = some ⟨ctr, false, [], .br cx.jb⟩ := by
    rw [hbs2def, getBlock_setTerm_self, hbsAdef,
      getBlock_addIncoming_ne _ _ _ _ _ (Ne.symm hjbctr), hbsTdef,
      getBlock_setTerm_ne _ _ _ _ (Ne.symm hblkctr), hgW_ctr,
      Option.map_some']
  have hcontrib : contribOf cx T k blk ⟨none, some ctr, ctr + 1⟩
      = (if blk = cx.initId then [(V.const k, cx.entryId)] else [])
        ++ [(V.const (idxIn cx.blocks n), ctr)] := by
    unfold contribOf
    rw [hTb]
    rfl
  have hincs : incsOf cx T (k + 1) (dat ++ [⟨none, some ctr, ctr + 1⟩])
      = (incsOf cx T k dat
          ++ (if blk = cx.initId then [(V.const k, cx.entryId)] else []))
        ++ [inc] := by
    rw [incsOf_succ cx T k dat _ P.len, ← P.hblk, hcontrib, hincdef,
      List.append_assoc]
  have hrwOf : rewiredOf T blk (⟨none, some ctr, ctr + 1⟩ : IterRec)
      = [ctr] := by
    unfold rewiredOf
    rw [hTb]
    rfl
  have hrwAll : rewiredAll cx T (k + 1) (dat ++ [⟨none, some ctr, ctr + 1⟩])
      = rewiredAll cx T k dat ++ [ctr] := by
    rw [rewiredAll_succ cx T k dat _ P.len, ← P.hblk, hrwOf]
  obtain ⟨loads, hsh, hlw⟩ := P.shape
  have hlnophi : ∀ x ∈ loads, x.isPhi = false := by
    intro x hx
    obtain ⟨lr, slot, hlx, _⟩ := hlw x hx
    rw [hlx]
    rfl
  have hshT : JbShape cx bsT
      (incsOf cx T k dat
        ++ (if blk = cx.initId then [(V.const k, cx.entryId)] else []))
      loads (cx.blocks.take k) := by
    unfold JbShape at hsh ⊢
    rw [hbsTdef, getBlock_setTerm_ne _ _ _ _ (Ne.symm hblkjb),
      hgW_other cx.jb hjbctr]
    exact hsh
  have hsh2 : JbShape cx bs2
      ((incsOf cx T k dat
        ++ (if blk = cx.initId then [(V.const k, cx.entryId)] else []))
        ++ [inc]) loads (cx.blocks.take k) := by
    have hshA := JbShape_addIncoming cx bsT _ loads _ inc hshT hlnophi
    unfold JbShape at hshA ⊢
    rw [hbs2def, getBlock_setTerm_ne _ _ _ _ hjbctr]
    exact hshA
  have husers2 : ∀ s, s < ctr → userRefs bs1 s = [.instrU cx.jIdx cx.jb] →
      userRefs bs2 s = [.instrU cx.jIdx cx.jb] := by
    intro s hslt hs
    have hnbnil : userRefs [nb] s = [] := rfl
    have hsW : userRefs bsW s = [.instrU cx.jIdx cx.jb] := by
      rw [hbsWdef, userRefs_append, hnbnil, List.append_nil]
      exact hs
    have hBmemW : B ∈ bsW := by
      rw [hbsWdef]
      exact List.mem_append.mpr (Or.inl hBmem)
    have hargs2 : (args2 : List V).contains (V.reg s) = false := by
      have h0 := term_contains_false_of_singleton hsW hBmemW
      rw [hBt] at h0
      exact h0
    have hsT : userRefs bsT s = [.instrU cx.jIdx cx.jb] := by
      rw [hbsTdef]
      rw [userRefs_setTerm_at bsW blk (.invoke r args2 ctr u) s ?_]
      · exact hsW
      · intro B' hB' _
        rw [term_contains_false_of_singleton hsW hB']
        exact hargs2
    have hsA : userRefs bsA s = [.instrU cx.jIdx cx.jb] := by
      rw [hbsAdef, userRefs_addIncoming bsT cx.jb cx.jIdx inc s rfl]
      exact hsT
    rw [hbs2def]
    rw [userRefs_setTerm_at bsA ctr (.br cx.jb) s ?_]
    · exact hsA
    · intro B' hB' _
      rw [term_contains_false_of_singleton hsA hB']
      rfl
  have hdropk : cx.blocks.drop k = blk :: cx.blocks.drop (k + 1) := by
    rw [drop_eq_getD_cons cx.blocks k P.hk, ← P.hblk]
  refine
    { len := P.len, kle := P.hk, ctr := by omega, dg := rfl
      ids := ?_, nodup := hnodup2, bound := ?_, shape := ?_, incsWF := ?_
      entryB := ?_, proc := ?_, procK := ?_, unproc := ?_
      preds := ?_, blkvals := ?_ }
  · rw [hids2, P.ids, ndsOf_append, List.append_assoc]
    rfl
  · have hb1 : IdBound (ctr + 1) bs1 := P.bound.mono (Nat.le_succ ctr)
    have hbnb : IdBound (ctr + 1) [nb] := by
      intro m hm
      rw [mem_identsOf] at hm
      obtain ⟨B0, hB0, hm0⟩ := hm
      rw [List.mem_singleton] at hB0
      subst hB0
      have hm2 : m ∈ [ctr] := hm0
      rw [List.mem_singleton] at hm2
      omega
    have hbW : IdBound (ctr + 1) bsW := by
      rw [hbsWdef]
      exact IdBound_append hb1 hbnb
    have hbT : IdBound (ctr + 1) bsT := by
      rw [hbsTdef]
      refine IdBound_setTerm hbW blk ?_
      intro m hm
      rw [Term.idents] at hm
      rcases List.mem_append.mp hm with h12 | h3
      · rcases List.mem_append.mp h12 with h1 | h2
        · have h1b : m ∈ [ctr, u] := h1
          rcases List.mem_cons.mp h1b with h | h
          · omega
          · rw [List.mem_singleton] at h
            omega
        · have hmm : m ∈ B.term.idents := by
            rw [hBt, Term.idents]
            exact List.mem_append.mpr (Or.inl (List.mem_append.mpr
              (Or.inr h2)))
          have := IdBound_getBlock P.bound hgB m (mem_idents_term hmm)
          omega
      · have h3b : m ∈ [r] := h3
        rw [List.mem_singleton] at h3b
        omega
    have hbA : IdBound (ctr + 1) bsA := by
      rw [hbsAdef]
      refine IdBound_addIncoming hbT cx.jb cx.jIdx ?_ ?_
      · intro m hm
        have hm2 : m ∈ [idxIn cx.blocks n] := hm
        rw [List.mem_singleton] at hm2
        subst hm2
        have := idxIn_lt_length cx.blocks n hn
        have := LH.Llen
        omega
      · show ctr < ctr + 1
        omega
    rw [hbs2def]
    refine IdBound_setTerm hbA ctr ?_
    intro m hm
    have hm2 : m ∈ [cx.jb] := hm
    rw [List.mem_singleton] at hm2
    omega
  · exact ⟨loads, by rw [hincs]; exact hsh2,
      LoadsWF_mono hlw (Nat.le_succ ctr)⟩
  · rw [hincs]
    intro i2 hi2
    rcases List.mem_append.mp hi2 with h | h
    · rcases P.incsWF i2 h with ⟨nn, hnn⟩ | ⟨s, h1, h2, h3, h4⟩
      · exact Or.inl ⟨nn, hnn⟩
      · exact Or.inr ⟨s, h1, h2, by omega, husers2 s h3 h4⟩
    · rw [List.mem_singleton] at h
      subst h
      exact Or.inl ⟨idxIn cx.blocks n, rfl⟩
  · obtain ⟨EB, hgE, he1, he2, he3⟩ := P.entryB
    refine ⟨EB, by rw [hg2_other _ (Ne.symm hblke) hejb hectr]; exact hgE,
      he1, he2, fun j hj => ?_⟩
    obtain ⟨ha, hb, hc, hd⟩ := he3 j hj
    exact ⟨ha, hb, hc, by omega⟩
  · intro jj hjj
    refine ProcOK_transport2 blk ctr
      (fun b2 h1 h2 h3 h4 => hg2_other b2 h3 h2 h4) ?_ ?_ ?_ ?_ hblklt
      (getBlock_none_of_bound P.bound le_rfl) LH.entrylt (P.proc jj hjj)
    · intro he
      exact LH.Lentry (he ▸ getD_mem_of_lt cx.blocks jj (by omega))
    · have := LH.Lbound _ (getD_mem_of_lt cx.blocks jj (by omega))
      omega
    · rw [P.hblk]
      exact getD_ne_of_nodup cx.blocks jj k (by omega) P.hk (by omega)
        LH.Lnodup
    · have := LH.Lbound _ (getD_mem_of_lt cx.blocks jj (by omega))
      omega
  · unfold ProcOK
    rw [hTb]
    exact ⟨rfl, ctr, rfl, by omega, hg2nd,
      { B with term := Term.invoke r args2 ctr u }, args2, hg2blk, hlpB,
      rfl⟩
  · intro b hb
    have hbk : b ∈ cx.blocks.drop k := by
      rw [hdropk]
      exact List.mem_cons_of_mem _ hb
    have hbmem : b ∈ cx.blocks := List.drop_subset k cx.blocks hbk
    have hbjb2 : b ≠ cx.jb := by
      have := LH.Lbound b hbmem
      omega
    have hbctr : b ≠ ctr := by
      have := LH.Lbound b hbmem
      omega
    have hbblk : b ≠ blk := by
      intro he
      have hdnd : (cx.blocks.drop k).Nodup :=
        List.Nodup.sublist (List.drop_sublist k cx.blocks) LH.Lnodup
      rw [hdropk, List.nodup_cons] at hdnd
      exact hdnd.1 (he ▸ hb)
    obtain ⟨B', hgB', h1, h2, h3⟩ := P.unproc b hbk
    exact ⟨B', by rw [hg2_other b hbblk hbjb2 hbctr]; exact hgB', h1, h2, h3⟩
  · intro B2 hB2
    have hgB2 : getBlock bs2 B2.id = some B2 :=
      getBlock_of_mem_nodup bs2 B2 hnodup2 hB2
    rw [hrwAll]
    by_cases hid : B2.id = blk
    · rw [hid, hg2blk] at hgB2
      have hB2e := Option.some_injective _ hgB2
      constructor
      · intro hjs
        exfalso
        rw [← hB2e] at hjs
        have hjs2 : cx.jb ∈ [ctr, u] := hjs
        rcases List.mem_cons.mp hjs2 with h | h
        · omega
        · rw [List.mem_singleton] at h
          omega
      · intro hr2
        exfalso
        rw [hid] at hr2
        rcases List.mem_append.mp hr2 with h | h
        · have hjb_old : cx.jb ∈ B.term.succs :=
            (P.preds B hBmem).mpr (by rw [hBid]; exact h)
          rw [hBt] at hjb_old
          have hjs2 : cx.jb ∈ [n, u] := hjb_old
          rcases List.mem_cons.mp hjs2 with h2 | h2
          · omega
          · rw [List.mem_singleton] at h2
            omega
        · rw [List.mem_singleton] at h
          exact hblkctr h
    · by_cases hctr2 : B2.id = ctr
      · rw [hctr2, hg2nd] at hgB2
        have hB2e := Option.some_injective _ hgB2
        constructor
        · intro _
          rw [hctr2]
          exact List.mem_append.mpr (Or.inr (List.mem_singleton.mpr rfl))
        · intro _
          rw [← hB2e]
          show cx.jb ∈ [cx.jb]
          exact List.mem_singleton.mpr rfl
      · by_cases hjb2 : B2.id = cx.jb
        · unfold JbShape at hsh2
          rw [hjb2, hsh2] at hgB2
          have hB2e := Option.some_injective _ hgB2
          have hjbtake : cx.jb ∉ cx.blocks.take k := by
            intro hmem
            exact LH.Ljb (List.take_subset k cx.blocks hmem)
          have hjbold : cx.jb ∉ rewiredAll cx T k dat := by
            unfold JbShape at hsh
            have hJmem := getBlock_mem bs1 cx.jb _ hsh
            intro hr2
            exact hjbtake ((P.preds _ hJmem.1).mpr (hJmem.2 ▸ hr2))
          constructor
          · intro hjs
            exfalso
            rw [← hB2e] at hjs
            exact hjbtake hjs
          · intro hr2
            exfalso
            rw [hjb2] at hr2
            rcases List.mem_append.mp hr2 with h | h
            · exact hjbold h
            · rw [List.mem_singleton] at h
              exact hjbctr h
        · have hgb1 : getBlock bs1 B2.id = some B2 := by
            rw [← hg2_other B2.id hid hjb2 hctr2]
            exact hgB2
          have hmem1 := (getBlock_mem bs1 B2.id B2 hgb1).1
          constructor
          · intro h
            exact List.mem_append.mpr (Or.inl ((P.preds B2 hmem1).mp h))
          · intro h
            rcases List.mem_append.mp h with h | h
            · exact (P.preds B2 hmem1).mpr h
            · rw [List.mem_singleton] at h
              exact absurd h hctr2
  · refine ⟨{ B with term := Term.invoke r args2 ctr u }, hg2blk, ?_⟩
    intro v hv
    rcases List.mem_append.mp hv with h1 | h1
    · rw [List.mem_filterMap] at h1
      obtain ⟨ins, hins, hres⟩ := h1
      exact Or.inl (result_eq_iid ins v hres ▸ hiids ins hins)
    · have h2 : v ∈ [r] := h1
      rw [List.mem_singleton] at h2
      subst h2
      exact Or.inl hrlt

/-- One full iteration of the rewriting loop succeeds and preserves the
loop invariant. -/
theorem processBlockRest_step (cx : Ctx) (T : Nat → Term) (ids0 : List Nat)
    (k : Nat) (dat : List IterRec) (blk : Nat) (bs1 : List BB) (ctr : Nat)
    (LH : LoopHyp cx T ids0) (P : StepPre cx T ids0 k dat blk bs1 ctr) :
    (∃ d st2, processBlockRest cx ctr bs1 k blk = .ok st2
      ∧ LoopInv cx T ids0 (k + 1) (dat ++ [d]) st2)
    ∨ processBlockRest cx ctr bs1 k blk = .error .unexpectedTerm := by
  have hblkmem : blk ∈ cx.blocks := P.hblk ▸ getD_mem_of_lt cx.blocks k P.hk
  obtain ⟨B, hgB, hlpB, hskB, hiids⟩ := P.unproc blk
    (by rw [drop_eq_getD_cons cx.blocks k P.hk, ← P.hblk]
        exact List.mem_cons.mpr (Or.inl rfl))
  have hsuccB : B.term.succs = (T blk).succs := by
    rw [← Term_skel_succs B.term, hskB, Term_skel_succs]
  rcases hts : (T blk).succs with _ | ⟨d1, tl⟩
  · -- no successors
    have hM := mid_nosucc cx T ids0 k dat blk bs1 ctr LH P B hgB hlpB hskB
      hiids hts
    have hLI := tail_invariant cx T ids0 k dat ⟨none, none, ctr⟩ blk
      (bs1, ctr) false LH P.hk P.hblk hM
    refine Or.inl ⟨⟨none, none, ctr⟩,
      (addDest (appendInst (appendInst bs1 cx.entryId
          (.gep ctr (V.reg cx.jt) (V.const k))) cx.entryId
          (.store (ctr + 1) (V.blockAddr blk) (V.reg ctr))) cx.jb blk,
        ctr + 2), ?_, ?_⟩
    · have hsuccs0 : B.term.succs = [] := hsuccB.trans hts
      simp [processBlockRest, hgB, hsuccs0]
    · simpa using hLI
  · rcases tl with _ | ⟨d2, tl2⟩
    · -- one successor
      have hcl := LH.closed blk hblkmem
      rw [hts] at hcl
      have hd1 : d1 ∈ cx.blocks := hcl
      have hfb : findBlock cx.blocks d1 = .ok (idxIn cx.blocks d1) :=
        findBlock_ok cx.blocks d1 hd1
      have hM := mid_onesucc cx T ids0 k dat blk bs1 ctr LH P B hgB hlpB
        hskB hiids d1 hts
      have hLI := tail_invariant cx T ids0 k dat ⟨none, none, ctr⟩ blk
        (setTerm (addIncomingPhi bs1 cx.jb cx.jIdx
          (V.const (idxIn cx.blocks d1), blk)) blk (.br cx.jb), ctr)
        true LH P.hk P.hblk hM
      refine Or.inl ⟨⟨none, none, ctr⟩,
        repairBlock cx.entryId cx.jb cx.jIdx
          (addDest (appendInst (appendInst
              (setTerm (addIncomingPhi bs1 cx.jb cx.jIdx
                (V.const (idxIn cx.blocks d1), blk)) blk (.br cx.jb))
              cx.entryId (.gep ctr (V.reg cx.jt) (V.const k))) cx.entryId
              (.store (ctr + 1) (V.blockAddr blk) (V.reg ctr))) cx.jb blk,
            ctr + 2) blk, ?_, ?_⟩
      · have hsuccs1 : B.term.succs = [d1] := hsuccB.trans hts
        simp [processBlockRest, hgB, hsuccs1, hfb]
      · simpa using hLI
    · -- at least two successors
      have hcl := LH.closed blk hblkmem
      rw [hts] at hcl
      cases hTt : T blk with
      | condBr c t f =>
        rw [hTt] at hts
        have hts2 : [t, f] = d1 :: d2 :: tl2 := hts
        injection hts2 with h1 h2
        injection h2 with h2 h3
        subst h1
        subst h2
        have htl2 : tl2 = [] := h3.symm
        subst htl2
        rw [hTt] at hcl
        have htf : t ∈ cx.blocks ∧ f ∈ cx.blocks := hcl
        have hsk2 : B.term.skel = Term.condBr (V.const 0) t f := by
          rw [hskB, hTt]
          rfl
        obtain ⟨c2, hBt⟩ := skel_condBr_inv B.term (V.const 0) t f hsk2
        have hfbt : findBlock cx.blocks t = .ok (idxIn cx.blocks t) :=
          findBlock_ok cx.blocks t htf.1
        have hfbf : findBlock cx.blocks f = .ok (idxIn cx.blocks f) :=
          findBlock_ok cx.blocks f htf.2
        have hM := mid_condbr cx T ids0 k dat blk bs1 ctr LH P B hgB hlpB
          hiids c c2 t f hTt hBt
        have hLI := tail_invariant cx T ids0 k dat
          ⟨some ctr, none, ctr + 1⟩ blk
          (setTerm (addIncomingPhi
              (appendInst bs1 blk (.select ctr c2
                (V.const (idxIn cx.blocks t))
                (V.const (idxIn cx.blocks f))))
              cx.jb cx.jIdx (V.reg ctr, blk)) blk (.br cx.jb), ctr + 1)
          true LH P.hk P.hblk hM
        refine Or.inl ⟨⟨some ctr, none, ctr + 1⟩,
          repairBlock cx.entryId cx.jb cx.jIdx
            (addDest (appendInst (appendInst
                (setTerm (addIncomingPhi
                    (appendInst bs1 blk (.select ctr c2
                      (V.const (idxIn cx.blocks t))
                      (V.const (idxIn cx.blocks f))))
                    cx.jb cx.jIdx (V.reg ctr, blk)) blk (.br cx.jb))
                cx.entryId (.gep (ctr + 1) (V.reg cx.jt) (V.const k)))
                cx.entryId (.store (ctr + 1 + 1) (V.blockAddr blk)
                  (V.reg (ctr + 1)))) cx.jb blk,
              ctr + 1 + 2) blk, ?_, ?_⟩
        · simp [processBlockRest, hgB, hBt, Term.succs, hfbt, hfbf]
        · simpa using hLI
      | invoke r args n u =>
        rw [hTt] at hts
        have hts2 : [n, u] = d1 :: d2 :: tl2 := hts
        injection hts2 with h1 h2
        injection h2 with h2 h3
        subst h1
        subst h2
        have htl2 : tl2 = [] := h3.symm
        subst htl2
        rw [hTt] at hcl
        have hn : n ∈ cx.blocks := hcl
        have hsk2 : B.term.skel = Term.invoke r [] n u := by
          rw [hskB, hTt]
          rfl
        obtain ⟨args2, hBt⟩ := skel_invoke_inv B.term r [] n u hsk2
        have hfbn : findBlock cx.blocks n = .ok (idxIn cx.blocks n) :=
          findBlock_ok cx.blocks n hn
        have hM := mid_invoke cx T ids0 k dat blk bs1 ctr LH P B hgB hlpB
          hiids r args args2 n u hTt hBt
        have hLI := tail_invariant cx T ids0 k dat
          ⟨none, some ctr, ctr + 1⟩ blk
          (setTerm (addIncomingPhi
              (setTerm (bs1 ++ [⟨ctr, false, [], .erased⟩]) blk
                (.invoke r args2 ctr u))
              cx.jb cx.jIdx (V.const (idxIn cx.blocks n), ctr))
            ctr (.br cx.jb), ctr + 1)
          true LH P.hk P.hblk hM
        refine Or.inl ⟨⟨none, some ctr, ctr + 1⟩,
          repairBlock cx.entryId cx.jb cx.jIdx
            (addDest (appendInst (appendInst
                (setTerm (addIncomingPhi
                    (setTerm (bs1 ++ [⟨ctr, false, [], .erased⟩]) blk
                      (.invoke r args2 ctr u))
                    cx.jb cx.jIdx (V.const (idxIn cx.blocks n), ctr))
                  ctr (.br cx.jb))
                cx.entryId (.gep (ctr + 1) (V.reg cx.jt) (V.const k)))
                cx.entryId (.store (ctr + 1 + 1) (V.blockAddr blk)
                  (V.reg (ctr + 1)))) cx.jb blk,
              ctr + 1 + 2) blk, ?_, ?_⟩
        · simp [processBlockRest, hgB, hBt, Term.succs, hfbn]
        · simpa using hLI
      | ret v =>
        rw [hTt] at hts
        simp [Term.succs] at hts
      | br d3 =>
        rw [hTt] at hts
        simp [Term.succs] at hts
      | switchBr v dflt cs =>
        rw [hTt] at hts
        have hts2 : dflt :: cs = d1 :: d2 :: tl2 := hts
        have hsk2 : B.term.skel = Term.switchBr (V.const 0) dflt cs := by
          rw [hskB, hTt]
          rfl
        obtain ⟨v2, hBt⟩ := skel_switch_inv B.term (V.const 0) dflt cs hsk2
        injection hts2 with h1 h2
        subst h1
        subst h2
        refine Or.inr ?_
        simp [processBlockRest, hgB, hBt, Term.succs]
      | indirectBr a ds2 =>
        rw [hTt] at hts
        have hts2 : ds2 = d1 :: d2 :: tl2 := hts
        have hsk2 : B.term.skel = Term.indirectBr (V.const 0) ds2 := by
          rw [hskB, hTt]
          rfl
        obtain ⟨a2, hBt⟩ := skel_indirect_inv B.term (V.const 0) ds2 hsk2
        subst hts2
        refine Or.inr ?_
        simp [processBlockRest, hgB, hBt, Term.succs]
      | erased =>
        rw [hTt] at hts
        simp [Term.succs] at hts

/-- One iteration of the loop including the `InitialBlock` entry incoming
(added when the processed block is `initId`). -/
theorem processBlock_step (cx : Ctx) (T : Nat → Term) (ids0 : List Nat)
    (k : Nat) (dat : List IterRec) (st : List BB × Nat)
    (LH : LoopHyp cx T ids0) (LI : LoopInv cx T ids0 k dat st)
    (hk : k < cx.blocks.length) :
    (∃ d st2, processBlock cx st k (cx.blocks.getD k 0) = .ok st2
      ∧ LoopInv cx T ids0 (k + 1) (dat ++ [d]) st2)
    ∨ processBlock cx st k (cx.blocks.getD k 0)
        = .error .unexpectedTerm := by
  have hejb : cx.entryId ≠ cx.jb := by have := LH.entrylt; omega
  have hctrge := LI.ctr
  have hllen := LH.Llen
  have hentrylt := LH.entrylt
  by_cases hinit : cx.blocks.getD k 0 = cx.initId
  · set blk : Nat := cx.blocks.getD k 0 with hblkdef
    set bs1 : List BB := addIncomingPhi st.1 cx.jb cx.jIdx
      (V.const k, cx.entryId) with hbs1def
    obtain ⟨loads, hsh, hlw⟩ := LI.shape
    have hlnophi : ∀ x ∈ loads, x.isPhi = false := by
      intro x hx
      obtain ⟨lr, slot, hlx, _⟩ := hlw x hx
      rw [hlx]
      rfl
    have hg1_other : ∀ b2, b2 ≠ cx.jb →
        getBlock bs1 b2 = getBlock st.1 b2 := by
      intro b2 h2
      rw [hbs1def, getBlock_addIncoming_ne _ _ _ _ _ h2]
    have P : StepPre cx T ids0 k dat blk bs1 st.2 := by
      refine
        { len := LI.len, hk := hk, hblk := hblkdef, ctrge := LI.ctr
          ids := ?_, nodup := ?_, bound := ?_, shape := ?_, incsWF := ?_
          entryB := ?_, proc := ?_, unproc := ?_, preds := ?_ }
      · rw [hbs1def, ids_addIncoming]
        exact LI.ids
      · rw [hbs1def, ids_addIncoming]
        exact LI.nodup
      · rw [hbs1def]
        refine IdBound_addIncoming LI.bound cx.jb cx.jIdx ?_ ?_
        · intro m hm
          have hm2 : m ∈ [k] := hm
          rw [List.mem_singleton] at hm2
          omega
        · show cx.entryId < st.2
          omega
      · refine ⟨loads, ?_, hlw⟩
        rw [if_pos hinit, hbs1def]
        exact JbShape_addIncoming cx st.1 (incsOf cx T k dat) loads
          (cx.blocks.take k) (V.const k, cx.entryId) hsh hlnophi
      · rw [if_pos hinit]
        intro i2 hi2
        rcases List.mem_append.mp hi2 with h | h
        · rcases LI.incsWF i2 h with ⟨nn, hnn⟩ | ⟨s, h1, h2, h3, h4⟩
          · exact Or.inl ⟨nn, hnn⟩
          · refine Or.inr ⟨s, h1, h2, h3, ?_⟩
            rw [hbs1def,
              userRefs_addIncoming st.1 cx.jb cx.jIdx
                (V.const k, cx.entryId) s rfl]
            exact h4
        · rw [List.mem_singleton] at h
          subst h
          exact Or.inl ⟨k, rfl⟩
      · obtain ⟨EB, hgE, he1, he2, he3⟩ := LI.entryB
        exact ⟨EB, by rw [hg1_other _ hejb]; exact hgE, he1, he2, he3⟩
      · intro jj hjj
        refine ProcOK_transport (fun b2 _ h2 => hg1_other b2 h2) ?_ ?_
          LH.entrylt (LI.proc jj hjj)
        · intro he
          exact LH.Lentry (he ▸ getD_mem_of_lt cx.blocks jj (by omega))
        · have := LH.Lbound _ (getD_mem_of_lt cx.blocks jj (by omega))
          omega
      · intro b hb
        have hbmem : b ∈ cx.blocks := List.drop_subset k cx.blocks hb
        have hbjb : b ≠ cx.jb := by
          have := LH.Lbound b hbmem
          omega
        obtain ⟨B', hgB', h1, h2, h3⟩ := LI.unproc b hb
        exact ⟨B', by rw [hg1_other b hbjb]; exact hgB', h1, h2, h3⟩
      · refine preds_transfer st.1 bs1 cx.jb _ ?_ LI.nodup ?_ LI.preds
        · rw [hbs1def, ids_addIncoming]
        · intro b2 BA BB2 hgA hgB2
          by_cases hb2 : b2 = cx.jb
          · subst hb2
            rw [hbs1def, getBlock_addIncoming_self, hgA,
              Option.map_some'] at hgB2
            have hBe := Option.some_injective _ hgB2
            rw [← hBe]
          · rw [hg1_other b2 hb2, hgA] at hgB2
            have hBe := Option.some_injective _ hgB2
            rw [← hBe]
    rcases processBlockRest_step cx T ids0 k dat blk bs1 st.2 LH P with
      ⟨d, st2, heq, hinv⟩ | herr
    · refine Or.inl ⟨d, st2, ?_, hinv⟩
      unfold processBlock
      rw [if_pos hinit]
      exact heq
    · refine Or.inr ?_
      unfold processBlock
      rw [if_pos hinit]
      exact herr
  · have P : StepPre cx T ids0 k dat (cx.blocks.getD k 0) st.1 st.2 := by
      refine
        { len := LI.len, hk := hk, hblk := rfl, ctrge := LI.ctr
          ids := LI.ids, nodup := LI.nodup, bound := LI.bound
          shape := ?_, incsWF := ?_, entryB := LI.entryB, proc := LI.proc
          unproc := LI.unproc, preds := LI.preds }
      · obtain ⟨loads, hsh, hlw⟩ := LI.shape
        refine ⟨loads, ?_, hlw⟩
        rw [if_neg hinit, List.append_nil]
        exact hsh
      · rw [if_neg hinit, List.append_nil]
        exact LI.incsWF
    rcases processBlockRest_step cx T ids0 k dat (cx.blocks.getD k 0)
      st.1 st.2 LH P with ⟨d, st2, heq, hinv⟩ | herr
    · refine Or.inl ⟨d, st2, ?_, hinv⟩
      unfold processBlock
      rw [if_neg hinit]
      exact heq
    · refine Or.inr ?_
      unfold processBlock
      rw [if_neg hinit]
      exact herr

theorem enum_drop_cons (l : List Nat) (k : Nat) (hk : k < l.length) :
    l.enum.drop k = (k, l.getD k 0) :: l.enum.drop (k + 1) := by
  have hk2 : k < l.enum.length := by
    rw [List.enum_length]
    exact hk
  rw [List.drop_eq_getElem_cons hk2]
  congr 1
  rw [List.getElem_enum]
  congr 1
  simp [List.getD, List.getElem?_eq_getElem hk]

/-- The whole rewriting loop either succeeds, preserving the invariant to
the end, or aborts on an unsupported rewritten terminator; it never trips
the `findBlock` assertion. -/
theorem processAll_ok (cx : Ctx) (T : Nat → Term) (ids0 : List Nat)
    (LH : LoopHyp cx T ids0) :
    ∀ m k dat st, cx.blocks.length - k = m →
      LoopInv cx T ids0 k dat st →
      (∃ dat2 st2, processAll cx (cx.blocks.enum.drop k) st = .ok st2
        ∧ LoopInv cx T ids0 cx.blocks.length dat2 st2)
      ∨ processAll cx (cx.blocks.enum.drop k) st
          = .error .unexpectedTerm := by
  intro m
  induction m with
  | zero =>
    intro k dat st hm LI
    have hk : k = cx.blocks.length := by
      have := LI.kle
      omega
    subst hk
    have hnil : cx.blocks.enum.drop cx.blocks.length = [] := by
      apply List.drop_eq_nil_of_le
      rw [List.enum_length]
    rw [hnil]
    exact Or.inl ⟨dat, st, rfl, LI⟩
  | succ m ih =>
    intro k dat st hm LI
    have hk : k < cx.blocks.length := by omega
    rw [enum_drop_cons cx.blocks k hk]
    rcases processBlock_step cx T ids0 k dat st LH LI hk with
      ⟨d, st2, heq, hinv⟩ | herr
    · have hrec := ih (k + 1) (dat ++ [d]) st2 (by omega) hinv
      simp only [processAll, heq]
      exact hrec
    · refine Or.inr ?_
      simp only [processAll, herr]

theorem Term_skel_subst (o n : Nat) (t : Term) :
    (t.subst o n).skel = t.skel := by
  cases t with
  | ret v => cases v <;> rfl
  | br d => rfl
  | condBr c t f => rfl
  | invoke r args nn u => rfl
  | switchBr v d cs => rfl
  | indirectBr a ds => rfl
  | erased => rfl

theorem Pres_refl (bs : List BB) : Pres bs bs :=
  List.forall₂_same.mpr (fun B _ => ⟨rfl, rfl, rfl⟩)

theorem Pres_trans {a b c : List BB} (h1 : Pres a b) (h2 : Pres b c) :
    Pres a c := by
  induction h1 generalizing c with
  | nil =>
    cases h2
    exact .nil
  | cons hab h1' ih =>
    cases h2 with
    | cons hbc h2' =>
      exact .cons ⟨hbc.1.trans hab.1, hbc.2.1.trans hab.2.1,
        hbc.2.2.trans hab.2.2⟩ (ih h2')

theorem Pres_modify (bs : List BB) (i : Nat) (f : BB → BB)
    (hf : ∀ B, (f B).id = B.id ∧ (f B).lp = B.lp
      ∧ (f B).term.skel = B.term.skel) :
    Pres bs (modifyBlock bs i f) := by
  unfold modifyBlock Pres
  rw [List.forall₂_map_right_iff]
  refine List.forall₂_same.mpr (fun B _ => ?_)
  by_cases hid : B.id = i
  · rw [if_pos hid]
    exact hf B
  · rw [if_neg hid]
    exact ⟨rfl, rfl, rfl⟩

theorem Pres_insts (bs : List BB) (i : Nat) (g : List Instr → List Instr) :
    Pres bs (modifyBlock bs i fun B => { B with insts := g B.insts }) :=
  Pres_modify bs i _ (fun B => ⟨rfl, rfl, rfl⟩)

theorem Pres_prepend (bs : List BB) (i : Nat) (ins : Instr) :
    Pres bs (prependInst bs i ins) :=
  Pres_modify bs i _ (fun B => ⟨rfl, rfl, rfl⟩)

theorem Pres_append (bs : List BB) (i : Nat) (ins : Instr) :
    Pres bs (appendInst bs i ins) :=
  Pres_modify bs i _ (fun B => ⟨rfl, rfl, rfl⟩)

theorem Pres_erase (bs : List BB) (blk p : Nat) :
    Pres bs (eraseInst bs blk p) :=
  Pres_modify bs blk _ (fun B => ⟨rfl, rfl, rfl⟩)

theorem Pres_rauw (bs : List BB) (o n : Nat) : Pres bs (rauw bs o n) := by
  unfold rauw Pres
  rw [List.forall₂_map_right_iff]
  refine List.forall₂_same.mpr (fun B _ => ?_)
  exact ⟨rfl, rfl, Term_skel_subst o n B.term⟩

theorem Pres_fold {α : Type} (g : List BB × Nat → α → List BB × Nat)
    (hg : ∀ st a, Pres st.1 (g st a).1) :
    ∀ (l : List α) (st : List BB × Nat), Pres st.1 (l.foldl g st).1 := by
  intro l
  induction l with
  | nil => exact fun st => Pres_refl st.1
  | cons a rest ih =>
    intro st
    rw [List.foldl_cons]
    exact Pres_trans (hg st a) (ih (g st a))

/-- The acting case of `DemotePHIToStack`, written as its explicit surgery
chain. -/
theorem Demote_eq (bs : List BB) (ctr e blk p r : Nat)
    (incs : List (V × Nat))
    (hm : (getBlock bs blk).bind (fun B => B.insts.find? fun ins =>
        match ins with | .phi q _ => q = p | _ => false)
      = some (.phi r incs)) :
    DemotePHIToStack bs ctr e blk p =
      (eraseInst
        (rauw
          (modifyBlock (storeFold ctr e bs incs).1 blk (fun B =>
            { B with insts := insertReload (.load (storeFold ctr e bs incs).2 (V.reg ctr)) p B.insts }))
          p (storeFold ctr e bs incs).2)
        blk p,
        (storeFold ctr e bs incs).2 + 1) := by
  unfold DemotePHIToStack storeFold
  rw [hm]

theorem Pres_demote (bs : List BB) (ctr e blk p : Nat) :
    Pres bs (DemotePHIToStack bs ctr e blk p).1 := by
  rcases hm : (getBlock bs blk).bind (fun B => B.insts.find? fun ins =>
      match ins with | .phi q _ => q = p | _ => false) with _ | ins
  · unfold DemotePHIToStack
    rw [hm]
    exact Pres_refl bs
  · cases ins with
    | phi r incs =>
      rw [Demote_eq bs ctr e blk p r incs hm]
      refine Pres_trans (Pres_prepend bs e (.alloca ctr (V.const 1))) ?_
      refine Pres_trans
        (Pres_fold
          (fun (s : List BB × Nat) inc =>
            (appendInst s.1 inc.2 (.store s.2 inc.1 (V.reg ctr)), s.2 + 1))
          (fun st inc => Pres_append st.1 inc.2 _) incs
          (prependInst bs e (.alloca ctr (V.const 1)), ctr + 1)) ?_
      refine Pres_trans
        (Pres_modify (storeFold ctr e bs incs).1 blk
          (fun B =>
            { B with insts := insertReload (.load (storeFold ctr e bs incs).2 (V.reg ctr)) p B.insts })
          (fun B => ⟨rfl, rfl, rfl⟩)) ?_
      refine Pres_trans (Pres_rauw _ p (storeFold ctr e bs incs).2) ?_
      exact Pres_erase _ blk _
    | op r args =>
      unfold DemotePHIToStack
      rw [hm]
      exact Pres_refl bs
    | alloca r c =>
      unfold DemotePHIToStack
      rw [hm]
      exact Pres_refl bs
    | load r a =>
      unfold DemotePHIToStack
      rw [hm]
      exact Pres_refl bs
    | store sid v a =>
      unfold DemotePHIToStack
      rw [hm]
      exact Pres_refl bs
    | gep r b2 i2 =>
      unfold DemotePHIToStack
      rw [hm]
      exact Pres_refl bs
    | select r c t f =>
      unfold DemotePHIToStack
      rw [hm]
      exact Pres_refl bs

theorem Pres_ids {bs bs' : List BB} (h : Pres bs bs') :
    bs'.map BB.id = bs.map BB.id := by
  induction h with
  | nil => rfl
  | cons hab h' ih =>
    rw [List.map_cons, List.map_cons, ih]
    congr 1
    exact hab.1

theorem Pres_getBlock {bs bs' : List BB} (h : Pres bs bs') (b : Nat)
    {B : BB} (hB : getBlock bs b = some B) :
    ∃ B', getBlock bs' b = some B' ∧ B'.id = B.id ∧ B'.lp = B.lp
      ∧ B'.term.skel = B.term.skel := by
  induction h with
  | nil => cases hB
  | cons hab h' ih =>
    rw [getBlock_cons] at hB
    rename_i A A' rest rest'
    rw [getBlock_cons]
    by_cases hid : A.id = b
    · rw [if_pos hid] at hB
      cases hB
      rw [if_pos (hab.1.trans hid)]
      exact ⟨A', rfl, hab⟩
    · rw [if_neg hid] at hB
      rw [if_neg (fun he => hid (hab.1 ▸ he))]
      exact ih hB

theorem storeFold_go (ctr e : Nat) :
    ∀ (incs : List (V × Nat)) (bs : List BB) (c : Nat),
      IdBound c bs → ctr < c →
      (∀ inc ∈ incs, (∀ m ∈ inc.1.idents, m < ctr) ∧ inc.2 < ctr) →
      IdBound
        (incs.foldl
          (fun (s : List BB × Nat) inc =>
            (appendInst s.1 inc.2 (.store s.2 inc.1 (V.reg ctr)), s.2 + 1))
          (bs, c)).2
        (incs.foldl
          (fun (s : List BB × Nat) inc =>
            (appendInst s.1 inc.2 (.store s.2 inc.1 (V.reg ctr)), s.2 + 1))
          (bs, c)).1
      ∧ c ≤ (incs.foldl
          (fun (s : List BB × Nat) inc =>
            (appendInst s.1 inc.2 (.store s.2 inc.1 (V.reg ctr)), s.2 + 1))
          (bs, c)).2 := by
  intro incs
  induction incs with
  | nil => exact fun bs c h _ _ => ⟨h, le_rfl⟩
  | cons inc rest ih =>
    intro bs c h hlt hincs
    rw [List.foldl_cons]
    have hstep : IdBound (c + 1)
        (appendInst bs inc.2 (.store c inc.1 (V.reg ctr))) := by
      refine IdBound_appendInst (h.mono (Nat.le_succ c)) inc.2 ?_
      intro m hm
      simp only [Instr.idents, Instr.iid, Instr.opnds, Instr.extra,
        List.flatMap_cons, List.flatMap_nil, V.idents, List.append_nil,
        List.mem_cons, List.mem_append, List.mem_singleton,
        List.not_mem_nil, or_false] at hm
      rcases hm with h2 | h2 | h2
      · omega
      · have := (hincs inc (List.mem_cons.mpr (Or.inl rfl))).1 m h2
        omega
      · omega
    have hrec := ih (appendInst bs inc.2 (.store c inc.1 (V.reg ctr)))
      (c + 1) hstep (by omega)
      (fun i2 hi2 => hincs i2 (List.mem_cons.mpr (Or.inr hi2)))
    exact ⟨hrec.1, le_trans (Nat.le_succ c) hrec.2⟩

theorem demote_bound (bs : List BB) (ctr e blk p : Nat)
    (h : IdBound ctr bs) (h1 : 1 ≤ ctr) :
    IdBound (DemotePHIToStack bs ctr e blk p).2
        (DemotePHIToStack bs ctr e blk p).1
    ∧ ctr ≤ (DemotePHIToStack bs ctr e blk p).2 := by
  rcases hm : (getBlock bs blk).bind (fun B => B.insts.find? fun ins =>
      match ins with | .phi q _ => q = p | _ => false) with _ | ins
  · unfold DemotePHIToStack
    rw [hm]
    exact ⟨h, le_rfl⟩
  · cases ins with
    | phi r incs =>
      rw [Demote_eq bs ctr e blk p r incs hm]
      obtain ⟨B, hgB, hfind⟩ := Option.bind_eq_some.mp hm
      have hphi_mem := List.mem_of_find?_eq_some hfind
      have hphi_idents := IdBound_getBlock h hgB
      have hincs : ∀ inc ∈ incs,
          (∀ m ∈ inc.1.idents, m < ctr) ∧ inc.2 < ctr := by
        intro inc hinc
        constructor
        · intro m hmm
          refine hphi_idents m (mem_idents_insts hphi_mem ?_)
          simp only [Instr.idents, Instr.iid, Instr.opnds, Instr.extra,
            List.mem_cons, List.mem_append]
          refine Or.inr (Or.inl ?_)
          rw [List.mem_flatMap]
          exact ⟨inc.1, List.mem_map_of_mem Prod.fst hinc, hmm⟩
        · refine hphi_idents inc.2 (mem_idents_insts hphi_mem ?_)
          simp only [Instr.idents, Instr.iid, Instr.opnds, Instr.extra,
            List.mem_cons, List.mem_append]
          exact Or.inr (Or.inr (List.mem_map_of_mem Prod.snd hinc))
      have hP : IdBound (ctr + 1)
          (prependInst bs e (.alloca ctr (V.const 1))) := by
        refine IdBound_prependInst (h.mono (Nat.le_succ ctr)) e ?_
        intro m hmm
        simp only [Instr.idents, Instr.iid, Instr.opnds, Instr.extra,
          List.flatMap_cons, List.flatMap_nil, V.idents, List.append_nil,
          List.mem_cons, List.mem_singleton, List.not_mem_nil,
          or_false] at hmm
        rcases hmm with h2 | h2 <;> omega
      have hsf := storeFold_go ctr e incs
        (prependInst bs e (.alloca ctr (V.const 1))) (ctr + 1) hP
        (by omega) hincs
      have hSb : IdBound (storeFold ctr e bs incs).2
          (storeFold ctr e bs incs).1 := hsf.1
      have hSle : ctr + 1 ≤ (storeFold ctr e bs incs).2 := hsf.2
      have hRel : IdBound ((storeFold ctr e bs incs).2 + 1)
          (modifyBlock (storeFold ctr e bs incs).1 blk (fun B2 =>
            { B2 with insts := insertReload (.load (storeFold ctr e bs incs).2 (V.reg ctr)) p B2.insts })) := by
        refine IdBound_insertReload
          (hSb.mono (Nat.le_succ _)) blk p ?_
        intro m hmm
        simp only [Instr.idents, Instr.iid, Instr.opnds, Instr.extra,
          List.flatMap_cons, List.flatMap_nil, V.idents, List.append_nil,
          List.mem_cons, List.mem_singleton, List.not_mem_nil,
          or_false] at hmm
        rcases hmm with h2 | h2 <;> omega
      refine ⟨?_, by omega⟩
      refine IdBound_eraseInst ?_ blk p
      refine IdBound_rauw hRel p ?_
      omega
    | op r args =>
      unfold DemotePHIToStack
      rw [hm]
      exact ⟨h, le_rfl⟩
    | alloca r c =>
      unfold DemotePHIToStack
      rw [hm]
      exact ⟨h, le_rfl⟩
    | load r a =>
      unfold DemotePHIToStack
      rw [hm]
      exact ⟨h, le_rfl⟩
    | store sid v a =>
      unfold DemotePHIToStack
      rw [hm]
      exact ⟨h, le_rfl⟩
    | gep r b2 i2 =>
      unfold DemotePHIToStack
      rw [hm]
      exact ⟨h, le_rfl⟩
    | select r c t f =>
      unfold DemotePHIToStack
      rw [hm]
      exact ⟨h, le_rfl⟩

theorem chainPres (g : List BB × Nat → Nat → List BB × Nat)
    (hg : ∀ st a, IdBound st.2 st.1 → 1 ≤ st.2 →
      Pres st.1 (g st a).1 ∧ IdBound (g st a).2 (g st a).1
        ∧ st.2 ≤ (g st a).2) :
    ∀ (l : List Nat) (st : List BB × Nat), IdBound st.2 st.1 → 1 ≤ st.2 →
      Pres st.1 (l.foldl g st).1
      ∧ IdBound (l.foldl g st).2 (l.foldl g st).1
      ∧ st.2 ≤ (l.foldl g st).2 := by
  intro l
  induction l with
  | nil => exact fun st h h1 => ⟨Pres_refl st.1, h, le_rfl⟩
  | cons a rest ih =>
    intro st h h1
    rw [List.foldl_cons]
    have hstep := hg st a h h1
    have hrec := ih (g st a) hstep.2.1 (le_trans h1 hstep.2.2)
    exact ⟨Pres_trans hstep.1 hrec.1, hrec.2.1,
      le_trans hstep.2.2 hrec.2.2⟩

theorem demoteBlockPhis_ok (e : Nat) (st : List BB × Nat) (blk : Nat)
    (h : IdBound st.2 st.1) (h1 : 1 ≤ st.2) :
    Pres st.1 (demoteBlockPhis e st blk).1
    ∧ IdBound (demoteBlockPhis e st blk).2 (demoteBlockPhis e st blk).1
    ∧ st.2 ≤ (demoteBlockPhis e st blk).2 := by
  unfold demoteBlockPhis
  exact chainPres (fun s r => DemotePHIToStack s.1 s.2 e blk r)
    (fun st2 a h2 h12 => ⟨Pres_demote st2.1 st2.2 e blk a,
      (demote_bound st2.1 st2.2 e blk a h2 h12).1,
      (demote_bound st2.1 st2.2 e blk a h2 h12).2⟩)
    _ st h h1

theorem demoteAll_ok (e : Nat) (bs0 : List Nat) (st : List BB × Nat)
    (h : IdBound st.2 st.1) (h1 : 1 ≤ st.2) :
    Pres st.1 (bs0.foldl (demoteBlockPhis e) st).1
    ∧ IdBound (bs0.foldl (demoteBlockPhis e) st).2
        (bs0.foldl (demoteBlockPhis e) st).1
    ∧ st.2 ≤ (bs0.foldl (demoteBlockPhis e) st).2 :=
  chainPres (demoteBlockPhis e)
    (fun st2 a h2 h12 => demoteBlockPhis_ok e st2 a h2 h12) bs0 st h h1

theorem le_foldr_max (l : List Nat) (m : Nat) (hm : m ∈ l) :
    m ≤ l.foldr max 0 := by
  induction l with
  | nil => cases hm
  | cons x rest ih =>
    rw [List.foldr_cons]
    rcases List.mem_cons.mp hm with h | h
    · rw [h]
      exact Nat.le_max_left x _
    · exact le_trans (ih h) (Nat.le_max_right x _)

theorem freshCtr_bound (F : Func) : IdBound (freshCtr F) F.blocks := by
  intro m hm
  unfold freshCtr
  have := le_foldr_max (identsOf F.blocks) m hm
  omega

theorem freshCtr_pos (F : Func) : 1 ≤ freshCtr F := by
  unfold freshCtr
  omega

theorem collectAux_mem (l : List BB) : ∀ ids, collectAux l = some ids →
    ∀ b, (b ∈ ids ↔ ∃ B, B ∈ l ∧ B.id = b ∧ B.lp = false) := by
  induction l with
  | nil =>
    intro ids h b
    rw [collectAux] at h
    injection h with h2
    subst h2
    simp
  | cons B rest ih =>
    intro ids h b
    rw [collectAux] at h
    by_cases hlp : B.lp
    · rw [if_pos hlp] at h
      rw [ih ids h b]
      constructor
      · rintro ⟨B2, hB2, he⟩
        exact ⟨B2, List.mem_cons_of_mem B hB2, he⟩
      · rintro ⟨B2, hB2, hid, hl⟩
        rcases List.mem_cons.mp hB2 with h2 | h2
        · subst h2
          rw [hlp] at hl
          cases hl
        · exact ⟨B2, h2, hid, hl⟩
    · rw [if_neg hlp] at h
      by_cases hu : B.term.isUnsupported
      · rw [if_pos hu] at h
        cases h
      · rw [if_neg hu] at h
        rcases ho : collectAux rest with _ | ids0
        · rw [ho] at h
          cases h
        · rw [ho, Option.map_some'] at h
          injection h with h2
          subst h2
          simp only [List.mem_cons]
          rw [ih ids0 ho b]
          constructor
          · rintro (h2 | ⟨B2, hB2, he⟩)
            · subst h2
              refine ⟨B, Or.inl rfl, rfl, ?_⟩
              cases hb2 : B.lp
              · rfl
              · exact absurd hb2 hlp
            · exact ⟨B2, Or.inr hB2, he⟩
          · rintro ⟨B2, hB2, hid, hl⟩
            rcases hB2 with h2 | h2
            · subst h2
              exact Or.inl hid.symm
            · exact Or.inr ⟨B2, h2, hid, hl⟩

theorem collectAux_sublist (l : List BB) : ∀ ids, collectAux l = some ids →
    ids.Sublist (l.map BB.id) := by
  induction l with
  | nil =>
    intro ids h
    rw [collectAux] at h
    injection h with h2
    subst h2
    exact List.Sublist.refl []
  | cons B rest ih =>
    intro ids h
    rw [collectAux] at h
    by_cases hlp : B.lp
    · rw [if_pos hlp] at h
      exact (ih ids h).trans (List.sublist_cons_self B.id _)
    · rw [if_neg hlp] at h
      by_cases hu : B.term.isUnsupported
      · rw [if_pos hu] at h
        cases h
      · rw [if_neg hu] at h
        rcases ho : collectAux rest with _ | ids0
        · rw [ho] at h
          cases h
        · rw [ho, Option.map_some'] at h
          injection h with h2
          subst h2
          exact List.Sublist.cons₂ B.id (ih ids0 ho)

theorem collectAux_none (l : List BB) (B : BB) (hB : B ∈ l)
    (hlp : B.lp = false) (hu : B.term.isUnsupported = true) :
    collectAux l = none := by
  induction l with
  | nil => cases hB
  | cons A rest ih =>
    rw [collectAux]
    rcases List.mem_cons.mp hB with h2 | h2
    · subst h2
      rw [if_neg (by rw [hlp]; exact Bool.false_ne_true), if_pos hu]
    · by_cases hlpA : A.lp
      · rw [if_pos hlpA]
        exact ih h2
      · rw [if_neg hlpA]
        by_cases huA : A.term.isUnsupported
        · rw [if_pos huA]
        · rw [if_neg huA, ih h2]
          rfl

theorem nodup_lt_length_le (l : List Nat) (n : Nat) (hnd : l.Nodup)
    (hlt : ∀ x ∈ l, x < n) : l.length ≤ n := by
  have h1 : l.toFinset ⊆ Finset.range n := by
    intro x hx
    exact Finset.mem_range.mpr (hlt x (List.mem_toFinset.mp hx))
  have h2 := Finset.card_le_card h1
  rw [List.toFinset_card_of_nodup hnd] at h2
  simpa using h2

theorem findIdx_go_nodup (v : Nat) :
    ∀ (l : List Nat) (j i : Nat), j < l.length →
      l.getD j 0 = v → v ∉ l.take j →
      List.findIdx? (fun y => y = v) l i = some (i + j) := by
  intro l
  induction l with
  | nil =>
    intro j i hj
    cases hj
  | cons x rest ih =>
    intro j i hj hv hnt
    rw [List.findIdx?_cons]
    cases j with
    | zero =>
      have hx : x = v := hv
      rw [if_pos (decide_eq_true hx)]
      rfl
    | succ j2 =>
      have hxne : x ≠ v := by
        intro he
        apply hnt
        rw [List.take_succ_cons]
        exact List.mem_cons.mpr (Or.inl he.symm)
      rw [if_neg (by simp [hxne])]
      have hrec := ih j2 (i + 1) (by
          simp only [List.length_cons] at hj
          omega)
        hv (by
          intro hmem
          apply hnt
          rw [List.take_succ_cons]
          exact List.mem_cons.mpr (Or.inr hmem))
      rw [hrec]
      congr 1
      omega

theorem idxIn_getD (l : List Nat) (j : Nat) (hj : j < l.length)
    (hnd : l.Nodup) : idxIn l (l.getD j 0) = j := by
  have hnt : l.getD j 0 ∉ l.take j := by
    intro hmem
    have hsplit := List.take_append_drop j l
    rw [← hsplit] at hnd
    rw [List.nodup_append] at hnd
    refine hnd.2.2 hmem ?_
    rw [drop_eq_getD_cons l j hj]
    exact List.mem_cons.mpr (Or.inl rfl)
  have hfi := findIdx_go_nodup (l.getD j 0) l j 0 hj rfl hnt
  unfold idxIn
  rw [hfi]
  simp

theorem Pres_cons_inv {E : BB} {rest l2 : List BB} (h : Pres (E :: rest) l2) :
    ∃ E2 rest2, l2 = E2 :: rest2
      ∧ (E2.id = E.id ∧ E2.lp = E.lp ∧ E2.term.skel = E.term.skel)
      ∧ Pres rest rest2 := by
  cases h with
  | cons h1 h2 => exact ⟨_, _, rfl, h1, h2⟩

/-- Building the dispatch apparatus on a well-formed demoted block list
establishes the loop hypotheses and the invariant at iteration 0. -/
theorem setup_inv (eid ctr2 initId : Nat) (bs2 : List BB)
    (blocks : List Nat)
    (hnodup : (bs2.map BB.id).Nodup)
    (hbound : IdBound ctr2 bs2)
    (EB : BB) (hgE : getBlock bs2 eid = some EB) (hElp : EB.lp = false)
    (hblocks : ∀ b ∈ blocks, b ≠ eid
      ∧ ∃ B, getBlock bs2 b = some B ∧ B.lp = false)
    (hBnodup : blocks.Nodup)
    (hsucc2 : ∀ b ∈ blocks, ∀ B, getBlock bs2 b = some B →
      match B.term.succs with
      | [] => True
      | [d] => d ∈ blocks
      | _ =>
        match B.term with
        | .condBr _ t f => t ∈ blocks ∧ f ∈ blocks
        | .invoke _ _ n _ => n ∈ blocks
        | _ => True) :
    LoopHyp ⟨eid, ctr2, ctr2 + 1, ctr2 + 2, ctr2 + 3, initId, blocks⟩
      (fun b => ((getBlock bs2 b).map BB.term).getD .erased)
      ((buildDispatch eid ctr2 blocks.length bs2).map BB.id)
    ∧ LoopInv ⟨eid, ctr2, ctr2 + 1, ctr2 + 2, ctr2 + 3, initId, blocks⟩
      (fun b => ((getBlock bs2 b).map BB.term).getD .erased)
      ((buildDispatch eid ctr2 blocks.length bs2).map BB.id)
      0 [] (buildDispatch eid ctr2 blocks.length bs2, ctr2 + 4) := by
  have heidlt : eid < ctr2 := by
    have h1 := IdBound_getBlock hbound hgE EB.id (mem_idents_id EB)
    have h2 := (getBlock_mem bs2 eid EB hgE).2
    omega
  have heidctr : eid ≠ ctr2 := by omega
  have hblt : ∀ b ∈ blocks, b < ctr2 := by
    intro b hb
    obtain ⟨_, B, hgB, _⟩ := hblocks b hb
    have h1 := IdBound_getBlock hbound hgB B.id (mem_idents_id B)
    have h2 := (getBlock_mem bs2 b B hgB).2
    omega
  have hlen : blocks.length ≤ ctr2 := nodup_lt_length_le blocks ctr2
    hBnodup hblt
  have hctr_notid : ctr2 ∉ bs2.map BB.id := by
    intro hmem
    rw [List.mem_map] at hmem
    obtain ⟨B0, hB0, hB0e⟩ := hmem
    have := hbound B0.id ((mem_identsOf B0.id bs2).mpr
      ⟨B0, hB0, mem_idents_id B0⟩)
    omega
  have hg3none : getBlock (setTerm bs2 eid .erased) ctr2 = none := by
    refine getBlock_none_of_bound (c := ctr2) ?_ le_rfl
    refine IdBound_setTerm hbound eid ?_
    intro m hm
    cases hm
  -- the jump block of the finished apparatus
  have hgjb : getBlock (buildDispatch eid ctr2 blocks.length bs2) ctr2
      = some ⟨ctr2, false,
          [.phi (ctr2 + 1) [],
            .gep (ctr2 + 3) (V.reg (ctr2 + 2)) (V.reg (ctr2 + 1))],
          .indirectBr (V.reg (ctr2 + 3)) []⟩ := by
    unfold buildDispatch
    rw [getBlock_setTerm_self, getBlock_appendInst_self,
      getBlock_appendInst_ne _ _ _ _ heidctr.symm, getBlock_appendInst_self,
      getBlock_append_right _ _ _ hg3none, getBlock_cons, if_pos rfl]
    rfl
  -- the entry block of the finished apparatus
  have hgentry : getBlock (buildDispatch eid ctr2 blocks.length bs2) eid
      = some { EB with
          insts := EB.insts
            ++ [.alloca (ctr2 + 2) (V.const blocks.length)],
          term := Term.erased } := by
    unfold buildDispatch
    rw [getBlock_setTerm_ne _ _ _ _ heidctr,
      getBlock_appendInst_ne _ _ _ _ heidctr, getBlock_appendInst_self,
      getBlock_appendInst_ne _ _ _ _ heidctr,
      getBlock_append_left _ _ _ _ (by
        rw [getBlock_setTerm_self, hgE, Option.map_some']),
      Option.map_some']
  -- all other blocks of the apparatus are the blocks of `bs2`
  have hg_other : ∀ b, b ≠ eid → b ≠ ctr2 →
      getBlock (buildDispatch eid ctr2 blocks.length bs2) b
        = getBlock bs2 b := by
    intro b h1 h2
    unfold buildDispatch
    rw [getBlock_setTerm_ne _ _ _ _ h2, getBlock_appendInst_ne _ _ _ _ h2,
      getBlock_appendInst_ne _ _ _ _ h1, getBlock_appendInst_ne _ _ _ _ h2]
    cases hg : getBlock bs2 b with
    | some B0 =>
      rw [getBlock_append_left _ _ _ B0 (by
        rw [getBlock_setTerm_ne _ _ _ _ h1]
        exact hg)]
    | none =>
      rw [getBlock_append_right _ _ _ (by
        rw [getBlock_setTerm_ne _ _ _ _ h1]
        exact hg), getBlock_cons, if_neg (fun he => h2 he.symm)]
      rfl
  have hids8 : (buildDispatch eid ctr2 blocks.length bs2).map BB.id
      = bs2.map BB.id ++ [ctr2] := by
    unfold buildDispatch
    rw [ids_setTerm, ids_appendInst, ids_appendInst, ids_appendInst,
      List.map_append, ids_setTerm]
    rfl
  have hnodup8 : ((buildDispatch eid ctr2 blocks.length bs2).map
      BB.id).Nodup := by
    rw [hids8, List.nodup_append]
    exact ⟨hnodup, List.nodup_singleton ctr2,
      fun a ha hb => hctr_notid ((List.mem_singleton.mp hb) ▸ ha)⟩
  have hbound8 : IdBound (ctr2 + 4)
      (buildDispatch eid ctr2 blocks.length bs2) := by
    unfold buildDispatch
    refine IdBound_setTerm ?_ ctr2 ?_
    · refine IdBound_appendInst ?_ ctr2 ?_
      · refine IdBound_appendInst ?_ eid ?_
        · refine IdBound_appendInst ?_ ctr2 ?_
          · refine IdBound_append ?_ ?_
            · refine IdBound_setTerm (hbound.mono (by omega)) eid ?_
              intro m hm
              cases hm
            · intro m hm
              rw [mem_identsOf] at hm
              obtain ⟨B0, hB0, hm0⟩ := hm
              rw [List.mem_singleton] at hB0
              subst hB0
              have hm2 : m ∈ [ctr2] := hm0
              rw [List.mem_singleton] at hm2
              omega
          · intro m hm
            have hm2 : m ∈ [ctr2 + 1] := hm
            rw [List.mem_singleton] at hm2
            omega
        · intro m hm
          have hm2 : m ∈ [ctr2 + 2, blocks.length] := hm
          rcases List.mem_cons.mp hm2 with h2 | h2
          · omega
          · rw [List.mem_singleton] at h2
            omega
      · intro m hm
        have hm2 : m ∈ [ctr2 + 3, ctr2 + 2, ctr2 + 1] := hm
        rcases List.mem_cons.mp hm2 with h2 | h2
        · omega
        rcases List.mem_cons.mp h2 with h3 | h3
        · omega
        · rw [List.mem_singleton] at h3
          omega
    · intro m hm
      have hm2 : m ∈ [ctr2 + 3] := hm
      rw [List.mem_singleton] at hm2
      omega
  refine ⟨?_, ?_⟩
  · refine
      { wf1 := rfl, wf2 := rfl, wf3 := rfl, Lnodup := hBnodup
        Lbound := hblt, Llen := hlen
        Lentry := fun hmem => (hblocks eid hmem).1 rfl
        Ljb := fun hmem => by
          have h2 : ctr2 < ctr2 := hblt ctr2 hmem
          omega
        entrylt := heidlt, Lsub := ?_, Tbound := ?_, closed := ?_ }
    · intro b hb
      rw [hids8]
      refine List.mem_append.mpr (Or.inl ?_)
      obtain ⟨_, B, hgB, _⟩ := hblocks b hb
      have := getBlock_mem bs2 b B hgB
      rw [← this.2]
      exact List.mem_map_of_mem BB.id this.1
    · intro b hb m hm
      obtain ⟨_, B, hgB, _⟩ := hblocks b hb
      have hm1 : m ∈ (((getBlock bs2 b).map BB.term).getD .erased).idents :=
        hm
      rw [hgB] at hm1
      have hm2 : m ∈ B.term.idents := hm1
      exact IdBound_getBlock hbound hgB m (mem_idents_term hm2)
    · intro b hb
      obtain ⟨_, B, hgB, _⟩ := hblocks b hb
      have h0 := hsucc2 b hb B hgB
      have hTb : (fun b2 =>
          ((getBlock bs2 b2).map BB.term).getD Term.erased) b = B.term := by
        show ((getBlock bs2 b).map BB.term).getD Term.erased = B.term
        rw [hgB]
        rfl
      rw [hTb]
      exact h0
  · refine
      { len := rfl, kle := Nat.zero_le _, nodup := hnodup8
        ctr := le_rfl, bound := hbound8
        ids := (List.append_nil _).symm
        shape := ⟨[], hgjb, fun l hl => absurd hl (List.not_mem_nil l)⟩
        incsWF := fun inc hinc => absurd hinc (List.not_mem_nil inc)
        proc := fun j hj => absurd hj (Nat.not_lt_zero j)
        entryB := ?_, unproc := ?_, preds := ?_ }
    · exact ⟨_, hgentry, hElp, rfl, fun j hj => absurd hj (Nat.not_lt_zero j)⟩
    · intro b hb
      rw [List.drop_zero] at hb
      obtain ⟨hbe, B, hgB, hlpB⟩ := hblocks b hb
      have hbc : b ≠ ctr2 := by
        have := hblt b hb
        omega
      refine ⟨B, by rw [hg_other b hbe hbc]; exact hgB, hlpB, ?_, ?_⟩
      · rw [hgB]
        rfl
      · intro ins hins
        have h1 := IdBound_getBlock hbound hgB ins.iid
          (mem_idents_insts hins (by
            rw [Instr.idents]
            exact List.mem_cons.mpr (Or.inl rfl)))
        exact h1
    · intro B2 hB2
      have hrw : rewiredAll ⟨eid, ctr2, ctr2 + 1, ctr2 + 2, ctr2 + 3,
          initId, blocks⟩
          (fun b => ((getBlock bs2 b).map BB.term).getD .erased) 0 []
          = [] := rfl
      rw [hrw]
      simp only [List.not_mem_nil, iff_false]
      have hgB2 : getBlock (buildDispatch eid ctr2 blocks.length bs2)
          B2.id = some B2 :=
        getBlock_of_mem_nodup _ B2 hnodup8 hB2
      by_cases h1 : B2.id = eid
      · rw [h1, hgentry] at hgB2
        have hB2e := Option.some_injective _ hgB2
        rw [← hB2e]
        intro hjs
        cases hjs
      · by_cases h2 : B2.id = ctr2
        · rw [h2, hgjb] at hgB2
          have hB2e := Option.some_injective _ hgB2
          rw [← hB2e]
          intro hjs
          cases hjs
        · rw [hg_other B2.id h1 h2] at hgB2
          intro hjs
          have hmm := IdBound_getBlock hbound hgB2 ctr2
            (mem_idents_term (mem_succs_idents B2.term ctr2 hjs))
          omega

theorem getBlock_map_idpres (bs : List BB) (f : BB → BB)
    (hf : ∀ B, (f B).id = B.id) (b : Nat) :
    getBlock (bs.map f) b = (getBlock bs b).map f := by
  induction bs with
  | nil => rfl
  | cons A rst ih =>
    rw [List.map_cons, getBlock_cons, getBlock_cons]
    by_cases hA : A.id = b
    · rw [if_pos (by rw [hf A]; exact hA), if_pos hA, Option.map_some']
    · rw [if_neg (by rw [hf A]; exact hA), if_neg hA, ih]

/-- Transfer of the successor-closure shape along terminator-skeleton
equality. -/
theorem succ_match_transfer (t t0 : Term) (P : Nat → Prop)
    (hsk : t.skel = t0.skel)
    (h : succClosedIn t0 P) :
    succClosedIn t P := by
  cases t with
  | ret v => exact True.intro
  | br d =>
    have ht0 := skel_br_inv t0 d hsk.symm
    subst ht0
    have h2 : P d := h
    exact h2
  | condBr c a b =>
    have ht0k : t0.skel = Term.condBr (V.const 0) a b := by
      rw [← hsk]
      rfl
    obtain ⟨c0, ht0⟩ := skel_condBr_inv t0 (V.const 0) a b ht0k
    subst ht0
    have h2 : P a ∧ P b := h
    exact h2
  | invoke r args n u =>
    have ht0k : t0.skel = Term.invoke r [] n u := by
      rw [← hsk]
      rfl
    obtain ⟨args0, ht0⟩ := skel_invoke_inv t0 r [] n u ht0k
    subst ht0
    have h2 : P n := h
    exact h2
  | switchBr v dflt cs =>
    cases cs with
    | nil =>
      have ht0k : t0.skel = Term.switchBr (V.const 0) dflt [] := by
        rw [← hsk]
        rfl
      obtain ⟨v0, ht0⟩ := skel_switch_inv t0 (V.const 0) dflt [] ht0k
      subst ht0
      have h2 : P dflt := h
      exact h2
    | cons c2 cs2 => exact True.intro
  | indirectBr a ds =>
    cases ds with
    | nil => exact True.intro
    | cons d1 ds2 =>
      cases ds2 with
      | nil =>
        have ht0k : t0.skel = Term.indirectBr (V.const 0) [d1] := by
          rw [← hsk]
          rfl
        obtain ⟨a0, ht0⟩ := skel_indirect_inv t0 (V.const 0) [d1] ht0k
        subst ht0
        have h2 : P d1 := h
        exact h2
      | cons d2 ds3 => exact True.intro
  | erased => exact True.intro

theorem succ_match_mono (t : Term) (P Q : Nat → Prop)
    (hPQ : ∀ x, P x → Q x)
    (h : succClosedIn t P) :
    succClosedIn t Q := by
  cases t with
  | ret v => exact True.intro
  | br d =>
    have h2 : P d := h
    exact hPQ d h2
  | condBr c a b =>
    have h2 : P a ∧ P b := h
    exact ⟨hPQ a h2.1, hPQ b h2.2⟩
  | invoke r args n u =>
    have h2 : P n := h
    exact hPQ n h2
  | switchBr v dflt cs =>
    cases cs with
    | nil =>
      have h2 : P dflt := h
      exact hPQ dflt h2
    | cons c2 cs2 => exact True.intro
  | indirectBr a ds =>
    cases ds with
    | nil => exact True.intro
    | cons d1 ds2 =>
      cases ds2 with
      | nil =>
        have h2 : P d1 := h
        exact hPQ d1 h2
      | cons d2 ds3 => exact True.intro
  | erased => exact True.intro

theorem splitFix_id (mt : Term) (o n : Nat) (B : BB) :
    (splitFix mt o n B).id = B.id := by
  unfold splitFix
  by_cases hc : mt.succs.contains B.id
  · rw [if_pos hc]
  · rw [if_neg hc]

theorem splitFix_lp (mt : Term) (o n : Nat) (B : BB) :
    (splitFix mt o n B).lp = B.lp := by
  unfold splitFix
  by_cases hc : mt.succs.contains B.id
  · rw [if_pos hc]
  · rw [if_neg hc]

theorem splitFix_term (mt : Term) (o n : Nat) (B : BB) :
    (splitFix mt o n B).term = B.term := by
  unfold splitFix
  by_cases hc : mt.succs.contains B.id
  · rw [if_pos hc]
  · rw [if_neg hc]

theorem retargetPhi_idents (o n : Nat) (ins : Instr) (m : Nat)
    (hm : m ∈ (retargetPhi o n ins).idents) : m ∈ ins.idents ∨ m = n := by
  cases ins with
  | phi r incs =>
    simp only [retargetPhi, Instr.idents, Instr.iid, Instr.opnds,
      Instr.extra, List.map_map, List.mem_cons, List.mem_append,
      List.mem_map, List.mem_flatMap, Function.comp] at hm ⊢
    rcases hm with h | h | h
    · exact Or.inl (Or.inl h)
    · obtain ⟨v, ⟨inc, hinc, hv⟩, hmv⟩ := h
      refine Or.inl (Or.inr (Or.inl ⟨v, ⟨inc, hinc, ?_⟩, hmv⟩))
      by_cases he : inc.2 = o
      · rw [if_pos he] at hv
        exact hv
      · rw [if_neg he] at hv
        exact hv
    · obtain ⟨inc, hinc, hv⟩ := h
      by_cases he : inc.2 = o
      · rw [if_pos he] at hv
        exact Or.inr hv.symm
      · rw [if_neg he] at hv
        exact Or.inl (Or.inr (Or.inr ⟨inc, hinc, hv⟩))
  | op r args => exact Or.inl hm
  | alloca r c => exact Or.inl hm
  | load r a => exact Or.inl hm
  | store sid v a => exact Or.inl hm
  | gep r b2 i2 => exact Or.inl hm
  | select r c t f => exact Or.inl hm

theorem splitFix_idents (mt : Term) (o n : Nat) (B : BB) (m : Nat)
    (hm : m ∈ (splitFix mt o n B).idents) : m ∈ B.idents ∨ m = n := by
  unfold splitFix at hm
  by_cases hc : mt.succs.contains B.id
  · rw [if_pos hc] at hm
    rcases (mem_BB_idents m _).mp hm with h | ⟨ins, hins, h⟩ | h
    · exact Or.inl ((mem_BB_idents m B).mpr (Or.inl h))
    · rw [List.mem_map] at hins
      obtain ⟨ins0, hins0, hins0e⟩ := hins
      subst hins0e
      rcases retargetPhi_idents o n ins0 m h with h2 | h2
      · exact Or.inl (mem_idents_insts hins0 h2)
      · exact Or.inr h2
    · exact Or.inl (mem_idents_term h)
  · rw [if_neg hc] at hm
    exact Or.inl hm

theorem splitEntry_eq (E1 : BB) (rest1 : List BB) (c : Nat) :
    splitEntryBlock (E1 :: rest1) c =
      ({ E1 with term := .br c } :: ⟨c, false, [], E1.term⟩
          :: rest1.map (splitFix E1.term E1.id c),
        c + 1, c) := by
  unfold splitEntryBlock splitFix retargetPhi
  rfl

theorem ids_buildDispatch (eid c n : Nat) (bs2 : List BB) :
    (buildDispatch eid c n bs2).map BB.id = bs2.map BB.id ++ [c] := by
  unfold buildDispatch
  rw [ids_setTerm, ids_appendInst, ids_appendInst, ids_appendInst,
    List.map_append, ids_setTerm]
  rfl

/-- The whole of `flattenCore` up to the end of the rewriting loop: under
the well-formedness facts of the input function it either aborts on an
unsupported rewritten terminator or finishes with the loop invariant at
the final iteration. -/
theorem flattenCore_pipeline (nm : String) (E : BB) (rest : List BB)
    (bs0 : List Nat)
    (hnodup : ((E :: rest).map BB.id).Nodup)
    (help : E.lp = false)
    (hcollect : collectAux rest = some bs0)
    (hsucc : ∀ B0 ∈ E :: rest, succClosedIn B0.term
      (fun d => ∃ B2, B2 ∈ rest ∧ B2.id = d ∧ B2.lp = false)) :
    flattenCore nm E (E :: rest) bs0 = .crashed .unexpectedTerm
    ∨ ∃ cx T ids0 dat stF,
        LoopHyp cx T ids0
        ∧ LoopInv cx T ids0 cx.blocks.length dat stF
        ∧ cx.entryId = E.id
        ∧ cx.jIdx = cx.jb + 1 ∧ cx.jt = cx.jb + 2 ∧ cx.ga = cx.jb + 3
        ∧ ((1 < E.term.succs.length ∧ cx.blocks = bs0 ++ [cx.initId]
              ∧ cx.initId ∉ bs0 ∧ (T cx.initId).skel = E.term.skel)
            ∨ (¬ 1 < E.term.succs.length ∧ cx.blocks = bs0
              ∧ cx.initId = E.term.succs.headD 0))
        ∧ (∀ b ∈ bs0, ∀ B0, B0 ∈ (E :: rest) → B0.id = b →
            (T b).skel = B0.term.skel)
        ∧ (∃ mid, ids0 = E.id :: (mid ++ [cx.jb]))
        ∧ flattenCore nm E (E :: rest) bs0
            = .done ⟨⟨nm, postPass (setTerm stF.1 E.id (.br cx.jb))
                  cx.jb cx.jIdx⟩,
                cx.blocks, E.id, cx.initId, cx.jb, cx.jIdx, cx.jt, cx.ga,
                decide (1 < E.term.succs.length)⟩ := by
  have hfb := freshCtr_bound ⟨nm, E :: rest⟩
  have hfp := freshCtr_pos ⟨nm, E :: rest⟩
  have hd := demoteAll_ok E.id bs0 (E :: rest, freshCtr ⟨nm, E :: rest⟩)
    hfb hfp
  set stD : List BB × Nat := demotedSt nm E.id (E :: rest) bs0 with hstD
  have hPres1 : Pres (E :: rest) stD.1 := hd.1
  have hBound1 : IdBound stD.2 stD.1 := hd.2.1
  have hCle1 : freshCtr ⟨nm, E :: rest⟩ ≤ stD.2 := hd.2.2
  obtain ⟨E1, rest1, hbsD, hE1, hrest1⟩ := Pres_cons_inv hPres1
  have hidsD : stD.1.map BB.id = (E :: rest).map BB.id := Pres_ids hPres1
  have hnodupD : (stD.1.map BB.id).Nodup := by
    rw [hidsD]
    exact hnodup
  have hE1id : E1.id = E.id := hE1.1
  have hE1lp : E1.lp = false := hE1.2.1.trans help
  have hE1sk : E1.term.skel = E.term.skel := hE1.2.2
  have hrest1ids : rest1.map BB.id = rest.map BB.id := by
    have h0 : (E1 :: rest1).map BB.id = (E :: rest).map BB.id := by
      rw [← hbsD]
      exact hidsD
    rw [List.map_cons, List.map_cons] at h0
    injection h0
  have hbs0mem : ∀ b ∈ bs0, ∃ B2, B2 ∈ rest ∧ B2.id = b ∧ B2.lp = false :=
    fun b hb => (collectAux_mem rest bs0 hcollect b).mp hb
  have hbs0ne : ∀ b ∈ bs0, b ≠ E.id := by
    intro b hb he
    obtain ⟨B2, hB2, hid, _⟩ := hbs0mem b hb
    have hmem : E.id ∈ rest.map BB.id := by
      rw [← he, ← hid]
      exact List.mem_map_of_mem BB.id hB2
    rw [List.map_cons] at hnodup
    exact (List.nodup_cons.mp hnodup).1 hmem
  have hbs0nodup : bs0.Nodup := by
    refine List.Nodup.sublist (collectAux_sublist rest bs0 hcollect) ?_
    rw [List.map_cons] at hnodup
    exact (List.nodup_cons.mp hnodup).2
  have hbs0lt : ∀ b ∈ bs0, b < freshCtr ⟨nm, E :: rest⟩ := by
    intro b hb
    obtain ⟨B2, hB2, hid, _⟩ := hbs0mem b hb
    refine hfb b ?_
    rw [mem_identsOf]
    exact ⟨B2, List.mem_cons_of_mem E hB2, hid ▸ mem_idents_id B2⟩
  have hEidlt : E.id < freshCtr ⟨nm, E :: rest⟩ := by
    refine hfb E.id ?_
    rw [mem_identsOf]
    exact ⟨E, List.mem_cons.mpr (Or.inl rfl), mem_idents_id E⟩
  have hdemB : ∀ b ∈ bs0, ∃ B0 B1, B0 ∈ rest ∧ B0.id = b ∧ B0.lp = false
      ∧ getBlock stD.1 b = some B1 ∧ B1.lp = false
      ∧ B1.term.skel = B0.term.skel := by
    intro b hb
    obtain ⟨B0, hB0r, hB0id, hB0lp⟩ := hbs0mem b hb
    have hg0 : getBlock (E :: rest) b = some B0 := by
      have h0 := getBlock_of_mem_nodup (E :: rest) B0 hnodup
        (List.mem_cons_of_mem E hB0r)
      rw [hB0id] at h0
      exact h0
    obtain ⟨B1, hg1, hid1, hlp1, hsk1⟩ := Pres_getBlock hPres1 b hg0
    exact ⟨B0, B1, hB0r, hB0id, hB0lp, hg1, hlp1.trans hB0lp, hsk1⟩
  have hB0unique : ∀ b ∈ bs0, ∀ B0 B0', B0 ∈ E :: rest → B0.id = b →
      B0' ∈ E :: rest → B0'.id = b → B0 = B0' := by
    intro b hb B0 B0' h1 h2 h3 h4
    have hu1 := getBlock_of_mem_nodup (E :: rest) B0 hnodup h1
    have hu2 := getBlock_of_mem_nodup (E :: rest) B0' hnodup h3
    rw [h2] at hu1
    rw [h4] at hu2
    rw [hu1] at hu2
    exact Option.some_injective _ hu2
  by_cases hnS : 1 < E.term.succs.length
  · -- entry is split: the split-off block becomes InitialBlock
    set bs2v : List BB := { E1 with term := Term.br stD.2 }
      :: ⟨stD.2, false, [], E1.term⟩
      :: rest1.map (splitFix E1.term E1.id stD.2) with hbs2v
    have hE1b : ∀ x ∈ E1.idents, x < stD.2 := by
      intro x hx
      refine hBound1 x ?_
      rw [mem_identsOf]
      refine ⟨E1, ?_, hx⟩
      rw [hbsD]
      exact List.mem_cons.mpr (Or.inl rfl)
    have hR1b : ∀ B1 ∈ rest1, ∀ x ∈ B1.idents, x < stD.2 := by
      intro B1 hB1 x hx
      refine hBound1 x ?_
      rw [mem_identsOf]
      refine ⟨B1, ?_, hx⟩
      rw [hbsD]
      exact List.mem_cons_of_mem E1 hB1
    have hEidD : E.id < stD.2 := by
      have h1 := hE1b E1.id (mem_idents_id E1)
      rw [hE1id] at h1
      exact h1
    have hbs0ltD : ∀ b ∈ bs0, b < stD.2 := by
      intro b hb
      have h1 := hbs0lt b hb
      have h2 := hCle1
      omega
    have hmapids : rest1.map (BB.id ∘ splitFix E1.term E1.id stD.2)
        = rest1.map BB.id :=
      List.map_congr_left (fun B _ => splitFix_id E1.term E1.id stD.2 B)
    have hids2 : bs2v.map BB.id = E.id :: stD.2 :: rest.map BB.id := by
      rw [hbs2v]
      show BB.id { E1 with term := Term.br stD.2 }
          :: stD.2 :: (rest1.map (splitFix E1.term E1.id stD.2)).map BB.id
        = E.id :: stD.2 :: rest.map BB.id
      rw [List.map_map, hmapids, hrest1ids,
        show BB.id { E1 with term := Term.br stD.2 } = E.id from hE1id]
    have hnodupER : E.id ∉ rest.map BB.id ∧ (rest.map BB.id).Nodup := by
      rw [List.map_cons] at hnodup
      exact List.nodup_cons.mp hnodup
    have hnodup2 : (bs2v.map BB.id).Nodup := by
      rw [hids2]
      refine List.nodup_cons.mpr ⟨?_, List.nodup_cons.mpr ⟨?_, hnodupER.2⟩⟩
      · intro hmem
        rcases List.mem_cons.mp hmem with h | h
        · omega
        · exact hnodupER.1 h
      · intro hmem
        rw [List.mem_map] at hmem
        obtain ⟨B2, hB2, hB2e⟩ := hmem
        have h1 : B2.id < freshCtr ⟨nm, E :: rest⟩ := by
          refine hfb B2.id ?_
          rw [mem_identsOf]
          exact ⟨B2, List.mem_cons_of_mem E hB2, mem_idents_id B2⟩
        rw [hB2e] at h1
        have h2 := hCle1
        omega
    have hbound2 : IdBound (stD.2 + 1) bs2v := by
      intro m hm
      rw [hbs2v] at hm
      rw [mem_identsOf] at hm
      obtain ⟨B', hB', hmB⟩ := hm
      rcases List.mem_cons.mp hB' with hB1 | hB'2
      · subst hB1
        rcases (mem_BB_idents m _).mp hmB with h | hh | h
        · have h2 : m = E1.id := h
          have h3 := hE1b E1.id (mem_idents_id E1)
          omega
        · obtain ⟨ins, hins, h⟩ := hh
          have hins2 : ins ∈ E1.insts := hins
          have h3 := hE1b m (mem_idents_insts hins2 h)
          omega
        · have h2 : m ∈ (Term.br stD.2).idents := h
          have h3 : m = stD.2 := by
            simp [Term.idents, Term.succs, Term.opnds, Term.result] at h2
            exact h2
          omega
      rcases List.mem_cons.mp hB'2 with hB1 | hB'3
      · subst hB1
        rcases (mem_BB_idents m _).mp hmB with h | hh | h
        · have h2 : m = stD.2 := h
          omega
        · obtain ⟨ins, hins, h⟩ := hh
          have hins2 : ins ∈ ([] : List Instr) := hins
          exact absurd hins2 (List.not_mem_nil ins)
        · have h2 : m ∈ E1.term.idents := h
          have h3 := hE1b m (mem_idents_term h2)
          omega
      · rw [List.mem_map] at hB'3
        obtain ⟨B1, hB1, hB1e⟩ := hB'3
        subst hB1e
        rcases splitFix_idents E1.term E1.id stD.2 B1 m hmB with h | h
        · have h3 := hR1b B1 hB1 m h
          omega
        · omega
    have hgE2 : getBlock bs2v E.id
        = some { E1 with term := Term.br stD.2 } := by
      rw [hbs2v, getBlock_cons,
        if_pos (show BB.id { E1 with term := Term.br stD.2 } = E.id
          from hE1id)]
    have hne1 : ¬ (E1.id = stD.2) := by
      have h1 := hE1b E1.id (mem_idents_id E1)
      omega
    have hgNB : getBlock bs2v stD.2 = some ⟨stD.2, false, [], E1.term⟩ := by
      rw [hbs2v, getBlock_cons,
        if_neg (show ¬ BB.id { E1 with term := Term.br stD.2 } = stD.2
          from hne1),
        getBlock_cons, if_pos rfl]
    have hgb2 : ∀ b ∈ bs0, ∀ B1, getBlock stD.1 b = some B1 →
        getBlock bs2v b = some (splitFix E1.term E1.id stD.2 B1) := by
      intro b hb B1 hg1
      have hbne : ¬ (E1.id = b) := by
        rw [hE1id]
        exact (hbs0ne b hb).symm
      rw [hbsD, getBlock_cons, if_neg hbne] at hg1
      have hbne2 : ¬ (stD.2 = b) := by
        have h1 := hbs0ltD b hb
        omega
      rw [hbs2v, getBlock_cons,
        if_neg (show ¬ BB.id { E1 with term := Term.br stD.2 } = b
          from hbne),
        getBlock_cons,
        if_neg (show ¬ BB.id (⟨stD.2, false, [], E1.term⟩ : BB) = b
          from hbne2),
        getBlock_map_idpres rest1 (splitFix E1.term E1.id stD.2)
          (fun B => splitFix_id E1.term E1.id stD.2 B) b,
        hg1, Option.map_some']
    have hblocksv : ∀ b ∈ bs0 ++ [stD.2], b ≠ E.id
        ∧ ∃ B, getBlock bs2v b = some B ∧ B.lp = false := by
      intro b hb
      rcases List.mem_append.mp hb with hb0 | hbs
      · obtain ⟨B0, B1, hB0r, hB0id, hB0lp, hg1, hlp1, hsk1⟩ := hdemB b hb0
        refine ⟨hbs0ne b hb0, splitFix E1.term E1.id stD.2 B1,
          hgb2 b hb0 B1 hg1, ?_⟩
        rw [splitFix_lp]
        exact hlp1
      · have hbeq : b = stD.2 := List.mem_singleton.mp hbs
        subst hbeq
        exact ⟨by omega, ⟨stD.2, false, [], E1.term⟩, hgNB, rfl⟩
    have hBnodup2 : (bs0 ++ [stD.2]).Nodup := by
      rw [List.nodup_append]
      refine ⟨hbs0nodup, List.nodup_singleton _, ?_⟩
      intro a ha hamem
      have h1 := hbs0ltD a ha
      have h2 : a = stD.2 := List.mem_singleton.mp hamem
      omega
    have hsucc2v : ∀ b ∈ bs0 ++ [stD.2], ∀ B, getBlock bs2v b = some B →
        succClosedIn B.term (fun d => d ∈ bs0 ++ [stD.2]) := by
      intro b hb B hgB
      rcases List.mem_append.mp hb with hb0 | hbs
      · obtain ⟨B0, B1, hB0r, hB0id, hB0lp, hg1, hlp1, hsk1⟩ := hdemB b hb0
        have hg2 := hgb2 b hb0 B1 hg1
        rw [hg2] at hgB
        have hBe := Option.some_injective _ hgB
        subst hBe
        have h2 := succ_match_mono B0.term
          (fun d => ∃ B2, B2 ∈ rest ∧ B2.id = d ∧ B2.lp = false)
          (fun d => d ∈ bs0 ++ [stD.2])
          (fun x hx => List.mem_append.mpr
            (Or.inl ((collectAux_mem rest bs0 hcollect x).mpr hx)))
          (hsucc B0 (List.mem_cons_of_mem E hB0r))
        have hskf : (splitFix E1.term E1.id stD.2 B1).term.skel
            = B0.term.skel := by
          rw [splitFix_term]
          exact hsk1
        exact succ_match_transfer (splitFix E1.term E1.id stD.2 B1).term
          B0.term (fun d => d ∈ bs0 ++ [stD.2]) hskf h2
      · have hbeq : b = stD.2 := List.mem_singleton.mp hbs
        subst hbeq
        rw [hgNB] at hgB
        have hBe := Option.some_injective _ hgB
        subst hBe
        have h2 := succ_match_mono E.term
          (fun d => ∃ B2, B2 ∈ rest ∧ B2.id = d ∧ B2.lp = false)
          (fun d => d ∈ bs0 ++ [stD.2])
          (fun x hx => List.mem_append.mpr
            (Or.inl ((collectAux_mem rest bs0 hcollect x).mpr hx)))
          (hsucc E (List.mem_cons.mpr (Or.inl rfl)))
        exact succ_match_transfer (⟨stD.2, false, [], E1.term⟩ : BB).term
          E.term (fun d => d ∈ bs0 ++ [stD.2]) hE1sk h2
    obtain ⟨LH, LI⟩ := setup_inv E.id (stD.2 + 1) stD.2 bs2v
      (bs0 ++ [stD.2]) hnodup2 hbound2 { E1 with term := Term.br stD.2 }
      hgE2
      (show ({ E1 with term := Term.br stD.2 } : BB).lp = false from hE1lp)
      hblocksv hBnodup2 hsucc2v
    rcases processAll_ok ⟨E.id, stD.2 + 1, stD.2 + 1 + 1, stD.2 + 1 + 2,
        stD.2 + 1 + 3, stD.2, bs0 ++ [stD.2]⟩
      (fun b => ((getBlock bs2v b).map BB.term).getD .erased)
      ((buildDispatch E.id (stD.2 + 1) (bs0 ++ [stD.2]).length bs2v).map
        BB.id)
      LH (bs0 ++ [stD.2]).length 0 []
      (buildDispatch E.id (stD.2 + 1) (bs0 ++ [stD.2]).length bs2v,
        stD.2 + 1 + 4)
      rfl LI with ⟨dat2, st2, hok, hLI2⟩ | herr
    · refine Or.inr ⟨_, _, _, dat2, st2, LH, hLI2, rfl, rfl, rfl, rfl,
        Or.inl ⟨hnS, rfl, ?_, ?_⟩, ?_, ?_, ?_⟩
      · intro hmem
        have h1 : stD.2 ∈ bs0 := hmem
        have h2 := hbs0ltD stD.2 h1
        omega
      · show (((getBlock bs2v stD.2).map BB.term).getD .erased).skel
          = E.term.skel
        rw [hgNB]
        exact hE1sk
      · intro b hb B0' hB0m hB0id'
        obtain ⟨B0, B1, hB0r, hB0id, hB0lp, hg1, hlp1, hsk1⟩ := hdemB b hb
        have hBeq := hB0unique b hb B0' B0 hB0m hB0id'
          (List.mem_cons_of_mem E hB0r) hB0id
        show (((getBlock bs2v b).map BB.term).getD .erased).skel
          = B0'.term.skel
        rw [hgb2 b hb B1 hg1, hBeq]
        show (splitFix E1.term E1.id stD.2 B1).term.skel = B0.term.skel
        rw [splitFix_term]
        exact hsk1
      · refine ⟨stD.2 :: rest.map BB.id, ?_⟩
        show (buildDispatch E.id (stD.2 + 1) (bs0 ++ [stD.2]).length
            bs2v).map BB.id
          = E.id :: ((stD.2 :: rest.map BB.id) ++ [stD.2 + 1])
        rw [ids_buildDispatch, hids2]
        rfl
      · have hfc0 : flattenCore nm E (E :: rest) bs0
            = (match processAll ⟨E.id, stD.2 + 1, stD.2 + 1 + 1,
                  stD.2 + 1 + 2, stD.2 + 1 + 3, stD.2, bs0 ++ [stD.2]⟩
                  (bs0 ++ [stD.2]).enum
                  (buildDispatch E.id (stD.2 + 1)
                    (bs0 ++ [stD.2]).length bs2v, stD.2 + 1 + 4) with
                | .error c => .crashed c
                | .ok st9 =>
                  .done ⟨⟨nm, postPass (setTerm st9.1 E.id
                        (.br (stD.2 + 1))) (stD.2 + 1) (stD.2 + 1 + 1)⟩,
                    bs0 ++ [stD.2], E.id, stD.2, stD.2 + 1, stD.2 + 1 + 1,
                    stD.2 + 1 + 2, stD.2 + 1 + 3, true⟩) := by
          simp only [flattenCore]
          rw [if_pos hnS]
          rw [show (bs0.foldl (demoteBlockPhis E.id)
              (E :: rest, freshCtr ⟨nm, E :: rest⟩)).1 = E1 :: rest1
            from hbsD]
          rw [splitEntry_eq E1 rest1 (bs0.foldl (demoteBlockPhis E.id)
            (E :: rest, freshCtr ⟨nm, E :: rest⟩)).2]
          rfl
        have hok2 : processAll ⟨E.id, stD.2 + 1, stD.2 + 1 + 1,
            stD.2 + 1 + 2, stD.2 + 1 + 3, stD.2, bs0 ++ [stD.2]⟩
            (bs0 ++ [stD.2]).enum
            (buildDispatch E.id (stD.2 + 1) (bs0 ++ [stD.2]).length bs2v,
              stD.2 + 1 + 4)
            = Except.ok st2 := hok
        rw [hfc0, hok2]
        have hdec : decide (1 < E.term.succs.length) = true :=
          decide_eq_true hnS
        rw [hdec]
    · refine Or.inl ?_
      have hfc0 : flattenCore nm E (E :: rest) bs0
          = (match processAll ⟨E.id, stD.2 + 1, stD.2 + 1 + 1,
                stD.2 + 1 + 2, stD.2 + 1 + 3, stD.2, bs0 ++ [stD.2]⟩
                (bs0 ++ [stD.2]).enum
                (buildDispatch E.id (stD.2 + 1)
                  (bs0 ++ [stD.2]).length bs2v, stD.2 + 1 + 4) with
              | .error c => .crashed c
              | .ok st9 =>
                .done ⟨⟨nm, postPass (setTerm st9.1 E.id
                      (.br (stD.2 + 1))) (stD.2 + 1) (stD.2 + 1 + 1)⟩,
                  bs0 ++ [stD.2], E.id, stD.2, stD.2 + 1, stD.2 + 1 + 1,
                  stD.2 + 1 + 2, stD.2 + 1 + 3, true⟩) := by
        simp only [flattenCore]
        rw [if_pos hnS]
        rw [show (bs0.foldl (demoteBlockPhis E.id)
            (E :: rest, freshCtr ⟨nm, E :: rest⟩)).1 = E1 :: rest1
          from hbsD]
        rw [splitEntry_eq E1 rest1 (bs0.foldl (demoteBlockPhis E.id)
          (E :: rest, freshCtr ⟨nm, E :: rest⟩)).2]
        rfl
      have herr2 : processAll ⟨E.id, stD.2 + 1, stD.2 + 1 + 1,
          stD.2 + 1 + 2, stD.2 + 1 + 3, stD.2, bs0 ++ [stD.2]⟩
          (bs0 ++ [stD.2]).enum
          (buildDispatch E.id (stD.2 + 1) (bs0 ++ [stD.2]).length bs2v,
            stD.2 + 1 + 4)
          = Except.error Crash.unexpectedTerm := herr
      rw [hfc0, herr2]
  · -- the sole successor of the entry becomes InitialBlock
    have hgE1 : getBlock stD.1 E.id = some E1 := by
      rw [hbsD, getBlock_cons, if_pos hE1id]
    have hblocksv : ∀ b ∈ bs0, b ≠ E.id
        ∧ ∃ B, getBlock stD.1 b = some B ∧ B.lp = false := by
      intro b hb
      obtain ⟨B0, B1, _, _, _, hg1, hlp1, _⟩ := hdemB b hb
      exact ⟨hbs0ne b hb, B1, hg1, hlp1⟩
    have hsucc2v : ∀ b ∈ bs0, ∀ B, getBlock stD.1 b = some B →
        succClosedIn B.term (fun d => d ∈ bs0) := by
      intro b hb B hgB
      obtain ⟨B0, B1, hB0r, hB0id, hB0lp, hg1, hlp1, hsk1⟩ := hdemB b hb
      rw [hg1] at hgB
      have hBe := Option.some_injective _ hgB
      subst hBe
      have h2 := succ_match_mono B0.term
        (fun d => ∃ B2, B2 ∈ rest ∧ B2.id = d ∧ B2.lp = false)
        (fun d => d ∈ bs0)
        (fun x hx => (collectAux_mem rest bs0 hcollect x).mpr hx)
        (hsucc B0 (List.mem_cons_of_mem E hB0r))
      exact succ_match_transfer B1.term B0.term (fun d => d ∈ bs0) hsk1 h2
    obtain ⟨LH, LI⟩ := setup_inv E.id stD.2 (E.term.succs.headD 0) stD.1
      bs0 hnodupD hBound1 E1 hgE1 hE1lp hblocksv hbs0nodup hsucc2v
    rcases processAll_ok ⟨E.id, stD.2, stD.2 + 1, stD.2 + 2, stD.2 + 3,
        E.term.succs.headD 0, bs0⟩
      (fun b => ((getBlock stD.1 b).map BB.term).getD .erased)
      ((buildDispatch E.id stD.2 bs0.length stD.1).map BB.id) LH
      bs0.length 0 []
      (buildDispatch E.id stD.2 bs0.length stD.1, stD.2 + 4)
      rfl LI with ⟨dat2, st2, hok, hLI2⟩ | herr
    · refine Or.inr ⟨_, _, _, dat2, st2, LH, hLI2, rfl, rfl, rfl, rfl,
        Or.inr ⟨hnS, rfl, rfl⟩, ?_, ?_, ?_⟩
      · intro b hb B0' hB0m hB0id'
        obtain ⟨B0, B1, hB0r, hB0id, hB0lp, hg1, hlp1, hsk1⟩ := hdemB b hb
        have hBeq := hB0unique b hb B0' B0 hB0m hB0id'
          (List.mem_cons_of_mem E hB0r) hB0id
        show (((getBlock stD.1 b).map BB.term).getD .erased).skel
          = B0'.term.skel
        rw [hg1, hBeq]
        exact hsk1
      · refine ⟨rest.map BB.id, ?_⟩
        show (buildDispatch E.id stD.2 bs0.length stD.1).map BB.id
          = E.id :: (rest.map BB.id ++ [stD.2])
        rw [ids_buildDispatch, hidsD]
        rfl
      · have hfc0 : flattenCore nm E (E :: rest) bs0
            = (match processAll ⟨E.id, stD.2, stD.2 + 1, stD.2 + 2,
                  stD.2 + 3, E.term.succs.headD 0, bs0⟩ bs0.enum
                  (buildDispatch E.id stD.2 bs0.length stD.1, stD.2 + 4)
                with
                | .error c => .crashed c
                | .ok st9 =>
                  .done ⟨⟨nm, postPass (setTerm st9.1 E.id (.br stD.2))
                      stD.2 (stD.2 + 1)⟩,
                    bs0, E.id, E.term.succs.headD 0, stD.2, stD.2 + 1,
                    stD.2 + 2, stD.2 + 3, false⟩) := by
          rw [hstD]
          simp only [flattenCore, demotedSt]
          rw [if_neg hnS]
          rfl
        have hok2 : processAll ⟨E.id, stD.2, stD.2 + 1, stD.2 + 2,
            stD.2 + 3, E.term.succs.headD 0, bs0⟩ bs0.enum
            (buildDispatch E.id stD.2 bs0.length stD.1, stD.2 + 4)
            = Except.ok st2 := hok
        rw [hfc0, hok2]
        have hdec : decide (1 < E.term.succs.length) = false :=
          decide_eq_false hnS
        rw [hdec]
    · refine Or.inl ?_
      have hfc0 : flattenCore nm E (E :: rest) bs0
          = (match processAll ⟨E.id, stD.2, stD.2 + 1, stD.2 + 2,
                stD.2 + 3, E.term.succs.headD 0, bs0⟩ bs0.enum
                (buildDispatch E.id stD.2 bs0.length stD.1, stD.2 + 4)
              with
              | .error c => .crashed c
              | .ok st9 =>
                .done ⟨⟨nm, postPass (setTerm st9.1 E.id (.br stD.2))
                    stD.2 (stD.2 + 1)⟩,
                  bs0, E.id, E.term.succs.headD 0, stD.2, stD.2 + 1,
                  stD.2 + 2, stD.2 + 3, false⟩) := by
        rw [hstD]
        simp only [flattenCore, demotedSt]
        rw [if_neg hnS]
        rfl
      have herr2 : processAll ⟨E.id, stD.2, stD.2 + 1, stD.2 + 2,
          stD.2 + 3, E.term.succs.headD 0, bs0⟩ bs0.enum
          (buildDispatch E.id stD.2 bs0.length stD.1, stD.2 + 4)
          = Except.error Crash.unexpectedTerm := herr
      rw [hfc0, herr2]

theorem findIdx_of_mem (l : List Nat) (b : Nat) (hnd : l.Nodup)
    (hb : b ∈ l) :
    List.findIdx? (fun y => y = b) l = some (idxIn l b) := by
  obtain ⟨⟨i, hilt⟩, hget⟩ := List.mem_iff_get.mp hb
  have hgd : l.getD i 0 = b := by
    rw [List.getD_eq_getElem l 0 hilt]
    exact hget
  have hnt : b ∉ l.take i := by
    intro hmem
    have hsplit := List.take_append_drop i l
    rw [← hsplit] at hnd
    rw [List.nodup_append] at hnd
    refine hnd.2.2 hmem ?_
    rw [drop_eq_getD_cons l i hilt, hgd]
    exact List.mem_cons.mpr (Or.inl rfl)
  have h1 := findIdx_go_nodup b l i 0 hilt hgd hnt
  have h2 : idxIn l b = 0 + i := by
    unfold idxIn
    rw [h1]
    rfl
  rw [h2]
  exact h1

theorem idxIn_mem (l : List Nat) (b : Nat) (hnd : l.Nodup) (hb : b ∈ l) :
    idxIn l b < l.length ∧ l.getD (idxIn l b) 0 = b := by
  obtain ⟨⟨i, hilt⟩, hget⟩ := List.mem_iff_get.mp hb
  have hgd : l.getD i 0 = b := by
    rw [List.getD_eq_getElem l 0 hilt]
    exact hget
  have hidx : idxIn l b = i := by
    rw [← hgd]
    exact idxIn_getD l i hilt hnd
  rw [hidx]
  exact ⟨hilt, hgd⟩

theorem findBlock_mem (blocks : List Nat) (b : Nat) (hnd : blocks.Nodup)
    (hb : b ∈ blocks) :
    findBlock blocks b = .ok (idxIn blocks b) := by
  unfold findBlock
  rw [findIdx_of_mem blocks b hnd hb]

/-- With only the `jumpIndex` phi in the jump block, the post-pass phi
completion has nothing to do. -/
theorem postPass_noop (bs : List BB) (jb jIdx ga jt : Nat)
    (incs : List (V × Nat)) (loads : List Instr) (ds : List Nat)
    (hg : getBlock bs jb = some ⟨jb, false,
      .phi jIdx incs :: (loads ++ [.gep ga (V.reg jt) (V.reg jIdx)]),
      .indirectBr (V.reg ga) ds⟩)
    (hloads : ∀ l ∈ loads, ∃ lr slot, l = .load lr (V.reg slot)) :
    postPass bs jb jIdx = bs := by
  have hnil : ((Instr.phi jIdx incs
        :: (loads ++ [Instr.gep ga (V.reg jt) (V.reg jIdx)])).filterMap
      fun ins =>
        match ins with
        | Instr.phi r _ => if r ≠ jIdx then some r else none
        | _ => none) = [] := by
    rw [List.filterMap_eq_nil]
    intro a ha
    rcases List.mem_cons.mp ha with h | h
    · subst h
      simp
    rcases List.mem_append.mp h with h2 | h2
    · obtain ⟨lr, slot, he⟩ := hloads a h2
      subst he
      rfl
    · have he : a = Instr.gep ga (V.reg jt) (V.reg jIdx) :=
        List.mem_singleton.mp h2
      subst he
      rfl
  simp only [postPass, hg]
  rw [hnil]
  rfl

/-- `runOnFunction` either rejects or runs `flattenCore` with all the
eligibility guards known to have passed. -/
theorem runOnFunction_split (fl : List String) (F : Func) :
    runOnFunction fl F = .rejected
    ∨ ∃ E rest bs0, F.blocks = E :: rest
        ∧ collectBlocks F = some bs0
        ∧ 2 ≤ bs0.length
        ∧ E.term.succs.length ≠ bs0.length ∧ E.term.succs.length ≠ 0
        ∧ runOnFunction fl F = flattenCore F.name E F.blocks bs0 := by
  rcases F with ⟨nm, bsF⟩
  cases bsF with
  | nil => exact Or.inl rfl
  | cons E rest =>
    by_cases hfl : fl ≠ [] ∧ ¬ fl.contains nm
    · refine Or.inl ?_
      show runOnFunction fl ⟨nm, E :: rest⟩ = .rejected
      simp only [runOnFunction]
      rw [if_pos hfl]
    · rcases hc : collectBlocks ⟨nm, E :: rest⟩ with _ | bs0
      · refine Or.inl ?_
        show runOnFunction fl ⟨nm, E :: rest⟩ = .rejected
        simp only [runOnFunction, hc]
        rw [if_neg hfl]
      · by_cases h2 : bs0.length < 2
        · refine Or.inl ?_
          show runOnFunction fl ⟨nm, E :: rest⟩ = .rejected
          simp only [runOnFunction, hc]
          rw [if_neg hfl, if_pos h2]
        · by_cases hne : E.term.succs.length = bs0.length
            ∨ E.term.succs.length = 0
          · refine Or.inl ?_
            show runOnFunction fl ⟨nm, E :: rest⟩ = .rejected
            simp only [runOnFunction, hc]
            rw [if_neg hfl, if_neg h2, if_pos hne]
          · refine Or.inr ⟨E, rest, bs0, rfl, rfl, by omega,
              fun h => hne (Or.inl h), fun h => hne (Or.inr h), ?_⟩
            show runOnFunction fl ⟨nm, E :: rest⟩
              = flattenCore nm E (E :: rest) bs0
            simp only [runOnFunction, hc]
            rw [if_neg hfl, if_neg h2, if_neg hne]

/-- Everything known about the result of a successful run, obtained by
pushing `flattenCore_pipeline` through the guards of `runOnFunction`. -/
theorem runOnFunction_done_inv (fl : List String) (F : Func) (E : BB)
    (rest : List BB) (R : FlatRes)
    (hb : F.blocks = E :: rest)
    (hnodup : ((E :: rest).map BB.id).Nodup)
    (help : E.lp = false)
    (hsucc : ∀ B0 ∈ E :: rest, succClosedIn B0.term
      (fun d => ∃ B2, B2 ∈ rest ∧ B2.id = d ∧ B2.lp = false))
    (hrun : runOnFunction fl F = .done R) :
    ∃ bs0 cx T ids0 dat stF,
      collectAux rest = some bs0
      ∧ 2 ≤ bs0.length
      ∧ E.term.succs.length ≠ bs0.length ∧ E.term.succs.length ≠ 0
      ∧ LoopHyp cx T ids0
      ∧ LoopInv cx T ids0 cx.blocks.length dat stF
      ∧ cx.entryId = E.id
      ∧ cx.jIdx = cx.jb + 1 ∧ cx.jt = cx.jb + 2 ∧ cx.ga = cx.jb + 3
      ∧ ((1 < E.term.succs.length ∧ cx.blocks = bs0 ++ [cx.initId]
            ∧ cx.initId ∉ bs0 ∧ (T cx.initId).skel = E.term.skel)
          ∨ (¬ 1 < E.term.succs.length ∧ cx.blocks = bs0
            ∧ cx.initId = E.term.succs.headD 0))
      ∧ (∀ b ∈ bs0, ∀ B0, B0 ∈ E :: rest → B0.id = b →
          (T b).skel = B0.term.skel)
      ∧ (∃ mid, ids0 = E.id :: (mid ++ [cx.jb]))
      ∧ R = ⟨⟨F.name, postPass (setTerm stF.1 E.id (.br cx.jb))
            cx.jb cx.jIdx⟩,
          cx.blocks, E.id, cx.initId, cx.jb, cx.jIdx, cx.jt, cx.ga,
          decide (1 < E.term.succs.length)⟩ := by
  rcases runOnFunction_split fl F with h |
    ⟨E2, rest2, bs0, hb2, hc, h2, hne1, hne0, heq⟩
  · rw [h] at hrun
    simp at hrun
  · rw [hb] at hb2
    injection hb2 with hE2 hrest2
    subst hE2
    subst hrest2
    have hcol : collectAux rest = some bs0 := by
      have h1 : collectBlocks F = collectAux rest := by
        unfold collectBlocks
        rw [hb]
        rfl
      rw [← h1]
      exact hc
    rcases flattenCore_pipeline F.name E rest bs0 hnodup help hcol hsucc
      with hcr | ⟨cx, T, ids0, dat, stF, LH, LI, he, w1, w2, w3, hdisj,
        hrel, hmid, hdone⟩
    · rw [heq, hb, hcr] at hrun
      simp at hrun
    · rw [heq, hb, hdone] at hrun
      have hR : R = ⟨⟨F.name, postPass (setTerm stF.1 E.id (.br cx.jb))
            cx.jb cx.jIdx⟩,
          cx.blocks, E.id, cx.initId, cx.jb, cx.jIdx, cx.jt, cx.ga,
          decide (1 < E.term.succs.length)⟩ := by
        injection hrun with h1
        exact h1.symm
      exact ⟨bs0, cx, T, ids0, dat, stF, hcol, h2, hne1, hne0, LH, LI,
        he, w1, w2, w3, hdisj, hrel, hmid, hR⟩

/-- The shape of the rewritten function after the loop: the post-pass is
a no-op, the jump block carries the final phi/gep/indirectbr, and the
entry block ends in a branch to the jump block. -/
theorem final_shape (cx : Ctx) (T : Nat → Term) (ids0 : List Nat)
    (dat : List IterRec) (stF : List BB × Nat)
    (LH : LoopHyp cx T ids0)
    (LI : LoopInv cx T ids0 cx.blocks.length dat stF) :
    ∃ loads EB,
      LoadsWF cx stF.2 loads
      ∧ postPass (setTerm stF.1 cx.entryId (.br cx.jb)) cx.jb cx.jIdx
          = setTerm stF.1 cx.entryId (.br cx.jb)
      ∧ getBlock (setTerm stF.1 cx.entryId (.br cx.jb)) cx.jb
          = some ⟨cx.jb, false,
              .phi cx.jIdx (incsOf cx T cx.blocks.length dat)
                :: (loads ++ [.gep cx.ga (V.reg cx.jt) (V.reg cx.jIdx)]),
              .indirectBr (V.reg cx.ga) cx.blocks⟩
      ∧ getBlock stF.1 cx.entryId = some EB ∧ EB.lp = false
      ∧ EB.term = .erased
      ∧ getBlock (setTerm stF.1 cx.entryId (.br cx.jb)) cx.entryId
          = some { EB with term := Term.br cx.jb } := by
  obtain ⟨loads, hjb, hlw⟩ := LI.shape
  have htake : cx.blocks.take cx.blocks.length = cx.blocks :=
    List.take_length cx.blocks
  rw [htake] at hjb
  obtain ⟨EB, hgE, hElp, hEterm, _⟩ := LI.entryB
  have hEjb : cx.entryId ≠ cx.jb := by
    have h1 := LH.entrylt
    omega
  have hg1 : getBlock (setTerm stF.1 cx.entryId (.br cx.jb)) cx.jb
      = some ⟨cx.jb, false,
          .phi cx.jIdx (incsOf cx T cx.blocks.length dat)
            :: (loads ++ [.gep cx.ga (V.reg cx.jt) (V.reg cx.jIdx)]),
          .indirectBr (V.reg cx.ga) cx.blocks⟩ := by
    rw [getBlock_setTerm_ne stF.1 cx.entryId cx.jb (.br cx.jb)
      (Ne.symm hEjb)]
    exact hjb
  refine ⟨loads, EB, hlw, ?_, hg1, hgE, hElp, hEterm, ?_⟩
  · refine postPass_noop _ cx.jb cx.jIdx cx.ga cx.jt
      (incsOf cx T cx.blocks.length dat) loads cx.blocks hg1 ?_
    intro l hl
    obtain ⟨lr, slot, heq, _⟩ := hlw l hl
    exact ⟨lr, slot, heq⟩
  · rw [getBlock_setTerm_self, hgE, Option.map_some']

/-- The `jumpIndex` incoming registered for the entry edge: the dispatch
index of `InitialBlock`. -/
theorem entry_inc_mem (cx : Ctx) (T : Nat → Term) (dat : List IterRec)
    (hmem : cx.initId ∈ cx.blocks) (hnd : cx.blocks.Nodup) :
    (V.const (idxIn cx.blocks cx.initId), cx.entryId)
      ∈ incsOf cx T cx.blocks.length dat := by
  obtain ⟨hlt, hgd⟩ := idxIn_mem cx.blocks cx.initId hnd hmem
  unfold incsOf
  rw [List.mem_flatMap]
  refine ⟨idxIn cx.blocks cx.initId, List.mem_range.mpr hlt, ?_⟩
  rw [hgd]
  unfold contribOf
  rw [if_pos rfl]
  exact List.mem_append.mpr (Or.inl (List.mem_singleton.mpr rfl))

/-- A processed block is still present in the block list. -/
theorem ProcOK_getBlock (cx : Ctx) (T : Nat → Term) (bs : List BB)
    (b : Nat) (d : IterRec) (h : ProcOK cx T bs b d) :
    ∃ B, getBlock bs b = some B := by
  unfold ProcOK at h
  rcases hs : (T b).succs with _ | ⟨d1, ds⟩
  · rw [hs] at h
    have h2 : d.sel = none ∧ d.nd = none ∧ ∃ B, getBlock bs b = some B
        ∧ B.lp = false ∧ B.term.skel = (T b).skel := h
    obtain ⟨_, _, B, hg, _⟩ := h2
    exact ⟨B, hg⟩
  rcases ds with _ | ⟨d2, ds2⟩
  · rw [hs] at h
    have h2 : d.sel = none ∧ d.nd = none ∧ ∃ B, getBlock bs b = some B
        ∧ B.lp = false ∧ B.term = .br cx.jb := h
    obtain ⟨_, _, B, hg, _⟩ := h2
    exact ⟨B, hg⟩
  · rw [hs] at h
    rcases ht : T b with v | dd | ⟨c, t, f⟩ | ⟨r, args, nn, u⟩
      | ⟨v2, df, cs⟩ | ⟨a, dsi⟩ | _
    · rw [ht] at h
      have h2 : False := h
      exact absurd h2 not_false
    · rw [ht] at h
      have h2 : False := h
      exact absurd h2 not_false
    · rw [ht] at h
      have h2 : d.nd = none ∧ (∃ sl, d.sel = some sl) ∧
          ∃ B, getBlock bs b = some B ∧ B.lp = false
            ∧ B.term = .br cx.jb := h
      obtain ⟨_, _, B, hg, _⟩ := h2
      exact ⟨B, hg⟩
    · rw [ht] at h
      have h2 : d.sel = none ∧ ∃ nd, d.nd = some nd ∧ cx.jb + 4 ≤ nd ∧
          getBlock bs nd = some ⟨nd, false, [], .br cx.jb⟩ ∧
          ∃ B args2, getBlock bs b = some B ∧ B.lp = false ∧
            B.term = .invoke r args2 nd u := h
      obtain ⟨_, nd, _, _, _, B, args2, hg, _⟩ := h2
      exact ⟨B, hg⟩
    · rw [ht] at h
      have h2 : False := h
      exact absurd h2 not_false
    · rw [ht] at h
      have h2 : False := h
      exact absurd h2 not_false
    · rw [ht] at h
      have h2 : False := h
      exact absurd h2 not_false

/-- C4: if the entry terminator had more than one successor the entry is
split and the split-off block becomes `InitialBlock` and joins the
eligible set, otherwise `InitialBlock` is the entry's sole successor; the
entry block ends in an unconditional branch to the dispatch block, and
the `jumpIndex` phi has an incoming from the entry block whose value is
`InitialBlock`'s dispatch index. -/
theorem C4_entry_rewiring (fl : List String) (F : Func) (E : BB)
    (rest : List BB) (R : FlatRes)
    (hb : F.blocks = E :: rest)
    (hnodup : ((E :: rest).map BB.id).Nodup)
    (help : E.lp = false)
    (hsucc : ∀ B0 ∈ E :: rest, succClosedIn B0.term
      (fun d => ∃ B2, B2 ∈ rest ∧ B2.id = d ∧ B2.lp = false))
    (hrun : runOnFunction fl F = .done R) :
    ∃ bs0, collectBlocks F = some bs0
    ∧ ((1 < E.term.succs.length
          ∧ R.didSplit = true
          ∧ R.blocks = bs0 ++ [R.initId] ∧ R.initId ∉ bs0)
        ∨ (¬ 1 < E.term.succs.length
          ∧ R.didSplit = false
          ∧ R.blocks = bs0 ∧ R.initId = E.term.succs.headD 0))
    ∧ (∃ EB : BB, getBlock R.F.blocks E.id
        = some { EB with term := Term.br R.jb })
    ∧ (∃ incs loads,
        getBlock R.F.blocks R.jb = some ⟨R.jb, false,
          .phi R.jIdx incs
            :: (loads ++ [.gep R.ga (V.reg R.jt) (V.reg R.jIdx)]),
          .indirectBr (V.reg R.ga) R.blocks⟩
        ∧ (V.const (idxIn R.blocks R.initId), E.id) ∈ incs) := by
  obtain ⟨bs0, cx, T, ids0, dat, stF, hcol, h2, hne1, hne0, LH, LI, he,
    w1, w2, w3, hdisj, hrel, hmid, hR⟩ :=
    runOnFunction_done_inv fl F E rest R hb hnodup help hsucc hrun
  subst hR
  obtain ⟨loads, EB, hlw, hnoop, hgjb, hgE, hElp, hEterm, hgE2⟩ :=
    final_shape cx T ids0 dat stF LH LI
  have hcb : collectBlocks F = some bs0 := by
    unfold collectBlocks
    rw [hb]
    exact hcol
  refine ⟨bs0, hcb, ?_, ?_, ?_⟩
  · rcases hdisj with ⟨hnS, hbl, hnotin, hsk⟩ | ⟨hnS, hbl, hinit⟩
    · refine Or.inl ⟨hnS, ?_, hbl, hnotin⟩
      show decide (1 < E.term.succs.length) = true
      exact decide_eq_true hnS
    · refine Or.inr ⟨hnS, ?_, hbl, hinit⟩
      show decide (1 < E.term.succs.length) = false
      exact decide_eq_false hnS
  · refine ⟨EB, ?_⟩
    show getBlock (postPass (setTerm stF.1 E.id (.br cx.jb))
        cx.jb cx.jIdx) E.id = some { EB with term := Term.br cx.jb }
    rw [← he, hnoop]
    exact hgE2
  · refine ⟨incsOf cx T cx.blocks.length dat, loads, ?_, ?_⟩
    · show getBlock (postPass (setTerm stF.1 E.id (.br cx.jb))
          cx.jb cx.jIdx) cx.jb
        = some ⟨cx.jb, false,
            .phi cx.jIdx (incsOf cx T cx.blocks.length dat)
              :: (loads ++ [.gep cx.ga (V.reg cx.jt) (V.reg cx.jIdx)]),
            .indirectBr (V.reg cx.ga) cx.blocks⟩
      rw [← he, hnoop]
      exact hgjb
    · have hmem : cx.initId ∈ cx.blocks := by
        rcases hdisj with ⟨_, hbl, _, _⟩ | ⟨hnS, hbl, hinit⟩
        · rw [hbl]
          exact List.mem_append.mpr (Or.inr (List.mem_singleton.mpr rfl))
        · have hlen1 : E.term.succs.length = 1 := by omega
          obtain ⟨d, hd⟩ := List.length_eq_one.mp hlen1
          have hE := hsucc E (List.mem_cons.mpr (Or.inl rfl))
          unfold succClosedIn at hE
          rw [hd] at hE
          have hPd : ∃ B2, B2 ∈ rest ∧ B2.id = d ∧ B2.lp = false := hE
          have hdbs0 : d ∈ bs0 := (collectAux_mem rest bs0 hcol d).mpr hPd
          rw [hbl, hinit, hd]
          exact hdbs0
      have hm2 := entry_inc_mem cx T dat hmem LH.Lnodup
      rw [he] at hm2
      exact hm2

/-- C10: under the well-formed-IR precondition on successors, the
`findBlock` assertion can never fire: the pass never returns the
`findBlockAssert` crash. -/
theorem C10_findBlock_no_assert (fl : List String) (F : Func)
    (E : BB) (rest : List BB)
    (hb : F.blocks = E :: rest)
    (hnodup : ((E :: rest).map BB.id).Nodup)
    (help : E.lp = false)
    (hsucc : ∀ B0 ∈ E :: rest, succClosedIn B0.term
      (fun d => ∃ B2, B2 ∈ rest ∧ B2.id = d ∧ B2.lp = false)) :
    runOnFunction fl F ≠ .crashed .findBlockAssert := by
  rcases runOnFunction_split fl F with h |
    ⟨E2, rest2, bs0, hb2, hc, h2, hne1, hne0, heq⟩
  · rw [h]
    simp
  · rw [hb] at hb2
    injection hb2 with hE2 hrest2
    subst hE2
    subst hrest2
    have hcol : collectAux rest = some bs0 := by
      have h1 : collectBlocks F = collectAux rest := by
        unfold collectBlocks
        rw [hb]
        rfl
      rw [← h1]
      exact hc
    rcases flattenCore_pipeline F.name E rest bs0 hnodup help hcol hsucc
      with hcr | ⟨cx, T, ids0, dat, stF, _, _, _, _, _, _, _, _, _, hdone⟩
    · rw [heq, hb, hcr]
      simp
    · rw [heq, hb, hdone]
      simp

/-- C6: the indirect branch's destination list is exactly the eligible
set, one entry each, and each destination is a block present in the
function; the jump-table initialisation stores the address of the `j`-th
eligible block into slot `j`; the block-to-slot mapping is total and
injective. -/
theorem C6_jump_table (fl : List String) (F : Func) (E : BB)
    (rest : List BB) (R : FlatRes)
    (hb : F.blocks = E :: rest)
    (hnodup : ((E :: rest).map BB.id).Nodup)
    (help : E.lp = false)
    (hsucc : ∀ B0 ∈ E :: rest, succClosedIn B0.term
      (fun d => ∃ B2, B2 ∈ rest ∧ B2.id = d ∧ B2.lp = false))
    (hrun : runOnFunction fl F = .done R) :
    R.blocks.Nodup
    ∧ (∃ incs loads, getBlock R.F.blocks R.jb = some ⟨R.jb, false,
        .phi R.jIdx incs
          :: (loads ++ [.gep R.ga (V.reg R.jt) (V.reg R.jIdx)]),
        .indirectBr (V.reg R.ga) R.blocks⟩)
    ∧ (∀ b ∈ R.blocks, ∃ B, getBlock R.F.blocks b = some B ∧ B.id = b)
    ∧ (∃ EB : BB, getBlock R.F.blocks E.id = some EB
        ∧ ∀ j, j < R.blocks.length → ∃ g,
            Instr.gep g (V.reg R.jt) (V.const j) ∈ EB.insts
            ∧ Instr.store (g + 1) (V.blockAddr (R.blocks.getD j 0))
                (V.reg g) ∈ EB.insts)
    ∧ (∀ b ∈ R.blocks, idxIn R.blocks b < R.blocks.length
        ∧ R.blocks.getD (idxIn R.blocks b) 0 = b)
    ∧ (∀ j, j < R.blocks.length → idxIn R.blocks (R.blocks.getD j 0) = j)
    := by
  obtain ⟨bs0, cx, T, ids0, dat, stF, hcol, h2, hne1, hne0, LH, LI, he,
    w1, w2, w3, hdisj, hrel, hmid, hR⟩ :=
    runOnFunction_done_inv fl F E rest R hb hnodup help hsucc hrun
  subst hR
  obtain ⟨loads, EB, hlw, hnoop, hgjb, hgE, hElp, hEterm, hgE2⟩ :=
    final_shape cx T ids0 dat stF LH LI
  refine ⟨LH.Lnodup, ?_, ?_, ?_, ?_, ?_⟩
  · refine ⟨incsOf cx T cx.blocks.length dat, loads, ?_⟩
    show getBlock (postPass (setTerm stF.1 E.id (.br cx.jb))
        cx.jb cx.jIdx) cx.jb
      = some ⟨cx.jb, false,
          .phi cx.jIdx (incsOf cx T cx.blocks.length dat)
            :: (loads ++ [.gep cx.ga (V.reg cx.jt) (V.reg cx.jIdx)]),
          .indirectBr (V.reg cx.ga) cx.blocks⟩
    rw [← he, hnoop]
    exact hgjb
  · intro b hbm
    obtain ⟨hlt, hgd⟩ := idxIn_mem cx.blocks b LH.Lnodup hbm
    have hpo := LI.proc (idxIn cx.blocks b) hlt
    rw [hgd] at hpo
    obtain ⟨B, hgB⟩ := ProcOK_getBlock cx T stF.1 b _ hpo
    have hbne : b ≠ cx.entryId := by
      intro hb2
      exact LH.Lentry (hb2 ▸ hbm)
    refine ⟨B, ?_, (getBlock_mem stF.1 b B hgB).2⟩
    show getBlock (postPass (setTerm stF.1 E.id (.br cx.jb))
        cx.jb cx.jIdx) b = some B
    rw [← he, hnoop,
      getBlock_setTerm_ne stF.1 cx.entryId b (.br cx.jb) hbne]
    exact hgB
  · obtain ⟨EB2, hgE3, _, _, hpairs⟩ := LI.entryB
    refine ⟨{ EB2 with term := Term.br cx.jb }, ?_, ?_⟩
    · show getBlock (postPass (setTerm stF.1 E.id (.br cx.jb))
          cx.jb cx.jIdx) E.id = some { EB2 with term := Term.br cx.jb }
      rw [← he, hnoop, getBlock_setTerm_self, hgE3, Option.map_some']
    · intro j hj
      obtain ⟨hgep, hstore, _, _⟩ := hpairs j hj
      exact ⟨(dat.getD j default).g, hgep, hstore⟩
  · intro b hbm
    exact idxIn_mem cx.blocks b LH.Lnodup hbm
  · intro j hj
    exact idxIn_getD cx.blocks j hj LH.Lnodup

/-- C5: a block ending in a two-way conditional branch gets a select over
the two successors' dispatch indices, steered by the original condition;
the select register becomes the block's `jumpIndex` incoming and the
conditional branch is replaced by a branch to the dispatch block.  A
block with no successors is left untouched and contributes no incoming.
-/
theorem C5_condbr_select (cx : Ctx) (ctr : Nat) (bs1 : List BB)
    (i blk : Nat) (B : BB) (incs : List (V × Nat)) (loads : List Instr)
    (ds : List Nat)
    (hgB : getBlock bs1 blk = some B)
    (hshape : JbShape cx bs1 incs loads ds)
    (hloads : ∀ l ∈ loads, ∃ lr slot, l = .load lr (V.reg slot))
    (hblkjb : blk ≠ cx.jb) (hblkE : blk ≠ cx.entryId)
    (hEjb : cx.entryId ≠ cx.jb) :
    (∀ c t f, B.term = .condBr c t f → t ∈ cx.blocks → f ∈ cx.blocks →
      ∃ stMid, processBlockRest cx ctr bs1 i blk
          = .ok (repairBlock cx.entryId cx.jb cx.jIdx stMid blk)
        ∧ (∃ B2, getBlock stMid.1 blk = some B2 ∧ B2.term = .br cx.jb
            ∧ .select ctr c (V.const (idxIn cx.blocks t))
                (V.const (idxIn cx.blocks f)) ∈ B2.insts)
        ∧ (∃ JB, getBlock stMid.1 cx.jb = some JB
            ∧ JB.insts = .phi cx.jIdx (incs ++ [(V.reg ctr, blk)])
                :: (loads
                  ++ [.gep cx.ga (V.reg cx.jt) (V.reg cx.jIdx)])))
    ∧ (B.term.succs = [] →
        ∃ st2, processBlockRest cx ctr bs1 i blk = .ok st2
          ∧ getBlock st2.1 blk = some B
          ∧ (∃ JB, getBlock st2.1 cx.jb = some JB
              ∧ JB.insts = .phi cx.jIdx incs
                  :: (loads
                    ++ [.gep cx.ga (V.reg cx.jt) (V.reg cx.jIdx)]))) := by
  have hsh : getBlock bs1 cx.jb = some ⟨cx.jb, false,
      .phi cx.jIdx incs
        :: (loads ++ [.gep cx.ga (V.reg cx.jt) (V.reg cx.jIdx)]),
      .indirectBr (V.reg cx.ga) ds⟩ := hshape
  have hmap : ∀ inc : V × Nat,
      (Instr.phi cx.jIdx incs
          :: (loads ++ [Instr.gep cx.ga (V.reg cx.jt) (V.reg cx.jIdx)])
        ).map (Instr.addInc cx.jIdx inc)
      = .phi cx.jIdx (incs ++ [inc])
        :: (loads ++ [.gep cx.ga (V.reg cx.jt) (V.reg cx.jIdx)]) := by
    intro inc
    rw [List.map_cons, List.map_append]
    have h1 : Instr.addInc cx.jIdx inc (.phi cx.jIdx incs)
        = .phi cx.jIdx (incs ++ [inc]) := by
      simp [Instr.addInc]
    have h2 : loads.map (Instr.addInc cx.jIdx inc) = loads := by
      conv_rhs => rw [← List.map_id loads]
      refine List.map_congr_left ?_
      intro l hl
      obtain ⟨lr, slot, he⟩ := hloads l hl
      subst he
      rfl
    rw [h1, h2]
    rfl
  constructor
  · intro c t f hBt ht hf
    have hfbt := findBlock_ok cx.blocks t ht
    have hfbf := findBlock_ok cx.blocks f hf
    refine ⟨(addDest (appendInst (appendInst
        (setTerm (addIncomingPhi
            (appendInst bs1 blk (.select ctr c
              (V.const (idxIn cx.blocks t))
              (V.const (idxIn cx.blocks f))))
            cx.jb cx.jIdx (V.reg ctr, blk)) blk (.br cx.jb))
        cx.entryId (.gep (ctr + 1) (V.reg cx.jt) (V.const i)))
        cx.entryId (.store (ctr + 1 + 1) (V.blockAddr blk)
          (V.reg (ctr + 1)))) cx.jb blk,
      ctr + 1 + 2), ?_, ?_, ?_⟩
    · simp [processBlockRest, hgB, hBt, Term.succs, hfbt, hfbf]
    · refine ⟨{ B with
          insts := B.insts ++ [.select ctr c
            (V.const (idxIn cx.blocks t)) (V.const (idxIn cx.blocks f))],
          term := .br cx.jb }, ?_, rfl, ?_⟩
      · show getBlock (addDest _ cx.jb blk) blk = _
        rw [getBlock_addDest_ne _ cx.jb blk blk hblkjb,
          getBlock_appendInst_ne _ cx.entryId blk _ hblkE,
          getBlock_appendInst_ne _ cx.entryId blk _ hblkE,
          getBlock_setTerm_self,
          getBlock_addIncoming_ne _ cx.jb cx.jIdx blk _ hblkjb,
          getBlock_appendInst_self, hgB]
        rfl
      · show _ ∈ B.insts ++ [Instr.select ctr c
          (V.const (idxIn cx.blocks t)) (V.const (idxIn cx.blocks f))]
        exact List.mem_append.mpr (Or.inr (List.mem_singleton.mpr rfl))
    · refine ⟨⟨cx.jb, false,
        .phi cx.jIdx (incs ++ [(V.reg ctr, blk)])
          :: (loads ++ [.gep cx.ga (V.reg cx.jt) (V.reg cx.jIdx)]),
        .indirectBr (V.reg cx.ga) (ds ++ [blk])⟩, ?_, rfl⟩
      show getBlock (addDest _ cx.jb blk) cx.jb = _
      rw [getBlock_addDest_self,
        getBlock_appendInst_ne _ cx.entryId cx.jb _ (Ne.symm hEjb),
        getBlock_appendInst_ne _ cx.entryId cx.jb _ (Ne.symm hEjb),
        getBlock_setTerm_ne _ blk cx.jb _ (Ne.symm hblkjb),
        getBlock_addIncoming_self,
        getBlock_appendInst_ne _ blk cx.jb _ (Ne.symm hblkjb),
        hsh, Option.map_some', Option.map_some']
      rw [hmap (V.reg ctr, blk)]
  · intro hsuccs0
    refine ⟨(addDest (appendInst (appendInst bs1 cx.entryId
        (.gep ctr (V.reg cx.jt) (V.const i))) cx.entryId
        (.store (ctr + 1) (V.blockAddr blk) (V.reg ctr))) cx.jb blk,
      ctr + 2), ?_, ?_, ?_⟩
    · simp [processBlockRest, hgB, hsuccs0]
    · rw [getBlock_addDest_ne _ cx.jb blk blk hblkjb,
        getBlock_appendInst_ne _ cx.entryId blk _ hblkE,
        getBlock_appendInst_ne _ cx.entryId blk _ hblkE]
      exact hgB
    · refine ⟨⟨cx.jb, false,
        .phi cx.jIdx incs
          :: (loads ++ [.gep cx.ga (V.reg cx.jt) (V.reg cx.jIdx)]),
        .indirectBr (V.reg cx.ga) (ds ++ [blk])⟩, ?_, rfl⟩
      rw [getBlock_addDest_self,
        getBlock_appendInst_ne _ cx.entryId cx.jb _ (Ne.symm hEjb),
        getBlock_appendInst_ne _ cx.entryId cx.jb _ (Ne.symm hEjb),
        hsh, Option.map_some']

theorem subst_self_not_mem (r p : Nat) (hp : p ≠ r) (l : List V) :
    V.reg r ∉ l.map (V.subst r p) := by
  intro hmem
  rw [List.mem_map] at hmem
  obtain ⟨v, _, hv⟩ := hmem
  cases v with
  | reg q =>
    simp only [V.subst] at hv
    by_cases hq : q = r
    · rw [if_pos hq] at hv
      injection hv with he
      exact hp he
    · rw [if_neg hq] at hv
      injection hv with he
      exact hq he
  | const c => simp [V.subst] at hv
  | blockAddr b => simp [V.subst] at hv

theorem subst_pres_not_mem (o p r : Nat) (hp : p ≠ r) (l : List V)
    (h : V.reg r ∉ l) : V.reg r ∉ l.map (V.subst o p) := by
  intro hmem
  rw [List.mem_map] at hmem
  obtain ⟨v, hvl, hv⟩ := hmem
  cases v with
  | reg q =>
    simp only [V.subst] at hv
    by_cases hq : q = o
    · rw [if_pos hq] at hv
      injection hv with he
      exact hp he
    · rw [if_neg hq] at hv
      injection hv with he
      rw [he] at hvl
      exact h hvl
  | const c => simp [V.subst] at hv
  | blockAddr b => simp [V.subst] at hv

theorem UserFree_establish (bs : List BB) (u : UserRef) (r p : Nat)
    (hp : p ≠ r) : UserFree (replaceUsesIn bs u r p) u r := by
  cases u with
  | instrU ui ub =>
    intro B hgB ins hins hiid
    have hg2 : getBlock (modifyBlock bs ub fun B2 =>
        { B2 with insts := B2.insts.map fun i2 =>
            if i2.iid = ui then i2.subst r p else i2 }) ub = some B := hgB
    rw [getBlock_modify_self bs ub
      (fun B2 =>
        { B2 with insts := B2.insts.map fun i2 =>
            if i2.iid = ui then i2.subst r p else i2 })
      (fun B2 => rfl)] at hg2
    rcases hg0 : getBlock bs ub with _ | B0
    · rw [hg0] at hg2
      simp at hg2
    · rw [hg0, Option.map_some'] at hg2
      have hB := Option.some_injective _ hg2
      rw [← hB] at hins
      have hins2 : ins ∈ B0.insts.map fun i2 =>
          if i2.iid = ui then i2.subst r p else i2 := hins
      rw [List.mem_map] at hins2
      obtain ⟨ins0, hins0, he⟩ := hins2
      by_cases hii : ins0.iid = ui
      · rw [if_pos hii] at he
        rw [← he, Instr_subst_opnds]
        exact subst_self_not_mem r p hp ins0.opnds
      · rw [if_neg hii] at he
        rw [← he] at hiid
        exact absurd hiid hii
  | termU ub =>
    intro B hgB
    have hg2 : getBlock (modifyBlock bs ub fun B2 =>
        { B2 with term := B2.term.subst r p }) ub = some B := hgB
    rw [getBlock_modify_self bs ub (fun B2 => { B2 with term := B2.term.subst r p })
      (fun B2 => rfl)] at hg2
    rcases hg0 : getBlock bs ub with _ | B0
    · rw [hg0] at hg2
      simp at hg2
    · rw [hg0, Option.map_some'] at hg2
      have hB := Option.some_injective _ hg2
      rw [← hB]
      have ht : ({ B0 with term := B0.term.subst r p } : BB).term.opnds
          = B0.term.opnds.map (V.subst r p) := Term_subst_opnds r p B0.term
      rw [ht]
      exact subst_self_not_mem r p hp B0.term.opnds

theorem UserFree_replace_pres (bs : List BB) (u u2 : UserRef) (r p : Nat)
    (hp : p ≠ r) (h : UserFree bs u r) :
    UserFree (replaceUsesIn bs u2 r p) u r := by
  cases u with
  | instrU ui ub =>
    intro B hgB ins hins hiid
    cases u2 with
    | instrU ui2 ub2 =>
      by_cases hbb : ub = ub2
      · subst hbb
        have hg2 : getBlock (modifyBlock bs ub fun B2 =>
            { B2 with insts := B2.insts.map fun i2 =>
                if i2.iid = ui2 then i2.subst r p else i2 }) ub
            = some B := hgB
        rw [getBlock_modify_self bs ub
          (fun B2 =>
            { B2 with insts := B2.insts.map fun i2 =>
                if i2.iid = ui2 then i2.subst r p else i2 })
          (fun B2 => rfl)] at hg2
        rcases hg0 : getBlock bs ub with _ | B0
        · rw [hg0] at hg2
          simp at hg2
        · rw [hg0, Option.map_some'] at hg2
          have hB := Option.some_injective _ hg2
          rw [← hB] at hins
          have hins2 : ins ∈ B0.insts.map fun i2 =>
              if i2.iid = ui2 then i2.subst r p else i2 := hins
          rw [List.mem_map] at hins2
          obtain ⟨ins0, hins0, he⟩ := hins2
          by_cases hii : ins0.iid = ui2
          · rw [if_pos hii] at he
            have hiid0 : ins0.iid = ui := by
              rw [← hiid, ← he, Instr_subst_iid]
            have h0 := h B0 hg0 ins0 hins0 hiid0
            rw [← he, Instr_subst_opnds]
            exact subst_pres_not_mem r p r hp ins0.opnds h0
          · rw [if_neg hii] at he
            have hiid0 : ins0.iid = ui := by
              rw [← hiid, ← he]
            rw [← he]
            exact h B0 hg0 ins0 hins0 hiid0
      · rw [getBlock_replaceUsesIn_ne bs _ r p ub ?hne] at hgB
        · exact h B hgB ins hins hiid
        case hne =>
          show ub ≠ UserRef.blk (.instrU ui2 ub2)
          exact hbb
    | termU ub2 =>
      by_cases hbb : ub = ub2
      · subst hbb
        have hg2 : getBlock (modifyBlock bs ub fun B2 =>
            { B2 with term := B2.term.subst r p }) ub = some B := hgB
        rw [getBlock_modify_self bs ub (fun B2 => { B2 with term := B2.term.subst r p })
          (fun B2 => rfl)] at hg2
        rcases hg0 : getBlock bs ub with _ | B0
        · rw [hg0] at hg2
          simp at hg2
        · rw [hg0, Option.map_some'] at hg2
          have hB := Option.some_injective _ hg2
          rw [← hB] at hins
          have hins2 : ins ∈ B0.insts := hins
          exact h B0 hg0 ins hins2 hiid
      · rw [getBlock_replaceUsesIn_ne bs _ r p ub ?hne2] at hgB
        · exact h B hgB ins hins hiid
        case hne2 =>
          show ub ≠ UserRef.blk (.termU ub2)
          exact hbb
  | termU ub =>
    intro B hgB
    cases u2 with
    | instrU ui2 ub2 =>
      by_cases hbb : ub = ub2
      · subst hbb
        have hg2 : getBlock (modifyBlock bs ub fun B2 =>
            { B2 with insts := B2.insts.map fun i2 =>
                if i2.iid = ui2 then i2.subst r p else i2 }) ub
            = some B := hgB
        rw [getBlock_modify_self bs ub
          (fun B2 =>
            { B2 with insts := B2.insts.map fun i2 =>
                if i2.iid = ui2 then i2.subst r p else i2 })
          (fun B2 => rfl)] at hg2
        rcases hg0 : getBlock bs ub with _ | B0
        · rw [hg0] at hg2
          simp at hg2
        · rw [hg0, Option.map_some'] at hg2
          have hB := Option.some_injective _ hg2
          rw [← hB]
          show V.reg r ∉ B0.term.opnds
          exact h B0 hg0
      · rw [getBlock_replaceUsesIn_ne bs _ r p ub ?hne3] at hgB
        · exact h B hgB
        case hne3 =>
          show ub ≠ UserRef.blk (.instrU ui2 ub2)
          exact hbb
    | termU ub2 =>
      by_cases hbb : ub = ub2
      · subst hbb
        have hg2 : getBlock (modifyBlock bs ub fun B2 =>
            { B2 with term := B2.term.subst r p }) ub = some B := hgB
        rw [getBlock_modify_self bs ub (fun B2 => { B2 with term := B2.term.subst r p })
          (fun B2 => rfl)] at hg2
        rcases hg0 : getBlock bs ub with _ | B0
        · rw [hg0] at hg2
          simp at hg2
        · rw [hg0, Option.map_some'] at hg2
          have hB := Option.some_injective _ hg2
          rw [← hB]
          have ht : ({ B0 with term := B0.term.subst r p } : BB).term.opnds
              = B0.term.opnds.map (V.subst r p) := Term_subst_opnds r p B0.term
          rw [ht]
          exact subst_pres_not_mem r p r hp B0.term.opnds (h B0 hg0)
      · rw [getBlock_replaceUsesIn_ne bs _ r p ub ?hne4] at hgB
        · exact h B hgB
        case hne4 =>
          show ub ≠ UserRef.blk (.termU ub2)
          exact hbb

theorem UserFree_fold_pres (users : List UserRef) (bs : List BB)
    (u : UserRef) (r p : Nat) (hp : p ≠ r) (h : UserFree bs u r) :
    UserFree (users.foldl (fun b u2 => replaceUsesIn b u2 r p) bs) u r := by
  induction users generalizing bs with
  | nil => exact h
  | cons u0 rest ih =>
    rw [List.foldl_cons]
    exact ih _ (UserFree_replace_pres bs u u0 r p hp h)

theorem UserFree_fold_all (users : List UserRef) (bs : List BB)
    (r p : Nat) (hp : p ≠ r) :
    ∀ u ∈ users,
      UserFree (users.foldl (fun b u2 => replaceUsesIn b u2 r p) bs) u r := by
  induction users generalizing bs with
  | nil =>
    intro u hu
    cases hu
  | cons u0 rest ih =>
    intro u hu
    rw [List.foldl_cons]
    rcases List.mem_cons.mp hu with h1 | h1
    · subst h1
      exact UserFree_fold_pres rest _ u r p hp
        (UserFree_establish bs u r p hp)
    · exact ih _ u h1

theorem UserFree_of_getBlock_eq (bs bs' : List BB) (u : UserRef) (r : Nat)
    (hg : getBlock bs' u.blk = getBlock bs u.blk)
    (h : UserFree bs u r) : UserFree bs' u r := by
  cases u with
  | instrU ui ub =>
    intro B hgB
    have hg2 : getBlock bs' ub = getBlock bs ub := hg
    rw [hg2] at hgB
    exact h B hgB
  | termU ub =>
    intro B hgB
    have hg2 : getBlock bs' ub = getBlock bs ub := hg
    rw [hg2] at hgB
    exact h B hgB

theorem UserFree_rauw (bs : List BB) (u : UserRef) (r o n : Nat)
    (hn : n ≠ r) (h : UserFree bs u r) : UserFree (rauw bs o n) u r := by
  cases u with
  | instrU ui ub =>
    intro B hgB
    have hg2 : getBlock (rauw bs o n) ub = (getBlock bs ub).map
        (BB.substB o n) := getBlock_rauw bs o n ub
    rw [hg2] at hgB
    rcases hg0 : getBlock bs ub with _ | B0
    · rw [hg0] at hgB
      simp at hgB
    · rw [hg0, Option.map_some'] at hgB
      have hB := Option.some_injective _ hgB
      rw [← hB]
      intro ins hins hiid
      have hins2 : ins ∈ B0.insts.map (Instr.subst o n) := hins
      rw [List.mem_map] at hins2
      obtain ⟨ins0, hins0, he⟩ := hins2
      have hiid0 : ins0.iid = ui := by
        rw [← hiid, ← he, Instr_subst_iid]
      rw [← he, Instr_subst_opnds]
      exact subst_pres_not_mem o n r hn ins0.opnds (h B0 hg0 ins0 hins0 hiid0)
  | termU ub =>
    intro B hgB
    have hg2 : getBlock (rauw bs o n) ub = (getBlock bs ub).map
        (BB.substB o n) := getBlock_rauw bs o n ub
    rw [hg2] at hgB
    rcases hg0 : getBlock bs ub with _ | B0
    · rw [hg0] at hgB
      simp at hgB
    · rw [hg0, Option.map_some'] at hgB
      have hB := Option.some_injective _ hgB
      rw [← hB]
      have ht : (BB.substB o n B0).term.opnds
          = B0.term.opnds.map (V.subst o n) := Term_subst_opnds o n B0.term
      rw [ht]
      exact subst_pres_not_mem o n r hn B0.term.opnds (h B0 hg0)

/-- In the invariant shape, no user of an original-program register sits
in the jump block (the only candidate would be the `jumpIndex` phi, whose
incomings are dispatch constants or fresh select registers). -/
theorem no_jb_users_of_shape (cx : Ctx) (st : List BB × Nat) (blk r : Nat)
    (incs : List (V × Nat)) (loads : List Instr) (ds : List Nat)
    (H : HVHyp cx st blk incs loads ds) (hr : r < cx.jb) :
    ∀ u ∈ userRefs st.1 r, u.blk ≠ cx.jb := by
  have hrIdx : r ≠ cx.jIdx := by
    rw [H.wf1]
    omega
  have hrJt : r ≠ cx.jt := by
    rw [H.wf2]
    omega
  have hrGa : r ≠ cx.ga := by
    rw [H.wf3]
    omega
  refine no_user_in_block st.1 r cx.jb _ H.nodup H.shape ?_ ?_
  · intro ins hins hmem
    rcases List.mem_cons.mp hins with h1 | h1
    · rw [h1] at hmem
      simp only [Instr.opnds, List.mem_map] at hmem
      obtain ⟨inc, hinc, hince⟩ := hmem
      rcases H.incsWF inc hinc with ⟨nn, hv⟩ | ⟨sg, hv, hsg, _, _⟩
      · rw [hv] at hince
        cases hince
      · rw [hv] at hince
        injection hince with he
        omega
    · rcases List.mem_append.mp h1 with h2 | h2
      · obtain ⟨lr, slot, hl, hslot, _, _, _⟩ := H.loadsWF ins h2
        rw [hl] at hmem
        simp only [Instr.opnds, List.mem_singleton] at hmem
        injection hmem with he
        omega
      · rw [List.mem_singleton] at h2
        rw [h2] at hmem
        simp only [Instr.opnds, List.mem_cons, List.mem_singleton,
          V.reg.injEq, List.not_mem_nil, or_false] at hmem
        rcases hmem with he | he
        · exact hrJt he
        · exact hrIdx he
  · intro hmem
    simp only [Term.opnds, List.mem_singleton, V.reg.injEq] at hmem
    exact hrGa hmem

/-- C8: a value of a rewritten block that is used in other blocks is
routed through a fresh merge phi placed at the front of the dispatch
block with the value incoming from its defining block, every cross-block
user is redirected to the merge value, and the phi is immediately demoted
to a stack slot; afterwards no block other than the defining one reads
the original register. -/
theorem C8_cross_block_demote (cx : Ctx) (st : List BB × Nat) (blk r : Nat)
    (incs : List (V × Nat)) (loads : List Instr) (ds : List Nat)
    (H : HVHyp cx st blk incs loads ds) (hr : r < cx.jb)
    (hne : (userRefs st.1 r).filter (fun u => u.blk ≠ blk) ≠ []) :
    handleValue cx.entryId cx.jb cx.jIdx st blk r
      = DemotePHIToStack
          (((userRefs st.1 r).filter (fun u => u.blk ≠ blk)).foldl
            (fun b u => replaceUsesIn b u r st.2)
            (addIncomingPhi (prependInst st.1 cx.jb (.phi st.2 []))
              cx.jb st.2 (V.reg r, blk)))
          (st.2 + 1) cx.entryId cx.jb st.2
    ∧ ∀ u ∈ userRefs st.1 r, u.blk ≠ blk → u.blk ≠ cx.jb →
        u.blk ≠ cx.entryId →
        UserFree (handleValue cx.entryId cx.jb cx.jIdx st blk r).1 u r := by
  have hnone := no_jb_users_of_shape cx st blk r incs loads ds H hr
  have hacting := handleValue_acting cx.entryId cx.jb cx.jIdx st blk r
    hnone hne
  refine ⟨hacting, ?_⟩
  intro u hu hublk hujb hue
  have hufilt : u ∈ (userRefs st.1 r).filter (fun u2 => u2.blk ≠ blk) := by
    rw [List.mem_filter]
    exact ⟨hu, by simp [hublk]⟩
  have hctr2 := H.hctr
  have hjIdxlt : cx.jIdx < st.2 := by
    have h1 := H.wf1
    omega
  have hC0 : getBlock (addIncomingPhi
      (prependInst st.1 cx.jb (.phi st.2 [])) cx.jb st.2 (V.reg r, blk))
      cx.jb = some ⟨cx.jb, false,
        .phi st.2 [(V.reg r, blk)] :: (.phi cx.jIdx incs ::
          (loads ++ [.gep cx.ga (V.reg cx.jt) (V.reg cx.jIdx)])),
        .indirectBr (V.reg cx.ga) ds⟩ := by
    rw [getBlock_addIncoming_self, getBlock_prependInst_self, H.shape]
    simp only [Option.map_some', List.map_cons]
    have h1 : Instr.addInc st.2 (V.reg r, blk) (Instr.phi st.2 [])
        = Instr.phi st.2 [(V.reg r, blk)] := by
      simp [Instr.addInc]
    have h2 : Instr.addInc st.2 (V.reg r, blk) (Instr.phi cx.jIdx incs)
        = Instr.phi cx.jIdx incs := by
      have hne2 : cx.jIdx ≠ st.2 := by omega
      simp [Instr.addInc, hne2]
    have h3 : (loads
        ++ [Instr.gep cx.ga (V.reg cx.jt) (V.reg cx.jIdx)]).map
        (Instr.addInc st.2 (V.reg r, blk))
        = loads ++ [Instr.gep cx.ga (V.reg cx.jt) (V.reg cx.jIdx)] := by
      refine addInc_map_eq_self _ _ _ ?_
      intro ins hins hphi
      rcases List.mem_append.mp hins with hA | hA
      · obtain ⟨lr, slot, hl, hslot, _, _, _⟩ := H.loadsWF ins hA
        rw [hl] at hphi
        cases hphi
      · rw [List.mem_singleton] at hA
        rw [hA] at hphi
        cases hphi
    rw [h1, h2, h3]
  have husers_jb : ∀ u2 ∈ (userRefs st.1 r).filter (fun u3 => u3.blk ≠ blk),
      u2.blk ≠ cx.jb :=
    fun u2 hu2 => hnone u2 (List.mem_of_mem_filter hu2)
  have hC1 : getBlock
      (((userRefs st.1 r).filter (fun u2 => u2.blk ≠ blk)).foldl
        (fun b u2 => replaceUsesIn b u2 r st.2)
        (addIncomingPhi (prependInst st.1 cx.jb (.phi st.2 [])) cx.jb st.2
          (V.reg r, blk))) cx.jb
      = some ⟨cx.jb, false,
        .phi st.2 [(V.reg r, blk)] :: (.phi cx.jIdx incs ::
          (loads ++ [.gep cx.ga (V.reg cx.jt) (V.reg cx.jIdx)])),
        .indirectBr (V.reg cx.ga) ds⟩ := by
    rw [getBlock_replaceFold_ne _ _ r st.2 cx.jb husers_jb]
    exact hC0
  rw [hacting,
    Demote_repair_eq _ (st.2 + 1) cx.entryId cx.jb st.2 r blk _ _ hC1 rfl]
  have hp : st.2 ≠ r := by omega
  have hUF0 : UserFree
      (((userRefs st.1 r).filter (fun u2 => u2.blk ≠ blk)).foldl
        (fun b u2 => replaceUsesIn b u2 r st.2)
        (addIncomingPhi (prependInst st.1 cx.jb (.phi st.2 [])) cx.jb st.2
          (V.reg r, blk))) u r :=
    UserFree_fold_all _ _ r st.2 hp u hufilt
  have hUF1 := UserFree_of_getBlock_eq _ _ u r
    (getBlock_prependInst_ne _ cx.entryId u.blk
      (.alloca (st.2 + 1) (V.const 1)) hue) hUF0
  have hUF2 := UserFree_of_getBlock_eq _ _ u r
    (getBlock_appendInst_ne _ blk u.blk
      (.store (st.2 + 1 + 1) (V.reg r) (V.reg (st.2 + 1))) hublk) hUF1
  have hUF3 := UserFree_of_getBlock_eq _ _ u r
    (getBlock_modify_ne _ cx.jb u.blk
      (fun B2 => { B2 with insts := insertReload (.load (st.2 + 1 + 2) (V.reg (st.2 + 1))) st.2 B2.insts })
      (fun B2 => rfl) hujb) hUF2
  have hUF4 := UserFree_rauw _ u r st.2 (st.2 + 1 + 2) (by omega) hUF3
  have hUF5 := UserFree_of_getBlock_eq _ _ u r
    (getBlock_eraseInst_ne _ cx.jb st.2 u.blk hujb) hUF4
  exact hUF5

/-- C9 (amended): re-running the pass on a flattened function rejects it
and leaves it unmodified, but the reason is that the eligibility walk
aborts on the dispatch block's indirect branch (`collectBlocks` returns
`none`); no eligible-block count is ever produced. -/
theorem C9_amended_rerun_rejects (fl fl2 : List String) (F : Func)
    (E : BB) (rest : List BB) (R : FlatRes)
    (hb : F.blocks = E :: rest)
    (hnodup : ((E :: rest).map BB.id).Nodup)
    (help : E.lp = false)
    (hsucc : ∀ B0 ∈ E :: rest, succClosedIn B0.term
      (fun d => ∃ B2, B2 ∈ rest ∧ B2.id = d ∧ B2.lp = false))
    (hrun : runOnFunction fl F = .done R) :
    collectBlocks R.F = none
    ∧ runOnFunction fl2 R.F = .rejected
    ∧ runBool fl2 R.F = some (false, R.F) := by
  obtain ⟨bs0, cx, T, ids0, dat, stF, hcol, h2, hne1, hne0, LH, LI, he,
    w1, w2, w3, hdisj, hrel, hmid, hR⟩ :=
    runOnFunction_done_inv fl F E rest R hb hnodup help hsucc hrun
  subst hR
  obtain ⟨loads, EB, hlw, hnoop, hgjb, hgE, hElp, hEterm, hgE2⟩ :=
    final_shape cx T ids0 dat stF LH LI
  have hPP : postPass (setTerm stF.1 E.id (.br cx.jb)) cx.jb cx.jIdx
      = setTerm stF.1 E.id (.br cx.jb) := by
    rw [← he]
    exact hnoop
  have hids : (setTerm stF.1 E.id (.br cx.jb)).map BB.id
      = ids0 ++ ndsOf dat := by
    rw [ids_setTerm]
    exact LI.ids
  obtain ⟨mid, hmide⟩ := hmid
  have hids2 : (setTerm stF.1 E.id (.br cx.jb)).map BB.id
      = E.id :: ((mid ++ [cx.jb]) ++ ndsOf dat) := by
    rw [hids, hmide]
    rfl
  have hnejb : cx.jb ≠ E.id := by
    have h1 := LH.entrylt
    rw [he] at h1
    omega
  have hgjb2 : getBlock (setTerm stF.1 E.id (.br cx.jb)) cx.jb
      = some ⟨cx.jb, false,
          .phi cx.jIdx (incsOf cx T cx.blocks.length dat)
            :: (loads ++ [.gep cx.ga (V.reg cx.jt) (V.reg cx.jIdx)]),
          .indirectBr (V.reg cx.ga) cx.blocks⟩ := by
    rw [← he]
    exact hgjb
  rcases hfin : setTerm stF.1 E.id (.br cx.jb) with _ | ⟨H, Tl⟩
  · rw [hfin] at hids2
    simp at hids2
  · rw [hfin, List.map_cons] at hids2
    injection hids2 with hH hT
    have hjbB := getBlock_mem _ _ _ hgjb2
    have hmem2 : (⟨cx.jb, false,
        .phi cx.jIdx (incsOf cx T cx.blocks.length dat)
          :: (loads ++ [.gep cx.ga (V.reg cx.jt) (V.reg cx.jIdx)]),
        .indirectBr (V.reg cx.ga) cx.blocks⟩ : BB) ∈ H :: Tl := by
      rw [← hfin]
      exact hjbB.1
    have hmem3 : (⟨cx.jb, false,
        .phi cx.jIdx (incsOf cx T cx.blocks.length dat)
          :: (loads ++ [.gep cx.ga (V.reg cx.jt) (V.reg cx.jIdx)]),
        .indirectBr (V.reg cx.ga) cx.blocks⟩ : BB) ∈ Tl := by
      rcases List.mem_cons.mp hmem2 with heq | hTl2
      · exfalso
        have h5 : cx.jb = H.id := by
          rw [← heq]
        rw [hH] at h5
        exact hnejb h5
      · exact hTl2
    have hcA : collectAux Tl = none := collectAux_none Tl _ hmem3 rfl rfl
    have hcb : collectBlocks ⟨F.name,
        postPass (setTerm stF.1 E.id (.br cx.jb)) cx.jb cx.jIdx⟩
        = none := by
      show collectAux ((postPass (setTerm stF.1 E.id (.br cx.jb))
        cx.jb cx.jIdx).drop 1) = none
      rw [hPP, hfin]
      exact hcA
    have hrej : runOnFunction fl2 ⟨F.name,
        postPass (setTerm stF.1 E.id (.br cx.jb)) cx.jb cx.jIdx⟩
        = .rejected := by
      rcases runOnFunction_split fl2 ⟨F.name,
          postPass (setTerm stF.1 E.id (.br cx.jb)) cx.jb cx.jIdx⟩
        with hrj | ⟨E3, r3, bs03, hb3, hc3, _⟩
      · exact hrj
      · rw [hcb] at hc3
        exact Option.noConfusion hc3
    rw [← hfin]
    refine ⟨hcb, hrej, ?_⟩
    simp only [runBool, hrej]

set_option maxRecDepth 100000 in
/-- C9 counterexample: the flattened `ex1` is indeed rejected unmodified
on a re-run, but not for the claimed reason: the eligibility walk aborts
on the dispatch block's indirect branch, so `collectBlocks` returns
`none` and no successor-count/eligible-count comparison ever happens. -/
theorem C9_counterexample_rerun_reason :
    runBool [] ex1Res.F = some (false, ex1Res.F)
    ∧ collectBlocks ex1Res.F = none := ⟨rfl, rfl⟩

theorem map_flatMap_loc {α β γ : Type} (l : List α) (f : α → List β)
    (g : β → γ) :
    (l.flatMap f).map g = l.flatMap (fun x => (f x).map g) := by
  induction l with
  | nil => rfl
  | cons a t ih =>
    rw [List.flatMap_cons, List.flatMap_cons, List.map_append, ih]

/-- The incoming block of each `jumpIndex` entry contributed by one
iteration: the entry block (for `InitialBlock`) and the rewired
predecessor recorded by `rewiredOf`. -/
theorem contribOf_map_snd (cx : Ctx) (T : Nat → Term) (j b : Nat)
    (d : IterRec) :
    (contribOf cx T j b d).map Prod.snd
      = (if b = cx.initId then [cx.entryId] else [])
        ++ rewiredOf T b d := by
  unfold contribOf rewiredOf
  rcases hs : (T b).succs with _ | ⟨d1, tl⟩
  · by_cases hb : b = cx.initId <;> simp [hb]
  rcases tl with _ | ⟨d2, tl2⟩
  · by_cases hb : b = cx.initId <;> simp [hb]
  · rcases ht : T b with v | dd | ⟨c, t, f⟩ | ⟨rr, args, nn, u⟩
      | ⟨v2, df, cs⟩ | ⟨a2, dsi⟩ | _
      <;> by_cases hb : b = cx.initId <;> simp [hb]

theorem rewiredOf_nodup (T : Nat → Term) (b : Nat) (d : IterRec) :
    (rewiredOf T b d).Nodup := by
  unfold rewiredOf
  rcases hs : (T b).succs with _ | ⟨d1, tl⟩
  · exact List.nodup_nil
  rcases tl with _ | ⟨d2, tl2⟩
  · exact List.nodup_singleton b
  · rcases ht : T b with v | dd | ⟨c, t, f⟩ | ⟨rr, args, nn, u⟩
      | ⟨v2, df, cs⟩ | ⟨a2, dsi⟩ | _ <;> simp

/-- Where a rewired predecessor comes from: the block itself, or the new
normal-destination block of an invoke. -/
theorem rewired_src (cx : Ctx) (T : Nat → Term) (bs : List BB) (b : Nat)
    (d : IterRec) (h : ProcOK cx T bs b d) :
    ∀ p ∈ rewiredOf T b d,
      p = b ∨ ∃ nd, d.nd = some nd ∧ p = nd ∧ cx.jb + 4 ≤ nd := by
  unfold ProcOK at h
  unfold rewiredOf
  rcases hs : (T b).succs with _ | ⟨d1, tl⟩
  · intro p hp
    cases hp
  rcases tl with _ | ⟨d2, tl2⟩
  · intro p hp
    exact Or.inl (List.mem_singleton.mp hp)
  · rw [hs] at h
    rcases ht : T b with v | dd | ⟨c, t, f⟩ | ⟨rr, args, nn, u⟩
      | ⟨v2, df, cs⟩ | ⟨a2, dsi⟩ | _
    · intro p hp
      cases hp
    · intro p hp
      cases hp
    · intro p hp
      exact Or.inl (List.mem_singleton.mp hp)
    · rw [ht] at h
      have h2 : d.sel = none ∧ ∃ nd, d.nd = some nd ∧ cx.jb + 4 ≤ nd ∧
          getBlock bs nd = some ⟨nd, false, [], .br cx.jb⟩ ∧
          ∃ B args2, getBlock bs b = some B ∧ B.lp = false ∧
            B.term = .invoke rr args2 nd u := h
      obtain ⟨_, nd, hnd, hge, _⟩ := h2
      intro p hp
      have hpe : p = d.nd.getD 0 := List.mem_singleton.mp hp
      rw [hnd] at hpe
      exact Or.inr ⟨nd, hnd, hpe, hge⟩
    · intro p hp
      cases hp
    · intro p hp
      cases hp
    · intro p hp
      cases hp

theorem filterMap_nodup_loc {α β : Type} [Inhabited α] (f : α → Option β)
    (l : List α) (h : (l.filterMap f).Nodup) :
    ∀ i j v, i < l.length → j < l.length →
      f (l.getD i default) = some v → f (l.getD j default) = some v →
      i = j := by
  induction l with
  | nil =>
    intro i j v hi
    exact absurd hi (Nat.not_lt_zero i)
  | cons a t ih =>
    intro i j v hi hj hfi hfj
    have hlen : ∀ {k : Nat}, k + 1 < (a :: t).length → k < t.length := by
      intro k hk
      simp only [List.length_cons] at hk
      omega
    cases i with
    | zero =>
      cases j with
      | zero => rfl
      | succ j2 =>
        exfalso
        have hfa : f a = some v := hfi
        have hmem : v ∈ t.filterMap f := by
          rw [List.mem_filterMap]
          refine ⟨t.getD j2 default, ?_, ?_⟩
          · have hj2 : j2 < t.length := hlen hj
            rw [List.getD_eq_getElem t default hj2]
            exact List.getElem_mem hj2
          · rw [List.getD_cons_succ] at hfj
            exact hfj
        rw [List.filterMap_cons, hfa] at h
        exact (List.nodup_cons.mp h).1 hmem
    | succ i2 =>
      cases j with
      | zero =>
        exfalso
        have hfa : f a = some v := hfj
        have hmem : v ∈ t.filterMap f := by
          rw [List.mem_filterMap]
          refine ⟨t.getD i2 default, ?_, ?_⟩
          · have hi2 : i2 < t.length := hlen hi
            rw [List.getD_eq_getElem t default hi2]
            exact List.getElem_mem hi2
          · rw [List.getD_cons_succ] at hfi
            exact hfi
        rw [List.filterMap_cons, hfa] at h
        exact (List.nodup_cons.mp h).1 hmem
      | succ j2 =>
        have ht2 : (t.filterMap f).Nodup := by
          rcases hfa : f a with _ | w
          · rw [List.filterMap_cons, hfa] at h
            exact h
          · rw [List.filterMap_cons, hfa] at h
            exact (List.nodup_cons.mp h).2
        rw [List.getD_cons_succ] at hfi
        rw [List.getD_cons_succ] at hfj
        have h5 := ih ht2 i2 j2 v (hlen hi) (hlen hj) hfi hfj
        omega

theorem incsOf_map_snd (cx : Ctx) (T : Nat → Term) (n : Nat)
    (dat : List IterRec) :
    (incsOf cx T n dat).map Prod.snd
      = (List.range n).flatMap (fun j =>
          (if cx.blocks.getD j 0 = cx.initId then [cx.entryId] else [])
            ++ rewiredOf T (cx.blocks.getD j 0) (dat.getD j default)) := by
  unfold incsOf
  rw [map_flatMap_loc]
  refine List.flatMap_congr ?_
  intro j _
  exact contribOf_map_snd cx T j _ _

/-- The incoming blocks of the final `jumpIndex` phi are pairwise
distinct. -/
theorem incs_snd_nodup (cx : Ctx) (T : Nat → Term) (ids0 : List Nat)
    (dat : List IterRec) (stF : List BB × Nat)
    (LH : LoopHyp cx T ids0)
    (LI : LoopInv cx T ids0 cx.blocks.length dat stF) :
    ((incsOf cx T cx.blocks.length dat).map Prod.snd).Nodup := by
  have hnds : (ndsOf dat).Nodup := by
    have h1 := LI.nodup
    rw [LI.ids] at h1
    exact (List.nodup_append.mp h1).2.1
  have hsrc : ∀ j, j < cx.blocks.length →
      ∀ p ∈ rewiredOf T (cx.blocks.getD j 0) (dat.getD j default),
        p = cx.blocks.getD j 0
        ∨ ∃ nd, (dat.getD j default).nd = some nd ∧ p = nd
            ∧ cx.jb + 4 ≤ nd :=
    fun j hj => rewired_src cx T stF.1 _ _ (LI.proc j hj)
  rw [incsOf_map_snd, List.nodup_flatMap]
  constructor
  · intro j hjm
    have hj : j < cx.blocks.length := List.mem_range.mp hjm
    by_cases hb : cx.blocks.getD j 0 = cx.initId
    · rw [if_pos hb]
      refine List.nodup_append.mpr
        ⟨List.nodup_singleton _, rewiredOf_nodup T _ _, ?_⟩
      intro a ha haj
      have hae : a = cx.entryId := List.mem_singleton.mp ha
      subst hae
      rcases hsrc j hj _ haj with h1 | ⟨nd, _, h1, hge⟩
      · have hm := getD_mem_of_lt cx.blocks j hj
        rw [← h1] at hm
        exact LH.Lentry hm
      · have h2 := LH.entrylt
        omega
    · rw [if_neg hb, List.nil_append]
      exact rewiredOf_nodup T _ _
  · rw [List.pairwise_iff_getElem]
    intro i j hi hj hij
    have hi' : i < cx.blocks.length := by simpa using hi
    have hj' : j < cx.blocks.length := by simpa using hj
    have hgi : (List.range cx.blocks.length)[i] = i :=
      List.getElem_range i hi
    have hgj : (List.range cx.blocks.length)[j] = j :=
      List.getElem_range j hj
    intro a hai haj
    rw [hgi] at hai
    rw [hgj] at haj
    rcases List.mem_append.mp hai with hA | hA
    · have hbi : cx.blocks.getD i 0 = cx.initId := by
        by_contra hc
        rw [if_neg hc] at hA
        cases hA
      rw [if_pos hbi] at hA
      have hae : a = cx.entryId := List.mem_singleton.mp hA
      subst hae
      rcases List.mem_append.mp haj with hB | hB
      · have hbj : cx.blocks.getD j 0 = cx.initId := by
          by_contra hc
          rw [if_neg hc] at hB
          cases hB
        have h1 := idxIn_getD cx.blocks i hi' LH.Lnodup
        have h2 := idxIn_getD cx.blocks j hj' LH.Lnodup
        rw [hbi] at h1
        rw [hbj] at h2
        omega
      · rcases hsrc j hj' _ hB with h1 | ⟨nd, _, h1, hge⟩
        · have hm := getD_mem_of_lt cx.blocks j hj'
          rw [← h1] at hm
          exact LH.Lentry hm
        · have h2 := LH.entrylt
          omega
    · rcases List.mem_append.mp haj with hB | hB
      · have hbj : cx.blocks.getD j 0 = cx.initId := by
          by_contra hc
          rw [if_neg hc] at hB
          cases hB
        rw [if_pos hbj] at hB
        have hae : a = cx.entryId := List.mem_singleton.mp hB
        subst hae
        rcases hsrc i hi' _ hA with h1 | ⟨nd, _, h1, hge⟩
        · have hm := getD_mem_of_lt cx.blocks i hi'
          rw [← h1] at hm
          exact LH.Lentry hm
        · have h2 := LH.entrylt
          omega
      · rcases hsrc i hi' _ hA with h1 | ⟨nd1, hnd1, h1, hge1⟩
        · rcases hsrc j hj' _ hB with h2 | ⟨nd2, hnd2, h2, hge2⟩
          · have hx1 := idxIn_getD cx.blocks i hi' LH.Lnodup
            have hx2 := idxIn_getD cx.blocks j hj' LH.Lnodup
            rw [← h1] at hx1
            rw [← h2] at hx2
            omega
          · have hm := getD_mem_of_lt cx.blocks i hi'
            rw [← h1] at hm
            have h3 := LH.Lbound a hm
            omega
        · rcases hsrc j hj' _ hB with h2 | ⟨nd2, hnd2, h2, hge2⟩
          · have hm := getD_mem_of_lt cx.blocks j hj'
            rw [← h2] at hm
            have h3 := LH.Lbound a hm
            omega
          · have hlen := LI.len
            have hnd2' : (dat.getD j default).nd = some nd1 := by
              rw [hnd2]
              rw [show nd2 = nd1 from by omega]
            have h5 := filterMap_nodup_loc IterRec.nd dat hnds i j nd1
              (by omega) (by omega) hnd1 hnd2'
            omega

/-- Which blocks appear as `jumpIndex` incomings. -/
theorem incs_snd_iff (cx : Ctx) (T : Nat → Term) (dat : List IterRec)
    (hmem : cx.initId ∈ cx.blocks) (hnd : cx.blocks.Nodup) (p : Nat) :
    p ∈ (incsOf cx T cx.blocks.length dat).map Prod.snd
      ↔ p = cx.entryId ∨ p ∈ rewiredAll cx T cx.blocks.length dat := by
  rw [incsOf_map_snd]
  unfold rewiredAll
  constructor
  · intro h
    rw [List.mem_flatMap] at h
    obtain ⟨j, hjm, hj2⟩ := h
    rcases List.mem_append.mp hj2 with hA | hA
    · left
      have hbi : cx.blocks.getD j 0 = cx.initId := by
        by_contra hc
        rw [if_neg hc] at hA
        cases hA
      rw [if_pos hbi] at hA
      exact List.mem_singleton.mp hA
    · right
      rw [List.mem_flatMap]
      exact ⟨j, hjm, hA⟩
  · intro h
    rw [List.mem_flatMap]
    rcases h with h | h
    · subst h
      obtain ⟨hlt, hgd⟩ := idxIn_mem cx.blocks cx.initId hnd hmem
      refine ⟨idxIn cx.blocks cx.initId, List.mem_range.mpr hlt, ?_⟩
      rw [hgd, if_pos rfl]
      exact List.mem_append.mpr (Or.inl (List.mem_singleton.mpr rfl))
    · rw [List.mem_flatMap] at h
      obtain ⟨j, hjm, hj2⟩ := h
      exact ⟨j, hjm, List.mem_append.mpr (Or.inr hj2)⟩

theorem rewiredAll_src (cx : Ctx) (T : Nat → Term) (ids0 : List Nat)
    (dat : List IterRec) (stF : List BB × Nat)
    (LI : LoopInv cx T ids0 cx.blocks.length dat stF) (p : Nat)
    (h : p ∈ rewiredAll cx T cx.blocks.length dat) :
    p ∈ cx.blocks ∨ ∃ nd, nd ∈ ndsOf dat ∧ p = nd ∧ cx.jb + 4 ≤ nd := by
  unfold rewiredAll at h
  rw [List.mem_flatMap] at h
  obtain ⟨j, hjm, hp⟩ := h
  have hj : j < cx.blocks.length := List.mem_range.mp hjm
  rcases rewired_src cx T stF.1 _ _ (LI.proc j hj) p hp
    with h1 | ⟨nd, hnd, h1, hge⟩
  · left
    rw [h1]
    exact getD_mem_of_lt cx.blocks j hj
  · right
    refine ⟨nd, ?_, h1, hge⟩
    show nd ∈ dat.filterMap IterRec.nd
    rw [List.mem_filterMap]
    refine ⟨dat.getD j default, ?_, hnd⟩
    have hjd : j < dat.length := by
      rw [LI.len]
      exact hj
    rw [List.getD_eq_getElem dat default hjd]
    exact List.getElem_mem hjd

/-- The predecessors of the dispatch block in the final function: the
entry block plus every rewired predecessor. -/
theorem preds_final_iff (cx : Ctx) (T : Nat → Term) (ids0 : List Nat)
    (dat : List IterRec) (stF : List BB × Nat)
    (LH : LoopHyp cx T ids0)
    (LI : LoopInv cx T ids0 cx.blocks.length dat stF) (p : Nat) :
    p ∈ predsOf (setTerm stF.1 cx.entryId (.br cx.jb)) cx.jb
      ↔ p = cx.entryId ∨ p ∈ rewiredAll cx T cx.blocks.length dat := by
  constructor
  · intro h
    unfold predsOf setTerm modifyBlock at h
    rw [List.mem_map] at h
    obtain ⟨B', hB', hid⟩ := h
    rw [List.mem_filter] at hB'
    obtain ⟨hBmem, hcont⟩ := hB'
    rw [List.mem_map] at hBmem
    obtain ⟨B0, hB0, hBe⟩ := hBmem
    by_cases hbe : B0.id = cx.entryId
    · left
      rw [← hid, ← hBe, if_pos hbe]
      exact hbe
    · right
      rw [← hBe, if_neg hbe] at hcont
      have hjbmem : cx.jb ∈ B0.term.succs := List.elem_iff.mp hcont
      have h2 := (LI.preds B0 hB0).mp hjbmem
      rw [← hid, ← hBe, if_neg hbe]
      exact h2
  · intro h
    unfold predsOf setTerm modifyBlock
    rcases h with h | h
    · subst h
      obtain ⟨EB, hgE, _, _, _⟩ := LI.entryB
      have hEm := getBlock_mem _ _ _ hgE
      rw [List.mem_map]
      refine ⟨{ EB with term := Term.br cx.jb }, ?_, ?_⟩
      · rw [List.mem_filter]
        constructor
        · rw [List.mem_map]
          refine ⟨EB, hEm.1, ?_⟩
          rw [if_pos hEm.2]
        · exact List.elem_iff.mpr (List.mem_singleton.mpr rfl)
      · exact hEm.2
    · have hpid : p ∈ stF.1.map BB.id := by
        rw [LI.ids]
        rcases rewiredAll_src cx T ids0 dat stF LI p h
          with h1 | ⟨nd, hnd, h1, hge⟩
        · exact List.mem_append.mpr (Or.inl (LH.Lsub p h1))
        · rw [h1]
          exact List.mem_append.mpr (Or.inr hnd)
      have hpne : p ≠ cx.entryId := by
        rcases rewiredAll_src cx T ids0 dat stF LI p h
          with h1 | ⟨nd, hnd, h1, hge⟩
        · intro he
          rw [he] at h1
          exact LH.Lentry h1
        · have h2 := LH.entrylt
          omega
      rw [List.mem_map] at hpid
      obtain ⟨B0, hB0, hBid⟩ := hpid
      have hjbmem : cx.jb ∈ B0.term.succs := (LI.preds B0 hB0).mpr
        (hBid ▸ h)
      have hbe : ¬ (B0.id = cx.entryId) := by
        rw [hBid]
        exact hpne
      rw [List.mem_map]
      refine ⟨B0, ?_, hBid⟩
      rw [List.mem_filter]
      constructor
      · rw [List.mem_map]
        refine ⟨B0, hB0, ?_⟩
        rw [if_neg hbe]
      · exact List.elem_iff.mpr hjbmem

/-- C7: after the post-pass, the only merge value in the dispatch block
is `jumpIndex`, and its incoming list has exactly one entry per actual
predecessor edge of the dispatch block: no duplicates, none missing, none
extra; the post-pass synthesises nothing because no other phi exists. -/
theorem C7_phi_completeness (fl : List String) (F : Func) (E : BB)
    (rest : List BB) (R : FlatRes)
    (hb : F.blocks = E :: rest)
    (hnodup : ((E :: rest).map BB.id).Nodup)
    (help : E.lp = false)
    (hsucc : ∀ B0 ∈ E :: rest, succClosedIn B0.term
      (fun d => ∃ B2, B2 ∈ rest ∧ B2.id = d ∧ B2.lp = false))
    (hrun : runOnFunction fl F = .done R) :
    ∃ incs loads,
      getBlock R.F.blocks R.jb = some ⟨R.jb, false,
        .phi R.jIdx incs
          :: (loads ++ [.gep R.ga (V.reg R.jt) (V.reg R.jIdx)]),
        .indirectBr (V.reg R.ga) R.blocks⟩
      ∧ (∀ ins ∈ loads ++ [.gep R.ga (V.reg R.jt) (V.reg R.jIdx)],
          ins.isPhi = false)
      ∧ (incs.map Prod.snd).Nodup
      ∧ (∀ p, p ∈ incs.map Prod.snd ↔ p ∈ predsOf R.F.blocks R.jb) := by
  obtain ⟨bs0, cx, T, ids0, dat, stF, hcol, h2, hne1, hne0, LH, LI, he,
    w1, w2, w3, hdisj, hrel, hmid, hR⟩ :=
    runOnFunction_done_inv fl F E rest R hb hnodup help hsucc hrun
  subst hR
  obtain ⟨loads, EB, hlw, hnoop, hgjb, hgE, hElp, hEterm, hgE2⟩ :=
    final_shape cx T ids0 dat stF LH LI
  have hmem : cx.initId ∈ cx.blocks := by
    rcases hdisj with ⟨_, hbl, _, _⟩ | ⟨hnS, hbl, hinit⟩
    · rw [hbl]
      exact List.mem_append.mpr (Or.inr (List.mem_singleton.mpr rfl))
    · have hlen1 : E.term.succs.length = 1 := by omega
      obtain ⟨d, hd⟩ := List.length_eq_one.mp hlen1
      have hE := hsucc E (List.mem_cons.mpr (Or.inl rfl))
      unfold succClosedIn at hE
      rw [hd] at hE
      have hPd : ∃ B2, B2 ∈ rest ∧ B2.id = d ∧ B2.lp = false := hE
      have hdbs0 : d ∈ bs0 := (collectAux_mem rest bs0 hcol d).mpr hPd
      rw [hbl, hinit, hd]
      exact hdbs0
  refine ⟨incsOf cx T cx.blocks.length dat, loads, ?_, ?_, ?_, ?_⟩
  · show getBlock (postPass (setTerm stF.1 E.id (.br cx.jb))
        cx.jb cx.jIdx) cx.jb
      = some ⟨cx.jb, false,
          .phi cx.jIdx (incsOf cx T cx.blocks.length dat)
            :: (loads ++ [.gep cx.ga (V.reg cx.jt) (V.reg cx.jIdx)]),
          .indirectBr (V.reg cx.ga) cx.blocks⟩
    rw [← he, hnoop]
    exact hgjb
  · intro ins hins
    rcases List.mem_append.mp hins with hA | hA
    · obtain ⟨lr, slot, hl, _⟩ := hlw ins hA
      rw [hl]
      rfl
    · have he2 : ins = Instr.gep cx.ga (V.reg cx.jt) (V.reg cx.jIdx) :=
        List.mem_singleton.mp hA
      rw [he2]
      rfl
  · exact incs_snd_nodup cx T ids0 dat stF LH LI
  · intro p
    have hpp : predsOf (postPass (setTerm stF.1 E.id (.br cx.jb))
        cx.jb cx.jIdx) cx.jb
        = predsOf (setTerm stF.1 cx.entryId (.br cx.jb)) cx.jb := by
      rw [← he, hnoop]
    show p ∈ (incsOf cx T cx.blocks.length dat).map Prod.snd
      ↔ p ∈ predsOf (postPass (setTerm stF.1 E.id (.br cx.jb))
          cx.jb cx.jIdx) cx.jb
    rw [hpp, incs_snd_iff cx T dat hmem LH.Lnodup p]
    exact (preds_final_iff cx T ids0 dat stF LH LI p).symm

theorem ex1_succ_closed : ∀ B0 ∈ ex1.blocks, succClosedIn B0.term
    (fun d => ∃ B2, B2 ∈ [(⟨1, false, [], .condBr (.reg 100) 2 3⟩ : BB),
        ⟨2, false, [.op 10 [V.const 1]], .br 4⟩,
        ⟨3, false, [.op 11 [V.const 5]], .br 4⟩,
        ⟨4, false, [.phi 12 [(V.reg 10, 2), (V.reg 11, 3)]],
          .ret (some (V.reg 12))⟩] ∧ B2.id = d ∧ B2.lp = false) := by
  intro B0 hB0
  fin_cases hB0
  · exact ⟨⟨1, false, [], .condBr (.reg 100) 2 3⟩, by decide, rfl, rfl⟩
  · exact ⟨⟨⟨2, false, [.op 10 [V.const 1]], .br 4⟩, by decide, rfl, rfl⟩,
      ⟨⟨3, false, [.op 11 [V.const 5]], .br 4⟩, by decide, rfl, rfl⟩⟩
  · exact ⟨⟨4, false, [.phi 12 [(V.reg 10, 2), (V.reg 11, 3)]],
      .ret (some (V.reg 12))⟩, by decide, rfl, rfl⟩
  · exact ⟨⟨4, false, [.phi 12 [(V.reg 10, 2), (V.reg 11, 3)]],
      .ret (some (V.reg 12))⟩, by decide, rfl, rfl⟩
  · exact trivial

set_option maxRecDepth 100000 in
theorem C4_entry_rewiring_witness :
    ∃ bs0, collectBlocks ex1 = some bs0
    ∧ ((1 < (Term.br 1).succs.length
          ∧ ex1Res.didSplit = true
          ∧ ex1Res.blocks = bs0 ++ [ex1Res.initId] ∧ ex1Res.initId ∉ bs0)
        ∨ (¬ 1 < (Term.br 1).succs.length
          ∧ ex1Res.didSplit = false
          ∧ ex1Res.blocks = bs0
          ∧ ex1Res.initId = (Term.br 1).succs.headD 0))
    ∧ (∃ EB : BB, getBlock ex1Res.F.blocks 0
        = some { EB with term := Term.br ex1Res.jb })
    ∧ (∃ incs loads,
        getBlock ex1Res.F.blocks ex1Res.jb = some ⟨ex1Res.jb, false,
          .phi ex1Res.jIdx incs
            :: (loads
              ++ [.gep ex1Res.ga (V.reg ex1Res.jt) (V.reg ex1Res.jIdx)]),
          .indirectBr (V.reg ex1Res.ga) ex1Res.blocks⟩
        ∧ (V.const (idxIn ex1Res.blocks ex1Res.initId), 0) ∈ incs) :=
  C4_entry_rewiring [] ex1 ⟨0, false, [], .br 1⟩
    [⟨1, false, [], .condBr (.reg 100) 2 3⟩,
     ⟨2, false, [.op 10 [V.const 1]], .br 4⟩,
     ⟨3, false, [.op 11 [V.const 5]], .br 4⟩,
     ⟨4, false, [.phi 12 [(V.reg 10, 2), (V.reg 11, 3)]],
       .ret (some (V.reg 12))⟩]
    ex1Res rfl (by decide) rfl ex1_succ_closed rfl

theorem C5_condbr_select_witness :
    ∃ stMid, processBlockRest ⟨0, 10, 11, 12, 13, 2, [2, 3]⟩ 20
        [⟨0, false, [], .erased⟩,
         ⟨1, false, [], .condBr (V.reg 100) 2 3⟩,
         ⟨2, false, [], .br 10⟩,
         ⟨3, false, [], .br 10⟩,
         ⟨10, false, [.phi 11 [], .gep 13 (V.reg 12) (V.reg 11)],
           .indirectBr (V.reg 13) []⟩] 0 1
        = .ok (repairBlock 0 10 11 stMid 1)
      ∧ (∃ B2, getBlock stMid.1 1 = some B2 ∧ B2.term = .br 10
          ∧ .select 20 (V.reg 100) (V.const (idxIn [2, 3] 2))
              (V.const (idxIn [2, 3] 3)) ∈ B2.insts)
      ∧ (∃ JB, getBlock stMid.1 10 = some JB
          ∧ JB.insts = .phi 11 ([] ++ [(V.reg 20, 1)])
              :: ([] ++ [.gep 13 (V.reg 12) (V.reg 11)])) :=
  (C5_condbr_select ⟨0, 10, 11, 12, 13, 2, [2, 3]⟩ 20
    [⟨0, false, [], .erased⟩,
     ⟨1, false, [], .condBr (V.reg 100) 2 3⟩,
     ⟨2, false, [], .br 10⟩,
     ⟨3, false, [], .br 10⟩,
     ⟨10, false, [.phi 11 [], .gep 13 (V.reg 12) (V.reg 11)],
       .indirectBr (V.reg 13) []⟩] 0 1
    ⟨1, false, [], .condBr (V.reg 100) 2 3⟩ [] [] []
    rfl rfl (fun l hl => absurd hl (List.not_mem_nil l))
    (by decide) (by decide) (by decide)).1 (V.reg 100) 2 3 rfl
    (by decide) (by decide)

set_option maxRecDepth 100000 in
theorem C6_jump_table_witness :
    ex1Res.blocks.Nodup
    ∧ (∃ incs loads, getBlock ex1Res.F.blocks ex1Res.jb
        = some ⟨ex1Res.jb, false,
          .phi ex1Res.jIdx incs
            :: (loads
              ++ [.gep ex1Res.ga (V.reg ex1Res.jt) (V.reg ex1Res.jIdx)]),
          .indirectBr (V.reg ex1Res.ga) ex1Res.blocks⟩)
    ∧ (∀ b ∈ ex1Res.blocks, ∃ B, getBlock ex1Res.F.blocks b = some B
        ∧ B.id = b)
    ∧ (∃ EB : BB, getBlock ex1Res.F.blocks 0 = some EB
        ∧ ∀ j, j < ex1Res.blocks.length → ∃ g,
            Instr.gep g (V.reg ex1Res.jt) (V.const j) ∈ EB.insts
            ∧ Instr.store (g + 1) (V.blockAddr (ex1Res.blocks.getD j 0))
                (V.reg g) ∈ EB.insts)
    ∧ (∀ b ∈ ex1Res.blocks, idxIn ex1Res.blocks b < ex1Res.blocks.length
        ∧ ex1Res.blocks.getD (idxIn ex1Res.blocks b) 0 = b)
    ∧ (∀ j, j < ex1Res.blocks.length →
        idxIn ex1Res.blocks (ex1Res.blocks.getD j 0) = j) :=
  C6_jump_table [] ex1 ⟨0, false, [], .br 1⟩
    [⟨1, false, [], .condBr (.reg 100) 2 3⟩,
     ⟨2, false, [.op 10 [V.const 1]], .br 4⟩,
     ⟨3, false, [.op 11 [V.const 5]], .br 4⟩,
     ⟨4, false, [.phi 12 [(V.reg 10, 2), (V.reg 11, 3)]],
       .ret (some (V.reg 12))⟩]
    ex1Res rfl (by decide) rfl ex1_succ_closed rfl

set_option maxRecDepth 100000 in
theorem C7_phi_completeness_witness :
    ∃ incs loads,
      getBlock ex1Res.F.blocks ex1Res.jb = some ⟨ex1Res.jb, false,
        .phi ex1Res.jIdx incs
          :: (loads
            ++ [.gep ex1Res.ga (V.reg ex1Res.jt) (V.reg ex1Res.jIdx)]),
        .indirectBr (V.reg ex1Res.ga) ex1Res.blocks⟩
      ∧ (∀ ins ∈ loads
          ++ [.gep ex1Res.ga (V.reg ex1Res.jt) (V.reg ex1Res.jIdx)],
          ins.isPhi = false)
      ∧ (incs.map Prod.snd).Nodup
      ∧ (∀ p, p ∈ incs.map Prod.snd
          ↔ p ∈ predsOf ex1Res.F.blocks ex1Res.jb) :=
  C7_phi_completeness [] ex1 ⟨0, false, [], .br 1⟩
    [⟨1, false, [], .condBr (.reg 100) 2 3⟩,
     ⟨2, false, [.op 10 [V.const 1]], .br 4⟩,
     ⟨3, false, [.op 11 [V.const 5]], .br 4⟩,
     ⟨4, false, [.phi 12 [(V.reg 10, 2), (V.reg 11, 3)]],
       .ret (some (V.reg 12))⟩]
    ex1Res rfl (by decide) rfl ex1_succ_closed rfl

theorem C8_cross_block_demote_witness :
    UserFree (handleValue 0 10 11
      ([⟨0, false, [], .erased⟩,
        ⟨1, false, [.op 5 []], .br 10⟩,
        ⟨2, false, [.op 7 [V.reg 5]], .br 10⟩,
        ⟨10, false, [.phi 11 [], .gep 13 (V.reg 12) (V.reg 11)],
          .indirectBr (V.reg 13) []⟩], 20) 1 5).1 (.instrU 7 2) 5 :=
  (C8_cross_block_demote ⟨0, 10, 11, 12, 13, 1, [1, 2]⟩
    ([⟨0, false, [], .erased⟩,
      ⟨1, false, [.op 5 []], .br 10⟩,
      ⟨2, false, [.op 7 [V.reg 5]], .br 10⟩,
      ⟨10, false, [.phi 11 [], .gep 13 (V.reg 12) (V.reg 11)],
        .indirectBr (V.reg 13) []⟩], 20) 1 5 [] [] []
    ⟨rfl, rfl, rfl, by decide, by decide, by unfold IdBound; decide, rfl,
      fun l hl => absurd hl (List.not_mem_nil l),
      fun inc hinc => absurd hinc (List.not_mem_nil inc),
      by decide, by decide, by decide, by decide⟩
    (by decide) (by decide)).2
    (.instrU 7 2) (by decide) (by decide) (by decide) (by decide)

set_option maxRecDepth 100000 in
theorem C9_amended_rerun_rejects_witness :
    collectBlocks ex1Res.F = none
    ∧ runOnFunction [] ex1Res.F = .rejected
    ∧ runBool [] ex1Res.F = some (false, ex1Res.F) :=
  C9_amended_rerun_rejects [] [] ex1 ⟨0, false, [], .br 1⟩
    [⟨1, false, [], .condBr (.reg 100) 2 3⟩,
     ⟨2, false, [.op 10 [V.const 1]], .br 4⟩,
     ⟨3, false, [.op 11 [V.const 5]], .br 4⟩,
     ⟨4, false, [.phi 12 [(V.reg 10, 2), (V.reg 11, 3)]],
       .ret (some (V.reg 12))⟩]
    ex1Res rfl (by decide) rfl ex1_succ_closed rfl

theorem C10_findBlock_no_assert_witness :
    runOnFunction [] ex1 ≠ .crashed .findBlockAssert :=
  C10_findBlock_no_assert [] ex1 ⟨0, false, [], .br 1⟩
    [⟨1, false, [], .condBr (.reg 100) 2 3⟩,
     ⟨2, false, [.op 10 [V.const 1]], .br 4⟩,
     ⟨3, false, [.op 11 [V.const 5]], .br 4⟩,
     ⟨4, false, [.phi 12 [(V.reg 10, 2), (V.reg 11, 3)]],
       .ret (some (V.reg 12))⟩]
    rfl (by decide) rfl ex1_succ_closed

end CFGFlatten

